import Mathlib

/-!
# Quicksilver interchainstaking: allocation planner and intent aggregation

A shallow embedding of `x/interchainstaking/keeper/delegation.go`,
`x/interchainstaking/keeper/intent.go` and `x/interchainstaking/types/validator.go`.

Conventions of the embedding:

* `sdk.Int` (a wrapper of `big.Int`) is `Int`; `sdk.Dec` is the structure `Dec` whose field `i`
  is the value scaled by `10^18`, exactly as in `Dec{i *big.Int}`.  The definitions named
  after the source take both with arbitrary precision.  The bit-length panics of the sdk types
  (more than 256 bits for an `sdk.Int`, more than 315 bits for the scaled value of an `sdk.Dec`)
  are the tests `checkInt` and `checkDec`; the definitions of the planner whose names end in
  `Checked` apply them after every operation that the sdk checks.
* A Go `map[string]T` is an association list `List (String × T)`; a lookup returns the first
  binding of a key and an assignment overwrites the binding or appends a new one.
* A Go panic (division by zero, index out of range) is the result `none`.
-/

namespace Quicksilver

/-! ## sdk.Dec and sdk.Int -/

/-- The type sdk.Dec: a fixed-point decimal with 18 fractional digits, `i` is the scaled value. -/
structure Dec where
  i : Int
deriving DecidableEq, Repr

/-- The constant `precisionReuse = 10^Precision` of `decimal.go`. -/
def precisionReuse : Int := 1000000000000000000

/-- The constant `fivePrecision = precisionReuse / 2` of `decimal.go`. -/
def fivePrecision : Int := 500000000000000000

/-- The body of `chopPrecisionAndRound` on a non-negative argument: quotient and remainder by
`10^18`, then banker's rounding on the remainder. -/
def chopPrecisionAndRoundPos (d : Int) : Int :=
  let quo := Int.tdiv d precisionReuse
  let rem := Int.tmod d precisionReuse
  if rem = 0 then quo
  else if rem < fivePrecision then quo
  else if fivePrecision < rem then quo + 1
  else if quo % 2 = 0 then quo
  else quo + 1

/-- The function `chopPrecisionAndRound`: a negative argument is negated, chopped and negated back. -/
def chopPrecisionAndRound (d : Int) : Int :=
  if d < 0 then -(chopPrecisionAndRoundPos (-d)) else chopPrecisionAndRoundPos d

/-- The function `chopPrecisionAndTruncate`: `big.Int.Quo` by `10^18`, truncating toward zero. -/
def chopPrecisionAndTruncate (d : Int) : Int := Int.tdiv d precisionReuse

namespace Dec

/-- The value `sdk.ZeroDec()`. -/
def ZeroDec : Dec := ⟨0⟩

/-- The constructor `sdk.NewDec(i)` for an integer `i`. -/
def NewDec (n : Int) : Dec := ⟨n * precisionReuse⟩

/-- The constructor `sdk.NewDecWithPrec(i, prec)` for `prec ≤ 18`. -/
def NewDecWithPrec (n : Int) (prec : Nat) : Dec := ⟨n * 10 ^ (18 - prec)⟩

/-- The method `Dec.Add`, without its overflow panic (see `checkDec`). -/
def Add (d d2 : Dec) : Dec := ⟨d.i + d2.i⟩

/-- The method `Dec.Sub`. -/
def Sub (d d2 : Dec) : Dec := ⟨d.i - d2.i⟩

/-- The method `Dec.Mul`: product of the scaled values, chopped with banker's rounding. -/
def Mul (d d2 : Dec) : Dec := ⟨chopPrecisionAndRound (d.i * d2.i)⟩

/-- The method `Dec.MulInt`: the scaled value times the integer, no rounding; without its
overflow panic (see `checkDec`). -/
def MulInt (d : Dec) (n : Int) : Dec := ⟨d.i * n⟩

/-- The method `Dec.Quo`: scales by `10^36`, divides with `big.Int.Quo`, then chops with banker's
rounding; division by zero panics. The overflow panic on the result is `checkDec`. -/
def Quo (d d2 : Dec) : Option Dec :=
  if d2.i = 0 then none
  else some ⟨chopPrecisionAndRound (Int.tdiv (d.i * precisionReuse * precisionReuse) d2.i)⟩

/-- The method `Dec.QuoTruncate`: as `Quo` but the chop truncates; division by zero panics. -/
def QuoTruncate (d d2 : Dec) : Option Dec :=
  if d2.i = 0 then none
  else some ⟨chopPrecisionAndTruncate (Int.tdiv (d.i * precisionReuse * precisionReuse) d2.i)⟩

/-- The method `Dec.QuoInt`: `big.Int.Quo` of the scaled value by the integer; division by zero
panics. -/
def QuoInt (d : Dec) (n : Int) : Option Dec :=
  if n = 0 then none else some ⟨Int.tdiv d.i n⟩

/-- The method `Dec.TruncateInt`, without the panic of `NewIntFromBigInt` on a result of more
than 256 bits (see `checkInt`). -/
def TruncateInt (d : Dec) : Int := chopPrecisionAndTruncate d.i

/-- The method `Dec.IsZero`. -/
def IsZero (d : Dec) : Bool := decide (d.i = 0)

/-- The method `Dec.GT`. -/
def GT (d d2 : Dec) : Bool := decide (d2.i < d.i)

end Dec

/-- The method `Int.ToDec` (that is `sdk.NewDecFromInt`). -/
def ToDec (n : Int) : Dec := ⟨n * precisionReuse⟩

/-- The function `sdk.MinInt`. -/
def MinInt (a b : Int) : Int := if a < b then a else b

/-- The method `Int.Abs`. -/
def Abs (n : Int) : Int := if n < 0 then -n else n

/-- The constant `math.MaxInt64`. -/
def MaxInt64 : Int := 9223372036854775807

/-! ## Maps and sorting -/

/-- Map lookup `v, ok := m[k]`. -/
def mapGet {α : Type} (m : List (String × α)) (k : String) : Option α :=
  match m with
  | [] => none
  | (k', v) :: rest => if k' = k then some v else mapGet rest k

/-- Map assignment `m[k] = v`: overwrites the binding of `k` or adds one. -/
def mapSet {α : Type} (m : List (String × α)) (k : String) (v : α) : List (String × α) :=
  match m with
  | [] => [(k, v)]
  | (k', v') :: rest => if k' = k then (k, v) :: rest else (k', v') :: mapSet rest k v

/-- Go's `a < b` on strings: lexicographic comparison of the characters. -/
def strLess (a b : String) : Bool := decide (a.data < b.data)

/-- Insertion of one string into an ascending list without duplicates. -/
def insertKey (k : String) : List String → List String
  | [] => [k]
  | a :: rest =>
    if strLess k a then k :: a :: rest else if k = a then a :: rest else a :: insertKey k rest

/-- Modelled from the spec: `utils.Keys`, whose file is not among the sources; it returns the keys
of a map sorted alphabetically (ascending), each key once. -/
def Keys {α : Type} (m : List (String × α)) : List String :=
  m.foldr (fun kv acc => insertKey kv.1 acc) []

/-- Insertion step of a stable sort under the comparison `less`: `a` came before every element of
the (sorted) list and is placed before the first element that is not strictly less than it. -/
def stableInsert {α : Type} (less : α → α → Bool) (a : α) : List α → List α
  | [] => [a]
  | b :: rest => if less b a then b :: stableInsert less a rest else a :: b :: rest

/-- The function `sort.SliceStable(xs, less)`: the stable sort of `xs` under `less`, computed by
insertion (a stable sort is determined by its input and `less`). -/
def SliceStable {α : Type} (less : α → α → Bool) : List α → List α
  | [] => []
  | a :: rest => stableInsert less a (SliceStable less rest)

/-! ## The allocation planner (`keeper/delegation.go`) -/

/-- The type `types.ValidatorIntent`. -/
structure ValidatorIntent where
  ValoperAddress : String
  Weight : Dec
deriving DecidableEq, Repr

/-- The type `sdk.Coin`. -/
structure Coin where
  Denom : String
  Amount : Int
deriving DecidableEq, Repr

/-- A loop over a slice whose body may panic: the results in order, or `none` at the first panic. -/
def forEach {α β : Type} (f : α → Option β) : List α → Option (List β)
  | [] => some []
  | a :: rest =>
    match f a with
    | none => none
    | some b =>
      match forEach f rest with
      | none => none
      | some bs => some (b :: bs)

/-- The body of the loop of `calculateDeltas` for one key `valoper` of the target. -/
def deltaFor (currentAllocations : List (String × Int)) (currentSum : Int)
    (targetAllocations : List (String × ValidatorIntent)) (valoper : String) :
    Option ValidatorIntent :=
  let current := match mapGet currentAllocations valoper with
    | some c => c
    | none => 0
  match mapGet targetAllocations valoper with
  | none => none
  | some t =>
    let target := (t.Weight.MulInt currentSum).TruncateInt
    let delta := target - current
    some { Weight := ToDec delta, ValoperAddress := valoper }

/-- The function `calculateDeltas`: one delta per key of the target, in the order of `utils.Keys`.
Integers and decimals have arbitrary precision here; `calculateDeltasChecked` has the overflow
panics. -/
def calculateDeltas (currentAllocations : List (String × Int)) (currentSum : Int)
    (targetAllocations : List (String × ValidatorIntent)) : Option (List ValidatorIntent) :=
  forEach (deltaFor currentAllocations currentSum targetAllocations) (Keys targetAllocations)

/-- The function `minDeltas`: starts from `math.MaxInt64` and keeps the smaller truncated weight. -/
def minDeltas (deltas : List ValidatorIntent) : Int :=
  deltas.foldl (fun minValue intent =>
    if intent.Weight.TruncateInt < minValue then intent.Weight.TruncateInt else minValue) MaxInt64

/-- The loop "raise all deltas such that the minimum value is zero": the new weights. -/
def raiseDeltas (minValue : Int) (deltas : List ValidatorIntent) : List ValidatorIntent :=
  deltas.map (fun d => { d with Weight := d.Weight.Add (ToDec (Abs minValue)) })

/-- The accumulator `sum` of the raising loop: the sum of the truncated raised weights. -/
def sumTruncated (deltas : List ValidatorIntent) : Int :=
  deltas.foldl (fun sum d => sum + d.Weight.TruncateInt) 0

/-- The accumulator `outSum`: the sum of the weights, as a Dec. -/
def sumWeights (deltas : List ValidatorIntent) : Dec :=
  deltas.foldl (fun outSum d => outSum.Add d.Weight) Dec.ZeroDec

/-- The body of the unequal-split loop: `Weight.QuoInt(sum).MulInt(unequalSplit)`. -/
def unequalShare (sum unequalSplit : Int) (d : ValidatorIntent) : Option ValidatorIntent :=
  match d.Weight.QuoInt sum with
  | none => none
  | some q => some { d with Weight := q.MulInt unequalSplit }

/-- The output loop: `outWeights[delta.ValoperAddress] = delta.Weight.TruncateInt()`. -/
def outWeights (deltas : List ValidatorIntent) : List (String × Int) :=
  deltas.foldl (fun m delta => mapSet m delta.ValoperAddress delta.Weight.TruncateInt) []

/-- The function `DetermineAllocationsForDelegation`. Integers and decimals have arbitrary
precision here; `DetermineAllocationsForDelegationChecked` has the overflow panics. -/
def DetermineAllocationsForDelegation (currentAllocations : List (String × Int))
    (currentSum : Int) (targetAllocations : List (String × ValidatorIntent))
    (amount : List Coin) : Option (List (String × Int)) :=
  match amount with
  | [] => none
  | coin :: _ =>
    let input := coin.Amount
    match calculateDeltas currentAllocations currentSum targetAllocations with
    | none => none
    | some deltas =>
      let minValue := minDeltas deltas
      let deltas := SliceStable (fun a b => strLess b.ValoperAddress a.ValoperAddress) deltas
      let deltas := SliceStable (fun a b => a.Weight.GT b.Weight) deltas
      let deltas := raiseDeltas minValue deltas
      let sum := sumTruncated deltas
      let unequalSplit := MinInt sum input
      let step1 : Option (List ValidatorIntent × Dec) :=
        if unequalSplit ≠ 0 then
          match forEach (unequalShare sum unequalSplit) deltas with
          | none => none
          | some ds => some (ds, sumWeights ds)
        else some (deltas, Dec.ZeroDec)
      match step1 with
      | none => none
      | some (deltas, outSum) =>
        let equalSplit := ToDec (input - unequalSplit)
        let step2 : Option (List ValidatorIntent × Dec) :=
          if ¬ equalSplit.IsZero then
            match equalSplit.Quo (Dec.NewDec (deltas.length : Int)) with
            | none => none
            | some each =>
              let ds := deltas.map (fun d => { d with Weight := d.Weight.Add each })
              some (ds, sumWeights ds)
          else some (deltas, outSum)
        match step2 with
        | none => none
        | some (deltas, outSum) =>
          let dust := input - outSum.TruncateInt
          match deltas with
          | [] => none
          | d0 :: rest =>
            let deltas := { d0 with Weight := d0.Weight.Add (ToDec dust) } :: rest
            some (outWeights deltas)

/-- The sum of the amounts of a plan. -/
def planTotal (plan : List (String × Int)) : Int := (plan.map Prod.snd).sum

/-- The target maps of test cases 2 to 4 of `TestDetermineAllocations`, with the four validators
named A to D and weights in hundredths; as in the test, the entry of the fourth key carries the
third validator in its `ValoperAddress` field. -/
def tcTargets4 (w1 w2 w3 w4 : Int) : List (String × ValidatorIntent) :=
  [("A", ⟨"A", Dec.NewDecWithPrec w1 2⟩), ("B", ⟨"B", Dec.NewDecWithPrec w2 2⟩),
   ("C", ⟨"C", Dec.NewDecWithPrec w3 2⟩), ("D", ⟨"C", Dec.NewDecWithPrec w4 2⟩)]

/-- The target map of test case 1 of `TestDetermineAllocations`. -/
def tcTargets3 : List (String × ValidatorIntent) :=
  [("A", ⟨"A", Dec.NewDecWithPrec 30 2⟩), ("B", ⟨"B", Dec.NewDecWithPrec 63 2⟩),
   ("C", ⟨"C", Dec.NewDecWithPrec 7 2⟩)]

/-- The current allocations of test case 1 of `TestDetermineAllocations`. -/
def tcCurrent3 : List (String × Int) := [("A", 350000), ("B", 650000), ("C", 75000)]

/-- The current allocations of test cases 2 and 3 of `TestDetermineAllocations`. -/
def tcCurrent4 : List (String × Int) := [("A", 52), ("B", 24), ("C", 20), ("D", 4)]

/-! ## Closed forms used in the proofs about the planner -/

/-- The current allocation of a validator, `0` when it has none (`calculateDeltas`). -/
def currentOf (currentAllocations : List (String × Int)) (valoper : String) : Int :=
  match mapGet currentAllocations valoper with
  | some c => c
  | none => 0

/-- The target weight of a validator that has a target entry. -/
def weightOf (targetAllocations : List (String × ValidatorIntent)) (valoper : String) : Dec :=
  match mapGet targetAllocations valoper with
  | some t => t.Weight
  | none => Dec.ZeroDec

/-- The signed delta of a validator: truncated target minus current. -/
def deltaValue (currentAllocations : List (String × Int)) (currentSum : Int)
    (targetAllocations : List (String × ValidatorIntent)) (valoper : String) : Int :=
  ((weightOf targetAllocations valoper).MulInt currentSum).TruncateInt
    - currentOf currentAllocations valoper

/-- The slice built by `calculateDeltas`, as a total function. -/
def baseDeltas (currentAllocations : List (String × Int)) (currentSum : Int)
    (targetAllocations : List (String × ValidatorIntent)) : List ValidatorIntent :=
  (Keys targetAllocations).map (fun valoper =>
    { ValoperAddress := valoper,
      Weight := ToDec (deltaValue currentAllocations currentSum targetAllocations valoper) })

/-- The slice of deltas after the two stable sorts and the raising loop. -/
def orderedDeltas (currentAllocations : List (String × Int)) (currentSum : Int)
    (targetAllocations : List (String × ValidatorIntent)) : List ValidatorIntent :=
  let base := baseDeltas currentAllocations currentSum targetAllocations
  raiseDeltas (minDeltas base)
    (SliceStable (fun a b => a.Weight.GT b.Weight)
      (SliceStable (fun a b => strLess b.ValoperAddress a.ValoperAddress) base))

/-- The weights after the unequal-split loop. -/
def unequalWeights (sum unequalSplit : Int) (deltas : List ValidatorIntent) :
    List ValidatorIntent :=
  deltas.map (fun d => { d with Weight := Dec.MulInt ⟨Int.tdiv d.Weight.i sum⟩ unequalSplit })

/-- The weights after the equal-split loop. -/
def equalWeights (each : Dec) (deltas : List ValidatorIntent) : List ValidatorIntent :=
  deltas.map (fun d => { d with Weight := d.Weight.Add each })

/-- The value `each` of the equal split: `equalSplit.Quo(sdk.NewDec(n))` for `n ≠ 0`. -/
def eachShare (equalSplit : Int) (n : Nat) : Dec :=
  ⟨chopPrecisionAndRound
    (Int.tdiv ((ToDec equalSplit).i * precisionReuse * precisionReuse) (Dec.NewDec (n : Int)).i)⟩

/-- The weights and `outSum` after the unequal and the equal split. -/
def splitWeights (input : Int) (deltas : List ValidatorIntent) : List ValidatorIntent × Dec :=
  let sum := sumTruncated deltas
  let unequalSplit := MinInt sum input
  let s1 : List ValidatorIntent × Dec :=
    if unequalSplit ≠ 0 then
      (unequalWeights sum unequalSplit deltas, sumWeights (unequalWeights sum unequalSplit deltas))
    else (deltas, Dec.ZeroDec)
  if input - unequalSplit ≠ 0 then
    (equalWeights (eachShare (input - unequalSplit) s1.1.length) s1.1,
      sumWeights (equalWeights (eachShare (input - unequalSplit) s1.1.length) s1.1))
  else s1

/-- The statement `deltas[0].Weight = deltas[0].Weight.Add(dust.ToDec())` on a non-empty slice. -/
def addDust (dust : Int) : List ValidatorIntent → List ValidatorIntent
  | [] => []
  | d0 :: rest => { d0 with Weight := d0.Weight.Add (ToDec dust) } :: rest

/-- The slice from which the output map is built. -/
def finalDeltas (input : Int) (deltas : List ValidatorIntent) : List ValidatorIntent :=
  addDust (input - (splitWeights input deltas).2.TruncateInt) (splitWeights input deltas).1

/-! ## Intents and their aggregation (`types/validator.go`, `keeper/intent.go`) -/

/-- The entries visited by `for k, v := range m` over a map: every key once, with its (first)
binding. Go leaves the order unspecified; here it is the order of the association list. -/
def mapRange {α : Type} : List (String × α) → List (String × α)
  | [] => []
  | kv :: rest => kv :: (mapRange rest).filter (fun x => decide (x.1 ≠ kv.1))

/-- The type `types.DelegatorIntent`; `Intents` is the map used by `types/validator.go`. -/
structure DelegatorIntent where
  Delegator : String
  Intents : List (String × ValidatorIntent)
deriving DecidableEq, Repr

/-- The statement `m[i].Weight = f(m[i].Weight)` on a map of pointers to intents. -/
def updateWeight (f : Dec → Dec) (m : List (String × ValidatorIntent)) (i : String) :
    List (String × ValidatorIntent) :=
  match mapGet m i with
  | some vi => mapSet m i { vi with Weight := f vi.Weight }
  | none => m

/-- The method `DelegatorIntent.Ordinalize`: for every key of `utils.Keys(di.Intents)` the weight
of the entry is multiplied by `multiple`. -/
def DelegatorIntent.Ordinalize (di : DelegatorIntent) (multiple : Dec) : DelegatorIntent :=
  { di with
    Intents := List.foldl (updateWeight (fun w => w.Mul multiple)) di.Intents (Keys di.Intents) }

/-- The type `sdk.AccAddress`: the bytes of an account address. -/
abbrev AccAddress := List Nat

/-- The fields of `types.Zone` that the keeper functions read or write. -/
structure Zone where
  ChainId : String
  LocalDenom : String
  BaseDenom : String
  DelegationAddress : String
  RedemptionRate : Dec
  WithdrawalWaitgroup : Nat
  AggregateIntent : List (String × ValidatorIntent)
deriving DecidableEq, Repr

/-- The state a keeper call works on: the live intent records of the zone in the order the store
iterator yields them, the stored zones by chain id, and the two collaborators the aggregation
calls, `sdk.AccAddressFromBech32` (`none` is a decoding error) and `BankKeeper.GetBalance`. -/
structure Keeper where
  intents : List DelegatorIntent
  zones : List (String × Zone)
  AccAddressFromBech32 : String → Option AccAddress
  GetBalance : AccAddress → String → Coin

/-- Modelled from the spec: `Keeper.SetZone`, whose file is not among the sources; it persists the
zone record, here under its chain id. -/
def Keeper.SetZone (k : Keeper) (zone : Zone) : Keeper :=
  { k with zones := mapSet k.zones zone.ChainId zone }

/-- The two errors `AggregateIntents` returns: the decoding error of a delegator id, and
"ordinalized intent sum is zero, this should never happen". -/
inductive AggregateError where
  | address (delegator : String)
  | zeroSum
deriving DecidableEq, Repr

/-- The outcome of a keeper call that returns `error`: `nil` or an error, each with the keeper
state after the call, or a panic. -/
inductive Outcome where
  | ok (k : Keeper)
  | error (e : AggregateError) (k : Keeper)
  | panic

/-- The body of the inner loop of `AggregateIntents` for one ordinalized intent `vIntent`: the
running map and the running sum after it. -/
def accumulateIntent (acc : List (String × ValidatorIntent) × Dec) (vIntent : ValidatorIntent) :
    List (String × ValidatorIntent) × Dec :=
  let ordinalizedIntentSum := acc.2.Add vIntent.Weight
  match mapGet acc.1 vIntent.ValoperAddress with
  | none => (mapSet acc.1 vIntent.ValoperAddress vIntent, ordinalizedIntentSum)
  | some thisIntent =>
    (mapSet acc.1 vIntent.ValoperAddress
      { thisIntent with Weight := thisIntent.Weight.Add vIntent.Weight }, ordinalizedIntentSum)

/-- The callback of `AggregateIntents` run by `IterateIntents` over the stored records: it stops
at the first delegator id that does not decode, keeping that error. -/
def reduceIntents (k : Keeper) (zone : Zone) :
    List DelegatorIntent → List (String × ValidatorIntent) × Dec →
      Except AggregateError (List (String × ValidatorIntent) × Dec)
  | [], acc => Except.ok acc
  | intent :: rest, acc =>
    match k.AccAddressFromBech32 intent.Delegator with
    | none => Except.error (AggregateError.address intent.Delegator)
    | some addr =>
      let balance := k.GetBalance addr zone.LocalDenom
      reduceIntents k zone rest
        ((mapRange (intent.Ordinalize (ToDec balance.Amount)).Intents).foldl
          (fun a kv => accumulateIntent a kv.2) acc)

/-- The loop "normalise aggregated intents again": every entry's weight is divided by the sum
with `Dec.Quo`; a division by zero panics. -/
def normaliseIntents (ordinalizedIntentSum : Dec) (intents : List (String × ValidatorIntent)) :
    Option (List (String × ValidatorIntent)) :=
  (mapRange intents).foldl (fun acc kv =>
    match acc with
    | none => none
    | some m =>
      match kv.2.Weight.Quo ordinalizedIntentSum with
      | none => none
      | some q => some (mapSet m kv.1 { kv.2 with Weight := q })) (some intents)

/-- The method `Keeper.AggregateIntents`. -/
def AggregateIntents (k : Keeper) (zone : Zone) : Outcome :=
  match reduceIntents k zone k.intents ([], Dec.ZeroDec) with
  | Except.error e => Outcome.error e k
  | Except.ok (intents, ordinalizedIntentSum) =>
    if 0 < intents.length ∧ ordinalizedIntentSum.IsZero then
      Outcome.error AggregateError.zeroSum k
    else
      match normaliseIntents ordinalizedIntentSum intents with
      | none => Outcome.panic
      | some intents =>
        Outcome.ok (k.SetZone { zone with AggregateIntent := intents })

/-- The aggregate stored for a chain id, if a zone is stored under it. -/
def storedAggregate (k : Keeper) (chainId : String) : Option (List (String × ValidatorIntent)) :=
  match mapGet k.zones chainId with
  | some z => some z.AggregateIntent
  | none => none

/-- The sum of the weights (scaled by `10^18`) of an intent vector. -/
def weightTotal (intents : List (String × ValidatorIntent)) : Int :=
  (intents.map (fun kv => kv.2.Weight.i)).sum

/-- A zone record for the examples. -/
def tcZone : Zone :=
  { ChainId := "zone-1", LocalDenom := "uqatom", BaseDenom := "uatom",
    DelegationAddress := "deleg", RedemptionRate := Dec.NewDec 1, WithdrawalWaitgroup := 0,
    AggregateIntent := [("Q", ⟨"Q", Dec.NewDec 1⟩)] }

/-- A keeper for the examples: three delegators with balance 1 each, the first wholly for A, the
second wholly for B, the third wholly for C; every delegator id decodes. -/
def tcKeeper : Keeper :=
  { intents := [⟨"d1", [("A", ⟨"A", Dec.NewDec 1⟩)]⟩, ⟨"d2", [("B", ⟨"B", Dec.NewDec 1⟩)]⟩,
      ⟨"d3", [("C", ⟨"C", Dec.NewDec 1⟩)]⟩],
    zones := [("zone-1", tcZone)],
    AccAddressFromBech32 := fun s => some (s.data.map Char.toNat),
    GetBalance := fun _ denom => ⟨denom, 1⟩ }

/-! ## Closed forms used in the proofs about the aggregation -/

/-- The balance `AggregateIntents` reads for a record (`0` when the delegator id does not
decode, in which case no balance is read). -/
def delegatorBalance (k : Keeper) (zone : Zone) (intent : DelegatorIntent) : Int :=
  match k.AccAddressFromBech32 intent.Delegator with
  | some addr => (k.GetBalance addr zone.LocalDenom).Amount
  | none => 0

/-- The ordinalized intents of the records, in the order the two nested loops visit them. -/
def ordinalizedIntents (k : Keeper) (zone : Zone) : List DelegatorIntent → List ValidatorIntent
  | [] => []
  | intent :: rest =>
    intent.Intents.map (fun kv =>
      { kv.2 with Weight := ⟨kv.2.Weight.i * delegatorBalance k zone intent⟩ })
      ++ ordinalizedIntents k zone rest

/-- The spec's words for the weight of validator `v` before normalisation: the sum over the
delegators `d` of `weight_d(v) * balance_d`, scaled by `10^18`. -/
def ordinalWeight (k : Keeper) (zone : Zone) (v : String) : Int :=
  (k.intents.map (fun d =>
    ((d.Intents.filter (fun kv => decide (kv.2.ValoperAddress = v))).map
      (fun kv => kv.2.Weight.i)).sum * delegatorBalance k zone d)).sum

/-- The spec's words for the grand total: the sum of `weight * balance` over all delegators and
validators, scaled by `10^18`. -/
def grandTotal (k : Keeper) (zone : Zone) : Int :=
  (k.intents.map (fun d =>
    (d.Intents.map (fun kv => kv.2.Weight.i)).sum * delegatorBalance k zone d)).sum

/-- The weight an entry gets in the loop "normalise aggregated intents again". -/
def quotientWeight (ordinalizedIntentSum : Dec) (w : Dec) : Dec :=
  ⟨chopPrecisionAndRound (Int.tdiv (w.i * precisionReuse * precisionReuse)
    ordinalizedIntentSum.i)⟩

/-- The running map and the running sum after the reduction over all the records. -/
def runningAggregate (k : Keeper) (zone : Zone) : List (String × ValidatorIntent) × Dec :=
  (ordinalizedIntents k zone k.intents).foldl accumulateIntent ([], Dec.ZeroDec)

/-- The running map with every weight divided by the running sum. -/
def normalisedIntents (ordinalizedIntentSum : Dec) (intents : List (String × ValidatorIntent)) :
    List (String × ValidatorIntent) :=
  intents.map (fun kv =>
    (kv.1, { kv.2 with Weight := quotientWeight ordinalizedIntentSum kv.2.Weight }))

/-! ## Intent vectors: `Normalize` and `AddOrdinal` (`types/validator.go`) -/

/-- The first loop of `Normalize`: the sum of the weights of the entries, over `utils.Keys`. -/
def summedWeight (intents : List (String × ValidatorIntent)) : Dec :=
  (Keys intents).foldl (fun s i =>
    match mapGet intents i with
    | some vi => s.Add vi.Weight
    | none => s) Dec.ZeroDec

/-- The statement `m[i].Weight = f(m[i].Weight)` when `f` may panic. -/
def updateWeightM (f : Dec → Option Dec) (m : Option (List (String × ValidatorIntent)))
    (i : String) : Option (List (String × ValidatorIntent)) :=
  match m with
  | none => none
  | some m =>
    match mapGet m i with
    | some vi =>
      match f vi.Weight with
      | some w => some (mapSet m i { vi with Weight := w })
      | none => none
    | none => some m

/-- The method `DelegatorIntent.Normalize`: a zero sum returns `di` as it is; otherwise every
weight is divided by the sum with `QuoTruncate`. -/
def DelegatorIntent.Normalize (di : DelegatorIntent) : Option DelegatorIntent :=
  if (summedWeight di.Intents).IsZero then some di
  else
    match List.foldl (updateWeightM (fun w => w.QuoTruncate (summedWeight di.Intents)))
        (some di.Intents) (Keys di.Intents) with
    | none => none
    | some m => some { di with Intents := m }

/-- The inner loop of `AddOrdinal`: the first key `j` of `utils.Keys(di.Intents)` whose entry has
the valoper address `addr`. -/
def findSameValoper (m : List (String × ValidatorIntent)) (addr : String) :
    List String → Option String
  | [] => none
  | j :: rest =>
    match mapGet m j with
    | some e => if addr = e.ValoperAddress then some j else findSameValoper m addr rest
    | none => findSameValoper m addr rest

/-- The body of the outer loop of `AddOrdinal` for the key `idx` of the incoming intents: the
weight is added to the entry with the same valoper address, or the incoming intent is inserted
under its valoper address. -/
def addIncoming (intents : List (String × ValidatorIntent))
    (m : List (String × ValidatorIntent)) (idx : String) : List (String × ValidatorIntent) :=
  match mapGet intents idx with
  | none => m
  | some i =>
    match findSameValoper m i.ValoperAddress (Keys m) with
    | some j => updateWeight (fun w => w.Add i.Weight) m j
    | none => mapSet m i.ValoperAddress i

/-- The value of `di` in `AddOrdinal` when `di.Normalize()` is called: ordinalized by the
multiplier, then merged with the incoming intents. -/
def DelegatorIntent.mergeOrdinal (di : DelegatorIntent) (multiplier : Dec)
    (intents : List (String × ValidatorIntent)) : DelegatorIntent :=
  { di with
    Intents := List.foldl (addIncoming intents) (di.Ordinalize multiplier).Intents (Keys intents) }

/-- The method `DelegatorIntent.AddOrdinal`. -/
def DelegatorIntent.AddOrdinal (di : DelegatorIntent) (multiplier : Dec)
    (intents : List (String × ValidatorIntent)) : Option DelegatorIntent :=
  if (Keys intents).length = 0 then some di
  else (di.mergeOrdinal multiplier intents).Normalize

/-- The existing intent of the merge example: X 0.4 and Y 0.6. -/
def tcExisting : DelegatorIntent :=
  ⟨"d1", [("X", ⟨"X", Dec.NewDecWithPrec 4 1⟩), ("Y", ⟨"Y", Dec.NewDecWithPrec 6 1⟩)]⟩

/-- The incoming intents of the merge example: X 10. -/
def tcIncoming : List (String × ValidatorIntent) := [("X", ⟨"X", Dec.NewDec 10⟩)]

/-- A keeper for the examples: one delegator wholly for A whose balance is zero. -/
def tcKeeperZero : Keeper :=
  { intents := [⟨"d1", [("A", ⟨"A", Dec.NewDec 1⟩)]⟩],
    zones := [("zone-1", tcZone)],
    AccAddressFromBech32 := fun s => some (s.data.map Char.toNat),
    GetBalance := fun _ denom => ⟨denom, 0⟩ }

/-- A keeper for the examples: the id of the second of three delegators does not decode. -/
def tcKeeperBad : Keeper :=
  { intents := [⟨"d1", [("A", ⟨"A", Dec.NewDec 1⟩)]⟩, ⟨"bad", [("B", ⟨"B", Dec.NewDec 1⟩)]⟩,
      ⟨"d3", [("C", ⟨"C", Dec.NewDec 1⟩)]⟩],
    zones := [("zone-1", tcZone)],
    AccAddressFromBech32 := fun s => if s = "bad" then none else some (s.data.map Char.toNat),
    GetBalance := fun _ denom => ⟨denom, 1⟩ }

/-! ## Closed forms used in the proofs about the intent vectors -/

/-- The weight an entry gets in the second loop of `Normalize`: `w.QuoTruncate(summedWeight)`
for a non-zero sum. -/
def truncatedQuotient (summedWeight : Dec) (w : Dec) : Dec :=
  ⟨chopPrecisionAndTruncate (Int.tdiv (w.i * precisionReuse * precisionReuse) summedWeight.i)⟩

/-- The intent vector with every weight divided by the sum, truncating. -/
def normalisedVector (summedWeight : Dec) (intents : List (String × ValidatorIntent)) :
    List (String × ValidatorIntent) :=
  intents.map (fun kv =>
    (kv.1, { kv.2 with Weight := truncatedQuotient summedWeight kv.2.Weight }))

/-- An intent vector of three validators with weight 1 each. -/
def tcThirds : DelegatorIntent :=
  ⟨"d1", [("A", ⟨"A", Dec.NewDec 1⟩), ("B", ⟨"B", Dec.NewDec 1⟩), ("C", ⟨"C", Dec.NewDec 1⟩)]⟩

/-- The spec's words for the entry of validator `v` after the merge and before normalisation:
`existing[v] * multiplier + incoming[v]` when `v` is in both, `existing[v] * multiplier` when it
is only in the existing vector, `incoming[v]` when it is only in the incoming one. -/
def mergedEntry (existing incoming : Option ValidatorIntent) (multiplier : Dec) :
    Option ValidatorIntent :=
  match existing, incoming with
  | some e, some i => some { e with Weight := (e.Weight.Mul multiplier).Add i.Weight }
  | some e, none => some { e with Weight := e.Weight.Mul multiplier }
  | none, some i => some i
  | none, none => none

/-! ## Delegation records and their store (`keeper/delegation.go`) -/

/-- The UTF-8 bytes of a character given by its code point. -/
def utf8Bytes (c : Nat) : List Nat :=
  if c < 128 then [c]
  else if c < 2048 then [192 + c / 64, 128 + c % 64]
  else if c < 65536 then [224 + c / 4096, 128 + (c / 64) % 64, 128 + c % 64]
  else [240 + c / 262144, 128 + (c / 4096) % 64, 128 + (c / 64) % 64, 128 + c % 64]

/-- The conversion `[]byte(s)` of a Go string. -/
def stringBytes (s : String) : List Nat :=
  s.data.foldr (fun c acc => utf8Bytes c.toNat ++ acc) []

/-- The fields of `types.Delegation` that the keeper functions read. -/
structure Delegation where
  DelegationAddress : String
  ValidatorAddress : String
  Amount : Coin
deriving DecidableEq, Repr

/-- The type `sdk.DecCoin`. -/
structure DecCoin where
  Denom : String
  Amount : Dec
deriving DecidableEq, Repr

/-- The method `DecCoins.IsZero`: whether all the coins are zero. -/
def DecCoinsIsZero (coins : List DecCoin) : Bool :=
  coins.all (fun coin => coin.Amount.IsZero)

/-- The method `DecCoins.Empty`: whether there are no coins. -/
def DecCoinsEmpty (coins : List DecCoin) : Bool :=
  decide (coins.length = 0)

/-- The type `distrTypes.DelegationDelegatorReward`. -/
structure DelegationDelegatorReward where
  ValidatorAddress : String
  Reward : List DecCoin
deriving DecidableEq, Repr

/-- The type `distrTypes.QueryDelegationTotalRewardsResponse`. -/
structure QueryDelegationTotalRewardsResponse where
  Rewards : List DelegationDelegatorReward
  Total : List DecCoin
deriving DecidableEq, Repr

/-- The messages the keeper builds: `stakingTypes.MsgDelegate`,
`stakingTypes.MsgRedeemTokensforShares` and `distrTypes.MsgWithdrawDelegatorReward`. -/
inductive Msg where
  | MsgDelegate (DelegatorAddress ValidatorAddress : String) (Amount : Coin)
  | MsgRedeemTokensforShares (DelegatorAddress : String) (Amount : Coin)
  | MsgWithdrawDelegatorReward (DelegatorAddress ValidatorAddress : String)
deriving DecidableEq, Repr

/-- The keeper with the further stores and collaborators of the delegation and intent functions:
the snapshot intent records of the zone, the delegation records under their store keys in the
ascending order of the keys, the constant `types.KeyPrefixDelegation`, and the collaborators
`bech32.DecodeAndConvert` (the address bytes; the code ignores its error), `sdk.AccAddress.String`,
`cdc.Unmarshal` of a rewards response (`none` is a decoding error), `sdk.Coins.IsValid`,
`Zone.UpdateIntentWithCoins` and `Zone.UpdateIntentWithMemo`. -/
structure StakingKeeper extends Keeper where
  snapshotIntents : List DelegatorIntent
  delegations : List (List Nat × Delegation)
  KeyPrefixDelegation : List Nat
  DecodeAndConvert : String → List Nat
  AccAddressString : AccAddress → String
  Unmarshal : List Nat → Option QueryDelegationTotalRewardsResponse
  CoinsIsValid : List Coin → Bool
  UpdateIntentWithCoins : Zone → DelegatorIntent → Dec → List Coin → DelegatorIntent
  UpdateIntentWithMemo :
    Zone → DelegatorIntent → String → Dec → List Coin → Except String DelegatorIntent
  SubmitTx : List Msg → String → String → Option String

/-- The call `k.SetZone(ctx, zone)` on the keeper with its further stores. -/
def StakingKeeper.SetZone (k : StakingKeeper) (zone : Zone) : StakingKeeper :=
  { k with toKeeper := k.toKeeper.SetZone zone }

/-- The call `store.Set(key, value)` on a store kept in the ascending order of its keys. -/
def storeSet {α : Type} (s : List (List Nat × α)) (key : List Nat) (v : α) :
    List (List Nat × α) :=
  match s with
  | [] => [(key, v)]
  | (k', v') :: rest =>
    if k' = key then (key, v) :: rest
    else if decide (key < k') then (key, v) :: (k', v') :: rest
    else (k', v') :: storeSet rest key v

/-- The entries `sdk.KVStorePrefixIterator(store, prefix)` yields: those whose key starts with
the prefix, in the order of the store. -/
def prefixIterator {α : Type} (s : List (List Nat × α)) (pre : List Nat) :
    List (List Nat × α) :=
  s.filter (fun kv => pre.isPrefixOf kv.1)

/-- The function `GetDelegationsKey`: the prefix of a delegator's records in a zone. -/
def GetDelegationsKey (k : StakingKeeper) (zone : Zone) (delAddr : List Nat) : List Nat :=
  (k.KeyPrefixDelegation ++ stringBytes zone.ChainId) ++ delAddr

/-- The function `GetDelegationKey`: the key of a delegator's record with a validator. -/
def GetDelegationKey (k : StakingKeeper) (zone : Zone) (delAddr valAddr : List Nat) :
    List Nat :=
  GetDelegationsKey k zone delAddr ++ valAddr

/-- Modelled from the spec: `Delegation.GetDelegatorAddr`, whose file is not among the sources;
it gives the delegator id bytes of the record, decoded from its delegation address. -/
def Delegation.GetDelegatorAddr (k : StakingKeeper) (d : Delegation) : List Nat :=
  k.DecodeAndConvert d.DelegationAddress

/-- Modelled from the spec: `Delegation.GetValidatorAddr`, whose file is not among the sources;
it gives the validator id bytes of the record, decoded from its validator address. -/
def Delegation.GetValidatorAddr (k : StakingKeeper) (d : Delegation) : List Nat :=
  k.DecodeAndConvert d.ValidatorAddress

/-- The method `Keeper.SetDelegation`. -/
def SetDelegation (k : StakingKeeper) (zone : Zone) (delegation : Delegation) : StakingKeeper :=
  { k with
    delegations := storeSet k.delegations
      (GetDelegationKey k zone (delegation.GetDelegatorAddr k) (delegation.GetValidatorAddr k))
      delegation }

/-- The loop `for ; iterator.Valid(); iterator.Next()` with a callback that may stop it: the
state the callback has built. -/
def iterateRecords {σ : Type} (cb : σ → Delegation → σ × Bool) (init : σ) :
    List Delegation → σ
  | [] => init
  | d :: rest =>
    if (cb init d).2 then (cb init d).1 else iterateRecords cb (cb init d).1 rest

/-- The method `Keeper.IterateAllDelegations`. -/
def IterateAllDelegations {σ : Type} (k : StakingKeeper) (zone : Zone)
    (cb : σ → Delegation → σ × Bool) (init : σ) : σ :=
  iterateRecords cb init
    ((prefixIterator k.delegations (k.KeyPrefixDelegation ++ stringBytes zone.ChainId)).map
      Prod.snd)

/-- The method `Keeper.IterateDelegatorDelegations`. -/
def IterateDelegatorDelegations {σ : Type} (k : StakingKeeper) (zone : Zone)
    (delegator : List Nat) (cb : σ → Delegation → σ × Bool) (init : σ) : σ :=
  iterateRecords cb init
    ((prefixIterator k.delegations (GetDelegationsKey k zone delegator)).map Prod.snd)

/-- The method `Keeper.GetAllDelegations`. -/
def GetAllDelegations (k : StakingKeeper) (zone : Zone) : List Delegation :=
  IterateAllDelegations k zone (fun delegations delegation => (delegations ++ [delegation], false))
    []

/-- The method `Keeper.GetDelegationMap`. -/
def GetDelegationMap (k : StakingKeeper) (zone : Zone) : List (String × Int) × Int :=
  IterateAllDelegations k zone (fun acc delegation =>
    ((match mapGet acc.1 delegation.ValidatorAddress with
      | none => mapSet acc.1 delegation.ValidatorAddress delegation.Amount.Amount
      | some existing =>
        mapSet acc.1 delegation.ValidatorAddress (existing + delegation.Amount.Amount),
      acc.2 + delegation.Amount.Amount), false)) ([], 0)

/-- The method `sdk.Coins.Sort`: the coins in the ascending order of their denominations. Go's
`sort.Sort` leaves the relative order of coins of the same denomination unspecified; here they
keep the order of the input. -/
def CoinsSort (coins : List Coin) : List Coin :=
  SliceStable (fun a b => strLess a.Denom b.Denom) coins

/-- The method `Keeper.PrepareDelegationMessagesForShares`. -/
def PrepareDelegationMessagesForShares (zone : Zone) (coins : List Coin) : List Msg :=
  (CoinsSort coins).foldl (fun msgs coin =>
    if ¬ (coin.Amount = 0) then
      msgs ++ [Msg.MsgRedeemTokensforShares zone.DelegationAddress coin]
    else msgs) []

/-- The loop of `rewardsForDelegation` over `delegatorRewards.GetRewards()`. -/
def firstReward (validator : String) : List DelegationDelegatorReward → List DecCoin
  | [] => []
  | reward :: rest =>
    if reward.ValidatorAddress = validator then reward.Reward else firstReward validator rest

/-- The function `rewardsForDelegation`: the reward of the first entry for the validator, or
`sdk.NewDecCoins()`. -/
def rewardsForDelegation (delegatorRewards : QueryDelegationTotalRewardsResponse)
    (validator : String) : List DecCoin :=
  firstReward validator delegatorRewards.Rewards

/-- The loop of `WithdrawDelegationRewardsForResponse` over the delegator's delegations: the
messages it has appended. -/
def withdrawalMsgs (k : StakingKeeper) (zone : Zone) (delAddr : List Nat)
    (delegatorRewards : QueryDelegationTotalRewardsResponse) : List Msg :=
  IterateDelegatorDelegations k zone delAddr (fun msgs delegation =>
    let amount := rewardsForDelegation delegatorRewards delegation.ValidatorAddress
    (if !DecCoinsIsZero amount || !DecCoinsEmpty amount then
      msgs ++ [Msg.MsgWithdrawDelegatorReward delegation.DelegationAddress
        delegation.ValidatorAddress]
    else msgs, false)) []

/-- The two errors `WithdrawDelegationRewardsForResponse` returns: the decoding error of the
response, and the error of `SubmitTx`. -/
inductive DispatchError where
  | unmarshal
  | submit (e : String)
deriving DecidableEq, Repr

/-- The outcome of `WithdrawDelegationRewardsForResponse`: the returned error (`none` is `nil`),
the keeper state after the call, and the messages handed to `SubmitTx` if it was called. -/
structure DispatchResult where
  err : Option DispatchError
  keeper : StakingKeeper
  submitted : Option (List Msg)

/-- The method `Keeper.WithdrawDelegationRewardsForResponse`. The counter is a `uint32`, so the
addition wraps at `2^32`. `SubmitTx`, whose file is not among the sources, is the collaborator of
the keeper: it hands the messages to the interchain account and returns its error. -/
def WithdrawDelegationRewardsForResponse (k : StakingKeeper) (zone : Zone) (delegator : String)
    (response : List Nat) : DispatchResult :=
  match k.Unmarshal response with
  | none => { err := some DispatchError.unmarshal, keeper := k, submitted := none }
  | some delegatorRewards =>
    let account := zone.DelegationAddress
    let delAddr := k.DecodeAndConvert delegator
    let msgs := withdrawalMsgs k zone delAddr delegatorRewards
    if msgs.length = 0 then
      { err := none, keeper := k.SetZone zone, submitted := none }
    else
      let zone := { zone with
        WithdrawalWaitgroup := (zone.WithdrawalWaitgroup + msgs.length % 2 ^ 32) % 2 ^ 32 }
      { err := (k.SubmitTx msgs account "").map DispatchError.submit,
        keeper := k.SetZone zone,
        submitted := some msgs }

/-- The counter of the zone persisted under a chain id, if a zone is stored under it. -/
def storedWaitgroup (k : StakingKeeper) (chainId : String) : Option Nat :=
  (mapGet k.zones chainId).map (fun z => z.WithdrawalWaitgroup)

/-- The intent records `IterateIntents` visits: the live ones, or the snapshot ones. -/
def StakingKeeper.intentStore (k : StakingKeeper) (snapshot : Bool) : List DelegatorIntent :=
  if snapshot then k.snapshotIntents else k.intents

/-- The method `Keeper.GetIntent`: the record stored under the delegator, or an empty intent. -/
def GetIntent (k : StakingKeeper) (delegator : String) (snapshot : Bool) : DelegatorIntent :=
  match (k.intentStore snapshot).find? (fun intent => decide (intent.Delegator = delegator)) with
  | none => { Delegator := delegator, Intents := [] }
  | some intent => intent

/-- The call `store.Set([]byte(intent.Delegator), bz)` on the records of a zone, kept in the
ascending order of the bytes of their delegators. -/
def setIntentRecord (intent : DelegatorIntent) : List DelegatorIntent → List DelegatorIntent
  | [] => [intent]
  | r :: rest =>
    if r.Delegator = intent.Delegator then intent :: rest
    else if decide (stringBytes intent.Delegator < stringBytes r.Delegator) then
      intent :: r :: rest
    else r :: setIntentRecord intent rest

/-- The method `Keeper.SetIntent`. -/
def SetIntent (k : StakingKeeper) (intent : DelegatorIntent) (snapshot : Bool) : StakingKeeper :=
  if snapshot then { k with snapshotIntents := setIntentRecord intent k.snapshotIntents }
  else { k with toKeeper := { k.toKeeper with intents := setIntentRecord intent k.intents } }

/-- The callback of `AllOrdinalizedIntents` run by `IterateIntents` over the stored records: it
stops at the first delegator id that does not decode, keeping that error. -/
def ordinalizeRecords (k : StakingKeeper) (zone : Zone) :
    List DelegatorIntent → List DelegatorIntent →
      List DelegatorIntent × Option AggregateError
  | [], intents => (intents, none)
  | intent :: rest, intents =>
    match k.AccAddressFromBech32 intent.Delegator with
    | none => (intents, some (AggregateError.address intent.Delegator))
    | some addr =>
      let balance := k.GetBalance addr zone.LocalDenom
      ordinalizeRecords k zone rest (intents ++ [intent.Ordinalize (ToDec balance.Amount)])

/-- The method `Keeper.AllOrdinalizedIntents`. -/
def AllOrdinalizedIntents (k : StakingKeeper) (zone : Zone) (snapshot : Bool) :
    List DelegatorIntent × Option AggregateError :=
  match ordinalizeRecords k zone (k.intentStore snapshot) [] with
  | (_, some err) => ([], some err)
  | (intents, none) => (intents, none)

/-- The part of `UpdateIntent` before its test of the merged vector: the stored intent of the
sender after the updates with the coins and with the memo, or the error of the memo update. -/
def updatedIntent (k : StakingKeeper) (sender : AccAddress) (zone : Zone) (inAmount : List Coin)
    (memo : String) : Except String DelegatorIntent :=
  let intent := GetIntent k (k.AccAddressString sender) false
  let balance := k.GetBalance sender zone.BaseDenom
  let baseBalance := zone.RedemptionRate.Mul (ToDec balance.Amount)
  let intent := if k.CoinsIsValid inAmount then
      k.UpdateIntentWithCoins zone intent baseBalance inAmount
    else intent
  if 0 < (stringBytes memo).length then k.UpdateIntentWithMemo zone intent memo baseBalance inAmount
  else Except.ok intent

/-- The method `Keeper.UpdateIntent`: the returned error (`none` is `nil`) and the keeper state
after the call. -/
def UpdateIntent (k : StakingKeeper) (sender : AccAddress) (zone : Zone) (inAmount : List Coin)
    (memo : String) : Option String × StakingKeeper :=
  match updatedIntent k sender zone inAmount memo with
  | Except.error err => (some err, k)
  | Except.ok intent =>
    if intent.Intents.length = 0 then (none, k)
    else (none, SetIntent k intent false)

/-- The spec's words for a validator's current holding: the sum of the amounts of the delegation
records of that validator. -/
def validatorTotal (records : List Delegation) (v : String) : Int :=
  ((records.filter (fun d => decide (d.ValidatorAddress = v))).map
    (fun d => d.Amount.Amount)).sum

/-- The body of the callback of `GetDelegationMap` for one record. -/
def addDelegation (acc : List (String × Int) × Int) (delegation : Delegation) :
    List (String × Int) × Int :=
  (match mapGet acc.1 delegation.ValidatorAddress with
    | none => mapSet acc.1 delegation.ValidatorAddress delegation.Amount.Amount
    | some existing =>
      mapSet acc.1 delegation.ValidatorAddress (existing + delegation.Amount.Amount),
    acc.2 + delegation.Amount.Amount)

/-- A second zone record for the examples, whose chain id starts with the chain id of `tcZone`. -/
def tcZoneTen : Zone := { tcZone with ChainId := "zone-10" }

/-- A delegation record for the examples: 100 uatom delegated to validator V. -/
def tcDelegation : Delegation :=
  { DelegationAddress := "deleg", ValidatorAddress := "V", Amount := ⟨"uatom", 100⟩ }

/-- The decoder of the examples: the byte 1 decodes to a reward of 5 uatom for validator V, the
byte 2 to a reward of 0 uatom for V, the byte 3 to a response without rewards, and nothing else
decodes. -/
def tcUnmarshal (bz : List Nat) : Option QueryDelegationTotalRewardsResponse :=
  if bz = [1] then
    some ⟨[⟨"V", [⟨"uatom", Dec.NewDec 5⟩]⟩], [⟨"uatom", Dec.NewDec 5⟩]⟩
  else if bz = [2] then
    some ⟨[⟨"V", [⟨"uatom", Dec.NewDec 0⟩]⟩], [⟨"uatom", Dec.NewDec 0⟩]⟩
  else if bz = [3] then some ⟨[], []⟩
  else none

/-- A keeper for the examples without delegation records: the intents and the zone of `tcKeeper`,
addresses decoded to their bytes, updates of an intent that leave it as it is, and a `SubmitTx`
that returns the given error. -/
def tcStakingEmpty (submitError : Option String) : StakingKeeper :=
  { toKeeper := tcKeeper,
    snapshotIntents := [],
    delegations := [],
    KeyPrefixDelegation := [8],
    DecodeAndConvert := stringBytes,
    AccAddressString := fun a => String.mk (a.map Char.ofNat),
    Unmarshal := tcUnmarshal,
    CoinsIsValid := fun coins => coins.all (fun c => decide (0 < c.Amount)),
    UpdateIntentWithCoins := fun _ intent _ _ => intent,
    UpdateIntentWithMemo := fun _ intent _ _ _ => Except.ok intent,
    SubmitTx := fun _ _ _ => submitError }

/-- The keeper of the examples after `tcDelegation` has been stored for `tcZone`. -/
def tcStaking (submitError : Option String) : StakingKeeper :=
  SetDelegation (tcStakingEmpty submitError) tcZone tcDelegation

/-! ## Delegate instructions, validators, event attributes -/

/-- The function `sdk.ValidateDenom`: the denomination matches `[a-zA-Z][a-zA-Z0-9/:._-]{2,127}`. -/
def ValidateDenom (denom : String) : Bool :=
  match denom.data with
  | [] => false
  | c :: rest =>
    c.isAlpha && decide (2 ≤ rest.length) && decide (rest.length ≤ 127) &&
      rest.all (fun x => x.isAlphanum || x = '/' || x = ':' || x = '.' || x = '_' || x = '-')

/-- The function `sdk.NewCoin`: it panics when the denomination is not valid or the amount is
negative. -/
def NewCoin (denom : String) (amount : Int) : Option Coin :=
  if ValidateDenom denom = true ∧ 0 ≤ amount then some ⟨denom, amount⟩ else none

/-- The body of the loop of `PrepareDelegationMessagesForCoins` for one key `valoper`: the
messages after it, or `none` when `sdk.NewCoin` panics. -/
def appendDelegate (zone : Zone) (allocations : List (String × Int)) (msgs : List Msg)
    (valoper : String) : Option (List Msg) :=
  match mapGet allocations valoper with
  | none => none
  | some allocation =>
    if ¬ (allocation = 0) then
      match NewCoin zone.BaseDenom allocation with
      | none => none
      | some coin => some (msgs ++ [Msg.MsgDelegate zone.DelegationAddress valoper coin])
    else some msgs

/-- The method `Keeper.PrepareDelegationMessagesForCoins`. -/
def PrepareDelegationMessagesForCoins (zone : Zone) (allocations : List (String × Int)) :
    Option (List Msg) :=
  (Keys allocations).foldl (fun acc valoper =>
    match acc with
    | none => none
    | some msgs => appendDelegate zone allocations msgs valoper) (some [])

/-- The amount a delegate message carries (`0` for the other messages). -/
def delegatedAmount : Msg → Int
  | Msg.MsgDelegate _ _ amount => amount.Amount
  | _ => 0

/-- The fields of `types.Validator` that `SharesToTokens` reads. -/
structure Validator where
  VotingPower : Int
  DelegatorShares : Dec
deriving DecidableEq, Repr

/-- The method `Validator.SharesToTokens`; the argument `shares` is not used by the body. -/
def Validator.SharesToTokens (v : Validator) (_shares : Dec) : Option Int :=
  if v.DelegatorShares.IsZero then some 0
  else
    match (ToDec v.VotingPower).Quo v.DelegatorShares with
    | none => none
    | some q => some q.TruncateInt

/-- The type `abcitypes.EventAttribute`, with its key and its value as Go strings. -/
structure EventAttribute where
  Key : String
  Value : String
deriving DecidableEq, Repr

/-- The function `AttributesToMap`. -/
def AttributesToMap (attrs : List EventAttribute) : List (String × String) :=
  attrs.foldl (fun out attr => mapSet out attr.Key attr.Value) []

/-- The validator the dust is added to: the first element of the slice after the two sorts. -/
def dustRecipient (currentAllocations : List (String × Int)) (currentSum : Int)
    (targetAllocations : List (String × ValidatorIntent)) : Option String :=
  (orderedDeltas currentAllocations currentSum targetAllocations).head?.map
    (fun d => d.ValoperAddress)

/-- The weight the two split loops give to a raised weight `w` (scaled by `10^18`), for the sum
`sum` of the raised deltas and `n` validators. -/
def splitValue (input sum : Int) (n : Nat) (w : Int) : Int :=
  (if MinInt sum input ≠ 0 then Int.tdiv w sum * MinInt sum input else w)
    + (if input - MinInt sum input ≠ 0 then (eachShare (input - MinInt sum input) n).i else 0)

/-! ## The wire format of `MsgSignalIntent` (`types/messages.pb.go`) -/

/-- The type `MsgSignalIntent`; each Go string is kept as its sequence of bytes. -/
structure MsgSignalIntent where
  ChainId : List Nat
  Intents : List Nat
  FromAddress : List Nat
deriving DecidableEq, Repr

/-- The number of bits of `x`, counted by halving at most `fuel` times. -/
def lenBits : Nat → Nat → Nat
  | 0, _ => 0
  | fuel + 1, x => if x = 0 then 0 else lenBits fuel (x / 2) + 1

/-- The function `math/bits.Len64` on a `uint64`. -/
def Len64 (x : Nat) : Nat := lenBits 64 (x % 2 ^ 64)

/-- The function `sovMessages` on a `uint64`. -/
def sovMessages (x : Nat) : Nat := (Len64 ((x ||| 1) % 2 ^ 64) + 6) / 7

/-- The statement `dAtA[i] = b`; an index out of range panics. -/
def setByte (dAtA : List Nat) (i : Nat) (b : Nat) : Option (List Nat) :=
  if i < dAtA.length then some (dAtA.set i b) else none

/-- The call `copy(dAtA[i:], s)` for `i ≤ len(dAtA)`: as many bytes of `s` as fit. -/
def copyAt (dAtA : List Nat) (i : Nat) (s : List Nat) : List Nat :=
  dAtA.take i ++ s.take (dAtA.length - i) ++ dAtA.drop (i + s.length)

/-- The loop of `encodeVarintMessages` on a `uint64` `v`, which has at most ten groups of seven
bits; `none` is a panic (or the fuel running out, which ten rounds exclude). -/
def encodeVarintLoop : Nat → List Nat → Nat → Nat → Option (List Nat)
  | 0, _, _, _ => none
  | fuel + 1, dAtA, offset, v =>
    if 128 ≤ v then
      match setByte dAtA offset (((v &&& 127) ||| 128) % 256) with
      | none => none
      | some dAtA => encodeVarintLoop fuel dAtA (offset + 1) (v >>> 7)
    else setByte dAtA offset (v % 256)

/-- The function `encodeVarintMessages`: the buffer after the writes and the returned `base`;
a negative offset makes the first write panic. -/
def encodeVarintMessages (dAtA : List Nat) (offset : Nat) (v : Nat) : Option (List Nat × Nat) :=
  if offset < sovMessages v then none
  else
    match encodeVarintLoop 10 dAtA (offset - sovMessages v) v with
    | none => none
    | some dAtA => some (dAtA, offset - sovMessages v)

/-- One `if len(field) > 0` block of `MarshalToSizedBuffer`, for the field `s` and its tag byte:
the buffer and the index `i` after it. -/
def marshalField (tag : Nat) (s : List Nat) (st : List Nat × Nat) : Option (List Nat × Nat) :=
  if 0 < s.length then
    if st.2 < s.length then none
    else
      let i := st.2 - s.length
      let dAtA := copyAt st.1 i s
      match encodeVarintMessages dAtA i (s.length % 2 ^ 64) with
      | none => none
      | some (dAtA, i) =>
        if i = 0 then none
        else
          match setByte dAtA (i - 1) tag with
          | none => none
          | some dAtA => some (dAtA, i - 1)
  else some st

/-- The method `MsgSignalIntent.MarshalToSizedBuffer`: the buffer and the number of bytes it
reports as written. -/
def MsgSignalIntent.MarshalToSizedBuffer (m : MsgSignalIntent) (dAtA : List Nat) :
    Option (List Nat × Nat) :=
  match marshalField 26 m.FromAddress (dAtA, dAtA.length) with
  | none => none
  | some st =>
    match marshalField 18 m.Intents st with
    | none => none
    | some st =>
      match marshalField 10 m.ChainId st with
      | none => none
      | some (dAtA, i) => some (dAtA, dAtA.length - i)

/-- The addend of one field in `MsgSignalIntent.Size`. -/
def fieldSize (s : List Nat) : Nat :=
  if 0 < s.length then 1 + s.length + sovMessages (s.length % 2 ^ 64) else 0

/-- The method `MsgSignalIntent.Size`. -/
def MsgSignalIntent.Size (m : MsgSignalIntent) : Nat :=
  fieldSize m.ChainId + fieldSize m.Intents + fieldSize m.FromAddress

/-- The method `MsgSignalIntent.Marshal`. -/
def MsgSignalIntent.Marshal (m : MsgSignalIntent) : Option (List Nat) :=
  let size := m.Size
  let dAtA := List.replicate size 0
  match m.MarshalToSizedBuffer (dAtA.take size) with
  | none => none
  | some (dAtA, n) => some (dAtA.take n)

/-- The errors of `Unmarshal` and `skipMessages`; `outOfFuel` is the fuel of a loop of the model
running out, which is no result of the code. -/
inductive WireError where
  | IntOverflow
  | UnexpectedEOF
  | InvalidLength
  | EndGroupForNonGroup
  | IllegalTag
  | WrongWireType
  | UnexpectedEndOfGroup
  | IllegalWireType
  | outOfFuel
deriving DecidableEq, Repr

/-- The loop `for shift := uint(0); ; shift += 7` that reads a varint into a `uint64` from
`dAtA[iNdEx]` on: the value and the index after it. -/
def readVarint (dAtA : List Nat) : Nat → Nat → Nat → Nat → Except WireError (Nat × Nat)
  | 0, _, _, _ => Except.error WireError.outOfFuel
  | fuel + 1, shift, iNdEx, acc =>
    if 64 ≤ shift then Except.error WireError.IntOverflow
    else if dAtA.length ≤ iNdEx then Except.error WireError.UnexpectedEOF
    else
      let b := dAtA.getD iNdEx 0
      let acc := acc ||| (((b &&& 127) <<< shift) % 2 ^ 64)
      if b < 128 then Except.ok (acc, iNdEx + 1)
      else readVarint dAtA fuel (shift + 7) (iNdEx + 1) acc

/-- The conversion `int32(x)` of a `uint64`. -/
def toInt32 (x : Nat) : Int :=
  if x % 2 ^ 32 < 2 ^ 31 then (x % 2 ^ 32 : Nat) else ((x % 2 ^ 32 : Nat) : Int) - 2 ^ 32

/-- The wraparound of `int` (64 bits) after an addition. -/
def wrapInt64 (x : Int) : Int := (x + 2 ^ 63) % 2 ^ 64 - 2 ^ 63

/-- The loop of case 0 of `skipMessages`, which skips a varint: the index after it. -/
def skipVarint (dAtA : List Nat) : Nat → Nat → Nat → Except WireError Nat
  | 0, _, _ => Except.error WireError.outOfFuel
  | fuel + 1, shift, iNdEx =>
    if 64 ≤ shift then Except.error WireError.IntOverflow
    else if dAtA.length ≤ iNdEx then Except.error WireError.UnexpectedEOF
    else if dAtA.getD iNdEx 0 < 128 then Except.ok (iNdEx + 1)
    else skipVarint dAtA fuel (shift + 7) (iNdEx + 1)

/-- The loop of `skipMessages` from the index `iNdEx` with the group depth `depth`. -/
def skipLoop (dAtA : List Nat) : Nat → Nat → Nat → Except WireError Int
  | 0, _, _ => Except.error WireError.outOfFuel
  | fuel + 1, iNdEx, depth =>
    if ¬ (iNdEx < dAtA.length) then Except.error WireError.UnexpectedEOF
    else
      match readVarint dAtA 11 0 iNdEx 0 with
      | Except.error e => Except.error e
      | Except.ok (wire, iNdEx) =>
        let wireType := wire &&& 7
        let step : Except WireError (Int × Nat) :=
          if wireType = 0 then
            match skipVarint dAtA 11 0 iNdEx with
            | Except.error e => Except.error e
            | Except.ok iNdEx => Except.ok ((iNdEx : Int), depth)
          else if wireType = 1 then Except.ok (wrapInt64 ((iNdEx : Int) + 8), depth)
          else if wireType = 2 then
            match readVarint dAtA 11 0 iNdEx 0 with
            | Except.error e => Except.error e
            | Except.ok (length, iNdEx) =>
              if 2 ^ 63 ≤ length then Except.error WireError.InvalidLength
              else Except.ok (wrapInt64 ((iNdEx : Int) + (length : Int)), depth)
          else if wireType = 3 then Except.ok ((iNdEx : Int), depth + 1)
          else if wireType = 4 then
            if depth = 0 then Except.error WireError.UnexpectedEndOfGroup
            else Except.ok ((iNdEx : Int), depth - 1)
          else if wireType = 5 then Except.ok (wrapInt64 ((iNdEx : Int) + 4), depth)
          else Except.error WireError.IllegalWireType
        match step with
        | Except.error e => Except.error e
        | Except.ok (iNdEx, depth) =>
          if iNdEx < 0 then Except.error WireError.InvalidLength
          else if depth = 0 then Except.ok iNdEx
          else skipLoop dAtA fuel iNdEx.toNat depth

/-- The function `skipMessages`; every round of its loop reads at least one byte. -/
def skipMessages (dAtA : List Nat) : Except WireError Int :=
  skipLoop dAtA (dAtA.length + 1) 0 0

/-- The body of a `case` of `Unmarshal` for a string field: the string and the index after
it. -/
def readString (dAtA : List Nat) (wireType : Nat) (iNdEx : Nat) :
    Except WireError (List Nat × Nat) :=
  if wireType ≠ 2 then Except.error WireError.WrongWireType
  else
    match readVarint dAtA 11 0 iNdEx 0 with
    | Except.error e => Except.error e
    | Except.ok (stringLen, iNdEx) =>
      if 2 ^ 63 ≤ stringLen then Except.error WireError.InvalidLength
      else if 2 ^ 63 ≤ iNdEx + stringLen then Except.error WireError.InvalidLength
      else if dAtA.length < iNdEx + stringLen then Except.error WireError.UnexpectedEOF
      else Except.ok ((dAtA.drop iNdEx).take stringLen, iNdEx + stringLen)

/-- The loop `for iNdEx < l` of `MsgSignalIntent.Unmarshal` and the test after it. -/
def unmarshalLoop (dAtA : List Nat) :
    Nat → Nat → MsgSignalIntent → Except WireError MsgSignalIntent
  | 0, _, _ => Except.error WireError.outOfFuel
  | fuel + 1, iNdEx, m =>
    if ¬ (iNdEx < dAtA.length) then
      if dAtA.length < iNdEx then Except.error WireError.UnexpectedEOF else Except.ok m
    else
      let preIndex := iNdEx
      match readVarint dAtA 11 0 iNdEx 0 with
      | Except.error e => Except.error e
      | Except.ok (wire, iNdEx) =>
        let fieldNum := toInt32 (wire >>> 3)
        let wireType := wire &&& 7
        if wireType = 4 then Except.error WireError.EndGroupForNonGroup
        else if fieldNum ≤ 0 then Except.error WireError.IllegalTag
        else if fieldNum = 1 then
          match readString dAtA wireType iNdEx with
          | Except.error e => Except.error e
          | Except.ok (s, postIndex) => unmarshalLoop dAtA fuel postIndex { m with ChainId := s }
        else if fieldNum = 2 then
          match readString dAtA wireType iNdEx with
          | Except.error e => Except.error e
          | Except.ok (s, postIndex) => unmarshalLoop dAtA fuel postIndex { m with Intents := s }
        else if fieldNum = 3 then
          match readString dAtA wireType iNdEx with
          | Except.error e => Except.error e
          | Except.ok (s, postIndex) =>
            unmarshalLoop dAtA fuel postIndex { m with FromAddress := s }
        else
          match skipMessages (dAtA.drop preIndex) with
          | Except.error e => Except.error e
          | Except.ok skippy =>
            if skippy < 0 ∨ 2 ^ 63 ≤ (preIndex : Int) + skippy then
              Except.error WireError.InvalidLength
            else if (dAtA.length : Int) < (preIndex : Int) + skippy then
              Except.error WireError.UnexpectedEOF
            else unmarshalLoop dAtA fuel (preIndex + skippy.toNat) m

/-- The method `MsgSignalIntent.Unmarshal` on the receiver `m`; every round of its loop reads at
least one byte. -/
def MsgSignalIntent.Unmarshal (m : MsgSignalIntent) (dAtA : List Nat) :
    Except WireError MsgSignalIntent :=
  unmarshalLoop dAtA (dAtA.length + 1) 0 m

/-- The bytes of a varint, least significant group first. -/
def varintBytes : Nat → Nat → List Nat
  | 0, _ => []
  | fuel + 1, v => if 128 ≤ v then (v % 128 + 128) :: varintBytes fuel (v / 128) else [v]

/-- The bytes of one string field on the wire: tag, length, content; nothing for an empty
string. -/
def fieldBytes (tag : Nat) (s : List Nat) : List Nat :=
  if 0 < s.length then tag :: varintBytes 10 s.length ++ s else []

/-- The bytes of a `MsgSignalIntent` on the wire. -/
def wireBytes (m : MsgSignalIntent) : List Nat :=
  fieldBytes 10 m.ChainId ++ (fieldBytes 18 m.Intents ++ fieldBytes 26 m.FromAddress)

/-- A message for the examples: chain id "zone-1", intents "A:1", sender "q1". -/
def tcSignal : MsgSignalIntent :=
  { ChainId := stringBytes "zone-1", Intents := stringBytes "A:1",
    FromAddress := stringBytes "q1" }

/-! ## The planner with the overflow panics of `sdk.Int` and `sdk.Dec` -/

/-- The value `2^256`: an `sdk.Int` holds the values of at most `maxBitLen = 256` bits, those
below it in absolute value. -/
def intLimit : Nat :=
  115792089237316195423570985008687907853269984665640564039457584007913129639936

/-- The value `2^315`: the scaled value of an `sdk.Dec` has at most `maxDecBitLen = 315` bits. -/
def decLimit : Nat :=
  66749594872528440074844428317798503581334516323645399060845050244444366430645017188217565216768

/-- The test of `sdk.Int` on a result: a value whose bit length exceeds `maxBitLen = 256` panics
("Int overflow", or "NewIntFromBigInt() out of bound"). -/
def checkInt (x : Int) : Option Int := if x.natAbs < intLimit then some x else none

/-- The test of `sdk.Dec` on a result: a scaled value whose bit length exceeds
`maxDecBitLen = 315` panics ("Int overflow"). -/
def checkDec (d : Dec) : Option Dec := if d.i.natAbs < decLimit then some d else none

/-- The body of the loop of `calculateDeltas` for one key, with the panics of `Dec.MulInt`,
`Dec.TruncateInt` and `Int.Sub`. -/
def deltaForChecked (currentAllocations : List (String × Int)) (currentSum : Int)
    (targetAllocations : List (String × ValidatorIntent)) (valoper : String) :
    Option ValidatorIntent := do
  let current := match mapGet currentAllocations valoper with
    | some c => c
    | none => 0
  let t ← mapGet targetAllocations valoper
  let scaled ← checkDec (t.Weight.MulInt currentSum)
  let target ← checkInt scaled.TruncateInt
  let delta ← checkInt (target - current)
  pure { Weight := ToDec delta, ValoperAddress := valoper }

/-- The function `calculateDeltas` with the overflow panics of the library. -/
def calculateDeltasChecked (currentAllocations : List (String × Int)) (currentSum : Int)
    (targetAllocations : List (String × ValidatorIntent)) : Option (List ValidatorIntent) :=
  forEach (deltaForChecked currentAllocations currentSum targetAllocations)
    (Keys targetAllocations)

/-- The function `minDeltas` with the panic of `Dec.TruncateInt`. -/
def minDeltasChecked (deltas : List ValidatorIntent) : Option Int :=
  deltas.foldl (fun acc intent => do
    let minValue ← acc
    let w ← checkInt intent.Weight.TruncateInt
    pure (if w < minValue then w else minValue)) (some MaxInt64)

/-- The loop "raise all deltas such that the minimum value is zero" with the panics of
`Dec.Add`, `Dec.TruncateInt` and `Int.Add`: the raised deltas and the sum. -/
def raiseLoopChecked (minValue : Int) :
    List ValidatorIntent → Int → Option (List ValidatorIntent × Int)
  | [], sum => some ([], sum)
  | d :: rest, sum => do
    let w ← checkDec (d.Weight.Add (ToDec (Abs minValue)))
    let truncated ← checkInt w.TruncateInt
    let sum ← checkInt (sum + truncated)
    let out ← raiseLoopChecked minValue rest sum
    pure ({ d with Weight := w } :: out.1, out.2)

/-- The unequal-split loop with the panics of `Dec.QuoInt` (division by zero), `Dec.MulInt` and
`Dec.Add`: the new deltas and `outSum`. -/
def unequalLoopChecked (sum unequalSplit : Int) :
    List ValidatorIntent → Dec → Option (List ValidatorIntent × Dec)
  | [], outSum => some ([], outSum)
  | d :: rest, outSum => do
    let q ← d.Weight.QuoInt sum
    let w ← checkDec (q.MulInt unequalSplit)
    let outSum ← checkDec (outSum.Add w)
    let out ← unequalLoopChecked sum unequalSplit rest outSum
    pure ({ d with Weight := w } :: out.1, out.2)

/-- The equal-split loop with the panics of `Dec.Add`: the new deltas and `outSum`. -/
def equalLoopChecked (each : Dec) :
    List ValidatorIntent → Dec → Option (List ValidatorIntent × Dec)
  | [], outSum => some ([], outSum)
  | d :: rest, outSum => do
    let w ← checkDec (d.Weight.Add each)
    let outSum ← checkDec (outSum.Add w)
    let out ← equalLoopChecked each rest outSum
    pure ({ d with Weight := w } :: out.1, out.2)

/-- The output loop with the panic of `Dec.TruncateInt`. -/
def outWeightsChecked (deltas : List ValidatorIntent) : Option (List (String × Int)) :=
  deltas.foldl (fun acc delta => do
    let m ← acc
    let amount ← checkInt delta.Weight.TruncateInt
    pure (mapSet m delta.ValoperAddress amount)) (some [])

/-- The function `DetermineAllocationsForDelegation` with the overflow panics of the library:
`none` is a panic (index out of range, division by zero, or overflow). -/
def DetermineAllocationsForDelegationChecked (currentAllocations : List (String × Int))
    (currentSum : Int) (targetAllocations : List (String × ValidatorIntent))
    (amount : List Coin) : Option (List (String × Int)) :=
  match amount with
  | [] => none
  | coin :: _ => do
    let input := coin.Amount
    let deltas ← calculateDeltasChecked currentAllocations currentSum targetAllocations
    let minValue ← minDeltasChecked deltas
    let deltas := SliceStable (fun a b => strLess b.ValoperAddress a.ValoperAddress) deltas
    let deltas := SliceStable (fun a b => a.Weight.GT b.Weight) deltas
    let raised ← raiseLoopChecked minValue deltas 0
    let sum := raised.2
    let unequalSplit := MinInt sum input
    let step1 ←
      if unequalSplit ≠ 0 then unequalLoopChecked sum unequalSplit raised.1 Dec.ZeroDec
      else some (raised.1, Dec.ZeroDec)
    let equalInt ← checkInt (input - unequalSplit)
    let equalSplit := ToDec equalInt
    let step2 ←
      if ¬ equalSplit.IsZero then
        match equalSplit.Quo (Dec.NewDec (step1.1.length : Int)) with
        | none => none
        | some quotient =>
          match checkDec quotient with
          | none => none
          | some each => equalLoopChecked each step1.1 Dec.ZeroDec
      else some step1
    let truncated ← checkInt step2.2.TruncateInt
    let dust ← checkInt (input - truncated)
    match step2.1 with
    | [] => none
    | d0 :: rest => do
      let w0 ← checkDec (d0.Weight.Add (ToDec dust))
      outWeightsChecked ({ d0 with Weight := w0 } :: rest)


/-! ## Further data of the examples -/

/-- A second delegation record for the examples: 7 uatom delegated to validator W. -/
def tcOther : Delegation :=
  { DelegationAddress := "deleg", ValidatorAddress := "W", Amount := ⟨"uatom", 7⟩ }

/-- A keeper for the examples with one record per zone: `tcDelegation` stored for `tcZone` and
`tcOther` stored for `tcZoneTen`. -/
def tcTwoZones : StakingKeeper :=
  SetDelegation (SetDelegation (tcStakingEmpty none) tcZone tcDelegation) tcZoneTen tcOther

/-! ## Lemmas: strings, maps, sorting -/

theorem strLess_iff (a b : String) : strLess a b = true ↔ a < b := by
  simp [strLess, String.lt_iff_toList_lt, String.toList]

theorem mapGet_eq_none_iff {α : Type} (m : List (String × α)) (k : String) :
    mapGet m k = none ↔ k ∉ m.map Prod.fst := by
  induction m with
  | nil => simp [mapGet]
  | cons kv rest ih =>
    obtain ⟨k', v⟩ := kv
    by_cases h : k' = k
    · simp [mapGet, h]
    · simp [mapGet, h, ih, Ne.symm h]

theorem mapGet_isSome_iff {α : Type} (m : List (String × α)) (k : String) :
    (∃ v, mapGet m k = some v) ↔ k ∈ m.map Prod.fst := by
  rw [← not_iff_not, ← mapGet_eq_none_iff]
  cases mapGet m k <;> simp

theorem mem_insertKey (k x : String) (l : List String) :
    x ∈ insertKey k l ↔ x = k ∨ x ∈ l := by
  induction l with
  | nil => simp [insertKey]
  | cons a rest ih =>
    unfold insertKey
    by_cases h1 : strLess k a = true
    · simp [h1]
    · by_cases h2 : k = a
      · subst h2
        simp [h1]
      · simp only [h1, h2, if_false, List.mem_cons, ih, Bool.false_eq_true]
        tauto

theorem mem_Keys {α : Type} (m : List (String × α)) (k : String) :
    k ∈ Keys m ↔ k ∈ m.map Prod.fst := by
  induction m with
  | nil => simp [Keys]
  | cons kv rest ih =>
    have : Keys (kv :: rest) = insertKey kv.1 (Keys rest) := rfl
    rw [this, mem_insertKey, ih]
    simp [eq_comm]

theorem sorted_insertKey (k : String) (l : List String) (h : l.Pairwise (· < ·)) :
    (insertKey k l).Pairwise (· < ·) := by
  induction l with
  | nil => simp [insertKey]
  | cons a rest ih =>
    unfold insertKey
    rw [List.pairwise_cons] at h
    by_cases h1 : strLess k a = true
    · have hka : k < a := (strLess_iff k a).1 h1
      simp only [h1, if_true]
      refine List.pairwise_cons.2 ⟨?_, List.pairwise_cons.2 h⟩
      intro x hx
      rcases List.mem_cons.1 hx with rfl | hx
      · exact hka
      · exact lt_trans hka (h.1 x hx)
    · by_cases h2 : k = a
      · subst h2
        simp only [h1, if_true, if_false, Bool.false_eq_true]
        exact List.pairwise_cons.2 h
      · simp only [h1, h2, if_false, Bool.false_eq_true]
        have hak : a < k := by
          have : ¬ k < a := fun hlt => h1 ((strLess_iff k a).2 hlt)
          exact lt_of_le_of_ne (not_lt.1 this) (Ne.symm h2)
        refine List.pairwise_cons.2 ⟨?_, ih h.2⟩
        intro x hx
        rcases (mem_insertKey k x rest).1 hx with rfl | hx
        · exact hak
        · exact h.1 x hx

theorem sorted_Keys {α : Type} (m : List (String × α)) : (Keys m).Pairwise (· < ·) := by
  induction m with
  | nil => simp [Keys]
  | cons kv rest ih => exact sorted_insertKey kv.1 (Keys rest) ih

theorem nodup_Keys {α : Type} (m : List (String × α)) : (Keys m).Nodup :=
  (sorted_Keys m).imp (fun h => ne_of_lt h)

theorem Keys_ne_nil {α : Type} (m : List (String × α)) (h : m ≠ []) : Keys m ≠ [] := by
  cases m with
  | nil => exact absurd rfl h
  | cons kv rest =>
    intro hk
    have : kv.1 ∈ Keys (kv :: rest) := (mem_Keys _ _).2 (by simp)
    rw [hk] at this
    exact absurd this (List.not_mem_nil _)

theorem perm_stableInsert {α : Type} (less : α → α → Bool) (a : α) (l : List α) :
    (stableInsert less a l).Perm (a :: l) := by
  induction l with
  | nil => simp [stableInsert]
  | cons b rest ih =>
    unfold stableInsert
    by_cases h : less b a = true
    · simp only [h, if_true]
      exact (List.Perm.cons b ih).trans (List.Perm.swap a b rest)
    · simp [h]

theorem perm_SliceStable {α : Type} (less : α → α → Bool) (l : List α) :
    (SliceStable less l).Perm l := by
  induction l with
  | nil => simp [SliceStable]
  | cons a rest ih =>
    exact (perm_stableInsert less a _).trans (List.Perm.cons a ih)

theorem forEach_eq_some_map {α β : Type} (f : α → Option β) (g : α → β) (l : List α)
    (h : ∀ a ∈ l, f a = some (g a)) : forEach f l = some (l.map g) := by
  induction l with
  | nil => rfl
  | cons a rest ih =>
    have h1 := h a (by simp)
    have h2 := ih (fun x hx => h x (by simp [hx]))
    simp [forEach, h1, h2]

/-! ## Lemmas: the closed form of the planner -/

theorem calculateDeltas_eq (currentAllocations : List (String × Int)) (currentSum : Int)
    (targetAllocations : List (String × ValidatorIntent)) :
    calculateDeltas currentAllocations currentSum targetAllocations
      = some (baseDeltas currentAllocations currentSum targetAllocations) := by
  unfold calculateDeltas baseDeltas
  apply forEach_eq_some_map
  intro k hk
  obtain ⟨t, ht⟩ := (mapGet_isSome_iff targetAllocations k).2 ((mem_Keys _ _).1 hk)
  simp [deltaFor, deltaValue, weightOf, currentOf, ht]

theorem forEach_unequalShare (sum unequalSplit : Int) (deltas : List ValidatorIntent)
    (h : sum ≠ 0) :
    forEach (unequalShare sum unequalSplit) deltas
      = some (unequalWeights sum unequalSplit deltas) := by
  unfold unequalWeights
  apply forEach_eq_some_map
  intro d _
  simp [unequalShare, Dec.QuoInt, h]

theorem forEach_unequalShare_zero (unequalSplit : Int) (deltas : List ValidatorIntent)
    (h : deltas ≠ []) : forEach (unequalShare 0 unequalSplit) deltas = none := by
  cases deltas with
  | nil => exact absurd rfl h
  | cons d rest => simp [forEach, unequalShare, Dec.QuoInt]

theorem precisionReuse_pos : 0 < precisionReuse := by decide

theorem Quo_NewDec (equalSplit : Int) (n : Nat) (h : n ≠ 0) :
    (ToDec equalSplit).Quo (Dec.NewDec (n : Int)) = some (eachShare equalSplit n) := by
  have h1 : (Dec.NewDec (n : Int)).i ≠ 0 := by
    have : (0 : Int) < n := by exact_mod_cast Nat.pos_of_ne_zero h
    exact ne_of_gt (Int.mul_pos this precisionReuse_pos)
  simp [Dec.Quo, h1, eachShare]

theorem ToDec_IsZero (n : Int) : (ToDec n).IsZero = decide (n = 0) := by
  have h : n * precisionReuse = 0 ↔ n = 0 := by
    constructor
    · intro h0
      rcases Int.mul_eq_zero.1 h0 with h1 | h1
      · exact h1
      · exact absurd h1 (ne_of_gt precisionReuse_pos)
    · intro h0
      simp [h0]
  simp [ToDec, Dec.IsZero, h]

theorem DetermineAllocationsForDelegation_eq (currentAllocations : List (String × Int))
    (currentSum : Int) (targetAllocations : List (String × ValidatorIntent))
    (coin : Coin) (rest : List Coin) :
    DetermineAllocationsForDelegation currentAllocations currentSum targetAllocations
        (coin :: rest) =
      if orderedDeltas currentAllocations currentSum targetAllocations = [] then none
      else if MinInt (sumTruncated
            (orderedDeltas currentAllocations currentSum targetAllocations)) coin.Amount ≠ 0 ∧
          sumTruncated (orderedDeltas currentAllocations currentSum targetAllocations) = 0
        then none
      else some (outWeights (finalDeltas coin.Amount
        (orderedDeltas currentAllocations currentSum targetAllocations))) := by
  unfold DetermineAllocationsForDelegation
  simp only [calculateDeltas_eq]
  have hds : raiseDeltas
      (minDeltas (baseDeltas currentAllocations currentSum targetAllocations))
      (SliceStable (fun a b => a.Weight.GT b.Weight)
        (SliceStable (fun a b => strLess b.ValoperAddress a.ValoperAddress)
          (baseDeltas currentAllocations currentSum targetAllocations)))
      = orderedDeltas currentAllocations currentSum targetAllocations := rfl
  simp only [hds, ToDec_IsZero]
  generalize orderedDeltas currentAllocations currentSum targetAllocations = ds
  unfold finalDeltas splitWeights
  dsimp only
  generalize MinInt (sumTruncated ds) coin.Amount = u
  generalize coin.Amount - u = E
  generalize sumTruncated ds = sum
  cases ds with
  | nil =>
    by_cases hu : u = 0 <;> by_cases hE : E = 0 <;>
      simp [hu, hE, forEach, Dec.Quo, Dec.NewDec]
  | cons d0 tl =>
    have hnil : d0 :: tl ≠ [] := List.cons_ne_nil _ _
    have hlen : (d0 :: tl).length ≠ 0 := by simp
    by_cases hu : u = 0
    · by_cases hE : E = 0
      · simp [hu, hE, addDust]
      · simp only [hu, hE, hnil, ne_eq, not_true_eq_false, not_false_eq_true, if_true, if_false,
          decide_False, decide_True, Quo_NewDec _ _ hlen, false_and, Bool.false_eq_true]
        simp [equalWeights, addDust]
    · by_cases hs : sum = 0
      · simp [hu, hs, forEach_unequalShare_zero _ _ hnil]
      · have hlen2 : (unequalWeights sum u (d0 :: tl)).length ≠ 0 := by
          simp [unequalWeights]
        by_cases hE : E = 0
        · simp only [hu, hE, hs, hnil, ne_eq, not_true_eq_false, not_false_eq_true, if_true,
            if_false, decide_False, decide_True, forEach_unequalShare _ _ _ hs, and_false,
            Bool.false_eq_true]
          simp [unequalWeights, addDust]
        · simp only [hu, hE, hs, hnil, ne_eq, not_true_eq_false, not_false_eq_true, if_true,
            if_false, decide_False, decide_True, forEach_unequalShare _ _ _ hs, and_false,
            Quo_NewDec _ _ hlen2, Bool.false_eq_true]
          simp [unequalWeights, equalWeights, addDust]

/-! ## Lemmas: the output map -/

theorem mem_mapSet {α : Type} (m : List (String × α)) (k : String) (v : α) (x : String × α)
    (h : x ∈ mapSet m k v) : x = (k, v) ∨ x ∈ m := by
  induction m with
  | nil => simpa [mapSet] using h
  | cons kv rest ih =>
    obtain ⟨k', v'⟩ := kv
    unfold mapSet at h
    by_cases hk : k' = k
    · simp only [hk, if_true, List.mem_cons] at h
      rcases h with h | h
      · exact Or.inl h
      · exact Or.inr (List.mem_cons_of_mem _ h)
    · simp only [hk, if_false, List.mem_cons] at h
      rcases h with h | h
      · exact Or.inr (by simp [h])
      · rcases ih h with h | h
        · exact Or.inl h
        · exact Or.inr (List.mem_cons_of_mem _ h)

theorem keys_mapSet {α : Type} (m : List (String × α)) (k : String) (v : α) (x : String) :
    x ∈ (mapSet m k v).map Prod.fst ↔ x = k ∨ x ∈ m.map Prod.fst := by
  induction m with
  | nil => simp [mapSet]
  | cons kv rest ih =>
    obtain ⟨k', v'⟩ := kv
    unfold mapSet
    by_cases hk : k' = k
    · subst hk
      simp
    · simp only [hk, if_false, List.map_cons, List.mem_cons, ih]
      tauto

theorem mem_foldl_mapSet (deltas : List ValidatorIntent) (acc : List (String × Int))
    (x : String × Int)
    (h : x ∈ deltas.foldl
      (fun m delta => mapSet m delta.ValoperAddress delta.Weight.TruncateInt) acc) :
    x ∈ acc ∨ ∃ d ∈ deltas, x = (d.ValoperAddress, d.Weight.TruncateInt) := by
  induction deltas generalizing acc with
  | nil => exact Or.inl h
  | cons d rest ih =>
    rw [List.foldl_cons] at h
    rcases ih _ h with h1 | ⟨d', hd', hx⟩
    · rcases mem_mapSet _ _ _ _ h1 with h2 | h2
      · exact Or.inr ⟨d, by simp, h2⟩
      · exact Or.inl h2
    · exact Or.inr ⟨d', List.mem_cons_of_mem _ hd', hx⟩

theorem mem_outWeights (deltas : List ValidatorIntent) (x : String × Int)
    (h : x ∈ outWeights deltas) :
    ∃ d ∈ deltas, x = (d.ValoperAddress, d.Weight.TruncateInt) := by
  rcases mem_foldl_mapSet deltas [] x h with h1 | h1
  · exact absurd h1 (List.not_mem_nil _)
  · exact h1

theorem keys_foldl_mapSet (deltas : List ValidatorIntent) (acc : List (String × Int))
    (x : String) :
    x ∈ (deltas.foldl
      (fun m delta => mapSet m delta.ValoperAddress delta.Weight.TruncateInt) acc).map Prod.fst
      ↔ x ∈ acc.map Prod.fst ∨ x ∈ deltas.map (fun d => d.ValoperAddress) := by
  induction deltas generalizing acc with
  | nil => simp
  | cons d rest ih =>
    rw [List.foldl_cons, ih, keys_mapSet]
    simp only [List.map_cons, List.mem_cons]
    tauto

theorem keys_outWeights (deltas : List ValidatorIntent) (x : String) :
    x ∈ (outWeights deltas).map Prod.fst ↔ x ∈ deltas.map (fun d => d.ValoperAddress) := by
  unfold outWeights
  rw [keys_foldl_mapSet]
  simp

/-! ## Lemmas: the ordered deltas -/

theorem TruncateInt_ToDec (n : Int) : (ToDec n).TruncateInt = n := by
  simp [ToDec, Dec.TruncateInt, chopPrecisionAndTruncate,
    Int.mul_tdiv_cancel _ (ne_of_gt precisionReuse_pos)]

theorem foldl_min_le (deltas : List ValidatorIntent) (init : Int) :
    deltas.foldl (fun minValue intent =>
      if intent.Weight.TruncateInt < minValue then intent.Weight.TruncateInt else minValue) init
      ≤ init ∧
    ∀ d ∈ deltas, deltas.foldl (fun minValue intent =>
      if intent.Weight.TruncateInt < minValue then intent.Weight.TruncateInt else minValue) init
      ≤ d.Weight.TruncateInt := by
  induction deltas generalizing init with
  | nil => simp
  | cons d rest ih =>
    rw [List.foldl_cons]
    have h := ih (if d.Weight.TruncateInt < init then d.Weight.TruncateInt else init)
    have hstep : (if d.Weight.TruncateInt < init then d.Weight.TruncateInt else init) ≤ init ∧
        (if d.Weight.TruncateInt < init then d.Weight.TruncateInt else init)
          ≤ d.Weight.TruncateInt := by
      split <;> omega
    refine ⟨le_trans h.1 hstep.1, ?_⟩
    intro x hx
    rcases List.mem_cons.1 hx with rfl | hx
    · exact le_trans h.1 hstep.2
    · exact h.2 x hx

theorem minDeltas_le (deltas : List ValidatorIntent) (d : ValidatorIntent) (h : d ∈ deltas) :
    minDeltas deltas ≤ d.Weight.TruncateInt :=
  (foldl_min_le deltas MaxInt64).2 d h

theorem add_Abs_nonneg (m x : Int) (h : m ≤ x) : 0 ≤ x + Abs m := by
  unfold Abs
  split <;> omega

theorem perm_orderedDeltas (currentAllocations : List (String × Int)) (currentSum : Int)
    (targetAllocations : List (String × ValidatorIntent)) :
    (orderedDeltas currentAllocations currentSum targetAllocations).Perm
      (raiseDeltas (minDeltas (baseDeltas currentAllocations currentSum targetAllocations))
        (baseDeltas currentAllocations currentSum targetAllocations)) := by
  unfold orderedDeltas raiseDeltas
  exact List.Perm.map _ ((perm_SliceStable _ _).trans (perm_SliceStable _ _))

theorem mem_orderedDeltas (currentAllocations : List (String × Int)) (currentSum : Int)
    (targetAllocations : List (String × ValidatorIntent)) (d : ValidatorIntent)
    (h : d ∈ orderedDeltas currentAllocations currentSum targetAllocations) :
    d.ValoperAddress ∈ Keys targetAllocations ∧
    ∃ a : Int, 0 ≤ a ∧ d.Weight = ToDec a := by
  have h1 := (perm_orderedDeltas currentAllocations currentSum targetAllocations).mem_iff.1 h
  unfold raiseDeltas at h1
  obtain ⟨b, hb, rfl⟩ := List.mem_map.1 h1
  have hmin := minDeltas_le _ b hb
  unfold baseDeltas at hb
  obtain ⟨k, hk, rfl⟩ := List.mem_map.1 hb
  have hmin2 : minDeltas (baseDeltas currentAllocations currentSum targetAllocations)
      ≤ deltaValue currentAllocations currentSum targetAllocations k := by
    simpa [TruncateInt_ToDec] using hmin
  refine ⟨hk, deltaValue currentAllocations currentSum targetAllocations k
    + Abs (minDeltas (baseDeltas currentAllocations currentSum targetAllocations)),
    add_Abs_nonneg _ _ hmin2, ?_⟩
  simp only [ToDec, Dec.Add, Dec.mk.injEq]
  ring

theorem addresses_orderedDeltas (currentAllocations : List (String × Int)) (currentSum : Int)
    (targetAllocations : List (String × ValidatorIntent)) :
    ((orderedDeltas currentAllocations currentSum targetAllocations).map
      (fun d => d.ValoperAddress)).Perm (Keys targetAllocations) := by
  have h := (perm_orderedDeltas currentAllocations currentSum targetAllocations).map
    (fun d => d.ValoperAddress)
  have h2 : (raiseDeltas (minDeltas (baseDeltas currentAllocations currentSum targetAllocations))
      (baseDeltas currentAllocations currentSum targetAllocations)).map
      (fun d => d.ValoperAddress) = Keys targetAllocations := by
    simp [raiseDeltas, baseDeltas, List.map_map, Function.comp_def]
  rw [h2] at h
  exact h

theorem orderedDeltas_ne_nil (currentAllocations : List (String × Int)) (currentSum : Int)
    (targetAllocations : List (String × ValidatorIntent)) (h : targetAllocations ≠ []) :
    orderedDeltas currentAllocations currentSum targetAllocations ≠ [] := by
  intro hnil
  have hp := addresses_orderedDeltas currentAllocations currentSum targetAllocations
  rw [hnil] at hp
  exact Keys_ne_nil _ h (List.Perm.nil_eq hp).symm

theorem length_orderedDeltas (currentAllocations : List (String × Int)) (currentSum : Int)
    (targetAllocations : List (String × ValidatorIntent)) :
    (orderedDeltas currentAllocations currentSum targetAllocations).length
      = (Keys targetAllocations).length := by
  have hp := (addresses_orderedDeltas currentAllocations currentSum targetAllocations).length_eq
  simpa using hp

theorem addresses_finalDeltas (input : Int) (deltas : List ValidatorIntent) :
    (finalDeltas input deltas).map (fun d => d.ValoperAddress)
      = deltas.map (fun d => d.ValoperAddress) := by
  have hdust : ∀ (dust : Int) (l : List ValidatorIntent),
      (addDust dust l).map (fun d => d.ValoperAddress) = l.map (fun d => d.ValoperAddress) := by
    intro dust l
    cases l <;> simp [addDust]
  unfold finalDeltas
  rw [hdust]
  unfold splitWeights
  dsimp only
  split <;> split <;>
    simp [equalWeights, unequalWeights, List.map_map, Function.comp_def]

/-! ## Lemmas: arithmetic of the splits -/

theorem tdiv_precision_cases (x : Int) :
    (0 ≤ x ∧ Int.tdiv x precisionReuse = x / 1000000000000000000) ∨
    (x < 0 ∧ Int.tdiv x precisionReuse = -((-x) / 1000000000000000000)) := by
  by_cases h : 0 ≤ x
  · left
    exact ⟨h, Int.tdiv_eq_ediv h (le_of_lt precisionReuse_pos)⟩
  · right
    have hx : x < 0 := not_le.1 h
    refine ⟨hx, ?_⟩
    have h1 : Int.tdiv x precisionReuse = -(Int.tdiv (-x) precisionReuse) := by
      rw [Int.neg_tdiv, neg_neg]
    rw [h1, Int.tdiv_eq_ediv (by omega) (le_of_lt precisionReuse_pos)]
    rfl

theorem TruncateInt_nonneg (d : Dec) (h : 0 ≤ d.i) : 0 ≤ d.TruncateInt := by
  unfold Dec.TruncateInt chopPrecisionAndTruncate
  rcases tdiv_precision_cases d.i with ⟨_, h2⟩ | ⟨h1, _⟩
  · rw [h2]
    omega
  · omega

theorem TruncateInt_le (d : Dec) (input : Int) (h0 : 0 ≤ input)
    (h : d.i < (input + 1) * 1000000000000000000) : d.TruncateInt ≤ input := by
  unfold Dec.TruncateInt chopPrecisionAndTruncate
  rcases tdiv_precision_cases d.i with ⟨_, h2⟩ | ⟨h1, h2⟩
  · rw [h2]
    omega
  · rw [h2]
    omega

theorem chopPrecisionAndRound_bound (d : Int) (h : 0 ≤ d) :
    0 ≤ chopPrecisionAndRound d ∧
    2 * 1000000000000000000 * chopPrecisionAndRound d ≤ 2 * d + 1000000000000000000 := by
  have hq : Int.tdiv d precisionReuse = d / 1000000000000000000 :=
    Int.tdiv_eq_ediv h (le_of_lt precisionReuse_pos)
  have hr : Int.tmod d precisionReuse = d % 1000000000000000000 :=
    Int.tmod_eq_emod h (le_of_lt precisionReuse_pos)
  unfold chopPrecisionAndRound
  rw [if_neg (not_lt.2 h)]
  unfold chopPrecisionAndRoundPos
  simp only [hq, hr, fivePrecision]
  split_ifs <;> omega

theorem sumWeights_foldl (deltas : List ValidatorIntent) (init : Dec) :
    (deltas.foldl (fun outSum d => outSum.Add d.Weight) init).i
      = init.i + (deltas.map (fun d => d.Weight.i)).sum := by
  induction deltas generalizing init with
  | nil => simp
  | cons d rest ih =>
    rw [List.foldl_cons, ih]
    simp [Dec.Add, add_assoc]

theorem sumWeights_eq (deltas : List ValidatorIntent) :
    (sumWeights deltas).i = (deltas.map (fun d => d.Weight.i)).sum := by
  unfold sumWeights
  rw [sumWeights_foldl]
  simp [Dec.ZeroDec]

theorem sumTruncated_foldl (deltas : List ValidatorIntent) (init : Int) :
    deltas.foldl (fun sum d => sum + d.Weight.TruncateInt) init
      = init + (deltas.map (fun d => d.Weight.TruncateInt)).sum := by
  induction deltas generalizing init with
  | nil => simp
  | cons d rest ih =>
    rw [List.foldl_cons, ih]
    simp [add_assoc]

theorem sumTruncated_eq (deltas : List ValidatorIntent) :
    sumTruncated deltas = (deltas.map (fun d => d.Weight.TruncateInt)).sum := by
  unfold sumTruncated
  rw [sumTruncated_foldl]
  simp

/-- For integral non-negative weights the truncated sum is non-negative and, scaled, is the sum of
the weights. -/
theorem raised_sums (deltas : List ValidatorIntent)
    (h : ∀ d ∈ deltas, ∃ a : Int, 0 ≤ a ∧ d.Weight = ToDec a) :
    0 ≤ sumTruncated deltas ∧
    (deltas.map (fun d => d.Weight.i)).sum = sumTruncated deltas * precisionReuse := by
  rw [sumTruncated_eq]
  induction deltas with
  | nil => simp
  | cons d rest ih =>
    obtain ⟨a, ha, hw⟩ := h d (by simp)
    have ih2 := ih (fun x hx => h x (List.mem_cons_of_mem _ hx))
    simp only [List.map_cons, List.sum_cons, hw, TruncateInt_ToDec]
    refine ⟨by omega, ?_⟩
    rw [ih2.2]
    simp only [ToDec]
    ring

theorem raised_weight_nonneg (d : ValidatorIntent)
    (h : ∃ a : Int, 0 ≤ a ∧ d.Weight = ToDec a) : 0 ≤ d.Weight.i := by
  obtain ⟨a, ha, hw⟩ := h
  rw [hw]
  exact Int.mul_nonneg ha (le_of_lt precisionReuse_pos)

/-- The sum of the truncated quotients by `sum`, times `sum`, is at most the sum of the weights. -/
theorem quotients_bound (deltas : List ValidatorIntent) (sum : Int) (hs : 0 < sum)
    (h : ∀ d ∈ deltas, 0 ≤ d.Weight.i) :
    0 ≤ (deltas.map (fun d => Int.tdiv d.Weight.i sum)).sum ∧
    (deltas.map (fun d => Int.tdiv d.Weight.i sum)).sum * sum
      ≤ (deltas.map (fun d => d.Weight.i)).sum := by
  induction deltas with
  | nil => simp
  | cons d rest ih =>
    have hd := h d (by simp)
    have ih2 := ih (fun x hx => h x (List.mem_cons_of_mem _ hx))
    have h1 : 0 ≤ Int.tdiv d.Weight.i sum := Int.tdiv_nonneg hd (le_of_lt hs)
    have h2 : Int.tdiv d.Weight.i sum * sum ≤ d.Weight.i := by
      rw [Int.tdiv_eq_ediv hd (le_of_lt hs)]
      exact Int.ediv_mul_le _ (ne_of_gt hs)
    simp only [List.map_cons, List.sum_cons, add_mul]
    exact ⟨by omega, by omega⟩

theorem sumWeights_unequalWeights (sum unequalSplit : Int) (deltas : List ValidatorIntent) :
    (sumWeights (unequalWeights sum unequalSplit deltas)).i
      = (deltas.map (fun d => Int.tdiv d.Weight.i sum)).sum * unequalSplit := by
  rw [sumWeights_eq]
  unfold unequalWeights
  induction deltas with
  | nil => simp
  | cons d rest ih =>
    simp only [List.map_cons, List.sum_cons, add_mul] at ih ⊢
    rw [ih]
    simp [Dec.MulInt]

theorem sumWeights_equalWeights (each : Dec) (deltas : List ValidatorIntent) :
    (sumWeights (equalWeights each deltas)).i
      = (sumWeights deltas).i + (deltas.length : Int) * each.i := by
  rw [sumWeights_eq, sumWeights_eq]
  unfold equalWeights
  induction deltas with
  | nil => simp
  | cons d rest ih =>
    simp only [List.map_cons, List.sum_cons, List.length_cons] at ih ⊢
    rw [ih]
    simp only [Dec.Add]
    push_cast
    ring

theorem eachShare_bound (equalSplit : Int) (n : Nat) (hE : 0 ≤ equalSplit) (hn : n ≠ 0) :
    0 ≤ (eachShare equalSplit n).i ∧
    2 * ((n : Int) * (eachShare equalSplit n).i) ≤ 2 * equalSplit * 1000000000000000000 + n := by
  have hnpos : (0 : Int) < n := by exact_mod_cast Nat.pos_of_ne_zero hn
  have hp : (0 : Int) < 1000000000000000000 := by decide
  unfold eachShare
  simp only [ToDec, Dec.NewDec, precisionReuse]
  generalize hX : Int.tdiv (equalSplit * 1000000000000000000 * 1000000000000000000
    * 1000000000000000000) ((n : Int) * 1000000000000000000) = X
  have hnum : 0 ≤ equalSplit * 1000000000000000000 * 1000000000000000000
      * 1000000000000000000 := by positivity
  have hden : 0 < (n : Int) * 1000000000000000000 := by positivity
  have hX0 : 0 ≤ X := by
    rw [← hX]
    exact Int.tdiv_nonneg hnum (le_of_lt hden)
  have hXle : X * ((n : Int) * 1000000000000000000) ≤ equalSplit * 1000000000000000000
      * 1000000000000000000 * 1000000000000000000 := by
    rw [← hX, Int.tdiv_eq_ediv hnum (le_of_lt hden)]
    exact Int.ediv_mul_le _ (ne_of_gt hden)
  have hXn : X * n ≤ equalSplit * 1000000000000000000 * 1000000000000000000 := by
    have : (X * n) * 1000000000000000000
        ≤ (equalSplit * 1000000000000000000 * 1000000000000000000) * 1000000000000000000 := by
      calc (X * n) * 1000000000000000000 = X * ((n : Int) * 1000000000000000000) := by ring
        _ ≤ _ := hXle
    exact le_of_mul_le_mul_right this hp
  obtain ⟨hc0, hc⟩ := chopPrecisionAndRound_bound X hX0
  refine ⟨hc0, ?_⟩
  generalize chopPrecisionAndRound X = c at hc0 hc
  have h1 : (2 * 1000000000000000000 * c) * n ≤ (2 * X + 1000000000000000000) * n :=
    mul_le_mul_of_nonneg_right hc (le_of_lt hnpos)
  have h2 : 1000000000000000000 * (2 * ((n : Int) * c))
      ≤ 1000000000000000000 * (2 * equalSplit * 1000000000000000000 + n) := by
    calc 1000000000000000000 * (2 * ((n : Int) * c))
        = (2 * 1000000000000000000 * c) * n := by ring
      _ ≤ (2 * X + 1000000000000000000) * n := h1
      _ = 2 * (X * n) + 1000000000000000000 * n := by ring
      _ ≤ 2 * (equalSplit * 1000000000000000000 * 1000000000000000000)
            + 1000000000000000000 * n := by omega
      _ = 1000000000000000000 * (2 * equalSplit * 1000000000000000000 + n) := by ring
  exact le_of_mul_le_mul_left h2 hp

theorem MinInt_cases (a b : Int) : (a < b ∧ MinInt a b = a) ∨ (b ≤ a ∧ MinInt a b = b) := by
  unfold MinInt
  split
  · left; exact ⟨by assumption, rfl⟩
  · right; exact ⟨by omega, rfl⟩

/-- After the two splits every weight is non-negative and `outSum` is below `input + 1`, when the
raised weights are non-negative integers, the input is non-negative and there are fewer than
`10^18` validators. -/
theorem splitWeights_bounds (input : Int) (deltas : List ValidatorIntent)
    (hraised : ∀ d ∈ deltas, ∃ a : Int, 0 ≤ a ∧ d.Weight = ToDec a)
    (hin : 0 ≤ input) (hlen : deltas.length < 1000000000000000000) :
    (∀ d ∈ (splitWeights input deltas).1, 0 ≤ d.Weight.i) ∧
    (splitWeights input deltas).2.i < (input + 1) * 1000000000000000000 := by
  obtain ⟨hS0, hW⟩ := raised_sums deltas hraised
  have hw0 : ∀ d ∈ deltas, 0 ≤ d.Weight.i := fun d hd => raised_weight_nonneg d (hraised d hd)
  have hlenI : (deltas.length : Int) < 1000000000000000000 := by exact_mod_cast hlen
  have hp : (0 : Int) < 1000000000000000000 := by decide
  by_cases hnil : deltas = []
  · subst hnil
    unfold splitWeights
    dsimp only
    split <;> split <;>
      simp [equalWeights, unequalWeights, sumWeights, Dec.ZeroDec] <;> omega
  have hn : deltas.length ≠ 0 := fun h => hnil (List.length_eq_zero.1 h)
  unfold splitWeights
  dsimp only
  generalize hS : sumTruncated deltas = S at hS0 hW ⊢
  simp only [precisionReuse] at hW
  rw [← sumWeights_eq] at hW
  rcases MinInt_cases S input with ⟨hlt, hu⟩ | ⟨hle, hu⟩
  · -- unequalSplit = sum, the equal split is positive
    rw [hu]
    have hE : input - S ≠ 0 := by omega
    rw [if_pos hE]
    by_cases hS0' : S = 0
    · subst hS0'
      simp only [ne_eq, not_true_eq_false, if_false]
      obtain ⟨he0, he⟩ := eachShare_bound (input - 0) deltas.length (by omega) hn
      refine ⟨?_, ?_⟩
      · intro d hd
        unfold equalWeights at hd
        obtain ⟨b, hb, rfl⟩ := List.mem_map.1 hd
        have := hw0 b hb
        simp only [Dec.Add]
        omega
      · rw [sumWeights_equalWeights, hW]
        generalize (deltas.length : Int) * (eachShare (input - 0) deltas.length).i = ne at he
        omega
    · have hSpos : 0 < S := by omega
      rw [if_pos hS0']
      dsimp only
      have hlen2 : (unequalWeights S S deltas).length = deltas.length := by
        simp [unequalWeights]
      rw [hlen2]
      obtain ⟨he0, he⟩ := eachShare_bound (input - S) deltas.length (by omega) hn
      obtain ⟨hT0, hT⟩ := quotients_bound deltas S hSpos hw0
      refine ⟨?_, ?_⟩
      · intro d hd
        unfold equalWeights unequalWeights at hd
        obtain ⟨b, hb, rfl⟩ := List.mem_map.1 hd
        obtain ⟨c, hc, rfl⟩ := List.mem_map.1 hb
        have h1 : 0 ≤ Int.tdiv c.Weight.i S := Int.tdiv_nonneg (hw0 c hc) (le_of_lt hSpos)
        have h2 : 0 ≤ Int.tdiv c.Weight.i S * S := Int.mul_nonneg h1 (le_of_lt hSpos)
        simp only [Dec.Add, Dec.MulInt]
        omega
      · rw [sumWeights_equalWeights, sumWeights_unequalWeights, hlen2]
        rw [← sumWeights_eq, hW] at hT
        generalize (deltas.length : Int) * (eachShare (input - S) deltas.length).i = ne at he
        generalize (deltas.map (fun d => Int.tdiv d.Weight.i S)).sum * S = ts at hT
        omega
  · -- unequalSplit = input, no equal split
    rw [hu]
    have hE : ¬ (input - input ≠ 0) := by omega
    rw [if_neg hE]
    by_cases hin0 : input = 0
    · subst hin0
      simp only [ne_eq, not_true_eq_false, if_false]
      exact ⟨hw0, by simp [Dec.ZeroDec]⟩
    · have hSpos : 0 < S := by omega
      rw [if_pos hin0]
      dsimp only
      obtain ⟨hT0, hT⟩ := quotients_bound deltas S hSpos hw0
      refine ⟨?_, ?_⟩
      · intro d hd
        unfold unequalWeights at hd
        obtain ⟨c, hc, rfl⟩ := List.mem_map.1 hd
        have h1 : 0 ≤ Int.tdiv c.Weight.i S := Int.tdiv_nonneg (hw0 c hc) (le_of_lt hSpos)
        exact Int.mul_nonneg h1 hin
      · rw [sumWeights_unequalWeights]
        rw [← sumWeights_eq, hW] at hT
        generalize (deltas.map (fun d => Int.tdiv d.Weight.i S)).sum = T at hT hT0
        have hTle : T ≤ 1000000000000000000 := by
          have : T * S ≤ 1000000000000000000 * S := by
            calc T * S ≤ S * 1000000000000000000 := hT
              _ = 1000000000000000000 * S := by ring
          exact le_of_mul_le_mul_right this hSpos
        have h3 : T * input ≤ 1000000000000000000 * input :=
          mul_le_mul_of_nonneg_right hTle hin
        generalize T * input = ti at h3
        omega

/-! ## Theorems: the planner on the inputs of its test table -/

/-- C1 (conservation), evaluated on test case 3 of `TestDetermineAllocations` (currents
52/24/20/4 with sum 100, targets 0.50/0.25/0.15/0.10, input 50): the code returns the plan
10, 13, 7, 18, whose total is 48 and not the input amount 50. -/
theorem C1_conservation_fails_on_test_case_3 :
    ∃ plan, DetermineAllocationsForDelegation tcCurrent4 100 (tcTargets4 50 25 15 10)
        [⟨"uqck", 50⟩] = some plan ∧
      mapGet plan "A" = some 10 ∧ mapGet plan "B" = some 13 ∧ mapGet plan "C" = some 7 ∧
      mapGet plan "D" = some 18 ∧ planTotal plan = 48 ∧ planTotal plan ≠ 50 :=
  ⟨_, rfl, by decide⟩

/-- C4 (dust recipient), evaluated on test case 1 of `TestDetermineAllocations`: the truncated
shares are A:0, B:33181, C:16818 and the dust unit is added to B, the validator with the largest
delta, while the first of the sorted target keys is A, whose amount stays 0. -/
theorem C4_dust_not_on_first_sorted_key :
    (Keys tcTargets3).head? = some "A" ∧
    ∃ plan, DetermineAllocationsForDelegation tcCurrent3 1075000 tcTargets3
        [⟨"uqck", 50000⟩] = some plan ∧
      mapGet plan "A" = some 0 ∧ mapGet plan "B" = some (33181 + 1) ∧
      mapGet plan "C" = some 16818 :=
  ⟨by decide, _, rfl, by decide⟩

/-- C5 (no prior allocations), evaluated on test case 4 of `TestDetermineAllocations` (no
currents, sum 0, four targets of weight 0.25, input 50): the code gives 12 to each of the four
validators, no validator receives 14, and the plan totals 48. -/
theorem C5_no_prior_allocations_plan :
    ∃ plan, DetermineAllocationsForDelegation [] 0 (tcTargets4 25 25 25 25)
        [⟨"uqck", 50⟩] = some plan ∧
      mapGet plan "A" = some 12 ∧ mapGet plan "B" = some 12 ∧ mapGet plan "C" = some 12 ∧
      mapGet plan "D" = some 12 ∧ plan.length = 4 ∧ planTotal plan = 48 :=
  ⟨_, rfl, by decide⟩

/-- C6 (dust placement example): for currents A:350000, B:650000, C:75000, sum 1075000, targets
0.30/0.63/0.07 and input 50000 the plan has exactly the three entries A:0, B:33181+1, C:16818,
that is the truncated shares with the single dust unit added to one validator, and it sums to
exactly 50000. -/
theorem C6_dust_placement_example :
    ∃ plan, DetermineAllocationsForDelegation tcCurrent3 1075000 tcTargets3
        [⟨"uqck", 50000⟩] = some plan ∧
      planTotal plan = 50000 ∧ plan.length = 3 ∧
      mapGet plan "A" = some 0 ∧ mapGet plan "B" = some (33181 + 1) ∧
      mapGet plan "C" = some 16818 :=
  ⟨_, rfl, by decide⟩

/-- C8 (zero amount), counterexample: with current allocation A:10, sum 10, targets A:0.5 and
B:0.5 and an amount whose first coin is zero, the code reports no error: it returns a plan, and
that plan allocates 10 to B. -/
theorem C8_zero_amount_returns_plan :
    DetermineAllocationsForDelegation [("A", 10)] 10
        [("A", ⟨"A", Dec.NewDecWithPrec 50 2⟩), ("B", ⟨"B", Dec.NewDecWithPrec 50 2⟩)]
        [⟨"uqck", 0⟩] = some [("B", 10), ("A", 0)] := by
  decide


/-! ## Theorems: the planner on every input -/

theorem no_division_by_zero (input : Int) (deltas : List ValidatorIntent) (hin : 0 ≤ input) :
    MinInt (sumTruncated deltas) input ≠ 0 → sumTruncated deltas ≠ 0 := by
  intro hu hs
  rw [hs] at hu
  rcases MinInt_cases 0 input with ⟨_, h⟩ | ⟨h1, h⟩
  · exact hu h
  · rw [h] at hu
    omega

theorem DetermineAllocationsForDelegation_some (currentAllocations : List (String × Int))
    (currentSum : Int) (targetAllocations : List (String × ValidatorIntent))
    (coin : Coin) (rest : List Coin) (hne : targetAllocations ≠ []) (hin : 0 ≤ coin.Amount) :
    DetermineAllocationsForDelegation currentAllocations currentSum targetAllocations
        (coin :: rest) =
      some (outWeights (finalDeltas coin.Amount
        (orderedDeltas currentAllocations currentSum targetAllocations))) := by
  rw [DetermineAllocationsForDelegation_eq,
    if_neg (orderedDeltas_ne_nil currentAllocations currentSum targetAllocations hne), if_neg]
  rintro ⟨hu, hs⟩
  exact no_division_by_zero coin.Amount _ hin hu hs

theorem mem_addDust (dust : Int) (deltas : List ValidatorIntent) (hd : 0 ≤ dust)
    (h : ∀ d ∈ deltas, 0 ≤ d.Weight.i) : ∀ d ∈ addDust dust deltas, 0 ≤ d.Weight.i := by
  cases deltas with
  | nil => simp [addDust]
  | cons d0 tl =>
    intro d hmem
    unfold addDust at hmem
    rcases List.mem_cons.1 hmem with rfl | hmem
    · have h0 := h d0 (by simp)
      have h1 : 0 ≤ dust * precisionReuse := Int.mul_nonneg hd (le_of_lt precisionReuse_pos)
      simp only [Dec.Add, ToDec]
      omega
    · exact h d (List.mem_cons_of_mem _ hmem)

/-- C2 (non-negativity): for a non-empty target with fewer than `10^18` validators, any current
allocations and a non-negative first coin, the planner returns a plan and every amount in that
plan is `≥ 0`. -/
theorem C2_plan_amounts_nonneg (currentAllocations : List (String × Int)) (currentSum : Int)
    (targetAllocations : List (String × ValidatorIntent)) (coin : Coin) (rest : List Coin)
    (hne : targetAllocations ≠ [])
    (hlen : (Keys targetAllocations).length < 1000000000000000000)
    (hin : 0 ≤ coin.Amount) :
    ∃ plan, DetermineAllocationsForDelegation currentAllocations currentSum targetAllocations
        (coin :: rest) = some plan ∧ ∀ x ∈ plan, 0 ≤ x.2 := by
  refine ⟨_, DetermineAllocationsForDelegation_some _ _ _ coin rest hne hin, ?_⟩
  intro x hx
  obtain ⟨d, hd, rfl⟩ := mem_outWeights _ x hx
  have hb := splitWeights_bounds coin.Amount
    (orderedDeltas currentAllocations currentSum targetAllocations)
    (fun d hd => (mem_orderedDeltas _ _ _ d hd).2) hin
    (by rw [length_orderedDeltas]; exact hlen)
  have hdust : 0 ≤ coin.Amount - (splitWeights coin.Amount
      (orderedDeltas currentAllocations currentSum targetAllocations)).2.TruncateInt := by
    have := TruncateInt_le _ coin.Amount hin hb.2
    omega
  exact TruncateInt_nonneg _ (mem_addDust _ _ hdust hb.1 d hd)

/-- The non-negativity theorem instantiated on test case 1 of `TestDetermineAllocations`. -/
theorem C2_plan_amounts_nonneg_witness :
    tcTargets3 ≠ [] ∧ (Keys tcTargets3).length < 1000000000000000000 ∧
    (0 : Int) ≤ (Coin.mk "uqck" 50000).Amount ∧
    ∃ plan, DetermineAllocationsForDelegation tcCurrent3 1075000 tcTargets3
        [Coin.mk "uqck" 50000] = some plan ∧ ∀ x ∈ plan, 0 ≤ x.2 :=
  ⟨by decide, by decide, by decide,
    C2_plan_amounts_nonneg tcCurrent3 1075000 tcTargets3 (Coin.mk "uqck" 50000) []
      (by decide) (by decide) (by decide)⟩

theorem mapGet_plan_iff (input : Int) (currentAllocations : List (String × Int))
    (currentSum : Int) (targetAllocations : List (String × ValidatorIntent)) (v : String) :
    (∃ a, mapGet (outWeights (finalDeltas input
      (orderedDeltas currentAllocations currentSum targetAllocations))) v = some a)
      ↔ ∃ t, mapGet targetAllocations v = some t := by
  rw [mapGet_isSome_iff, mapGet_isSome_iff, keys_outWeights, addresses_finalDeltas,
    (addresses_orderedDeltas currentAllocations currentSum targetAllocations).mem_iff, mem_Keys]

/-- C3 (plan keys): for a non-empty target, any plan the planner returns has an entry for exactly
the validators that have a target entry, so a validator with a current allocation but no target
entry is absent from it; and the planner does return a plan whenever the first coin of the amount
is non-negative. -/
theorem C3_plan_keys_are_target_keys (currentAllocations : List (String × Int))
    (currentSum : Int) (targetAllocations : List (String × ValidatorIntent))
    (amount : List Coin) (hne : targetAllocations ≠ []) :
    (∀ plan, DetermineAllocationsForDelegation currentAllocations currentSum targetAllocations
        amount = some plan →
      (∀ v, (∃ a, mapGet plan v = some a) ↔ (∃ t, mapGet targetAllocations v = some t)) ∧
      (∀ v, (∃ c, mapGet currentAllocations v = some c) → mapGet targetAllocations v = none →
        mapGet plan v = none)) ∧
    (∀ coin rest, amount = coin :: rest → 0 ≤ coin.Amount →
      ∃ plan, DetermineAllocationsForDelegation currentAllocations currentSum targetAllocations
        amount = some plan) := by
  constructor
  · intro plan hplan
    have hkeys : ∀ v, (∃ a, mapGet plan v = some a)
        ↔ (∃ t, mapGet targetAllocations v = some t) := by
      intro v
      cases amount with
      | nil => simp [DetermineAllocationsForDelegation] at hplan
      | cons coin rest =>
        rw [DetermineAllocationsForDelegation_eq] at hplan
        split at hplan
        · exact absurd hplan (by simp)
        · split at hplan
          · exact absurd hplan (by simp)
          · rw [← Option.some.inj hplan]
            exact mapGet_plan_iff _ _ _ _ v
    refine ⟨hkeys, ?_⟩
    intro v _ htgt
    cases hp : mapGet plan v with
    | none => rfl
    | some a =>
      obtain ⟨t, ht⟩ := (hkeys v).1 ⟨a, hp⟩
      rw [htgt] at ht
      exact absurd ht (by simp)
  · intro coin rest hamount hin
    subst hamount
    exact ⟨_, DetermineAllocationsForDelegation_some _ _ _ coin rest hne hin⟩

/-- The plan-keys theorem instantiated: current allocations for A, B and Z, targets for A
and B only. -/
theorem C3_plan_keys_are_target_keys_witness :
    ([("A", ⟨"A", Dec.NewDecWithPrec 50 2⟩), ("B", ⟨"B", Dec.NewDecWithPrec 50 2⟩)] :
      List (String × ValidatorIntent)) ≠ [] ∧
    ((∀ plan, DetermineAllocationsForDelegation [("A", 10), ("B", 20), ("Z", 30)] 60
        [("A", ⟨"A", Dec.NewDecWithPrec 50 2⟩), ("B", ⟨"B", Dec.NewDecWithPrec 50 2⟩)]
        [Coin.mk "uqck" 7] = some plan →
      (∀ v, (∃ a, mapGet plan v = some a) ↔
        (∃ t, mapGet ([("A", ⟨"A", Dec.NewDecWithPrec 50 2⟩),
          ("B", ⟨"B", Dec.NewDecWithPrec 50 2⟩)] : List (String × ValidatorIntent)) v
            = some t)) ∧
      (∀ v, (∃ c, mapGet ([("A", 10), ("B", 20), ("Z", 30)] : List (String × Int)) v = some c) →
        mapGet ([("A", ⟨"A", Dec.NewDecWithPrec 50 2⟩),
          ("B", ⟨"B", Dec.NewDecWithPrec 50 2⟩)] : List (String × ValidatorIntent)) v = none →
        mapGet plan v = none)) ∧
    (∀ coin rest, [Coin.mk "uqck" 7] = coin :: rest → 0 ≤ coin.Amount →
      ∃ plan, DetermineAllocationsForDelegation [("A", 10), ("B", 20), ("Z", 30)] 60
        [("A", ⟨"A", Dec.NewDecWithPrec 50 2⟩), ("B", ⟨"B", Dec.NewDecWithPrec 50 2⟩)]
        [Coin.mk "uqck" 7] = some plan)) :=
  ⟨by decide, C3_plan_keys_are_target_keys [("A", 10), ("B", 20), ("Z", 30)] 60
    [("A", ⟨"A", Dec.NewDecWithPrec 50 2⟩), ("B", ⟨"B", Dec.NewDecWithPrec 50 2⟩)]
    [Coin.mk "uqck" 7] (by decide)⟩

/-- No division by zero, with integers and decimals of arbitrary precision: for a non-empty
target, any current allocations, any currentSum and an amount whose first coin is non-negative,
the planner without the bit-length limits returns a plan (a division by zero would make the
result `none`); the unequal split, which divides by the sum of the raised deltas, is entered only
when that sum is non-zero, and the equal split divides by a validator count `≥ 1`. -/
theorem planner_without_limits_completes (currentAllocations : List (String × Int)) (currentSum : Int)
    (targetAllocations : List (String × ValidatorIntent)) (coin : Coin) (rest : List Coin)
    (hne : targetAllocations ≠ []) (hin : 0 ≤ coin.Amount) :
    (∃ plan, DetermineAllocationsForDelegation currentAllocations currentSum targetAllocations
        (coin :: rest) = some plan) ∧
    (MinInt (sumTruncated (orderedDeltas currentAllocations currentSum targetAllocations))
        coin.Amount ≠ 0 →
      sumTruncated (orderedDeltas currentAllocations currentSum targetAllocations) ≠ 0) ∧
    1 ≤ (orderedDeltas currentAllocations currentSum targetAllocations).length := by
  refine ⟨⟨_, DetermineAllocationsForDelegation_some _ _ _ coin rest hne hin⟩,
    no_division_by_zero coin.Amount _ hin, ?_⟩
  have h := orderedDeltas_ne_nil currentAllocations currentSum targetAllocations hne
  cases hds : orderedDeltas currentAllocations currentSum targetAllocations with
  | nil => exact absurd hds h
  | cons d tl => simp

theorem foldl_min_ge (deltas : List ValidatorIntent) (init lb : Int) (h0 : lb ≤ init)
    (h : ∀ d ∈ deltas, lb ≤ d.Weight.TruncateInt) :
    lb ≤ deltas.foldl (fun minValue intent =>
      if intent.Weight.TruncateInt < minValue then intent.Weight.TruncateInt else minValue)
      init := by
  induction deltas generalizing init with
  | nil => simpa using h0
  | cons d rest ih =>
    rw [List.foldl_cons]
    apply ih
    · have := h d (by simp)
      split <;> omega
    · exact fun x hx => h x (List.mem_cons_of_mem _ hx)

theorem finalDeltas_zero_input (deltas : List ValidatorIntent)
    (hraised : ∀ d ∈ deltas, ∃ a : Int, 0 ≤ a ∧ d.Weight = ToDec a) :
    finalDeltas 0 deltas = deltas := by
  obtain ⟨hS0, _⟩ := raised_sums deltas hraised
  have hu : MinInt (sumTruncated deltas) 0 = 0 := by
    rcases MinInt_cases (sumTruncated deltas) 0 with ⟨h1, _⟩ | ⟨_, h2⟩
    · omega
    · exact h2
  unfold finalDeltas splitWeights
  simp only [hu, ne_eq, not_true_eq_false, if_false, sub_self]
  cases deltas with
  | nil => rfl
  | cons d0 tl =>
    simp [addDust, Dec.ZeroDec, Dec.TruncateInt, chopPrecisionAndTruncate, ToDec, Dec.Add]

theorem orderedDeltas_no_prior (targetAllocations : List (String × ValidatorIntent))
    (d : ValidatorIntent) (h : d ∈ orderedDeltas [] 0 targetAllocations) :
    d.Weight.TruncateInt = 0 := by
  have hbase : ∀ b ∈ baseDeltas [] 0 targetAllocations, b.Weight = ToDec 0 := by
    intro b hb
    unfold baseDeltas at hb
    obtain ⟨k, _, rfl⟩ := List.mem_map.1 hb
    simp [deltaValue, currentOf, mapGet, Dec.MulInt, Dec.TruncateInt, chopPrecisionAndTruncate]
  have h1 := (perm_orderedDeltas [] 0 targetAllocations).mem_iff.1 h
  unfold raiseDeltas at h1
  obtain ⟨b, hb, rfl⟩ := List.mem_map.1 h1
  have hle : minDeltas (baseDeltas [] 0 targetAllocations) ≤ 0 := by
    have := minDeltas_le _ b hb
    rwa [hbase b hb, TruncateInt_ToDec] at this
  have hge : 0 ≤ minDeltas (baseDeltas [] 0 targetAllocations) := by
    apply foldl_min_ge _ _ _ (by decide)
    intro x hx
    rw [hbase x hx, TruncateInt_ToDec]
  have hmin : minDeltas (baseDeltas [] 0 targetAllocations) = 0 := by omega
  simp [hmin, hbase b hb, Abs, ToDec, Dec.Add, Dec.TruncateInt, chopPrecisionAndTruncate]

/-- C8 (zero amount), as amended: the planner has no error result; for a non-empty target and an
amount whose first coin is zero it completes and returns a plan with an entry for exactly the
target validators, and when there are no prior delegations (currentSum 0, no current allocations)
every amount of that plan is 0. -/
theorem C8_zero_amount_plan (currentAllocations : List (String × Int)) (currentSum : Int)
    (targetAllocations : List (String × ValidatorIntent)) (coin : Coin) (rest : List Coin)
    (hne : targetAllocations ≠ []) (hzero : coin.Amount = 0) :
    ∃ plan, DetermineAllocationsForDelegation currentAllocations currentSum targetAllocations
        (coin :: rest) = some plan ∧
      (∀ v, (∃ a, mapGet plan v = some a) ↔ (∃ t, mapGet targetAllocations v = some t)) ∧
      (currentSum = 0 → currentAllocations = [] → ∀ x ∈ plan, x.2 = 0) := by
  refine ⟨_, DetermineAllocationsForDelegation_some _ _ _ coin rest hne (by omega),
    fun v => mapGet_plan_iff _ _ _ _ v, ?_⟩
  intro hcs hcur x hx
  subst hcs hcur
  rw [hzero, finalDeltas_zero_input _ (fun d hd => (mem_orderedDeltas _ _ _ d hd).2)] at hx
  obtain ⟨d, hd, rfl⟩ := mem_outWeights _ x hx
  exact orderedDeltas_no_prior targetAllocations d hd

/-- The zero-amount theorem instantiated: targets A and B, no prior delegations, a zero coin. -/
theorem C8_zero_amount_plan_witness :
    ([("A", ⟨"A", Dec.NewDecWithPrec 50 2⟩), ("B", ⟨"B", Dec.NewDecWithPrec 50 2⟩)] :
      List (String × ValidatorIntent)) ≠ [] ∧ (Coin.mk "uqck" 0).Amount = 0 ∧
    ∃ plan, DetermineAllocationsForDelegation [] 0
        [("A", ⟨"A", Dec.NewDecWithPrec 50 2⟩), ("B", ⟨"B", Dec.NewDecWithPrec 50 2⟩)]
        [Coin.mk "uqck" 0] = some plan ∧
      (∀ v, (∃ a, mapGet plan v = some a) ↔
        (∃ t, mapGet ([("A", ⟨"A", Dec.NewDecWithPrec 50 2⟩),
          ("B", ⟨"B", Dec.NewDecWithPrec 50 2⟩)] : List (String × ValidatorIntent)) v
            = some t)) ∧
      ((0 : Int) = 0 → ([] : List (String × Int)) = [] → ∀ x ∈ plan, x.2 = 0) :=
  ⟨by decide, rfl, C8_zero_amount_plan [] 0
    [("A", ⟨"A", Dec.NewDecWithPrec 50 2⟩), ("B", ⟨"B", Dec.NewDecWithPrec 50 2⟩)]
    (Coin.mk "uqck" 0) [] (by decide) rfl⟩


/-! ## Lemmas: maps with distinct keys -/

theorem mapGet_mapSet {α : Type} (m : List (String × α)) (k v' : String) (x : α) :
    mapGet (mapSet m k x) v' = if k = v' then some x else mapGet m v' := by
  induction m with
  | nil => simp [mapSet, mapGet]
  | cons kv rest ih =>
    obtain ⟨k', v⟩ := kv
    unfold mapSet
    by_cases hk : k' = k
    · subst hk
      by_cases hv : k' = v' <;> simp [mapGet, hv]
    · simp only [hk, if_false]
      by_cases hv : k' = v'
      · subst hv
        have : ¬ k = k' := fun h => hk h.symm
        simp [mapGet, this]
      · simp [mapGet, hv, ih]

theorem mapSet_eq_map {α : Type} (m : List (String × α)) (k : String) (x : α)
    (hnd : (m.map Prod.fst).Nodup) (hk : k ∈ m.map Prod.fst) :
    mapSet m k x = m.map (fun kv => if kv.1 = k then (k, x) else kv) := by
  induction m with
  | nil => simp at hk
  | cons kv rest ih =>
    obtain ⟨k', v⟩ := kv
    simp only [List.map_cons, List.nodup_cons] at hnd
    unfold mapSet
    by_cases h : k' = k
    · subst h
      have hrest : rest.map (fun kv => if kv.1 = k' then (k', x) else kv) = rest := by
        conv_rhs => rw [← List.map_id rest]
        apply List.map_congr_left
        intro kv hkv
        have : kv.1 ≠ k' := fun h => hnd.1 (h ▸ List.mem_map_of_mem Prod.fst hkv)
        simp [this]
      simp [hrest]
    · have hk2 : k ∈ rest.map Prod.fst := by
        simp only [List.map_cons, List.mem_cons] at hk
        rcases hk with hk | hk
        · exact absurd hk.symm h
        · exact hk
      simp [h, ih hnd.2 hk2]

theorem mapGet_of_mem {α : Type} (m : List (String × α)) (kv : String × α)
    (hnd : (m.map Prod.fst).Nodup) (h : kv ∈ m) : mapGet m kv.1 = some kv.2 := by
  induction m with
  | nil => simp at h
  | cons kv' rest ih =>
    obtain ⟨k', v'⟩ := kv'
    simp only [List.map_cons, List.nodup_cons] at hnd
    rcases List.mem_cons.1 h with rfl | h
    · simp [mapGet]
    · have : k' ≠ kv.1 := fun hk => hnd.1 (hk ▸ List.mem_map_of_mem Prod.fst h)
      simp [mapGet, this, ih hnd.2 h]

theorem mapRange_of_nodup {α : Type} (m : List (String × α)) (hnd : (m.map Prod.fst).Nodup) :
    mapRange m = m := by
  induction m with
  | nil => rfl
  | cons kv rest ih =>
    simp only [List.map_cons, List.nodup_cons] at hnd
    unfold mapRange
    rw [ih hnd.2]
    congr 1
    apply List.filter_eq_self.2
    intro x hx
    have : x.1 ≠ kv.1 := fun h => hnd.1 (h ▸ List.mem_map_of_mem Prod.fst hx)
    simp [this]

theorem updateWeight_eq_map (f : Dec → Dec) (m : List (String × ValidatorIntent)) (i : String)
    (hnd : (m.map Prod.fst).Nodup) :
    updateWeight f m i
      = m.map (fun kv => if kv.1 = i then (kv.1, { kv.2 with Weight := f kv.2.Weight })
          else kv) := by
  unfold updateWeight
  cases hget : mapGet m i with
  | none =>
    have hni : i ∉ m.map Prod.fst := (mapGet_eq_none_iff m i).1 hget
    conv_lhs => rw [← List.map_id m]
    apply List.map_congr_left
    intro kv hkv
    have : kv.1 ≠ i := fun h => hni (h ▸ List.mem_map_of_mem Prod.fst hkv)
    simp [this]
  | some vi =>
    have hi : i ∈ m.map Prod.fst := (mapGet_isSome_iff m i).1 ⟨vi, hget⟩
    simp only []
    rw [mapSet_eq_map m i _ hnd hi]
    apply List.map_congr_left
    intro kv hkv
    by_cases h : kv.1 = i
    · have h2 := mapGet_of_mem m kv hnd hkv
      rw [h, hget] at h2
      simp [h, Option.some.inj h2]
    · simp [h]

theorem foldl_updateWeight (f : Dec → Dec) (l : List String)
    (m : List (String × ValidatorIntent)) (hl : l.Nodup) (hnd : (m.map Prod.fst).Nodup) :
    List.foldl (updateWeight f) m l
      = m.map (fun kv => if kv.1 ∈ l then (kv.1, { kv.2 with Weight := f kv.2.Weight })
          else kv) := by
  induction l generalizing m with
  | nil => simp
  | cons k rest ih =>
    rw [List.foldl_cons, updateWeight_eq_map f m k hnd]
    have hkeys : (m.map (fun kv => if kv.1 = k then
        (kv.1, ({ kv.2 with Weight := f kv.2.Weight } : ValidatorIntent)) else kv)).map Prod.fst
        = m.map Prod.fst := by
      rw [List.map_map]
      apply List.map_congr_left
      intro kv _
      by_cases h : kv.1 = k <;> simp [h]
    rw [ih _ (List.nodup_cons.1 hl).2 (by rw [hkeys]; exact hnd), List.map_map]
    apply List.map_congr_left
    intro kv _
    have hk : k ∉ rest := (List.nodup_cons.1 hl).1
    by_cases h : kv.1 = k
    · subst h
      simp [hk]
    · have h2 : ¬ k = kv.1 := fun e => h e.symm
      simp [h, h2]

theorem chopPrecisionAndRound_mul (x : Int) :
    chopPrecisionAndRound (x * precisionReuse) = x := by
  have hpos : ∀ y : Int, 0 ≤ y → chopPrecisionAndRoundPos (y * precisionReuse) = y := by
    intro y _
    unfold chopPrecisionAndRoundPos
    have h1 : Int.tdiv (y * precisionReuse) precisionReuse = y :=
      Int.mul_tdiv_cancel _ (ne_of_gt precisionReuse_pos)
    have h2 : Int.tmod (y * precisionReuse) precisionReuse = 0 := Int.mul_tmod_left _ _
    simp [h1, h2]
  unfold chopPrecisionAndRound
  by_cases h : x * precisionReuse < 0
  · have hx : x < 0 := by
      by_contra hx
      have := Int.mul_nonneg (not_lt.1 hx) (le_of_lt precisionReuse_pos)
      omega
    rw [if_pos h, ← Int.neg_mul, hpos (-x) (by omega), neg_neg]
  · have hx : 0 ≤ x := by
      by_contra hx
      have := Int.mul_neg_of_neg_of_pos (not_le.1 hx) precisionReuse_pos
      exact h this
    rw [if_neg h, hpos x hx]

theorem Ordinalize_Intents (di : DelegatorIntent) (b : Int)
    (hnd : (di.Intents.map Prod.fst).Nodup) :
    (di.Ordinalize (ToDec b)).Intents
      = di.Intents.map (fun kv => (kv.1, { kv.2 with Weight := ⟨kv.2.Weight.i * b⟩ })) := by
  unfold DelegatorIntent.Ordinalize
  simp only []
  rw [foldl_updateWeight _ _ _ (nodup_Keys di.Intents) hnd]
  apply List.map_congr_left
  intro kv hkv
  have hmem : kv.1 ∈ Keys di.Intents := (mem_Keys _ _).2 (List.mem_map_of_mem Prod.fst hkv)
  have hmul : kv.2.Weight.Mul (ToDec b) = ⟨kv.2.Weight.i * b⟩ := by
    simp only [Dec.Mul, ToDec, ← mul_assoc, chopPrecisionAndRound_mul]
  simp [hmem, hmul]


/-! ## Lemmas: the running map of the aggregation -/

theorem mapGet_map_snd {α β : Type} (g : α → β) (m : List (String × α)) (v : String) :
    mapGet (m.map (fun kv => (kv.1, g kv.2))) v = (mapGet m v).map g := by
  induction m with
  | nil => rfl
  | cons kv rest ih =>
    obtain ⟨k', x⟩ := kv
    by_cases h : k' = v <;> simp [mapGet, h, ih]

theorem nodup_mapSet {α : Type} (m : List (String × α)) (k : String) (x : α)
    (hnd : (m.map Prod.fst).Nodup) : ((mapSet m k x).map Prod.fst).Nodup := by
  induction m with
  | nil => simp [mapSet]
  | cons kv rest ih =>
    obtain ⟨k', v⟩ := kv
    simp only [List.map_cons, List.nodup_cons] at hnd
    unfold mapSet
    by_cases h : k' = k
    · subst h
      simp only [if_true, List.map_cons, List.nodup_cons]
      exact hnd
    · simp only [h, if_false, List.map_cons, List.nodup_cons]
      refine ⟨?_, ih hnd.2⟩
      intro hmem
      rcases (keys_mapSet rest k x k').1 hmem with h1 | h1
      · exact h h1
      · exact hnd.1 h1

theorem accumulateIntent_snd (acc : List (String × ValidatorIntent) × Dec)
    (e : ValidatorIntent) : (accumulateIntent acc e).2 = acc.2.Add e.Weight := by
  unfold accumulateIntent
  cases mapGet acc.1 e.ValoperAddress <;> rfl

theorem accumulateIntent_mapGet (acc : List (String × ValidatorIntent) × Dec)
    (e : ValidatorIntent) (v : String) :
    mapGet (accumulateIntent acc e).1 v
      = if e.ValoperAddress = v then
          some (match mapGet acc.1 e.ValoperAddress with
            | none => e
            | some t => { t with Weight := t.Weight.Add e.Weight })
        else mapGet acc.1 v := by
  unfold accumulateIntent
  cases mapGet acc.1 e.ValoperAddress <;> simp [mapGet_mapSet]

theorem accumulateIntent_keys (acc : List (String × ValidatorIntent) × Dec)
    (e : ValidatorIntent) (v : String) :
    v ∈ (accumulateIntent acc e).1.map Prod.fst
      ↔ v = e.ValoperAddress ∨ v ∈ acc.1.map Prod.fst := by
  unfold accumulateIntent
  cases mapGet acc.1 e.ValoperAddress <;> simp only [keys_mapSet]

theorem accumulateIntent_nodup (acc : List (String × ValidatorIntent) × Dec)
    (e : ValidatorIntent) (hnd : (acc.1.map Prod.fst).Nodup) :
    ((accumulateIntent acc e).1.map Prod.fst).Nodup := by
  unfold accumulateIntent
  cases mapGet acc.1 e.ValoperAddress <;> exact nodup_mapSet _ _ _ hnd

theorem foldl_accumulate_snd (es : List ValidatorIntent)
    (acc : List (String × ValidatorIntent) × Dec) :
    (es.foldl accumulateIntent acc).2.i = acc.2.i + (es.map (fun e => e.Weight.i)).sum := by
  induction es generalizing acc with
  | nil => simp
  | cons e rest ih =>
    rw [List.foldl_cons, ih, accumulateIntent_snd]
    simp [Dec.Add, add_assoc]

theorem foldl_accumulate_nodup (es : List ValidatorIntent)
    (acc : List (String × ValidatorIntent) × Dec) (hnd : (acc.1.map Prod.fst).Nodup) :
    ((es.foldl accumulateIntent acc).1.map Prod.fst).Nodup := by
  induction es generalizing acc with
  | nil => exact hnd
  | cons e rest ih =>
    rw [List.foldl_cons]
    exact ih _ (accumulateIntent_nodup acc e hnd)

theorem foldl_accumulate_keys (es : List ValidatorIntent)
    (acc : List (String × ValidatorIntent) × Dec) (v : String) :
    v ∈ (es.foldl accumulateIntent acc).1.map Prod.fst
      ↔ v ∈ acc.1.map Prod.fst ∨ v ∈ es.map (fun e => e.ValoperAddress) := by
  induction es generalizing acc with
  | nil => simp
  | cons e rest ih =>
    rw [List.foldl_cons, ih, accumulateIntent_keys]
    simp only [List.map_cons, List.mem_cons]
    tauto

theorem foldl_accumulate_mapGet (es : List ValidatorIntent)
    (acc : List (String × ValidatorIntent) × Dec) (v : String) :
    mapGet (es.foldl accumulateIntent acc).1 v
      = match mapGet acc.1 v with
        | some t => some { t with Weight := ⟨t.Weight.i
            + ((es.filter (fun e => decide (e.ValoperAddress = v))).map
                (fun e => e.Weight.i)).sum⟩ }
        | none =>
          if v ∈ es.map (fun e => e.ValoperAddress) then
            some ⟨v, ⟨((es.filter (fun e => decide (e.ValoperAddress = v))).map
              (fun e => e.Weight.i)).sum⟩⟩
          else none := by
  induction es generalizing acc with
  | nil =>
    cases h : mapGet acc.1 v <;> simp [h]
  | cons e rest ih =>
    rw [List.foldl_cons, ih, accumulateIntent_mapGet]
    by_cases hv : e.ValoperAddress = v
    · subst hv
      cases h : mapGet acc.1 e.ValoperAddress <;>
        simp [h, Dec.Add, add_assoc]
    · have hv2 : ¬ v = e.ValoperAddress := fun h => hv h.symm
      cases h : mapGet acc.1 v <;> simp [h, hv, hv2]

/-! ## Lemmas: the closed form of the aggregation -/

theorem delegatorBalance_of_decode (k : Keeper) (zone : Zone) (intent : DelegatorIntent)
    (addr : AccAddress) (h : k.AccAddressFromBech32 intent.Delegator = some addr) :
    (k.GetBalance addr zone.LocalDenom).Amount = delegatorBalance k zone intent := by
  simp [delegatorBalance, h]

theorem reduceIntents_eq (k : Keeper) (zone : Zone) (l : List DelegatorIntent)
    (acc : List (String × ValidatorIntent) × Dec)
    (hres : ∀ d ∈ l, ∃ addr, k.AccAddressFromBech32 d.Delegator = some addr)
    (hnodup : ∀ d ∈ l, (d.Intents.map Prod.fst).Nodup) :
    reduceIntents k zone l acc
      = Except.ok ((ordinalizedIntents k zone l).foldl accumulateIntent acc) := by
  induction l generalizing acc with
  | nil => rfl
  | cons d rest ih =>
    obtain ⟨addr, haddr⟩ := hres d (by simp)
    have hnd := hnodup d (by simp)
    unfold reduceIntents ordinalizedIntents
    simp only [haddr]
    rw [ih _ (fun x hx => hres x (List.mem_cons_of_mem _ hx))
      (fun x hx => hnodup x (List.mem_cons_of_mem _ hx)), List.foldl_append]
    rw [Ordinalize_Intents d _ hnd, delegatorBalance_of_decode k zone d addr haddr]
    have hnd2 : ((d.Intents.map (fun kv => (kv.1,
        ({ kv.2 with Weight := ⟨kv.2.Weight.i * delegatorBalance k zone d⟩ }
          : ValidatorIntent)))).map Prod.fst).Nodup := by
      rw [List.map_map]
      exact hnd
    rw [mapRange_of_nodup _ hnd2, List.foldl_map, List.foldl_map]

theorem foldl_normalise (ordinalizedIntentSum : Dec)
    (l m : List (String × ValidatorIntent)) (hl : (l.map Prod.fst).Nodup)
    (hm : (m.map Prod.fst).Nodup) (hsub : ∀ kv ∈ l, kv ∈ m) :
    l.foldl (fun acc kv => mapSet acc kv.1
        { kv.2 with Weight := quotientWeight ordinalizedIntentSum kv.2.Weight }) m
      = m.map (fun kv => if kv.1 ∈ l.map Prod.fst then
          (kv.1, { kv.2 with Weight := quotientWeight ordinalizedIntentSum kv.2.Weight })
          else kv) := by
  induction l generalizing m with
  | nil => simp
  | cons kv0 rest ih =>
    simp only [List.map_cons, List.nodup_cons] at hl
    have hkv0 : kv0 ∈ m := hsub kv0 (by simp)
    have hk0 : kv0.1 ∈ m.map Prod.fst := List.mem_map_of_mem Prod.fst hkv0
    rw [List.foldl_cons, mapSet_eq_map m kv0.1 _ hm hk0]
    have hkeys : (m.map (fun kv => if kv.1 = kv0.1 then
        (kv0.1, ({ kv0.2 with Weight := quotientWeight ordinalizedIntentSum kv0.2.Weight }
          : ValidatorIntent)) else kv)).map Prod.fst
        = m.map Prod.fst := by
      rw [List.map_map]
      apply List.map_congr_left
      intro kv _
      by_cases h : kv.1 = kv0.1 <;> simp [h]
    rw [ih _ hl.2 (by rw [hkeys]; exact hm)]
    · rw [List.map_map]
      apply List.map_congr_left
      intro kv hkv
      by_cases h : kv.1 = kv0.1
      · have hEq : kv = kv0 := by
          have h1 := mapGet_of_mem m kv hm hkv
          have h2 := mapGet_of_mem m kv0 hm hkv0
          rw [h, h2] at h1
          exact Prod.ext h (Option.some.inj h1).symm
        subst hEq
        simp [hl.1]
      · simp only [Function.comp_apply, h, if_false, List.map_cons, List.mem_cons, false_or]
    · intro kv hkv
      have hne : kv.1 ≠ kv0.1 := fun h => hl.1 (h ▸ List.mem_map_of_mem Prod.fst hkv)
      apply List.mem_map.2
      exact ⟨kv, hsub kv (List.mem_cons_of_mem _ hkv), by simp [hne]⟩

theorem foldl_some {α β : Type} (f : β → α → β) (l : List α) (b : β) :
    l.foldl (fun acc a => Option.map (fun m => f m a) acc) (some b) = some (l.foldl f b) := by
  induction l generalizing b with
  | nil => rfl
  | cons a rest ih =>
    simp only [List.foldl_cons, Option.map_some']
    exact ih _

theorem normaliseIntents_eq (ordinalizedIntentSum : Dec) (m : List (String × ValidatorIntent))
    (hm : (m.map Prod.fst).Nodup) (hs : ordinalizedIntentSum.i ≠ 0 ∨ m = []) :
    normaliseIntents ordinalizedIntentSum m = some (normalisedIntents ordinalizedIntentSum m) := by
  rcases hs with hs | hs
  · unfold normaliseIntents normalisedIntents
    have hstep : (fun (acc : Option (List (String × ValidatorIntent)))
        (kv : String × ValidatorIntent) =>
          match acc with
          | none => none
          | some m =>
            match kv.2.Weight.Quo ordinalizedIntentSum with
            | none => none
            | some q => some (mapSet m kv.1 { kv.2 with Weight := q }))
        = (fun acc kv => Option.map (fun m => mapSet m kv.1
              { kv.2 with Weight := quotientWeight ordinalizedIntentSum kv.2.Weight }) acc) := by
      funext acc kv
      cases acc with
      | none => rfl
      | some m => simp [Dec.Quo, hs, quotientWeight]
    rw [hstep, mapRange_of_nodup m hm]
    refine (foldl_some (fun m' kv => mapSet m' kv.1
      { kv.2 with Weight := quotientWeight ordinalizedIntentSum kv.2.Weight }) m m).trans ?_
    rw [foldl_normalise ordinalizedIntentSum m m hm hm (fun _ h => h)]
    congr 1
    apply List.map_congr_left
    intro kv hkv
    simp [List.mem_map_of_mem Prod.fst hkv]
  · subst hs
    rfl

theorem AggregateIntents_eq (k : Keeper) (zone : Zone)
    (hres : ∀ d ∈ k.intents, ∃ addr, k.AccAddressFromBech32 d.Delegator = some addr)
    (hnodup : ∀ d ∈ k.intents, (d.Intents.map Prod.fst).Nodup) :
    AggregateIntents k zone =
      if (runningAggregate k zone).1 ≠ [] ∧ (runningAggregate k zone).2.i = 0 then
        Outcome.error AggregateError.zeroSum k
      else
        Outcome.ok (k.SetZone { zone with AggregateIntent := (normalisedIntents
          (runningAggregate k zone).2 (runningAggregate k zone).1) }) := by
  unfold AggregateIntents
  rw [reduceIntents_eq k zone k.intents _ hres hnodup]
  have hnd : ((runningAggregate k zone).1.map Prod.fst).Nodup :=
    foldl_accumulate_nodup _ _ (by simp)
  change (match Except.ok (runningAggregate k zone) with
    | Except.error e => Outcome.error e k
    | Except.ok (intents, ordinalizedIntentSum) =>
      if 0 < intents.length ∧ ordinalizedIntentSum.IsZero then
        Outcome.error AggregateError.zeroSum k
      else
        match normaliseIntents ordinalizedIntentSum intents with
        | none => Outcome.panic
        | some intents => Outcome.ok (k.SetZone { zone with AggregateIntent := intents })) = _
  generalize runningAggregate k zone = r at hnd ⊢
  obtain ⟨m, S⟩ := r
  simp only [Dec.IsZero, decide_eq_true_eq]
  have hlen : 0 < m.length ↔ m ≠ [] := by
    cases m <;> simp
  by_cases hcond : m ≠ [] ∧ S.i = 0
  · rw [if_pos (by rw [hlen]; exact hcond), if_pos hcond]
  · rw [if_neg (by rw [hlen]; exact hcond), if_neg hcond]
    have hs : S.i ≠ 0 ∨ m = [] := by
      by_cases h1 : m = []
      · exact Or.inr h1
      · exact Or.inl (fun h2 => hcond ⟨h1, h2⟩)
    rw [normaliseIntents_eq S m hnd hs]


/-! ## Lemmas: the running map against the spec's sums -/

theorem ordinalizedIntents_sum (k : Keeper) (zone : Zone) (l : List DelegatorIntent) :
    ((ordinalizedIntents k zone l).map (fun e => e.Weight.i)).sum
      = (l.map (fun d =>
          (d.Intents.map (fun kv => kv.2.Weight.i)).sum * delegatorBalance k zone d)).sum := by
  induction l with
  | nil => rfl
  | cons d rest ih =>
    unfold ordinalizedIntents
    rw [List.map_append, List.sum_append, ih, List.map_cons, List.sum_cons, List.map_map]
    congr 1
    generalize delegatorBalance k zone d = b
    induction d.Intents with
    | nil => simp
    | cons kv tl ih2 =>
      simp only [List.map_cons, List.sum_cons, Function.comp_apply, add_mul] at ih2 ⊢
      rw [ih2]

theorem ordinalizedIntents_sum_for (k : Keeper) (zone : Zone) (l : List DelegatorIntent)
    (v : String) :
    (((ordinalizedIntents k zone l).filter (fun e => decide (e.ValoperAddress = v))).map
        (fun e => e.Weight.i)).sum
      = (l.map (fun d =>
          ((d.Intents.filter (fun kv => decide (kv.2.ValoperAddress = v))).map
            (fun kv => kv.2.Weight.i)).sum * delegatorBalance k zone d)).sum := by
  induction l with
  | nil => rfl
  | cons d rest ih =>
    unfold ordinalizedIntents
    rw [List.filter_append, List.map_append, List.sum_append, ih, List.map_cons, List.sum_cons]
    congr 1
    generalize delegatorBalance k zone d = b
    induction d.Intents with
    | nil => simp
    | cons kv tl ih2 =>
      by_cases h : kv.2.ValoperAddress = v
      · simp only [List.map_cons, List.filter_cons, h, decide_True, if_true, List.sum_cons,
          add_mul] at ih2 ⊢
        rw [ih2]
      · simp only [List.map_cons, List.filter_cons, h, decide_False, if_false,
          Bool.false_eq_true] at ih2 ⊢
        rw [ih2]

theorem mem_ordinalizedIntents (k : Keeper) (zone : Zone) (l : List DelegatorIntent)
    (v : String) :
    v ∈ (ordinalizedIntents k zone l).map (fun e => e.ValoperAddress)
      ↔ ∃ d ∈ l, ∃ kv ∈ d.Intents, kv.2.ValoperAddress = v := by
  induction l with
  | nil => simp [ordinalizedIntents]
  | cons d rest ih =>
    unfold ordinalizedIntents
    rw [List.map_append, List.mem_append, ih]
    simp only [List.map_map, List.mem_map, Function.comp_apply, List.mem_cons, exists_eq_or_imp]

theorem runningAggregate_sum (k : Keeper) (zone : Zone) :
    (runningAggregate k zone).2.i = grandTotal k zone := by
  unfold runningAggregate grandTotal
  rw [foldl_accumulate_snd, ordinalizedIntents_sum]
  simp [Dec.ZeroDec]

theorem runningAggregate_mapGet (k : Keeper) (zone : Zone) (v : String) :
    mapGet (runningAggregate k zone).1 v
      = if ∃ d ∈ k.intents, ∃ kv ∈ d.Intents, kv.2.ValoperAddress = v then
          some ⟨v, ⟨ordinalWeight k zone v⟩⟩
        else none := by
  unfold runningAggregate ordinalWeight
  rw [foldl_accumulate_mapGet, ← ordinalizedIntents_sum_for]
  simp only [mapGet, mem_ordinalizedIntents]

theorem runningAggregate_nodup (k : Keeper) (zone : Zone) :
    ((runningAggregate k zone).1.map Prod.fst).Nodup :=
  foldl_accumulate_nodup _ _ (by simp)

theorem mapGet_normalisedIntents (S : Dec) (m : List (String × ValidatorIntent)) (v : String) :
    mapGet (normalisedIntents S m) v
      = (mapGet m v).map (fun t => { t with Weight := quotientWeight S t.Weight }) := by
  unfold normalisedIntents
  exact mapGet_map_snd
    (fun (t : ValidatorIntent) => ({ t with Weight := quotientWeight S t.Weight } : ValidatorIntent))
    m v

theorem storedAggregate_SetZone (k : Keeper) (zone : Zone) :
    storedAggregate (k.SetZone zone) zone.ChainId = some zone.AggregateIntent := by
  simp [storedAggregate, Keeper.SetZone, mapGet_mapSet]

/-- C10 (aggregation result): when every delegator id resolves (and every record's intent map has
distinct keys) and the grand total is non-zero, `AggregateIntents` succeeds and stores the zone
with a new aggregate that has exactly one entry per validator id occurring in some delegator's
intent; the weight of validator `v` is `Dec.Quo` of `Σ_d weight_d(v) * balance_d` by the grand
total; nothing of the prior aggregate enters the new one. -/
theorem C10_aggregate_is_normalised_sum (k : Keeper) (zone : Zone)
    (hres : ∀ d ∈ k.intents, ∃ addr, k.AccAddressFromBech32 d.Delegator = some addr)
    (hnodup : ∀ d ∈ k.intents, (d.Intents.map Prod.fst).Nodup)
    (htotal : grandTotal k zone ≠ 0) :
    ∃ agg, AggregateIntents k zone
        = Outcome.ok (k.SetZone { zone with AggregateIntent := agg }) ∧
      storedAggregate (k.SetZone { zone with AggregateIntent := agg }) zone.ChainId = some agg ∧
      (agg.map Prod.fst).Nodup ∧
      (∀ v, (∃ d ∈ k.intents, ∃ kv ∈ d.Intents, kv.2.ValoperAddress = v) →
        ∃ q, Dec.Quo ⟨ordinalWeight k zone v⟩ ⟨grandTotal k zone⟩ = some q ∧
          mapGet agg v = some ⟨v, q⟩) ∧
      (∀ v, ¬ (∃ d ∈ k.intents, ∃ kv ∈ d.Intents, kv.2.ValoperAddress = v) →
        mapGet agg v = none) := by
  have hS := runningAggregate_sum k zone
  refine ⟨normalisedIntents (runningAggregate k zone).2 (runningAggregate k zone).1, ?_, ?_, ?_,
    ?_, ?_⟩
  · rw [AggregateIntents_eq k zone hres hnodup, if_neg]
    rintro ⟨_, h0⟩
    exact htotal (hS ▸ h0)
  · exact storedAggregate_SetZone k _
  · unfold normalisedIntents
    rw [List.map_map]
    exact runningAggregate_nodup k zone
  · intro v hv
    refine ⟨quotientWeight (runningAggregate k zone).2 ⟨ordinalWeight k zone v⟩, ?_, ?_⟩
    · simp [Dec.Quo, htotal, quotientWeight, hS]
    · rw [mapGet_normalisedIntents, runningAggregate_mapGet, if_pos hv]
      rfl
  · intro v hv
    rw [mapGet_normalisedIntents, runningAggregate_mapGet, if_neg hv]
    rfl

/-- The aggregation-result theorem instantiated on the example keeper. -/
theorem C10_aggregate_is_normalised_sum_witness :
    (∀ d ∈ tcKeeper.intents, ∃ addr, tcKeeper.AccAddressFromBech32 d.Delegator = some addr) ∧
    (∀ d ∈ tcKeeper.intents, (d.Intents.map Prod.fst).Nodup) ∧
    grandTotal tcKeeper tcZone ≠ 0 ∧
    ∃ agg, AggregateIntents tcKeeper tcZone
        = Outcome.ok (tcKeeper.SetZone { tcZone with AggregateIntent := agg }) ∧
      storedAggregate (tcKeeper.SetZone { tcZone with AggregateIntent := agg }) tcZone.ChainId
        = some agg ∧
      (agg.map Prod.fst).Nodup ∧
      (∀ v, (∃ d ∈ tcKeeper.intents, ∃ kv ∈ d.Intents, kv.2.ValoperAddress = v) →
        ∃ q, Dec.Quo ⟨ordinalWeight tcKeeper tcZone v⟩ ⟨grandTotal tcKeeper tcZone⟩ = some q ∧
          mapGet agg v = some ⟨v, q⟩) ∧
      (∀ v, ¬ (∃ d ∈ tcKeeper.intents, ∃ kv ∈ d.Intents, kv.2.ValoperAddress = v) →
        mapGet agg v = none) :=
  ⟨fun d _ => ⟨_, rfl⟩, by decide, by decide,
    C10_aggregate_is_normalised_sum tcKeeper tcZone (fun d _ => ⟨_, rfl⟩) (by decide)
      (by decide)⟩


/-! ## Lemmas: the sum of the aggregate's weights -/

theorem chopPrecisionAndRound_lower (d : Int) (h : 0 ≤ d) :
    2 * d ≤ 2 * 1000000000000000000 * chopPrecisionAndRound d + 1000000000000000000 := by
  have hq : Int.tdiv d precisionReuse = d / 1000000000000000000 :=
    Int.tdiv_eq_ediv h (le_of_lt precisionReuse_pos)
  have hr : Int.tmod d precisionReuse = d % 1000000000000000000 :=
    Int.tmod_eq_emod h (le_of_lt precisionReuse_pos)
  unfold chopPrecisionAndRound
  rw [if_neg (not_lt.2 h)]
  unfold chopPrecisionAndRoundPos
  simp only [hq, hr, fivePrecision]
  split_ifs <;> omega

/-- A weight divided by a positive sum is within `10^-18` of the exact quotient. -/
theorem quotientWeight_bound (S w : Dec) (hS : 0 < S.i) (hw : 0 ≤ w.i) :
    (quotientWeight S w).i * S.i ≤ w.i * 1000000000000000000 + S.i ∧
    w.i * 1000000000000000000 ≤ (quotientWeight S w).i * S.i + S.i := by
  unfold quotientWeight
  simp only [precisionReuse]
  have hnum : 0 ≤ w.i * 1000000000000000000 * 1000000000000000000 := by positivity
  generalize hX : Int.tdiv (w.i * 1000000000000000000 * 1000000000000000000) S.i = X
  have hX0 : 0 ≤ X := by
    rw [← hX]
    exact Int.tdiv_nonneg hnum (le_of_lt hS)
  have hXle : X * S.i ≤ w.i * 1000000000000000000 * 1000000000000000000 := by
    rw [← hX, Int.tdiv_eq_ediv hnum (le_of_lt hS)]
    exact Int.ediv_mul_le _ (ne_of_gt hS)
  have hXgt : w.i * 1000000000000000000 * 1000000000000000000 < (X + 1) * S.i := by
    rw [← hX]
    exact Int.lt_tdiv_add_one_mul_self _ hS
  obtain ⟨_, hup⟩ := chopPrecisionAndRound_bound X hX0
  have hlo := chopPrecisionAndRound_lower X hX0
  generalize chopPrecisionAndRound X = c at hup hlo
  have h1 : (2 * 1000000000000000000 * c) * S.i ≤ (2 * X + 1000000000000000000) * S.i :=
    mul_le_mul_of_nonneg_right hup (le_of_lt hS)
  have h2 : (2 * X) * S.i ≤ (2 * 1000000000000000000 * c + 1000000000000000000) * S.i :=
    mul_le_mul_of_nonneg_right hlo (le_of_lt hS)
  have e1 : (2 * 1000000000000000000 * c) * S.i = 2000000000000000000 * (c * S.i) := by ring
  have e2 : (2 * X + 1000000000000000000) * S.i
      = 2 * (X * S.i) + 1000000000000000000 * S.i := by ring
  have e3 : (2 * X) * S.i = 2 * (X * S.i) := by ring
  have e4 : (2 * 1000000000000000000 * c + 1000000000000000000) * S.i
      = 2000000000000000000 * (c * S.i) + 1000000000000000000 * S.i := by ring
  have e5 : (X + 1) * S.i = X * S.i + S.i := by ring
  have e6 : w.i * 1000000000000000000 * 1000000000000000000
      = 1000000000000000000 * (w.i * 1000000000000000000) := by ring
  rw [e1, e2] at h1
  rw [e3, e4] at h2
  rw [e5, e6] at hXgt
  rw [e6] at hXle
  generalize c * S.i = A at h1 h2 ⊢
  generalize X * S.i = T at h1 h2 hXle hXgt
  generalize w.i * 1000000000000000000 = B at hXle hXgt ⊢
  constructor <;> omega

theorem normalisedIntents_total_bound (S : Dec) (hS : 0 < S.i)
    (m : List (String × ValidatorIntent)) (hm : ∀ kv ∈ m, 0 ≤ kv.2.Weight.i) :
    weightTotal (normalisedIntents S m) * S.i
        ≤ weightTotal m * 1000000000000000000 + (m.length : Int) * S.i ∧
    weightTotal m * 1000000000000000000
        ≤ weightTotal (normalisedIntents S m) * S.i + (m.length : Int) * S.i := by
  unfold weightTotal normalisedIntents
  induction m with
  | nil => simp
  | cons kv rest ih =>
    have hb := quotientWeight_bound S kv.2.Weight hS (hm kv (by simp))
    have ih2 := ih (fun x hx => hm x (List.mem_cons_of_mem _ hx))
    simp only [List.map_cons, List.sum_cons, List.length_cons, add_mul, List.map_map,
      Nat.cast_add, Nat.cast_one, one_mul] at ih2 ⊢
    constructor <;> omega

theorem mem_of_mapGet {α : Type} (m : List (String × α)) (k : String) (v : α)
    (h : mapGet m k = some v) : (k, v) ∈ m := by
  induction m with
  | nil => simp [mapGet] at h
  | cons kv rest ih =>
    obtain ⟨k', v'⟩ := kv
    by_cases hk : k' = k
    · simp only [mapGet, hk, if_true, Option.some.injEq] at h
      simp [hk, h]
    · simp only [mapGet, hk, if_false] at h
      exact List.mem_cons_of_mem _ (ih h)

theorem weightTotal_mapSet (m : List (String × ValidatorIntent)) (k : String)
    (x : ValidatorIntent) :
    weightTotal (mapSet m k x)
      = weightTotal m + x.Weight.i
        - (match mapGet m k with
          | some t => t.Weight.i
          | none => 0) := by
  unfold weightTotal
  induction m with
  | nil => simp [mapSet, mapGet]
  | cons kv rest ih =>
    obtain ⟨k', v'⟩ := kv
    by_cases hk : k' = k
    · simp [mapSet, mapGet, hk]
      ring
    · simp only [mapSet, mapGet, hk, if_false, List.map_cons, List.sum_cons, ih]
      ring

theorem accumulateIntent_total (acc : List (String × ValidatorIntent) × Dec)
    (e : ValidatorIntent) :
    weightTotal (accumulateIntent acc e).1 = weightTotal acc.1 + e.Weight.i := by
  unfold accumulateIntent
  cases h : mapGet acc.1 e.ValoperAddress with
  | none => simp [weightTotal_mapSet, h]
  | some t =>
    simp only [weightTotal_mapSet, h, Dec.Add]
    ring

theorem accumulateIntent_nonneg (acc : List (String × ValidatorIntent) × Dec)
    (e : ValidatorIntent) (hacc : ∀ kv ∈ acc.1, 0 ≤ kv.2.Weight.i) (he : 0 ≤ e.Weight.i) :
    ∀ kv ∈ (accumulateIntent acc e).1, 0 ≤ kv.2.Weight.i := by
  intro kv hkv
  unfold accumulateIntent at hkv
  cases h : mapGet acc.1 e.ValoperAddress with
  | none =>
    simp only [h] at hkv
    rcases mem_mapSet _ _ _ _ hkv with rfl | h1
    · exact he
    · exact hacc kv h1
  | some t =>
    simp only [h] at hkv
    rcases mem_mapSet _ _ _ _ hkv with rfl | h1
    · have h0 : 0 ≤ t.Weight.i := hacc (e.ValoperAddress, t) (mem_of_mapGet _ _ _ h)
      simp only [Dec.Add]
      omega
    · exact hacc kv h1

theorem foldl_accumulate_total (es : List ValidatorIntent)
    (acc : List (String × ValidatorIntent) × Dec) :
    weightTotal (es.foldl accumulateIntent acc).1
      = weightTotal acc.1 + (es.map (fun e => e.Weight.i)).sum := by
  induction es generalizing acc with
  | nil => simp
  | cons e rest ih =>
    rw [List.foldl_cons, ih, accumulateIntent_total]
    simp [add_assoc]

theorem foldl_accumulate_nonneg (es : List ValidatorIntent)
    (acc : List (String × ValidatorIntent) × Dec) (hacc : ∀ kv ∈ acc.1, 0 ≤ kv.2.Weight.i)
    (hes : ∀ e ∈ es, 0 ≤ e.Weight.i) :
    ∀ kv ∈ (es.foldl accumulateIntent acc).1, 0 ≤ kv.2.Weight.i := by
  induction es generalizing acc with
  | nil => exact hacc
  | cons e rest ih =>
    rw [List.foldl_cons]
    exact ih _ (accumulateIntent_nonneg acc e hacc (hes e (by simp)))
      (fun x hx => hes x (List.mem_cons_of_mem _ hx))

theorem ordinalizedIntents_nonneg (k : Keeper) (zone : Zone) (l : List DelegatorIntent)
    (hw : ∀ d ∈ l, ∀ kv ∈ d.Intents, 0 ≤ kv.2.Weight.i)
    (hb : ∀ addr denom, 0 ≤ (k.GetBalance addr denom).Amount) :
    ∀ e ∈ ordinalizedIntents k zone l, 0 ≤ e.Weight.i := by
  induction l with
  | nil => simp [ordinalizedIntents]
  | cons d rest ih =>
    intro e he
    unfold ordinalizedIntents at he
    rcases List.mem_append.1 he with h1 | h1
    · obtain ⟨kv, hkv, rfl⟩ := List.mem_map.1 h1
      have hbal : 0 ≤ delegatorBalance k zone d := by
        unfold delegatorBalance
        cases k.AccAddressFromBech32 d.Delegator with
        | none => exact le_refl _
        | some addr => exact hb addr _
      exact Int.mul_nonneg (hw d (by simp) kv hkv) hbal
    · exact ih (fun x hx => hw x (List.mem_cons_of_mem _ hx)) e h1

/-! ## Theorems: the aggregate's weights -/

/-- C9 (aggregate invariant), counterexample: three delegators with balance 1, wholly for A, B
and C respectively; every id decodes and all weights and balances are non-negative. The pass
succeeds with a non-empty aggregate of three weights 0.333333333333333333, whose sum is
0.999999999999999999 and not 1. -/
theorem C9_aggregate_sum_below_one :
    ∃ k agg, AggregateIntents tcKeeper tcZone = Outcome.ok k ∧
      storedAggregate k "zone-1" = some agg ∧ agg ≠ [] ∧
      weightTotal agg = 999999999999999999 ∧ weightTotal agg ≠ (Dec.NewDec 1).i :=
  ⟨_, _, rfl, rfl, by decide⟩

/-- C9 (aggregate invariant), as amended: when every delegator id resolves, weights and balances
are non-negative (and every record's intent map has distinct keys) and the grand total is
non-zero, `AggregateIntents` succeeds with a non-empty aggregate whose weights sum to 1 up to the
rounding of the quotients: the sum differs from 1 by at most `n * 10^-18`, `n` the number of
validators of the aggregate. -/
theorem C9_aggregate_sum_within_rounding (k : Keeper) (zone : Zone)
    (hres : ∀ d ∈ k.intents, ∃ addr, k.AccAddressFromBech32 d.Delegator = some addr)
    (hnodup : ∀ d ∈ k.intents, (d.Intents.map Prod.fst).Nodup)
    (hw : ∀ d ∈ k.intents, ∀ kv ∈ d.Intents, 0 ≤ kv.2.Weight.i)
    (hb : ∀ addr denom, 0 ≤ (k.GetBalance addr denom).Amount)
    (htotal : grandTotal k zone ≠ 0) :
    ∃ agg, AggregateIntents k zone
        = Outcome.ok (k.SetZone { zone with AggregateIntent := agg }) ∧
      agg ≠ [] ∧
      (Dec.NewDec 1).i - (agg.length : Int) ≤ weightTotal agg ∧
      weightTotal agg ≤ (Dec.NewDec 1).i + (agg.length : Int) := by
  have hS := runningAggregate_sum k zone
  have hes := ordinalizedIntents_nonneg k zone k.intents hw hb
  have htot : weightTotal (runningAggregate k zone).1 = (runningAggregate k zone).2.i := by
    unfold runningAggregate
    rw [foldl_accumulate_total, foldl_accumulate_snd]
    simp [weightTotal, Dec.ZeroDec]
  have hnn : ∀ kv ∈ (runningAggregate k zone).1, 0 ≤ kv.2.Weight.i :=
    foldl_accumulate_nonneg _ _ (by simp) hes
  have hSpos : 0 < (runningAggregate k zone).2.i := by
    have h0 : 0 ≤ (runningAggregate k zone).2.i := by
      rw [← htot]
      unfold weightTotal
      apply List.sum_nonneg
      intro x hx
      obtain ⟨kv, hkv, rfl⟩ := List.mem_map.1 hx
      exact hnn kv hkv
    have h1 : (runningAggregate k zone).2.i ≠ 0 := hS ▸ htotal
    omega
  refine ⟨normalisedIntents (runningAggregate k zone).2 (runningAggregate k zone).1, ?_, ?_, ?_⟩
  · rw [AggregateIntents_eq k zone hres hnodup, if_neg]
    rintro ⟨_, h0⟩
    omega
  · intro hnil
    have hm : (runningAggregate k zone).1 = [] := by
      unfold normalisedIntents at hnil
      exact List.map_eq_nil_iff.1 hnil
    rw [hm] at htot
    simp [weightTotal] at htot
    omega
  · obtain ⟨hup, hlo⟩ := normalisedIntents_total_bound (runningAggregate k zone).2 hSpos
      (runningAggregate k zone).1 hnn
    have hlen : (normalisedIntents (runningAggregate k zone).2
        (runningAggregate k zone).1).length = (runningAggregate k zone).1.length := by
      simp [normalisedIntents]
    rw [hlen]
    rw [htot] at hup hlo
    generalize weightTotal (normalisedIntents (runningAggregate k zone).2
      (runningAggregate k zone).1) = A at hup hlo ⊢
    generalize ((runningAggregate k zone).1.length : Int) = n at hup hlo ⊢
    generalize (runningAggregate k zone).2.i = S at hup hlo hSpos
    have h1 : (A - 1000000000000000000 - n) * S ≤ 0 := by
      have : (A - 1000000000000000000 - n) * S
          = A * S - (S * 1000000000000000000 + n * S) := by ring
      omega
    have h2 : (1000000000000000000 - n - A) * S ≤ 0 := by
      have : (1000000000000000000 - n - A) * S
          = S * 1000000000000000000 - (A * S + n * S) := by ring
      omega
    have h3 : A - 1000000000000000000 - n ≤ 0 := by
      by_contra hc
      have : 0 < (A - 1000000000000000000 - n) * S := Int.mul_pos (by omega) hSpos
      omega
    have h4 : 1000000000000000000 - n - A ≤ 0 := by
      by_contra hc
      have : 0 < (1000000000000000000 - n - A) * S := Int.mul_pos (by omega) hSpos
      omega
    have hone : (Dec.NewDec 1).i = 1000000000000000000 := by decide
    rw [hone]
    constructor <;> omega

/-- The rounding-bound theorem instantiated on the example keeper. -/
theorem C9_aggregate_sum_within_rounding_witness :
    (∀ d ∈ tcKeeper.intents, ∃ addr, tcKeeper.AccAddressFromBech32 d.Delegator = some addr) ∧
    (∀ d ∈ tcKeeper.intents, (d.Intents.map Prod.fst).Nodup) ∧
    (∀ d ∈ tcKeeper.intents, ∀ kv ∈ d.Intents, 0 ≤ kv.2.Weight.i) ∧
    (∀ addr denom, 0 ≤ (tcKeeper.GetBalance addr denom).Amount) ∧
    grandTotal tcKeeper tcZone ≠ 0 ∧
    ∃ agg, AggregateIntents tcKeeper tcZone
        = Outcome.ok (tcKeeper.SetZone { tcZone with AggregateIntent := agg }) ∧
      agg ≠ [] ∧
      (Dec.NewDec 1).i - (agg.length : Int) ≤ weightTotal agg ∧
      weightTotal agg ≤ (Dec.NewDec 1).i + (agg.length : Int) :=
  ⟨fun d _ => ⟨_, rfl⟩, by decide, by decide, fun _ _ => (by decide : (0 : Int) ≤ 1), by decide,
    C9_aggregate_sum_within_rounding tcKeeper tcZone (fun d _ => ⟨_, rfl⟩) (by decide)
      (by decide) (fun _ _ => (by decide : (0 : Int) ≤ 1)) (by decide)⟩

/-! ## Theorems: the guards of the aggregation -/

theorem foldl_accumulate_eq_nil (es : List ValidatorIntent) :
    (es.foldl accumulateIntent ([], Dec.ZeroDec)).1 = [] ↔ es = [] := by
  constructor
  · intro h
    cases es with
    | nil => rfl
    | cons e rest =>
      have hk := (foldl_accumulate_keys (e :: rest) ([], Dec.ZeroDec) e.ValoperAddress).2
        (Or.inr (by simp))
      rw [h] at hk
      simp at hk
  · intro h
    subst h
    rfl

theorem ordinalizedIntents_eq_nil (k : Keeper) (zone : Zone) (l : List DelegatorIntent) :
    ordinalizedIntents k zone l = [] ↔ ∀ d ∈ l, d.Intents = [] := by
  induction l with
  | nil => simp [ordinalizedIntents]
  | cons d rest ih =>
    unfold ordinalizedIntents
    simp [ih]

theorem runningAggregate_eq_nil (k : Keeper) (zone : Zone) :
    (runningAggregate k zone).1 = [] ↔ ∀ d ∈ k.intents, d.Intents = [] := by
  unfold runningAggregate
  rw [foldl_accumulate_eq_nil, ordinalizedIntents_eq_nil]

/-- C11 (zero-guard): when every delegator id resolves (and every record's intent map has
distinct keys), `AggregateIntents` fails with the zero-sum error if and only if the running map
is non-empty, that is some record has an intent entry, and the grand total of the ordinalized
weights is zero; when the running map stays empty it succeeds and stores an empty aggregate
(a division by zero would be a panic). -/
theorem C11_zero_sum_error_iff (k : Keeper) (zone : Zone)
    (hres : ∀ d ∈ k.intents, ∃ addr, k.AccAddressFromBech32 d.Delegator = some addr)
    (hnodup : ∀ d ∈ k.intents, (d.Intents.map Prod.fst).Nodup) :
    ((runningAggregate k zone).1 ≠ [] ↔ ∃ d ∈ k.intents, d.Intents ≠ []) ∧
    ((∃ k', AggregateIntents k zone = Outcome.error AggregateError.zeroSum k') ↔
      ((runningAggregate k zone).1 ≠ [] ∧ grandTotal k zone = 0)) ∧
    ((runningAggregate k zone).1 = [] →
      AggregateIntents k zone = Outcome.ok (k.SetZone { zone with AggregateIntent := [] })) := by
  have hS := runningAggregate_sum k zone
  refine ⟨?_, ?_, ?_⟩
  · rw [Ne, runningAggregate_eq_nil]
    push_neg
    rfl
  · rw [AggregateIntents_eq k zone hres hnodup, hS]
    by_cases hc : (runningAggregate k zone).1 ≠ [] ∧ grandTotal k zone = 0
    · rw [if_pos hc]
      exact ⟨fun _ => hc, fun _ => ⟨k, rfl⟩⟩
    · rw [if_neg hc]
      constructor
      · rintro ⟨k', hk'⟩
        cases hk'
      · intro h
        exact absurd h hc
  · intro hnil
    rw [AggregateIntents_eq k zone hres hnodup, if_neg (fun h => h.1 hnil), hnil]
    rfl

/-- The zero-guard theorem instantiated on the keeper whose only delegator has balance zero. -/
theorem C11_zero_sum_error_iff_witness :
    (∀ d ∈ tcKeeperZero.intents,
      ∃ addr, tcKeeperZero.AccAddressFromBech32 d.Delegator = some addr) ∧
    (∀ d ∈ tcKeeperZero.intents, (d.Intents.map Prod.fst).Nodup) ∧
    (((runningAggregate tcKeeperZero tcZone).1 ≠ [] ↔
      ∃ d ∈ tcKeeperZero.intents, d.Intents ≠ []) ∧
    ((∃ k', AggregateIntents tcKeeperZero tcZone = Outcome.error AggregateError.zeroSum k') ↔
      ((runningAggregate tcKeeperZero tcZone).1 ≠ [] ∧ grandTotal tcKeeperZero tcZone = 0)) ∧
    ((runningAggregate tcKeeperZero tcZone).1 = [] →
      AggregateIntents tcKeeperZero tcZone
        = Outcome.ok (tcKeeperZero.SetZone { tcZone with AggregateIntent := [] }))) :=
  ⟨fun d _ => ⟨_, rfl⟩, by decide,
    C11_zero_sum_error_iff tcKeeperZero tcZone (fun d _ => ⟨_, rfl⟩) (by decide)⟩

theorem reduceIntents_error (k : Keeper) (zone : Zone) (l : List DelegatorIntent)
    (hfail : ∃ d ∈ l, k.AccAddressFromBech32 d.Delegator = none) :
    ∃ d ∈ l, k.AccAddressFromBech32 d.Delegator = none ∧
      ∀ acc, reduceIntents k zone l acc
        = Except.error (AggregateError.address d.Delegator) := by
  induction l with
  | nil => simp at hfail
  | cons d rest ih =>
    cases hd : k.AccAddressFromBech32 d.Delegator with
    | none =>
      refine ⟨d, by simp, hd, ?_⟩
      intro acc
      simp [reduceIntents, hd]
    | some addr =>
      obtain ⟨x, hx, hxnone⟩ := hfail
      have hx' : x ∈ rest := by
        rcases List.mem_cons.1 hx with rfl | h
        · rw [hd] at hxnone
          cases hxnone
        · exact h
      obtain ⟨y, hy, hynone, hred⟩ := ih ⟨x, hx', hxnone⟩
      refine ⟨y, List.mem_cons_of_mem _ hy, hynone, ?_⟩
      intro acc
      simp only [reduceIntents, hd]
      exact hred _

/-- C12 (atomic on lookup failure): if some stored delegator id does not decode, then
`AggregateIntents` returns the decoding error of such a record and the keeper after the call is
the keeper before it: the stored zones, and so the zone's stored aggregate, are unchanged. -/
theorem C12_lookup_failure_writes_nothing (k : Keeper) (zone : Zone)
    (hfail : ∃ d ∈ k.intents, k.AccAddressFromBech32 d.Delegator = none) :
    ∃ d ∈ k.intents, k.AccAddressFromBech32 d.Delegator = none ∧
      ∃ k', AggregateIntents k zone = Outcome.error (AggregateError.address d.Delegator) k' ∧
        k'.zones = k.zones ∧ ∀ c, storedAggregate k' c = storedAggregate k c := by
  obtain ⟨d, hd, hnone, hred⟩ := reduceIntents_error k zone k.intents hfail
  refine ⟨d, hd, hnone, k, ?_, rfl, fun _ => rfl⟩
  unfold AggregateIntents
  rw [hred]

/-- The lookup-failure theorem instantiated on the keeper whose second delegator id does not
decode. -/
theorem C12_lookup_failure_writes_nothing_witness :
    (∃ d ∈ tcKeeperBad.intents, tcKeeperBad.AccAddressFromBech32 d.Delegator = none) ∧
    ∃ d ∈ tcKeeperBad.intents, tcKeeperBad.AccAddressFromBech32 d.Delegator = none ∧
      ∃ k', AggregateIntents tcKeeperBad tcZone
          = Outcome.error (AggregateError.address d.Delegator) k' ∧
        k'.zones = tcKeeperBad.zones ∧
        ∀ c, storedAggregate k' c = storedAggregate tcKeeperBad c :=
  ⟨⟨⟨"bad", [("B", ⟨"B", Dec.NewDec 1⟩)]⟩, by decide, by decide⟩,
    C12_lookup_failure_writes_nothing tcKeeperBad tcZone
      ⟨⟨"bad", [("B", ⟨"B", Dec.NewDec 1⟩)]⟩, by decide, by decide⟩⟩

theorem delegatorBalance_nonneg (k : Keeper) (zone : Zone) (d : DelegatorIntent)
    (hb : ∀ addr denom, 0 ≤ (k.GetBalance addr denom).Amount) :
    0 ≤ delegatorBalance k zone d := by
  unfold delegatorBalance
  cases k.AccAddressFromBech32 d.Delegator with
  | none => exact le_refl _
  | some addr => exact hb addr _

theorem grandTotal_pos (k : Keeper) (zone : Zone)
    (hb : ∀ addr denom, 0 ≤ (k.GetBalance addr denom).Amount)
    (hsum : ∀ d ∈ k.intents, 0 < weightTotal d.Intents)
    (hpos : ∃ d ∈ k.intents, 0 < delegatorBalance k zone d) :
    0 < grandTotal k zone := by
  obtain ⟨d, hd, hbal⟩ := hpos
  unfold grandTotal
  have hnn : ∀ x ∈ k.intents.map (fun d =>
      (d.Intents.map (fun kv => kv.2.Weight.i)).sum * delegatorBalance k zone d), 0 ≤ x := by
    intro x hx
    obtain ⟨e, he, rfl⟩ := List.mem_map.1 hx
    exact Int.mul_nonneg (le_of_lt (hsum e he)) (delegatorBalance_nonneg k zone e hb)
  have hle := List.single_le_sum hnn _
    (List.mem_map_of_mem (fun d =>
      (d.Intents.map (fun kv => kv.2.Weight.i)).sum * delegatorBalance k zone d) hd)
  have hterm : 0 < (d.Intents.map (fun kv => kv.2.Weight.i)).sum * delegatorBalance k zone d :=
    Int.mul_pos (hsum d hd) hbal
  exact lt_of_lt_of_le hterm hle

/-- C13 (degenerate error), counterexample: one delegator wholly for A (weight 1, so a positive
sum of non-negative weights) whose id decodes and whose balance is zero, hence non-negative; the
running map is A:0, the grand total is zero and `AggregateIntents` fails with the zero-sum
error. -/
theorem C13_zero_balance_gives_zero_sum_error :
    (∀ d ∈ tcKeeperZero.intents,
      ∃ addr, tcKeeperZero.AccAddressFromBech32 d.Delegator = some addr) ∧
    (∀ addr denom, 0 ≤ (tcKeeperZero.GetBalance addr denom).Amount) ∧
    (∀ d ∈ tcKeeperZero.intents, ∀ kv ∈ d.Intents, 0 ≤ kv.2.Weight.i) ∧
    (∀ d ∈ tcKeeperZero.intents, 0 < weightTotal d.Intents) ∧
    AggregateIntents tcKeeperZero tcZone
      = Outcome.error AggregateError.zeroSum tcKeeperZero :=
  ⟨fun d _ => ⟨_, rfl⟩, fun _ _ => (by decide : (0 : Int) ≤ 0), by decide, by decide, rfl⟩

/-- C13 (degenerate error), as amended: if every delegator id resolves, every balance is
non-negative, every delegator's intent vector has weights with a positive sum (and distinct
keys), and at least one delegator has a positive balance, then `AggregateIntents` does not fail
with the zero-sum error: it succeeds and stores the new aggregate. -/
theorem C13_no_zero_sum_error_with_positive_balance (k : Keeper) (zone : Zone)
    (hres : ∀ d ∈ k.intents, ∃ addr, k.AccAddressFromBech32 d.Delegator = some addr)
    (hnodup : ∀ d ∈ k.intents, (d.Intents.map Prod.fst).Nodup)
    (hb : ∀ addr denom, 0 ≤ (k.GetBalance addr denom).Amount)
    (hsum : ∀ d ∈ k.intents, 0 < weightTotal d.Intents)
    (hpos : ∃ d ∈ k.intents, 0 < delegatorBalance k zone d) :
    (∀ k', AggregateIntents k zone ≠ Outcome.error AggregateError.zeroSum k') ∧
    ∃ agg, AggregateIntents k zone
      = Outcome.ok (k.SetZone { zone with AggregateIntent := agg }) := by
  have htot := grandTotal_pos k zone hb hsum hpos
  have hS := runningAggregate_sum k zone
  have hok : AggregateIntents k zone = Outcome.ok (k.SetZone { zone with AggregateIntent :=
      (normalisedIntents (runningAggregate k zone).2 (runningAggregate k zone).1) }) := by
    rw [AggregateIntents_eq k zone hres hnodup, if_neg]
    rintro ⟨_, h0⟩
    omega
  refine ⟨?_, _, hok⟩
  intro k' h
  rw [hok] at h
  cases h

/-- The amended degenerate-error theorem instantiated on the example keeper of three delegators
with balance 1. -/
theorem C13_no_zero_sum_error_with_positive_balance_witness :
    (∀ d ∈ tcKeeper.intents, ∃ addr, tcKeeper.AccAddressFromBech32 d.Delegator = some addr) ∧
    (∀ d ∈ tcKeeper.intents, (d.Intents.map Prod.fst).Nodup) ∧
    (∀ addr denom, 0 ≤ (tcKeeper.GetBalance addr denom).Amount) ∧
    (∀ d ∈ tcKeeper.intents, 0 < weightTotal d.Intents) ∧
    (∃ d ∈ tcKeeper.intents, 0 < delegatorBalance tcKeeper tcZone d) ∧
    ((∀ k', AggregateIntents tcKeeper tcZone ≠ Outcome.error AggregateError.zeroSum k') ∧
    ∃ agg, AggregateIntents tcKeeper tcZone
      = Outcome.ok (tcKeeper.SetZone { tcZone with AggregateIntent := agg })) :=
  ⟨fun d _ => ⟨_, rfl⟩, by decide, fun _ _ => (by decide : (0 : Int) ≤ 1), by decide, by decide,
    C13_no_zero_sum_error_with_positive_balance tcKeeper tcZone (fun d _ => ⟨_, rfl⟩) (by decide)
      (fun _ _ => (by decide : (0 : Int) ≤ 1)) (by decide) (by decide)⟩

/-! ## Lemmas: the closed form of `Normalize` -/

theorem perm_Keys {α : Type} (m : List (String × α)) (hnd : (m.map Prod.fst).Nodup) :
    (Keys m).Perm (m.map Prod.fst) :=
  (List.perm_ext_iff_of_nodup (nodup_Keys m) hnd).2 (fun k => mem_Keys m k)

theorem foldl_summedWeight (m : List (String × ValidatorIntent)) (l : List String)
    (init : Dec) :
    (l.foldl (fun s i =>
      match mapGet m i with
      | some vi => s.Add vi.Weight
      | none => s) init).i
      = init.i + (l.map (fun i => (weightOf m i).i)).sum := by
  induction l generalizing init with
  | nil => simp
  | cons i rest ih =>
    rw [List.foldl_cons, ih]
    cases h : mapGet m i <;> simp [weightOf, h, Dec.Add, Dec.ZeroDec, add_assoc]

theorem summedWeight_eq (m : List (String × ValidatorIntent))
    (hnd : (m.map Prod.fst).Nodup) : (summedWeight m).i = weightTotal m := by
  have h1 : (summedWeight m).i
      = Dec.ZeroDec.i + ((Keys m).map (fun i => (weightOf m i).i)).sum :=
    foldl_summedWeight m (Keys m) Dec.ZeroDec
  rw [h1]
  have hperm := ((perm_Keys m hnd).map (fun i => (weightOf m i).i)).sum_eq
  rw [hperm, List.map_map]
  unfold weightTotal
  simp only [Dec.ZeroDec, zero_add]
  congr 1
  apply List.map_congr_left
  intro kv hkv
  simp [weightOf, mapGet_of_mem m kv hnd hkv]

theorem updateWeightM_total (f : Dec → Option Dec) (g : Dec → Dec)
    (hf : ∀ w, f w = some (g w)) (m : List (String × ValidatorIntent)) (i : String) :
    updateWeightM f (some m) i = some (updateWeight g m i) := by
  unfold updateWeightM updateWeight
  cases h : mapGet m i <;> simp [hf, h]

theorem foldl_updateWeightM_total (f : Dec → Option Dec) (g : Dec → Dec)
    (hf : ∀ w, f w = some (g w)) (l : List String) (m : List (String × ValidatorIntent)) :
    List.foldl (updateWeightM f) (some m) l = some (List.foldl (updateWeight g) m l) := by
  induction l generalizing m with
  | nil => rfl
  | cons i rest ih =>
    rw [List.foldl_cons, List.foldl_cons, updateWeightM_total f g hf, ih]

theorem foldl_updateWeight_Keys (g : Dec → Dec) (m : List (String × ValidatorIntent))
    (hnd : (m.map Prod.fst).Nodup) :
    List.foldl (updateWeight g) m (Keys m)
      = m.map (fun kv => (kv.1, { kv.2 with Weight := g kv.2.Weight })) := by
  rw [foldl_updateWeight g (Keys m) m (nodup_Keys m) hnd]
  apply List.map_congr_left
  intro kv hkv
  have hmem : kv.1 ∈ Keys m := (mem_Keys _ _).2 (List.mem_map_of_mem Prod.fst hkv)
  simp [hmem]

theorem Normalize_of_zero (di : DelegatorIntent) (h : (summedWeight di.Intents).i = 0) :
    di.Normalize = some di := by
  simp [DelegatorIntent.Normalize, Dec.IsZero, h]

theorem Normalize_of_ne_zero (di : DelegatorIntent) (hnd : (di.Intents.map Prod.fst).Nodup)
    (h : weightTotal di.Intents ≠ 0) :
    di.Normalize
      = some { di with Intents := normalisedVector ⟨weightTotal di.Intents⟩ di.Intents } := by
  have hS := summedWeight_eq di.Intents hnd
  have hS2 : summedWeight di.Intents = ⟨weightTotal di.Intents⟩ := by
    rw [← hS]
  have hne : (summedWeight di.Intents).i ≠ 0 := by rw [hS]; exact h
  have hf : ∀ w : Dec, w.QuoTruncate (summedWeight di.Intents)
      = some (truncatedQuotient (summedWeight di.Intents) w) := by
    intro w
    simp [Dec.QuoTruncate, hne, truncatedQuotient]
  unfold DelegatorIntent.Normalize
  simp only [Dec.IsZero, hne, decide_False, Bool.false_eq_true, if_false]
  rw [foldl_updateWeightM_total _ _ hf, foldl_updateWeight_Keys _ _ hnd, hS2]
  rfl

theorem keys_normalisedVector (S : Dec) (m : List (String × ValidatorIntent)) :
    (normalisedVector S m).map Prod.fst = m.map Prod.fst := by
  unfold normalisedVector
  rw [List.map_map]
  rfl

theorem mapGet_normalisedVector (S : Dec) (m : List (String × ValidatorIntent)) (v : String) :
    mapGet (normalisedVector S m) v
      = (mapGet m v).map (fun t => { t with Weight := truncatedQuotient S t.Weight }) := by
  unfold normalisedVector
  exact mapGet_map_snd
    (fun (t : ValidatorIntent) =>
      ({ t with Weight := truncatedQuotient S t.Weight } : ValidatorIntent)) m v

/-! ## Lemmas: arithmetic of the truncated quotients -/

theorem truncatedQuotient_eq (S w : Dec) (hS : 0 < S.i) (hw : 0 ≤ w.i) :
    (truncatedQuotient S w).i = (w.i * 1000000000000000000) / S.i := by
  unfold truncatedQuotient chopPrecisionAndTruncate
  simp only [precisionReuse]
  have hp : (0 : Int) < 1000000000000000000 := by decide
  have hnum : 0 ≤ w.i * 1000000000000000000 * 1000000000000000000 := by positivity
  rw [Int.tdiv_eq_ediv hnum (le_of_lt hS)]
  rw [Int.tdiv_eq_ediv (Int.ediv_nonneg hnum (le_of_lt hS)) (le_of_lt hp)]
  generalize hX : w.i * 1000000000000000000 * 1000000000000000000 / S.i = X
  have hX1 : X * S.i ≤ w.i * 1000000000000000000 * 1000000000000000000 := by
    rw [← hX]
    exact Int.ediv_mul_le _ (ne_of_gt hS)
  have hX2 : w.i * 1000000000000000000 * 1000000000000000000 < (X + 1) * S.i := by
    rw [← hX]
    exact Int.lt_ediv_add_one_mul_self _ hS
  generalize hq : X / 1000000000000000000 = q
  have hq1 : q * 1000000000000000000 ≤ X := by
    rw [← hq]
    exact Int.ediv_mul_le _ (ne_of_gt hp)
  have hq2 : X < (q + 1) * 1000000000000000000 := by
    rw [← hq]
    exact Int.lt_ediv_add_one_mul_self _ hp
  have h1 : q * S.i ≤ w.i * 1000000000000000000 := by
    have h : (q * S.i) * 1000000000000000000
        ≤ (w.i * 1000000000000000000) * 1000000000000000000 := by
      calc (q * S.i) * 1000000000000000000 = (q * 1000000000000000000) * S.i := by ring
        _ ≤ X * S.i := mul_le_mul_of_nonneg_right hq1 (le_of_lt hS)
        _ ≤ _ := hX1
    exact le_of_mul_le_mul_right h hp
  have h2 : w.i * 1000000000000000000 < (q + 1) * S.i := by
    have h : (w.i * 1000000000000000000) * 1000000000000000000
        < ((q + 1) * S.i) * 1000000000000000000 := by
      calc (w.i * 1000000000000000000) * 1000000000000000000 < (X + 1) * S.i := hX2
        _ ≤ ((q + 1) * 1000000000000000000) * S.i :=
            mul_le_mul_of_nonneg_right (by omega) (le_of_lt hS)
        _ = ((q + 1) * S.i) * 1000000000000000000 := by ring
    exact lt_of_mul_lt_mul_right h (le_of_lt hp)
  have h3 : q ≤ w.i * 1000000000000000000 / S.i := (Int.le_ediv_iff_mul_le hS).2 h1
  have h4 : w.i * 1000000000000000000 / S.i < q + 1 := (Int.ediv_lt_iff_lt_mul hS).2 h2
  omega

theorem truncatedQuotient_bounds (S w : Dec) (hS : 0 < S.i) (hw : 0 ≤ w.i) :
    0 ≤ (truncatedQuotient S w).i ∧
    (truncatedQuotient S w).i * S.i ≤ w.i * 1000000000000000000 ∧
    w.i * 1000000000000000000 < (truncatedQuotient S w).i * S.i + S.i := by
  rw [truncatedQuotient_eq S w hS hw]
  have hnum : 0 ≤ w.i * 1000000000000000000 := by positivity
  refine ⟨Int.ediv_nonneg hnum (le_of_lt hS), Int.ediv_mul_le _ (ne_of_gt hS), ?_⟩
  have := Int.lt_ediv_add_one_mul_self (w.i * 1000000000000000000) hS
  linarith

theorem truncatedQuotient_one (w : Dec) :
    truncatedQuotient ⟨1000000000000000000⟩ w = w := by
  unfold truncatedQuotient chopPrecisionAndTruncate
  have hp : precisionReuse ≠ 0 := ne_of_gt precisionReuse_pos
  have h1 : (1000000000000000000 : Int) = precisionReuse := rfl
  simp only [h1]
  rw [Int.mul_tdiv_cancel _ hp, Int.mul_tdiv_cancel _ hp]

/-! ## Lemmas: the sum of the normalised weights -/

theorem normalisedVector_total (S : Dec) (hS : 0 < S.i) (m : List (String × ValidatorIntent))
    (hm : ∀ kv ∈ m, 0 ≤ kv.2.Weight.i) :
    weightTotal (normalisedVector S m) * S.i ≤ weightTotal m * 1000000000000000000 ∧
    weightTotal m * 1000000000000000000 + (m.length : Int)
      ≤ weightTotal (normalisedVector S m) * S.i + (m.length : Int) * S.i := by
  unfold weightTotal normalisedVector
  induction m with
  | nil => simp
  | cons kv rest ih =>
    have hb := truncatedQuotient_bounds S kv.2.Weight hS (hm kv (by simp))
    have ih2 := ih (fun x hx => hm x (List.mem_cons_of_mem _ hx))
    simp only [List.map_cons, List.sum_cons, List.length_cons, add_mul, List.map_map,
      Nat.cast_add, Nat.cast_one, one_mul] at ih2 ⊢
    constructor <;> omega

theorem weight_le_total (m : List (String × ValidatorIntent))
    (hm : ∀ kv ∈ m, 0 ≤ kv.2.Weight.i) (kv : String × ValidatorIntent) (hkv : kv ∈ m) :
    kv.2.Weight.i ≤ weightTotal m := by
  unfold weightTotal
  apply List.single_le_sum
  · intro x hx
    obtain ⟨e, he, rfl⟩ := List.mem_map.1 hx
    exact hm e he
  · exact List.mem_map_of_mem (fun kv => kv.2.Weight.i) hkv

theorem weightTotal_nonneg (m : List (String × ValidatorIntent))
    (hm : ∀ kv ∈ m, 0 ≤ kv.2.Weight.i) : 0 ≤ weightTotal m := by
  unfold weightTotal
  apply List.sum_nonneg
  intro x hx
  obtain ⟨e, he, rfl⟩ := List.mem_map.1 hx
  exact hm e he

theorem normalisedVector_nonneg (S : Dec) (hS : 0 < S.i) (m : List (String × ValidatorIntent))
    (hm : ∀ kv ∈ m, 0 ≤ kv.2.Weight.i) :
    ∀ kv ∈ normalisedVector S m, 0 ≤ kv.2.Weight.i := by
  intro kv hkv
  unfold normalisedVector at hkv
  obtain ⟨e, he, rfl⟩ := List.mem_map.1 hkv
  exact (truncatedQuotient_bounds S e.2.Weight hS (hm e he)).1

/-- The weights of a normalised vector with non-negative weights and a positive sum: their sum
is at most `10^18` and more than `10^18 - n`. -/
theorem normalised_total_bounds (m : List (String × ValidatorIntent))
    (hm : ∀ kv ∈ m, 0 ≤ kv.2.Weight.i) (hS : 0 < weightTotal m) :
    weightTotal (normalisedVector ⟨weightTotal m⟩ m) ≤ 1000000000000000000 ∧
    1000000000000000000 - (m.length : Int)
      < weightTotal (normalisedVector ⟨weightTotal m⟩ m) := by
  obtain ⟨h1, h2⟩ := normalisedVector_total ⟨weightTotal m⟩ hS m hm
  have hlen : (1 : Int) ≤ m.length := by
    cases m with
    | nil => simp [weightTotal] at hS
    | cons kv rest => simp
  simp only at h1 h2
  generalize weightTotal (normalisedVector ⟨weightTotal m⟩ m) = T at h1 h2 ⊢
  generalize (m.length : Int) = n at h2 hlen ⊢
  generalize weightTotal m = S at h1 h2 hS
  constructor
  · by_contra hc
    have h3 : (1000000000000000000 + 1) * S ≤ T * S :=
      mul_le_mul_of_nonneg_right (by omega) (le_of_lt hS)
    have e1 : (1000000000000000000 + 1) * S = S * 1000000000000000000 + S := by ring
    omega
  · by_contra hc
    have h3 : (T + n) * S ≤ 1000000000000000000 * S :=
      mul_le_mul_of_nonneg_right (by omega) (le_of_lt hS)
    have e1 : (T + n) * S = T * S + n * S := by ring
    have e2 : 1000000000000000000 * S = S * 1000000000000000000 := by ring
    omega

/-! ## Theorems: `Normalize` -/

/-- C14 (Normalize zero guard): for every intent vector (with distinct keys) whose weights sum to
zero, the empty vector included, the guard `summedWeight.IsZero()` holds and `Normalize` returns
the vector unchanged, so no division is performed. -/
theorem C14_normalize_zero_sum_unchanged (di : DelegatorIntent)
    (hnd : (di.Intents.map Prod.fst).Nodup) (hzero : weightTotal di.Intents = 0) :
    (summedWeight di.Intents).IsZero = true ∧ di.Normalize = some di := by
  have hS := summedWeight_eq di.Intents hnd
  have h0 : (summedWeight di.Intents).i = 0 := by rw [hS]; exact hzero
  exact ⟨by simp [Dec.IsZero, h0], Normalize_of_zero di h0⟩

/-- The zero-guard theorem of `Normalize` instantiated on a vector with weights 0 and 0. -/
theorem C14_normalize_zero_sum_unchanged_witness :
    ((DelegatorIntent.mk "d1" [("A", ⟨"A", Dec.ZeroDec⟩), ("B", ⟨"B", Dec.ZeroDec⟩)]).Intents.map
      Prod.fst).Nodup ∧
    weightTotal
      (DelegatorIntent.mk "d1" [("A", ⟨"A", Dec.ZeroDec⟩), ("B", ⟨"B", Dec.ZeroDec⟩)]).Intents
      = 0 ∧
    ((summedWeight
      (DelegatorIntent.mk "d1" [("A", ⟨"A", Dec.ZeroDec⟩), ("B", ⟨"B", Dec.ZeroDec⟩)]).Intents
        ).IsZero = true ∧
    (DelegatorIntent.mk "d1" [("A", ⟨"A", Dec.ZeroDec⟩), ("B", ⟨"B", Dec.ZeroDec⟩)]).Normalize
      = some (DelegatorIntent.mk "d1" [("A", ⟨"A", Dec.ZeroDec⟩), ("B", ⟨"B", Dec.ZeroDec⟩)])) :=
  ⟨by decide, by decide,
    C14_normalize_zero_sum_unchanged
      (DelegatorIntent.mk "d1" [("A", ⟨"A", Dec.ZeroDec⟩), ("B", ⟨"B", Dec.ZeroDec⟩)])
      (by decide) (by decide)⟩

/-- C15 (Normalize sums to 1), counterexample: the vector A:1, B:1, C:1 has non-negative weights
and the non-zero sum 3; `Normalize` returns three weights 0.333333333333333333, whose sum is
0.999999999999999999 and not 1. -/
theorem C15_normalize_sum_below_one :
    (∀ kv ∈ tcThirds.Intents, 0 ≤ kv.2.Weight.i) ∧ weightTotal tcThirds.Intents ≠ 0 ∧
    ∃ r, tcThirds.Normalize = some r ∧ weightTotal r.Intents = 999999999999999999 ∧
      weightTotal r.Intents ≠ (Dec.NewDec 1).i :=
  ⟨by decide, by decide, _, rfl, by decide⟩

/-- C15 (Normalize sums to 1), as amended: for every intent vector with `n` entries (distinct
keys), non-negative weights and a non-zero weight sum, `Normalize` returns a vector whose weights
sum to 1 up to truncation: to at most 1 and to more than `1 - n * 10^-18`. -/
theorem C15_normalize_sum_within_truncation (di : DelegatorIntent)
    (hnd : (di.Intents.map Prod.fst).Nodup) (hw : ∀ kv ∈ di.Intents, 0 ≤ kv.2.Weight.i)
    (hsum : weightTotal di.Intents ≠ 0) :
    ∃ r, di.Normalize = some r ∧
      weightTotal r.Intents ≤ (Dec.NewDec 1).i ∧
      (Dec.NewDec 1).i - (di.Intents.length : Int) < weightTotal r.Intents := by
  have hpos : 0 < weightTotal di.Intents := by
    have := weightTotal_nonneg di.Intents hw
    omega
  refine ⟨_, Normalize_of_ne_zero di hnd hsum, ?_⟩
  exact normalised_total_bounds di.Intents hw hpos

/-- The amended sum theorem of `Normalize` instantiated on the vector A:1, B:1, C:1. -/
theorem C15_normalize_sum_within_truncation_witness :
    (tcThirds.Intents.map Prod.fst).Nodup ∧ (∀ kv ∈ tcThirds.Intents, 0 ≤ kv.2.Weight.i) ∧
    weightTotal tcThirds.Intents ≠ 0 ∧
    ∃ r, tcThirds.Normalize = some r ∧
      weightTotal r.Intents ≤ (Dec.NewDec 1).i ∧
      (Dec.NewDec 1).i - (tcThirds.Intents.length : Int) < weightTotal r.Intents :=
  ⟨by decide, by decide, by decide,
    C15_normalize_sum_within_truncation tcThirds (by decide) (by decide) (by decide)⟩

/-- C16 (Normalize never exceeds 1): for every intent vector with `n` entries (distinct keys),
non-negative weights and a positive weight sum `S`, `Normalize` returns a vector with the same
keys in which the weight of every entry is `weight / S` truncated to 18 decimals, that is
`weight * 10^18 / S` on the scaled values, and lies in `[0, 1]`; the weights of the result sum
to at most 1 and to more than `1 - n * 10^-18`. -/
theorem C16_normalize_truncated_quotients (di : DelegatorIntent)
    (hnd : (di.Intents.map Prod.fst).Nodup) (hw : ∀ kv ∈ di.Intents, 0 ≤ kv.2.Weight.i)
    (hsum : 0 < weightTotal di.Intents) :
    ∃ r, di.Normalize = some r ∧ r.Delegator = di.Delegator ∧
      r.Intents.map Prod.fst = di.Intents.map Prod.fst ∧
      (∀ v e, mapGet di.Intents v = some e →
        ∃ q, mapGet r.Intents v = some q ∧ q.ValoperAddress = e.ValoperAddress ∧
          q.Weight.i = Int.tdiv (e.Weight.i * 1000000000000000000) (weightTotal di.Intents) ∧
          0 ≤ q.Weight.i ∧ q.Weight.i ≤ 1000000000000000000) ∧
      weightTotal r.Intents ≤ 1000000000000000000 ∧
      1000000000000000000 - (di.Intents.length : Int) < weightTotal r.Intents := by
  refine ⟨_, Normalize_of_ne_zero di hnd (ne_of_gt hsum), rfl, keys_normalisedVector _ _, ?_,
    normalised_total_bounds di.Intents hw hsum⟩
  intro v e he
  have hmem : (v, e) ∈ di.Intents := mem_of_mapGet _ _ _ he
  have he0 : 0 ≤ e.Weight.i := hw (v, e) hmem
  have hle : e.Weight.i ≤ weightTotal di.Intents := weight_le_total di.Intents hw (v, e) hmem
  have hS : (0 : Int) < (Dec.mk (weightTotal di.Intents)).i := hsum
  obtain ⟨hq0, hq1, _⟩ := truncatedQuotient_bounds ⟨weightTotal di.Intents⟩ e.Weight hS he0
  have hqeq := truncatedQuotient_eq ⟨weightTotal di.Intents⟩ e.Weight hS he0
  refine ⟨{ e with Weight := truncatedQuotient ⟨weightTotal di.Intents⟩ e.Weight }, ?_, rfl, ?_,
    hq0, ?_⟩
  · show mapGet (normalisedVector ⟨weightTotal di.Intents⟩ di.Intents) v = _
    rw [mapGet_normalisedVector, he]
    rfl
  · show (truncatedQuotient ⟨weightTotal di.Intents⟩ e.Weight).i = _
    rw [hqeq, Int.tdiv_eq_ediv (by positivity) (le_of_lt hsum)]
  · show (truncatedQuotient ⟨weightTotal di.Intents⟩ e.Weight).i ≤ _
    simp only at hq1
    generalize (truncatedQuotient ⟨weightTotal di.Intents⟩ e.Weight).i = q at hq1 hq0 ⊢
    by_contra hc
    have h3 : (1000000000000000000 + 1) * weightTotal di.Intents
        ≤ q * weightTotal di.Intents :=
      mul_le_mul_of_nonneg_right (by omega) (le_of_lt hsum)
    have e1 : (1000000000000000000 + 1) * weightTotal di.Intents
        = weightTotal di.Intents * 1000000000000000000 + weightTotal di.Intents := by ring
    have h4 : e.Weight.i * 1000000000000000000
        ≤ weightTotal di.Intents * 1000000000000000000 :=
      mul_le_mul_of_nonneg_right hle (by decide)
    omega

/-- The truncated-quotient theorem of `Normalize` instantiated on the vector A:1, B:1, C:1. -/
theorem C16_normalize_truncated_quotients_witness :
    (tcThirds.Intents.map Prod.fst).Nodup ∧ (∀ kv ∈ tcThirds.Intents, 0 ≤ kv.2.Weight.i) ∧
    0 < weightTotal tcThirds.Intents ∧
    ∃ r, tcThirds.Normalize = some r ∧ r.Delegator = tcThirds.Delegator ∧
      r.Intents.map Prod.fst = tcThirds.Intents.map Prod.fst ∧
      (∀ v e, mapGet tcThirds.Intents v = some e →
        ∃ q, mapGet r.Intents v = some q ∧ q.ValoperAddress = e.ValoperAddress ∧
          q.Weight.i
            = Int.tdiv (e.Weight.i * 1000000000000000000) (weightTotal tcThirds.Intents) ∧
          0 ≤ q.Weight.i ∧ q.Weight.i ≤ 1000000000000000000) ∧
      weightTotal r.Intents ≤ 1000000000000000000 ∧
      1000000000000000000 - (tcThirds.Intents.length : Int) < weightTotal r.Intents :=
  ⟨by decide, by decide, by decide,
    C16_normalize_truncated_quotients tcThirds (by decide) (by decide) (by decide)⟩

theorem length_pos_of_mapGet {α : Type} (m : List (String × α)) (v : String) (a : α)
    (h : mapGet m v = some a) : (1 : Int) ≤ m.length := by
  cases m with
  | nil => simp [mapGet] at h
  | cons kv rest => simp

/-- A second normalisation of a vector whose weights are non-negative and sum to `U` with
`10^18 - n < U ≤ 10^18` raises a weight `q` by less than `n`. -/
theorem renormalise_step (U q b n : Int) (hU : 0 < U) (hUle : U ≤ 1000000000000000000)
    (hUgt : 1000000000000000000 - n < U) (hq0 : 0 ≤ q) (hqU : q ≤ U)
    (hb1 : b * U ≤ q * 1000000000000000000) (hb2 : q * 1000000000000000000 < b * U + U) :
    q ≤ b ∧ b - q < n := by
  constructor
  · by_contra hc
    have h1 : (b + 1) * U ≤ q * U := mul_le_mul_of_nonneg_right (by omega) (le_of_lt hU)
    have h2 : q * U ≤ q * 1000000000000000000 := mul_le_mul_of_nonneg_left hUle hq0
    have e1 : (b + 1) * U = b * U + U := by ring
    omega
  · by_contra hc
    have hn : 1 ≤ n := by omega
    have h1 : (q + n) * U ≤ b * U := mul_le_mul_of_nonneg_right (by omega) (le_of_lt hU)
    have h2 : q * 1000000000000000000 ≤ q * (U + n - 1) :=
      mul_le_mul_of_nonneg_left (by omega) hq0
    have h3 : q * (n - 1) ≤ U * (n - 1) := mul_le_mul_of_nonneg_right hqU (by omega)
    have e1 : (q + n) * U = q * U + n * U := by ring
    have e2 : q * (U + n - 1) = q * U + q * (n - 1) := by ring
    have e3 : U * (n - 1) = n * U - U := by ring
    omega

/-- C17 (idempotence of Normalize within truncation tolerance): for every intent vector `v` with
`n` entries (distinct keys) and non-negative weights, `Normalize(v)` and `Normalize(Normalize(v))`
both return, the second has the same keys as the first, each of its weights is at least the
corresponding weight of the first and exceeds it by less than `n * 10^-18`; and when the weights
of `v` sum to exactly 1, `Normalize(v) = v`. -/
theorem C17_normalize_idempotent_within_tolerance (di : DelegatorIntent)
    (hnd : (di.Intents.map Prod.fst).Nodup) (hw : ∀ kv ∈ di.Intents, 0 ≤ kv.2.Weight.i) :
    ∃ u uu, di.Normalize = some u ∧ u.Normalize = some uu ∧
      uu.Intents.map Prod.fst = u.Intents.map Prod.fst ∧
      (∀ v a, mapGet u.Intents v = some a →
        ∃ b, mapGet uu.Intents v = some b ∧ a.Weight.i ≤ b.Weight.i ∧
          b.Weight.i - a.Weight.i < (di.Intents.length : Int)) ∧
      (weightTotal di.Intents = 1000000000000000000 → u = di) := by
  by_cases hS : weightTotal di.Intents = 0
  · -- the guard returns the vector as it is, twice
    have h0 : (summedWeight di.Intents).i = 0 := by
      rw [summedWeight_eq di.Intents hnd]; exact hS
    refine ⟨di, di, Normalize_of_zero di h0, Normalize_of_zero di h0, rfl, ?_, fun _ => rfl⟩
    intro v a ha
    have := length_pos_of_mapGet _ _ _ ha
    exact ⟨a, ha, le_refl _, by omega⟩
  · have hSpos : 0 < weightTotal di.Intents := by
      have := weightTotal_nonneg di.Intents hw
      omega
    have hu := Normalize_of_ne_zero di hnd hS
    have hukeys := keys_normalisedVector ⟨weightTotal di.Intents⟩ di.Intents
    have hund : ((normalisedVector ⟨weightTotal di.Intents⟩ di.Intents).map Prod.fst).Nodup := by
      rw [hukeys]; exact hnd
    have huw := normalisedVector_nonneg ⟨weightTotal di.Intents⟩ hSpos di.Intents hw
    obtain ⟨hUle, hUgt⟩ := normalised_total_bounds di.Intents hw hSpos
    have hone : weightTotal di.Intents = 1000000000000000000 →
        ({ di with Intents := normalisedVector ⟨weightTotal di.Intents⟩ di.Intents }
          : DelegatorIntent) = di := by
      intro h1
      have hid : normalisedVector ⟨weightTotal di.Intents⟩ di.Intents = di.Intents := by
        rw [h1]
        unfold normalisedVector
        conv_rhs => rw [← List.map_id di.Intents]
        apply List.map_congr_left
        intro kv _
        simp [truncatedQuotient_one]
      rw [hid]
    by_cases hU : weightTotal (normalisedVector ⟨weightTotal di.Intents⟩ di.Intents) = 0
    · have h0 : (summedWeight
          (normalisedVector ⟨weightTotal di.Intents⟩ di.Intents)).i = 0 := by
        rw [summedWeight_eq _ hund]; exact hU
      refine ⟨_, _, hu, Normalize_of_zero _ h0, rfl, ?_, hone⟩
      intro v a ha
      have := length_pos_of_mapGet _ _ _ ha
      have hlen : (normalisedVector ⟨weightTotal di.Intents⟩ di.Intents).length
          = di.Intents.length := by simp [normalisedVector]
      rw [hlen] at this
      exact ⟨a, ha, le_refl _, by omega⟩
    · have hUpos : 0 < weightTotal (normalisedVector ⟨weightTotal di.Intents⟩ di.Intents) := by
        have := weightTotal_nonneg _ huw
        omega
      have huu := Normalize_of_ne_zero
        ({ di with Intents := normalisedVector ⟨weightTotal di.Intents⟩ di.Intents }) hund hU
      refine ⟨_, _, hu, huu, keys_normalisedVector _ _, ?_, hone⟩
      intro v a ha
      have hmem : (v, a) ∈ normalisedVector ⟨weightTotal di.Intents⟩ di.Intents :=
        mem_of_mapGet _ _ _ ha
      have ha0 : 0 ≤ a.Weight.i := huw (v, a) hmem
      have haU := weight_le_total _ huw (v, a) hmem
      obtain ⟨_, hb1, hb2⟩ := truncatedQuotient_bounds
        ⟨weightTotal (normalisedVector ⟨weightTotal di.Intents⟩ di.Intents)⟩ a.Weight hUpos ha0
      refine ⟨{ a with Weight := (truncatedQuotient
        ⟨weightTotal (normalisedVector ⟨weightTotal di.Intents⟩ di.Intents)⟩ a.Weight) },
        ?_, ?_⟩
      · show mapGet (normalisedVector _ (normalisedVector _ di.Intents)) v = _
        rw [mapGet_normalisedVector]
        have ha' : mapGet (normalisedVector ⟨weightTotal di.Intents⟩ di.Intents) v = some a := ha
        rw [ha']
        rfl
      · exact renormalise_step _ _ _ _ hUpos hUle hUgt ha0 haU hb1 hb2

/-- The idempotence theorem of `Normalize` instantiated on the vector A:1, B:1, C:1. -/
theorem C17_normalize_idempotent_within_tolerance_witness :
    (tcThirds.Intents.map Prod.fst).Nodup ∧ (∀ kv ∈ tcThirds.Intents, 0 ≤ kv.2.Weight.i) ∧
    ∃ u uu, tcThirds.Normalize = some u ∧ u.Normalize = some uu ∧
      uu.Intents.map Prod.fst = u.Intents.map Prod.fst ∧
      (∀ v a, mapGet u.Intents v = some a →
        ∃ b, mapGet uu.Intents v = some b ∧ a.Weight.i ≤ b.Weight.i ∧
          b.Weight.i - a.Weight.i < (tcThirds.Intents.length : Int)) ∧
      (weightTotal tcThirds.Intents = 1000000000000000000 → u = tcThirds) :=
  ⟨by decide, by decide,
    C17_normalize_idempotent_within_tolerance tcThirds (by decide) (by decide)⟩

/-! ## Lemmas: the merge loop of `AddOrdinal` -/

theorem Ordinalize_Intents_eq (di : DelegatorIntent) (multiple : Dec)
    (hnd : (di.Intents.map Prod.fst).Nodup) :
    (di.Ordinalize multiple).Intents
      = di.Intents.map (fun kv => (kv.1, { kv.2 with Weight := kv.2.Weight.Mul multiple })) := by
  unfold DelegatorIntent.Ordinalize
  exact foldl_updateWeight_Keys (fun w => w.Mul multiple) di.Intents hnd

theorem findSameValoper_eq (m : List (String × ValidatorIntent)) (addr : String)
    (hwf : ∀ kv ∈ m, kv.2.ValoperAddress = kv.1) (l : List String)
    (hl : ∀ j ∈ l, j ∈ m.map Prod.fst) :
    findSameValoper m addr l = if addr ∈ l then some addr else none := by
  induction l with
  | nil => simp [findSameValoper]
  | cons j rest ih =>
    obtain ⟨e, he⟩ := (mapGet_isSome_iff m j).2 (hl j (by simp))
    have hej : e.ValoperAddress = j := hwf (j, e) (mem_of_mapGet m j e he)
    have ih2 := ih (fun x hx => hl x (List.mem_cons_of_mem _ hx))
    unfold findSameValoper
    simp only [he, hej]
    by_cases h : addr = j
    · simp [h]
    · simp [h, ih2]

theorem addIncoming_eq (intents m : List (String × ValidatorIntent)) (idx : String)
    (i : ValidatorIntent) (hi : mapGet intents idx = some i) (hidx : i.ValoperAddress = idx)
    (hwf : ∀ kv ∈ m, kv.2.ValoperAddress = kv.1) :
    addIncoming intents m idx
      = mapSet m idx (match mapGet m idx with
          | some e => { e with Weight := e.Weight.Add i.Weight }
          | none => i) := by
  unfold addIncoming
  simp only [hi, hidx]
  rw [findSameValoper_eq m idx hwf (Keys m) (fun j hj => (mem_Keys m j).1 hj)]
  cases hget : mapGet m idx with
  | none =>
    have : idx ∉ Keys m := fun h =>
      (mapGet_eq_none_iff m idx).1 hget ((mem_Keys m idx).1 h)
    simp [this]
  | some e =>
    have : idx ∈ Keys m := (mem_Keys m idx).2 ((mapGet_isSome_iff m idx).1 ⟨e, hget⟩)
    simp [this, updateWeight, hget]

theorem wf_mapSet (m : List (String × ValidatorIntent)) (k : String) (x : ValidatorIntent)
    (hwf : ∀ kv ∈ m, kv.2.ValoperAddress = kv.1) (hx : x.ValoperAddress = k) :
    ∀ kv ∈ mapSet m k x, kv.2.ValoperAddress = kv.1 := by
  intro kv hkv
  rcases mem_mapSet m k x kv hkv with rfl | h
  · exact hx
  · exact hwf kv h

theorem foldl_addIncoming (intents : List (String × ValidatorIntent))
    (hiwf : ∀ kv ∈ intents, kv.2.ValoperAddress = kv.1) (l : List String) (hl : l.Nodup)
    (hsub : ∀ idx ∈ l, idx ∈ intents.map Prod.fst)
    (m : List (String × ValidatorIntent)) (hnd : (m.map Prod.fst).Nodup)
    (hwf : ∀ kv ∈ m, kv.2.ValoperAddress = kv.1) :
    ((List.foldl (addIncoming intents) m l).map Prod.fst).Nodup ∧
    (∀ kv ∈ List.foldl (addIncoming intents) m l, kv.2.ValoperAddress = kv.1) ∧
    ∀ v, mapGet (List.foldl (addIncoming intents) m l) v
      = if v ∈ l then
          (match mapGet m v, mapGet intents v with
            | some e, some i => some { e with Weight := e.Weight.Add i.Weight }
            | some e, none => some e
            | none, some i => some i
            | none, none => none)
        else mapGet m v := by
  induction l generalizing m with
  | nil => exact ⟨hnd, hwf, fun v => by simp⟩
  | cons idx rest ih =>
    obtain ⟨i, hi⟩ := (mapGet_isSome_iff intents idx).2 (hsub idx (by simp))
    have hidx : i.ValoperAddress = idx := hiwf (idx, i) (mem_of_mapGet intents idx i hi)
    have hstep := addIncoming_eq intents m idx i hi hidx hwf
    have hx : (match mapGet m idx with
        | some e => ({ e with Weight := e.Weight.Add i.Weight } : ValidatorIntent)
        | none => i).ValoperAddress = idx := by
      cases hget : mapGet m idx with
      | none => exact hidx
      | some e => exact hwf (idx, e) (mem_of_mapGet m idx e hget)
    have hnd1 : ((addIncoming intents m idx).map Prod.fst).Nodup := by
      rw [hstep]; exact nodup_mapSet _ _ _ hnd
    have hwf1 : ∀ kv ∈ addIncoming intents m idx, kv.2.ValoperAddress = kv.1 := by
      rw [hstep]; exact wf_mapSet _ _ _ hwf hx
    obtain ⟨h1, h2, h3⟩ := ih (List.nodup_cons.1 hl).2
      (fun x hx => hsub x (List.mem_cons_of_mem _ hx)) (addIncoming intents m idx) hnd1 hwf1
    rw [List.foldl_cons]
    refine ⟨h1, h2, ?_⟩
    intro v
    rw [h3 v]
    have hnotin : idx ∉ rest := (List.nodup_cons.1 hl).1
    by_cases hv : v = idx
    · subst hv
      simp only [hnotin, if_false, List.mem_cons, true_or, if_true, hstep, mapGet_mapSet, hi]
      cases mapGet m v <;> rfl
    · have hv2 : ¬ idx = v := fun h => hv h.symm
      simp only [List.mem_cons, hv, false_or, hstep, mapGet_mapSet, hv2, if_false]

/-! ## Theorems: `AddOrdinal` -/

/-- C18 (merge definition): for every existing vector keyed by validator id (with distinct keys),
every multiplier and every non-empty incoming vector keyed by validator id, `AddOrdinal` returns
`Normalize(u)` for a vector `u` keyed by validator id whose keys are the union of the existing
and the incoming validator ids and whose entry for `v` has the weight
`existing[v] * multiplier + incoming[v]` when `v` is in both, `existing[v] * multiplier` when `v`
is only in the existing vector and `incoming[v]` when `v` is only in the incoming one. -/
theorem C18_addOrdinal_is_normalised_merge (di : DelegatorIntent) (multiplier : Dec)
    (intents : List (String × ValidatorIntent))
    (hnd : (di.Intents.map Prod.fst).Nodup)
    (hwf : ∀ kv ∈ di.Intents, kv.2.ValoperAddress = kv.1)
    (hiwf : ∀ kv ∈ intents, kv.2.ValoperAddress = kv.1)
    (hne : intents ≠ []) :
    ∃ u, di.AddOrdinal multiplier intents = (DelegatorIntent.mk di.Delegator u).Normalize ∧
      (u.map Prod.fst).Nodup ∧
      (∀ v, v ∈ u.map Prod.fst ↔ v ∈ di.Intents.map Prod.fst ∨ v ∈ intents.map Prod.fst) ∧
      ∀ v, mapGet u v = mergedEntry (mapGet di.Intents v) (mapGet intents v) multiplier := by
  have hord := Ordinalize_Intents_eq di multiplier hnd
  have hnd0 : (((di.Ordinalize multiplier).Intents).map Prod.fst).Nodup := by
    rw [hord, List.map_map]; exact hnd
  have hwf0 : ∀ kv ∈ (di.Ordinalize multiplier).Intents, kv.2.ValoperAddress = kv.1 := by
    intro kv hkv
    rw [hord] at hkv
    obtain ⟨e, he, rfl⟩ := List.mem_map.1 hkv
    exact hwf e he
  obtain ⟨h1, _, h3⟩ := foldl_addIncoming intents hiwf (Keys intents) (nodup_Keys intents)
    (fun idx h => (mem_Keys intents idx).1 h) (di.Ordinalize multiplier).Intents hnd0 hwf0
  have hget : ∀ v, mapGet (List.foldl (addIncoming intents) (di.Ordinalize multiplier).Intents
      (Keys intents)) v = mergedEntry (mapGet di.Intents v) (mapGet intents v) multiplier := by
    intro v
    rw [h3 v, hord]
    have hm : mapGet (di.Intents.map (fun kv =>
        (kv.1, ({ kv.2 with Weight := kv.2.Weight.Mul multiplier } : ValidatorIntent)))) v
        = (mapGet di.Intents v).map
          (fun t => ({ t with Weight := t.Weight.Mul multiplier } : ValidatorIntent)) :=
      mapGet_map_snd
        (fun (t : ValidatorIntent) =>
          ({ t with Weight := t.Weight.Mul multiplier } : ValidatorIntent)) di.Intents v
    rw [hm]
    by_cases hv : v ∈ Keys intents
    · obtain ⟨i, hi⟩ := (mapGet_isSome_iff intents v).2 ((mem_Keys intents v).1 hv)
      rw [if_pos hv, hi]
      cases mapGet di.Intents v <;> rfl
    · have hnone : mapGet intents v = none :=
        (mapGet_eq_none_iff intents v).2 (fun h => hv ((mem_Keys intents v).2 h))
      rw [if_neg hv, hnone]
      cases mapGet di.Intents v <;> rfl
  refine ⟨List.foldl (addIncoming intents) (di.Ordinalize multiplier).Intents (Keys intents),
    ?_, h1, ?_, hget⟩
  · have hk : (Keys intents).length ≠ 0 := by
      intro h
      exact Keys_ne_nil intents hne (List.length_eq_zero.1 h)
    unfold DelegatorIntent.AddOrdinal
    rw [if_neg hk]
    rfl
  · intro v
    rw [← mapGet_isSome_iff, hget v, ← mapGet_isSome_iff, ← mapGet_isSome_iff]
    cases mapGet di.Intents v <;> cases mapGet intents v <;> simp [mergedEntry]

/-- The merge theorem instantiated on the merge example: incoming X:10 into X:0.4, Y:0.6 with
multiplier 100. -/
theorem C18_addOrdinal_is_normalised_merge_witness :
    (tcExisting.Intents.map Prod.fst).Nodup ∧
    (∀ kv ∈ tcExisting.Intents, kv.2.ValoperAddress = kv.1) ∧
    (∀ kv ∈ tcIncoming, kv.2.ValoperAddress = kv.1) ∧ tcIncoming ≠ [] ∧
    ∃ u, tcExisting.AddOrdinal (Dec.NewDec 100) tcIncoming
        = (DelegatorIntent.mk tcExisting.Delegator u).Normalize ∧
      (u.map Prod.fst).Nodup ∧
      (∀ v, v ∈ u.map Prod.fst ↔
        v ∈ tcExisting.Intents.map Prod.fst ∨ v ∈ tcIncoming.map Prod.fst) ∧
      ∀ v, mapGet u v
        = mergedEntry (mapGet tcExisting.Intents v) (mapGet tcIncoming v) (Dec.NewDec 100) :=
  ⟨by decide, by decide, by decide, by decide,
    C18_addOrdinal_is_normalised_merge tcExisting (Dec.NewDec 100) tcIncoming (by decide)
      (by decide) (by decide) (by decide)⟩

/-- C19 (merge correctness example): merging incoming X:10 into existing X:0.4, Y:0.6 with
multiplier 100 gives, before normalisation, X:50 and Y:60, and `AddOrdinal` returns
X:0.454545454545454545 and Y:0.545454545454545454, that is 50/110 and 60/110 truncated to 18
decimals. -/
theorem C19_merge_example :
    (tcExisting.mergeOrdinal (Dec.NewDec 100) tcIncoming).Intents
      = [("X", ⟨"X", Dec.NewDec 50⟩), ("Y", ⟨"Y", Dec.NewDec 60⟩)] ∧
    tcExisting.AddOrdinal (Dec.NewDec 100) tcIncoming
      = some ⟨"d1", [("X", ⟨"X", Dec.NewDecWithPrec 454545454545454545 18⟩),
          ("Y", ⟨"Y", Dec.NewDecWithPrec 545454545454545454 18⟩)]⟩ ∧
    Int.tdiv ((Dec.NewDec 50).i * 1000000000000000000) (Dec.NewDec 110).i
      = 454545454545454545 ∧
    Int.tdiv ((Dec.NewDec 60).i * 1000000000000000000) (Dec.NewDec 110).i
      = 545454545454545454 := by
  decide

/-- C20 (merge with nothing incoming): for every existing intent vector and every multiplier,
`AddOrdinal` with an empty incoming vector returns the existing vector as it is, neither
ordinalized nor normalised. -/
theorem C20_addOrdinal_empty_incoming (di : DelegatorIntent) (multiplier : Dec) :
    di.AddOrdinal multiplier [] = some di := by
  rfl

/-! ## Theorems: the deltas of the planner -/

/-- The deltas with integers and decimals of arbitrary precision: `calculateDeltas` without the
bit-length limits returns exactly one delta per key of the target vector, in the ascending order
of `utils.Keys`, and the delta of validator `v` is `trunc(weight_v * currentSum) - current_v`,
where `current_v` is the current allocation of `v` or 0 when it has none. -/
theorem calculateDeltas_without_limits (currentAllocations : List (String × Int))
    (currentSum : Int) (targetAllocations : List (String × ValidatorIntent)) :
    ∃ deltas, calculateDeltas currentAllocations currentSum targetAllocations = some deltas ∧
      deltas.map (fun d => d.ValoperAddress) = Keys targetAllocations ∧
      (deltas.map (fun d => d.ValoperAddress)).Pairwise (fun a b => a < b) ∧
      (∀ v, v ∈ deltas.map (fun d => d.ValoperAddress)
        ↔ ∃ t, mapGet targetAllocations v = some t) ∧
      ∀ d ∈ deltas, ∀ t, mapGet targetAllocations d.ValoperAddress = some t →
        d.Weight = ToDec ((t.Weight.MulInt currentSum).TruncateInt
          - (match mapGet currentAllocations d.ValoperAddress with
            | some c => c
            | none => 0)) := by
  have hkeys : (baseDeltas currentAllocations currentSum targetAllocations).map
      (fun d => d.ValoperAddress) = Keys targetAllocations := by
    simp [baseDeltas, List.map_map, Function.comp_def]
  refine ⟨_, calculateDeltas_eq _ _ _, hkeys, ?_, ?_, ?_⟩
  · rw [hkeys]
    exact sorted_Keys targetAllocations
  · intro v
    rw [hkeys, mem_Keys, mapGet_isSome_iff]
  · intro d hd t ht
    unfold baseDeltas at hd
    obtain ⟨k, _, rfl⟩ := List.mem_map.1 hd
    simp only at ht
    simp only [deltaValue, weightOf, currentOf, ht]

/-- C30 (floor shift), evaluated on a target whose deltas are all positive: current allocation
Z:100 with sum 100 and targets A:0.5, B:0.5 give the deltas 50 and 50, `minDeltas` returns 50,
and the loop "raise all deltas such that the minimum value is zero" adds `|50|` to each: the
raised deltas are 100 and 100, so the smallest one is 100 and not zero. -/
theorem C30_positive_minimum_is_added :
    ∃ deltas, calculateDeltas [("Z", 100)] 100
        [("A", ⟨"A", Dec.NewDecWithPrec 50 2⟩), ("B", ⟨"B", Dec.NewDecWithPrec 50 2⟩)]
        = some deltas ∧
      deltas.map (fun d => d.Weight.TruncateInt) = [50, 50] ∧
      minDeltas deltas = 50 ∧
      (raiseDeltas (minDeltas deltas) deltas).map (fun d => d.Weight.TruncateInt)
        = [100, 100] ∧
      minDeltas (raiseDeltas (minDeltas deltas) deltas) = 100 :=
  ⟨_, rfl, by decide⟩

/-! ## Lemmas: iteration over the delegation records -/

theorem iterateRecords_eq_foldl {σ : Type} (cb : σ → Delegation → σ × Bool)
    (hcb : ∀ s d, (cb s d).2 = false) (l : List Delegation) (init : σ) :
    iterateRecords cb init l = l.foldl (fun s d => (cb s d).1) init := by
  induction l generalizing init with
  | nil => rfl
  | cons d rest ih => simp [iterateRecords, hcb, ih]

theorem foldl_append_singleton {α : Type} (l acc : List α) :
    l.foldl (fun ds d => ds ++ [d]) acc = acc ++ l := by
  induction l generalizing acc with
  | nil => simp
  | cons d rest ih => simp [ih]

theorem GetAllDelegations_eq (k : StakingKeeper) (zone : Zone) :
    GetAllDelegations k zone
      = (prefixIterator k.delegations (k.KeyPrefixDelegation ++ stringBytes zone.ChainId)).map
          Prod.snd := by
  unfold GetAllDelegations IterateAllDelegations
  rw [iterateRecords_eq_foldl _ (fun _ _ => rfl)]
  simp only []
  rw [foldl_append_singleton]
  simp

theorem GetDelegationMap_eq (k : StakingKeeper) (zone : Zone) :
    GetDelegationMap k zone = (GetAllDelegations k zone).foldl addDelegation ([], 0) := by
  rw [GetAllDelegations_eq]
  unfold GetDelegationMap IterateAllDelegations
  rw [iterateRecords_eq_foldl _ (fun _ _ => rfl)]
  rfl

theorem valueSum_mapSet (m : List (String × Int)) (k : String) (x : Int) :
    ((mapSet m k x).map Prod.snd).sum
      = (m.map Prod.snd).sum - (mapGet m k).getD 0 + x := by
  induction m with
  | nil => simp [mapSet, mapGet]
  | cons kv rest ih =>
    obtain ⟨k', v⟩ := kv
    unfold mapSet
    by_cases h : k' = k
    · simp [h, mapGet, add_comm]
    · simp only [h, if_false, List.map_cons, List.sum_cons, ih, mapGet]
      ring

theorem addDelegation_fst_mapGet (acc : List (String × Int) × Int) (d : Delegation)
    (v : String) :
    mapGet (addDelegation acc d).1 v
      = if d.ValidatorAddress = v then
          some ((mapGet acc.1 v).getD 0 + d.Amount.Amount)
        else mapGet acc.1 v := by
  unfold addDelegation
  by_cases hv : d.ValidatorAddress = v
  · subst hv
    cases h : mapGet acc.1 d.ValidatorAddress <;> simp [h, mapGet_mapSet]
  · cases h : mapGet acc.1 d.ValidatorAddress <;> simp [h, mapGet_mapSet, hv]

theorem addDelegation_fst_sum (acc : List (String × Int) × Int) (d : Delegation) :
    ((addDelegation acc d).1.map Prod.snd).sum
      = (acc.1.map Prod.snd).sum + d.Amount.Amount := by
  unfold addDelegation
  cases h : mapGet acc.1 d.ValidatorAddress
  · simp [h, valueSum_mapSet]
  · simp only [h, valueSum_mapSet, Option.getD_some]
    ring

theorem addDelegation_nodup (acc : List (String × Int) × Int) (d : Delegation)
    (h : (acc.1.map Prod.fst).Nodup) : ((addDelegation acc d).1.map Prod.fst).Nodup := by
  unfold addDelegation
  cases h' : mapGet acc.1 d.ValidatorAddress <;> simp only [h'] <;> exact nodup_mapSet _ _ _ h

theorem foldl_addDelegation (l : List Delegation) (acc : List (String × Int) × Int) :
    (∀ v, mapGet (l.foldl addDelegation acc).1 v
        = if l.any (fun d => decide (d.ValidatorAddress = v)) then
            some ((mapGet acc.1 v).getD 0 + validatorTotal l v)
          else mapGet acc.1 v) ∧
      ((l.foldl addDelegation acc).1.map Prod.snd).sum
        = (acc.1.map Prod.snd).sum + (l.map (fun d => d.Amount.Amount)).sum ∧
      (l.foldl addDelegation acc).2 = acc.2 + (l.map (fun d => d.Amount.Amount)).sum ∧
      ((acc.1.map Prod.fst).Nodup → ((l.foldl addDelegation acc).1.map Prod.fst).Nodup) := by
  induction l generalizing acc with
  | nil => simp [validatorTotal]
  | cons d rest ih =>
    obtain ⟨h1, h2, h3, h4⟩ := ih (addDelegation acc d)
    refine ⟨?_, ?_, ?_, ?_⟩
    · intro v
      simp only [List.foldl_cons, h1 v, addDelegation_fst_mapGet]
      by_cases hv : d.ValidatorAddress = v
      · by_cases hr : rest.any (fun d => decide (d.ValidatorAddress = v))
        · simp [hv, hr, validatorTotal, add_assoc]
        · simp [hv, hr, validatorTotal]
          simp at hr
          rw [List.filter_eq_nil_iff.2 (by simpa using hr)]
          simp
      · by_cases hr : rest.any (fun d => decide (d.ValidatorAddress = v))
        · simp [hv, hr, validatorTotal]
        · simp [hv, hr, validatorTotal]
    · simp only [List.foldl_cons, h2, addDelegation_fst_sum, List.map_cons, List.sum_cons]
      ring
    · have h0 : (addDelegation acc d).2 = acc.2 + d.Amount.Amount := rfl
      simp only [List.foldl_cons, h3, h0, List.map_cons, List.sum_cons]
      ring
    · intro hnd
      exact h4 (addDelegation_nodup acc d hnd)

/-! ## Theorems: the delegation records -/

/-- The map and the total of `GetDelegationMap` against the store: with `records` the values of
the store whose key starts with the prefix of the zone (the delegation prefix followed by the
bytes of the chain id), in the order of their keys, the map has every validator once; it assigns
to a validator the sum of the amounts of its records among them, and has no entry for a validator
without one; the total is the sum of the map's values and the sum of the amounts of `records`. -/
theorem GetDelegationMap_sums_prefixed_records (k : StakingKeeper) (zone : Zone)
    (records : List Delegation)
    (hrec : records = (k.delegations.filter (fun kv =>
      (k.KeyPrefixDelegation ++ stringBytes zone.ChainId).isPrefixOf kv.1)).map Prod.snd) :
    ((GetDelegationMap k zone).1.map Prod.fst).Nodup ∧
      (∀ v, mapGet (GetDelegationMap k zone).1 v
        = if records.any (fun d => decide (d.ValidatorAddress = v)) then
            some (validatorTotal records v)
          else none) ∧
      (GetDelegationMap k zone).2 = ((GetDelegationMap k zone).1.map Prod.snd).sum ∧
      (GetDelegationMap k zone).2 = (records.map (fun d => d.Amount.Amount)).sum := by
  have hall : GetAllDelegations k zone = records := by
    rw [GetAllDelegations_eq, hrec]
    rfl
  rw [GetDelegationMap_eq, hall]
  obtain ⟨h1, h2, h3, h4⟩ := foldl_addDelegation records ([], 0)
  refine ⟨h4 (by simp), ?_, ?_, ?_⟩
  · intro v
    rw [h1 v]
    simp [mapGet]
  · rw [h2, h3]
    simp
  · rw [h3]
    simp

/-- C25 (scoping of the delegation store), evaluated on the chain ids "zone-1" and "zone-10":
the key of a record is the prefix, the bytes of the chain id, and the two addresses, one after the
other, so the prefix iterated for "zone-1" also starts the keys stored for "zone-10". A record
stored by `SetDelegation` under "zone-10" alone is visited when the delegations of "zone-1" are
iterated, and is counted in the holdings of "zone-1". -/
theorem C25_iteration_visits_other_zone :
    tcZone.ChainId ≠ tcZoneTen.ChainId ∧
      GetAllDelegations (tcStakingEmpty none) tcZone = [] ∧
      GetAllDelegations (SetDelegation (tcStakingEmpty none) tcZoneTen tcDelegation) tcZone
        = [tcDelegation] ∧
      GetDelegationMap (SetDelegation (tcStakingEmpty none) tcZoneTen tcDelegation) tcZone
        = ([("V", 100)], 100) := by
  decide

/-! ## Lemmas: the instructions for shares -/

theorem mem_stableInsert {α : Type} (less : α → α → Bool) (a x : α) (l : List α) :
    x ∈ stableInsert less a l ↔ x = a ∨ x ∈ l := by
  rw [(perm_stableInsert less a l).mem_iff, List.mem_cons]

theorem sorted_stableInsert {α : Type} (f : α → String) (a : α) (l : List α)
    (h : l.Pairwise (fun x y => f x ≤ f y)) :
    (stableInsert (fun x y => strLess (f x) (f y)) a l).Pairwise (fun x y => f x ≤ f y) := by
  induction l with
  | nil => simp [stableInsert]
  | cons b rest ih =>
    rw [List.pairwise_cons] at h
    unfold stableInsert
    by_cases hlt : strLess (f b) (f a) = true
    · simp only [hlt, if_true, List.pairwise_cons]
      refine ⟨?_, ih h.2⟩
      intro x hx
      rcases (mem_stableInsert _ a x rest).1 hx with hx | hx
      · rw [hx]
        exact le_of_lt ((strLess_iff _ _).1 hlt)
      · exact h.1 x hx
    · have hab : f a ≤ f b := not_lt.1 (fun hba => hlt ((strLess_iff _ _).2 hba))
      simp only [hlt, Bool.false_eq_true, if_false, List.pairwise_cons]
      refine ⟨?_, h.1, h.2⟩
      intro x hx
      rcases List.mem_cons.1 hx with hx | hx
      · rw [hx]
        exact hab
      · exact le_trans hab (h.1 x hx)

theorem sorted_SliceStable {α : Type} (f : α → String) (l : List α) :
    (SliceStable (fun x y => strLess (f x) (f y)) l).Pairwise (fun x y => f x ≤ f y) := by
  induction l with
  | nil => simp [SliceStable]
  | cons a rest ih => exact sorted_stableInsert f a _ ih

theorem foldl_redeem (address : String) (l : List Coin) (acc : List Msg) :
    l.foldl (fun msgs coin =>
        if ¬ (coin.Amount = 0) then msgs ++ [Msg.MsgRedeemTokensforShares address coin]
        else msgs) acc
      = acc ++ (l.filter (fun c => decide (c.Amount ≠ 0))).map
          (fun c => Msg.MsgRedeemTokensforShares address c) := by
  induction l generalizing acc with
  | nil => simp
  | cons c rest ih =>
    by_cases hc : c.Amount = 0
    · simp only [List.foldl_cons, hc, not_true_eq_false, if_false, ih]
      simp [hc]
    · simp only [List.foldl_cons, hc, not_false_eq_true, if_true, ih]
      simp [hc]

/-! ## Theorems: the instructions for shares -/

/-- C28 as written fails: the bundle of 0 uatom and 3 stake has two denominations, and
`PrepareDelegationMessagesForShares` returns one instruction, for stake; the coin of amount zero
is skipped by the test `!coin.IsZero()`. -/
theorem C28_zero_coin_gets_no_instruction :
    PrepareDelegationMessagesForShares tcZone [⟨"uatom", 0⟩, ⟨"stake", 3⟩]
      = [Msg.MsgRedeemTokensforShares "deleg" ⟨"stake", 3⟩] := by
  decide

/-- C28 (amended): for every coin bundle, `PrepareDelegationMessagesForShares` returns exactly one
redeem instruction per coin of the bundle whose amount is not zero, in ascending order of the
denominations, each carrying that coin and the zone's delegation address; a coin of amount zero
gets no instruction. -/
theorem C28_one_instruction_per_nonzero_coin (zone : Zone) (coins : List Coin) :
    ∃ kept : List Coin,
      kept.Perm (coins.filter (fun c => decide (c.Amount ≠ 0))) ∧
      kept.Pairwise (fun a b => a.Denom ≤ b.Denom) ∧
      PrepareDelegationMessagesForShares zone coins
        = kept.map (fun c => Msg.MsgRedeemTokensforShares zone.DelegationAddress c) := by
  refine ⟨(CoinsSort coins).filter (fun c => decide (c.Amount ≠ 0)), ?_, ?_, ?_⟩
  · exact (perm_SliceStable _ coins).filter _
  · exact (sorted_SliceStable (fun c : Coin => c.Denom) coins).sublist (List.filter_sublist _)
  · unfold PrepareDelegationMessagesForShares
    rw [foldl_redeem]
    simp

/-! ## Theorems: the withdrawal of rewards -/

/-- C21 (dispatch counts what it emits): when the response decodes and the counter plus the number
of withdrawal messages fits in 32 bits, `WithdrawDelegationRewardsForResponse` persists the zone
with `WithdrawalWaitgroup` raised by the number of messages it built and hands exactly these
messages to `SubmitTx`; when it built none, the zone is persisted as it was given, `SubmitTx` is
not called and the call succeeds. -/
theorem C21_dispatch_counts_emitted (k : StakingKeeper) (zone : Zone) (delegator : String)
    (response : List Nat) (r : QueryDelegationTotalRewardsResponse)
    (hdec : k.Unmarshal response = some r)
    (hfit : zone.WithdrawalWaitgroup
      + (withdrawalMsgs k zone (k.DecodeAndConvert delegator) r).length < 2 ^ 32) :
    (WithdrawDelegationRewardsForResponse k zone delegator response).keeper
        = k.SetZone { zone with
            WithdrawalWaitgroup := zone.WithdrawalWaitgroup
              + (withdrawalMsgs k zone (k.DecodeAndConvert delegator) r).length } ∧
      mapGet (WithdrawDelegationRewardsForResponse k zone delegator response).keeper.zones
          zone.ChainId
        = some { zone with
            WithdrawalWaitgroup := zone.WithdrawalWaitgroup
              + (withdrawalMsgs k zone (k.DecodeAndConvert delegator) r).length } ∧
      (WithdrawDelegationRewardsForResponse k zone delegator response).submitted
        = (if (withdrawalMsgs k zone (k.DecodeAndConvert delegator) r).length = 0 then none
          else some (withdrawalMsgs k zone (k.DecodeAndConvert delegator) r)) ∧
      ((withdrawalMsgs k zone (k.DecodeAndConvert delegator) r).length = 0 →
        (WithdrawDelegationRewardsForResponse k zone delegator response).err = none ∧
        (WithdrawDelegationRewardsForResponse k zone delegator response).keeper
          = k.SetZone zone) := by
  generalize hm : withdrawalMsgs k zone (k.DecodeAndConvert delegator) r = msgs at hfit
  have hres : WithdrawDelegationRewardsForResponse k zone delegator response
      = if msgs.length = 0 then
          { err := none, keeper := k.SetZone zone, submitted := none }
        else
          { err := (k.SubmitTx msgs zone.DelegationAddress "").map DispatchError.submit,
            keeper := k.SetZone { zone with
              WithdrawalWaitgroup := (zone.WithdrawalWaitgroup + msgs.length % 2 ^ 32) % 2 ^ 32 },
            submitted := some msgs } := by
    unfold WithdrawDelegationRewardsForResponse
    simp only [hdec, hm]
  have hmod : (zone.WithdrawalWaitgroup + msgs.length % 2 ^ 32) % 2 ^ 32
      = zone.WithdrawalWaitgroup + msgs.length := by
    omega
  rw [hres, hmod]
  by_cases hn : msgs.length = 0
  · simp [hn, StakingKeeper.SetZone, Keeper.SetZone, mapGet_mapSet]
  · simp [hn, StakingKeeper.SetZone, Keeper.SetZone, mapGet_mapSet]

theorem C21_dispatch_counts_emitted_witness :
    (tcStaking none).Unmarshal [1]
        = some ⟨[⟨"V", [⟨"uatom", Dec.NewDec 5⟩]⟩], [⟨"uatom", Dec.NewDec 5⟩]⟩ ∧
      (withdrawalMsgs (tcStaking none) tcZone ((tcStaking none).DecodeAndConvert "deleg")
        ⟨[⟨"V", [⟨"uatom", Dec.NewDec 5⟩]⟩], [⟨"uatom", Dec.NewDec 5⟩]⟩)
        = [Msg.MsgWithdrawDelegatorReward "deleg" "V"] ∧
      mapGet (WithdrawDelegationRewardsForResponse (tcStaking none) tcZone "deleg"
          [1]).keeper.zones tcZone.ChainId
        = some { tcZone with
            WithdrawalWaitgroup := tcZone.WithdrawalWaitgroup
              + (withdrawalMsgs (tcStaking none) tcZone
                  ((tcStaking none).DecodeAndConvert "deleg")
                  ⟨[⟨"V", [⟨"uatom", Dec.NewDec 5⟩]⟩], [⟨"uatom", Dec.NewDec 5⟩]⟩).length } :=
  ⟨rfl, by decide,
    (C21_dispatch_counts_emitted (tcStaking none) tcZone "deleg" [1]
      ⟨[⟨"V", [⟨"uatom", Dec.NewDec 5⟩]⟩], [⟨"uatom", Dec.NewDec 5⟩]⟩ rfl (by decide)).2.1⟩

/-- C22 (only non-zero rewards qualify), evaluated on a reward made only of a zero amount: the
zone has one delegation, to validator V, and the response reports the reward 0 uatom for V. The
test `!amount.IsZero() || !amount.Empty()` holds for every reward that has a coin, so a withdrawal
message is built for V although the reward is zero, and the persisted counter goes from 0 to 1. -/
theorem C22_zero_reward_emits_withdrawal :
    tcUnmarshal [2]
        = some ⟨[⟨"V", [⟨"uatom", Dec.NewDec 0⟩]⟩], [⟨"uatom", Dec.NewDec 0⟩]⟩ ∧
      GetAllDelegations (tcStaking none) tcZone = [tcDelegation] ∧
      rewardsForDelegation ⟨[⟨"V", [⟨"uatom", Dec.NewDec 0⟩]⟩], [⟨"uatom", Dec.NewDec 0⟩]⟩ "V"
        = [⟨"uatom", Dec.NewDec 0⟩] ∧
      DecCoinsIsZero [⟨"uatom", Dec.NewDec 0⟩] = true ∧
      (WithdrawDelegationRewardsForResponse (tcStaking none) tcZone "deleg" [2]).submitted
        = some [Msg.MsgWithdrawDelegatorReward "deleg" "V"] ∧
      (WithdrawDelegationRewardsForResponse (tcStaking none) tcZone "deleg" [2]).err = none ∧
      storedWaitgroup (tcStaking none) "zone-1" = some 0 ∧
      storedWaitgroup
        (WithdrawDelegationRewardsForResponse (tcStaking none) tcZone "deleg" [2]).keeper
        "zone-1" = some 1 := by
  decide

/-- C23 as written fails: with one delegation whose reward is 5 uatom and a `SubmitTx` that fails,
`WithdrawDelegationRewardsForResponse` returns the error of `SubmitTx`, and the persisted counter,
0 before the call, is 1 after it: the zone is persisted before the messages are submitted. -/
theorem C23_submit_failure_keeps_raised_counter :
    (WithdrawDelegationRewardsForResponse (tcStaking (some "submit failed")) tcZone "deleg"
        [1]).err = some (DispatchError.submit "submit failed") ∧
      tcZone.WithdrawalWaitgroup = 0 ∧
      storedWaitgroup (tcStaking (some "submit failed")) "zone-1" = some 0 ∧
      storedWaitgroup
        (WithdrawDelegationRewardsForResponse (tcStaking (some "submit failed")) tcZone "deleg"
          [1]).keeper "zone-1" = some 1 := by
  decide

/-- C23 (amended): when `WithdrawDelegationRewardsForResponse` returns an error, either the
response did not decode, and then the keeper state is what it was before the call and nothing was
submitted; or the response decoded, at least one withdrawal message was built, `SubmitTx` failed
on these messages with the returned error, and the zone has been persisted with the counter raised
by the number of messages (modulo `2^32`). -/
theorem C23_error_after_decode_keeps_raised_counter (k : StakingKeeper) (zone : Zone)
    (delegator : String) (response : List Nat)
    (herr : (WithdrawDelegationRewardsForResponse k zone delegator response).err ≠ none) :
    (k.Unmarshal response = none ∧
        (WithdrawDelegationRewardsForResponse k zone delegator response).err
          = some DispatchError.unmarshal ∧
        (WithdrawDelegationRewardsForResponse k zone delegator response).keeper = k ∧
        (WithdrawDelegationRewardsForResponse k zone delegator response).submitted = none) ∨
      ∃ r e, k.Unmarshal response = some r ∧
        withdrawalMsgs k zone (k.DecodeAndConvert delegator) r ≠ [] ∧
        k.SubmitTx (withdrawalMsgs k zone (k.DecodeAndConvert delegator) r)
          zone.DelegationAddress "" = some e ∧
        (WithdrawDelegationRewardsForResponse k zone delegator response).err
          = some (DispatchError.submit e) ∧
        (WithdrawDelegationRewardsForResponse k zone delegator response).submitted
          = some (withdrawalMsgs k zone (k.DecodeAndConvert delegator) r) ∧
        (WithdrawDelegationRewardsForResponse k zone delegator response).keeper
          = k.SetZone { zone with
              WithdrawalWaitgroup := (zone.WithdrawalWaitgroup
                + (withdrawalMsgs k zone (k.DecodeAndConvert delegator) r).length % 2 ^ 32)
                % 2 ^ 32 } := by
  cases hdec : k.Unmarshal response with
  | none =>
    left
    unfold WithdrawDelegationRewardsForResponse
    simp [hdec]
  | some r =>
    right
    generalize hm : withdrawalMsgs k zone (k.DecodeAndConvert delegator) r = msgs
    have hres : WithdrawDelegationRewardsForResponse k zone delegator response
        = if msgs.length = 0 then
            { err := none, keeper := k.SetZone zone, submitted := none }
          else
            { err := (k.SubmitTx msgs zone.DelegationAddress "").map DispatchError.submit,
              keeper := k.SetZone { zone with
                WithdrawalWaitgroup :=
                  (zone.WithdrawalWaitgroup + msgs.length % 2 ^ 32) % 2 ^ 32 },
              submitted := some msgs } := by
      unfold WithdrawDelegationRewardsForResponse
      simp only [hdec, hm]
    rw [hres] at herr ⊢
    by_cases hn : msgs.length = 0
    · simp [hn] at herr
    · simp only [hn, if_false] at herr ⊢
      cases hs : k.SubmitTx msgs zone.DelegationAddress "" with
      | none => simp [hs] at herr
      | some e =>
        subst hm
        refine ⟨r, e, rfl, ?_, hs, by simp [hs], rfl, rfl⟩
        intro h
        exact hn (by simp [h])

theorem C23_error_after_decode_keeps_raised_counter_witness :
    (WithdrawDelegationRewardsForResponse (tcStaking (some "submit failed")) tcZone "deleg"
        [1]).err ≠ none ∧
      (((tcStaking (some "submit failed")).Unmarshal [1] = none ∧
        (WithdrawDelegationRewardsForResponse (tcStaking (some "submit failed")) tcZone "deleg"
          [1]).err = some DispatchError.unmarshal ∧
        (WithdrawDelegationRewardsForResponse (tcStaking (some "submit failed")) tcZone "deleg"
          [1]).keeper = tcStaking (some "submit failed") ∧
        (WithdrawDelegationRewardsForResponse (tcStaking (some "submit failed")) tcZone "deleg"
          [1]).submitted = none) ∨
      ∃ r e, (tcStaking (some "submit failed")).Unmarshal [1] = some r ∧
        withdrawalMsgs (tcStaking (some "submit failed")) tcZone
          ((tcStaking (some "submit failed")).DecodeAndConvert "deleg") r ≠ [] ∧
        (tcStaking (some "submit failed")).SubmitTx
          (withdrawalMsgs (tcStaking (some "submit failed")) tcZone
            ((tcStaking (some "submit failed")).DecodeAndConvert "deleg") r)
          tcZone.DelegationAddress "" = some e ∧
        (WithdrawDelegationRewardsForResponse (tcStaking (some "submit failed")) tcZone "deleg"
          [1]).err = some (DispatchError.submit e) ∧
        (WithdrawDelegationRewardsForResponse (tcStaking (some "submit failed")) tcZone "deleg"
          [1]).submitted
          = some (withdrawalMsgs (tcStaking (some "submit failed")) tcZone
              ((tcStaking (some "submit failed")).DecodeAndConvert "deleg") r) ∧
        (WithdrawDelegationRewardsForResponse (tcStaking (some "submit failed")) tcZone "deleg"
          [1]).keeper
          = (tcStaking (some "submit failed")).SetZone { tcZone with
              WithdrawalWaitgroup := (tcZone.WithdrawalWaitgroup
                + (withdrawalMsgs (tcStaking (some "submit failed")) tcZone
                    ((tcStaking (some "submit failed")).DecodeAndConvert "deleg") r).length
                  % 2 ^ 32) % 2 ^ 32 }) :=
  ⟨by decide,
    C23_error_after_decode_keeps_raised_counter (tcStaking (some "submit failed")) tcZone "deleg"
      [1] (by decide)⟩

/-! ## Lemmas: the ordinalized records -/

theorem ordinalizeRecords_snd (k : StakingKeeper) (zone : Zone)
    (l acc : List DelegatorIntent) :
    (ordinalizeRecords k zone l acc).2
      = (l.find? (fun intent => (k.AccAddressFromBech32 intent.Delegator).isNone)).map
          (fun bad => AggregateError.address bad.Delegator) := by
  induction l generalizing acc with
  | nil => simp [ordinalizeRecords]
  | cons intent rest ih =>
    unfold ordinalizeRecords
    cases h : k.AccAddressFromBech32 intent.Delegator with
    | none => simp [h, List.find?_cons]
    | some addr => simp [h, ih, List.find?_cons]

theorem ordinalizeRecords_fst (k : StakingKeeper) (zone : Zone)
    (l acc : List DelegatorIntent)
    (h : l.find? (fun intent => (k.AccAddressFromBech32 intent.Delegator).isNone) = none) :
    (ordinalizeRecords k zone l acc).1
      = acc ++ l.map (fun intent =>
          intent.Ordinalize (ToDec (delegatorBalance k.toKeeper zone intent))) := by
  induction l generalizing acc with
  | nil => simp [ordinalizeRecords]
  | cons intent rest ih =>
    unfold ordinalizeRecords
    cases hd : k.AccAddressFromBech32 intent.Delegator with
    | none => simp [hd, List.find?_cons] at h
    | some addr =>
      simp only [hd, List.find?_cons, Option.isNone_some] at h
      simp [hd, ih _ h, delegatorBalance]

theorem AllOrdinalizedIntents_eq (k : StakingKeeper) (zone : Zone) (snapshot : Bool) :
    AllOrdinalizedIntents k zone snapshot
      = (match (k.intentStore snapshot).find?
          (fun intent => (k.AccAddressFromBech32 intent.Delegator).isNone) with
        | some bad => ([], some (AggregateError.address bad.Delegator))
        | none =>
          ((k.intentStore snapshot).map (fun intent =>
            intent.Ordinalize (ToDec (delegatorBalance k.toKeeper zone intent))), none)) := by
  unfold AllOrdinalizedIntents
  have h2 := ordinalizeRecords_snd k zone (k.intentStore snapshot) []
  have h1 := ordinalizeRecords_fst k zone (k.intentStore snapshot) []
  generalize ordinalizeRecords k zone (k.intentStore snapshot) [] = res at h1 h2
  obtain ⟨intents, err⟩ := res
  cases hf : (k.intentStore snapshot).find?
      (fun intent => (k.AccAddressFromBech32 intent.Delegator).isNone) with
  | none =>
    simp only [hf, Option.map_none'] at h2
    simp only at h1
    simp [h2, h1 hf]
  | some bad =>
    simp only [hf, Option.map_some'] at h2
    simp [h2]

/-! ## Theorems: the intent records -/

/-- C26 (an empty merge result is not an error and is not persisted): when the intent obtained in
`UpdateIntent` after the updates with the coins and with the memo has no entry, `UpdateIntent`
returns `nil` and the keeper state, and so the stored intent record of every delegator, is what it
was before the call. -/
theorem C26_empty_merge_not_persisted (k : StakingKeeper) (sender : AccAddress) (zone : Zone)
    (inAmount : List Coin) (memo : String) (intent : DelegatorIntent)
    (hupd : updatedIntent k sender zone inAmount memo = Except.ok intent)
    (hempty : intent.Intents.length = 0) :
    UpdateIntent k sender zone inAmount memo = (none, k) ∧
      ∀ delegator snapshot,
        GetIntent (UpdateIntent k sender zone inAmount memo).2 delegator snapshot
          = GetIntent k delegator snapshot := by
  have h : UpdateIntent k sender zone inAmount memo = (none, k) := by
    unfold UpdateIntent
    simp [hupd, hempty]
  exact ⟨h, fun _ _ => by rw [h]⟩

theorem C26_empty_merge_not_persisted_witness :
    updatedIntent (tcStakingEmpty none) [100, 57] tcZone [⟨"uatom", 5⟩] "memo"
        = Except.ok ⟨"d9", []⟩ ∧
      (⟨"d9", []⟩ : DelegatorIntent).Intents.length = 0 ∧
      UpdateIntent (tcStakingEmpty none) [100, 57] tcZone [⟨"uatom", 5⟩] "memo"
        = (none, tcStakingEmpty none) :=
  ⟨rfl, rfl,
    (C26_empty_merge_not_persisted (tcStakingEmpty none) [100, 57] tcZone [⟨"uatom", 5⟩] "memo"
      ⟨"d9", []⟩ rfl rfl).1⟩

/-- C27 (never half a slice): `AllOrdinalizedIntents` returns the decoding error of the first
stored delegator id that does not decode, together with an empty list; when every stored id
decodes it returns no error and, in store order, one record per stored intent, ordinalized with
the balance of its delegator. Ordinalizing a record keeps its delegator and multiplies the weight
of every entry by the balance. -/
theorem C27_all_or_nothing (k : StakingKeeper) (zone : Zone) (snapshot : Bool) :
    AllOrdinalizedIntents k zone snapshot
        = (match (k.intentStore snapshot).find?
            (fun intent => (k.AccAddressFromBech32 intent.Delegator).isNone) with
          | some bad => ([], some (AggregateError.address bad.Delegator))
          | none =>
            ((k.intentStore snapshot).map (fun intent =>
              intent.Ordinalize (ToDec (delegatorBalance k.toKeeper zone intent))), none)) ∧
      ∀ (intent : DelegatorIntent) (balance : Int), (intent.Intents.map Prod.fst).Nodup →
        (intent.Ordinalize (ToDec balance)).Delegator = intent.Delegator ∧
        ∀ v, mapGet (intent.Ordinalize (ToDec balance)).Intents v
          = (mapGet intent.Intents v).map
              (fun t => { t with Weight := ⟨t.Weight.i * balance⟩ }) := by
  constructor
  · exact AllOrdinalizedIntents_eq k zone snapshot
  · intro intent balance hnd
    refine ⟨rfl, fun v => ?_⟩
    rw [Ordinalize_Intents intent balance hnd]
    exact mapGet_map_snd
      (fun (t : ValidatorIntent) => ({ t with Weight := ⟨t.Weight.i * balance⟩ } : ValidatorIntent))
      intent.Intents v

/-! ## Lemmas: maps built by assignments in a loop -/

theorem mapGet_foldl_mapSet {α β : Type} (key : β → String) (val : β → α) (l : List β)
    (acc : List (String × α)) (k : String) :
    mapGet (l.foldl (fun m x => mapSet m (key x) (val x)) acc) k
      = (l.reverse.find? (fun x => decide (key x = k))).elim (mapGet acc k)
          (fun x => some (val x)) := by
  induction l generalizing acc with
  | nil => simp
  | cons x rest ih =>
    simp only [List.foldl_cons, ih, List.reverse_cons, List.find?_append, mapGet_mapSet]
    cases h : rest.reverse.find? (fun x => decide (key x = k)) with
    | some y => simp
    | none =>
      by_cases hx : key x = k <;> simp [hx]

theorem keys_foldl_set {α β : Type} (key : β → String) (val : β → α) (l : List β)
    (acc : List (String × α)) (k : String) :
    k ∈ (l.foldl (fun m x => mapSet m (key x) (val x)) acc).map Prod.fst
      ↔ k ∈ acc.map Prod.fst ∨ ∃ x ∈ l, key x = k := by
  induction l generalizing acc with
  | nil => simp
  | cons x rest ih =>
    simp only [List.foldl_cons, ih, keys_mapSet, List.mem_cons, exists_eq_or_imp]
    constructor
    · rintro ((h | h) | h)
      · exact Or.inr (Or.inl h.symm)
      · exact Or.inl h
      · exact Or.inr (Or.inr h)
    · rintro (h | h | h)
      · exact Or.inl (Or.inr h)
      · exact Or.inl (Or.inl h.symm)
      · exact Or.inr h

theorem nodup_foldl_set {α β : Type} (key : β → String) (val : β → α) (l : List β)
    (acc : List (String × α)) (h : (acc.map Prod.fst).Nodup) :
    ((l.foldl (fun m x => mapSet m (key x) (val x)) acc).map Prod.fst).Nodup := by
  induction l generalizing acc with
  | nil => simpa using h
  | cons x rest ih => exact ih _ (nodup_mapSet _ _ _ h)

/-! ## Theorems: the lowest delta, the delegate instructions, shares, event attributes -/

/-- C35 (minDeltas returns the lowest value), evaluated on a slice with one delta of
`10^19`: `minDeltas` starts from `math.MaxInt64` and only replaces it by a smaller value, so it
returns `9223372036854775807`, which is the truncated weight of no element of the slice. -/
theorem C35_minDeltas_above_MaxInt64 :
    (⟨"A", ToDec 10000000000000000000⟩ : ValidatorIntent).Weight.TruncateInt
        = 10000000000000000000 ∧
      minDeltas [⟨"A", ToDec 10000000000000000000⟩] = 9223372036854775807 ∧
      ¬ ∃ d ∈ [(⟨"A", ToDec 10000000000000000000⟩ : ValidatorIntent)],
        minDeltas [⟨"A", ToDec 10000000000000000000⟩] = d.Weight.TruncateInt := by
  decide

/-- C37 (SharesToTokens converts the shares it is given), evaluated on a validator with voting
power 100 and 100 delegator shares: `SharesToTokens` of zero shares is 1, and so is
`SharesToTokens` of 7 shares; the body divides the voting power by the delegator shares and does
not read its argument. With zero delegator shares it returns 0 without dividing. -/
theorem C37_SharesToTokens_ignores_shares :
    (⟨100, Dec.NewDec 100⟩ : Validator).SharesToTokens Dec.ZeroDec = some 1 ∧
      (⟨100, Dec.NewDec 100⟩ : Validator).SharesToTokens (Dec.NewDec 7) = some 1 ∧
      (⟨100, Dec.ZeroDec⟩ : Validator).SharesToTokens (Dec.NewDec 7) = some 0 := by
  decide

/-- C38 (AttributesToMap keeps the last value of each key): the map has each key once, its keys
are exactly the keys that occur in the list of attributes, and a key is mapped to the value of the
last attribute of the list with that key. -/
theorem C38_AttributesToMap_last_value (attrs : List EventAttribute) :
    ((AttributesToMap attrs).map Prod.fst).Nodup ∧
      (∀ k, k ∈ (AttributesToMap attrs).map Prod.fst ↔ ∃ a ∈ attrs, a.Key = k) ∧
      ∀ k, mapGet (AttributesToMap attrs) k
        = (attrs.reverse.find? (fun a => decide (a.Key = k))).map (fun a => a.Value) := by
  refine ⟨nodup_foldl_set _ _ attrs [] (by simp), fun k => ?_, fun k => ?_⟩
  · unfold AttributesToMap
    rw [keys_foldl_set]
    simp
  · unfold AttributesToMap
    rw [mapGet_foldl_mapSet]
    cases attrs.reverse.find? (fun a => decide (a.Key = k)) <;> simp [mapGet]

/-! ## Lemmas: the delegate instructions -/

theorem sum_filter_ne_zero (l : List String) (f : String → Int) :
    ((l.filter (fun v => decide (f v ≠ 0))).map f).sum = (l.map f).sum := by
  induction l with
  | nil => rfl
  | cons a rest ih =>
    by_cases h : f a = 0
    · simp only [List.filter_cons, h, ne_eq, not_true_eq_false, decide_False,
        Bool.false_eq_true, if_false, List.map_cons, List.sum_cons, zero_add]
      exact ih
    · simp only [List.filter_cons, h, ne_eq, not_false_eq_true, decide_True, if_true,
        List.map_cons, List.sum_cons]
      rw [← ih]

theorem sum_values_of_nodup (m : List (String × Int)) (hnd : (m.map Prod.fst).Nodup) :
    ((m.map Prod.fst).map (fun v => (mapGet m v).getD 0)).sum = (m.map Prod.snd).sum := by
  have h : (m.map Prod.fst).map (fun v => (mapGet m v).getD 0) = m.map Prod.snd := by
    rw [List.map_map]
    apply List.map_congr_left
    intro kv hkv
    simp [mapGet_of_mem m kv hnd hkv]
  rw [h]

theorem foldl_appendDelegate (zone : Zone) (allocations : List (String × Int))
    (hden : ValidateDenom zone.BaseDenom = true)
    (hnn : ∀ v a, mapGet allocations v = some a → 0 ≤ a)
    (l : List String) (hl : ∀ v ∈ l, v ∈ allocations.map Prod.fst) (acc : List Msg) :
    l.foldl (fun acc valoper =>
        match acc with
        | none => none
        | some msgs => appendDelegate zone allocations msgs valoper) (some acc)
      = some (acc ++ (l.filter (fun v => decide ((mapGet allocations v).getD 0 ≠ 0))).map
          (fun v => Msg.MsgDelegate zone.DelegationAddress v
            ⟨zone.BaseDenom, (mapGet allocations v).getD 0⟩)) := by
  induction l generalizing acc with
  | nil => simp
  | cons v rest ih =>
    obtain ⟨a, ha⟩ := (mapGet_isSome_iff allocations v).2 (hl v (by simp))
    have hrest : ∀ v ∈ rest, v ∈ allocations.map Prod.fst :=
      fun x hx => hl x (List.mem_cons_of_mem _ hx)
    simp only [List.foldl_cons]
    by_cases h0 : a = 0
    · have hstep : appendDelegate zone allocations acc v = some acc := by
        simp [appendDelegate, ha, h0]
      rw [hstep, ih hrest]
      simp [List.filter_cons, ha, h0]
    · have hstep : appendDelegate zone allocations acc v
          = some (acc ++ [Msg.MsgDelegate zone.DelegationAddress v ⟨zone.BaseDenom, a⟩]) := by
        simp [appendDelegate, ha, h0, NewCoin, hden, hnn v a ha]
      rw [hstep, ih hrest]
      simp [List.filter_cons, ha, h0]

/-- C36 (a plan is turned into delegate instructions without loss): for a plan whose amounts are
not negative and a zone whose base denomination is valid, `PrepareDelegationMessagesForCoins`
returns, in ascending order of the validators, exactly one delegate message for each validator
whose allocation is not zero, carrying the zone's delegation address, the validator and its
allocation in the base denomination; the amounts of the messages sum to the sum of the plan. -/
theorem C36_delegate_messages_carry_plan (zone : Zone) (allocations : List (String × Int))
    (hnd : (allocations.map Prod.fst).Nodup)
    (hden : ValidateDenom zone.BaseDenom = true)
    (hnn : ∀ v a, mapGet allocations v = some a → 0 ≤ a) :
    ∃ validators : List String,
      validators.Pairwise (fun a b => a < b) ∧
      (∀ v, v ∈ validators ↔ ∃ a, mapGet allocations v = some a ∧ a ≠ 0) ∧
      PrepareDelegationMessagesForCoins zone allocations
        = some (validators.map (fun v => Msg.MsgDelegate zone.DelegationAddress v
            ⟨zone.BaseDenom, (mapGet allocations v).getD 0⟩)) ∧
      ((validators.map (fun v => Msg.MsgDelegate zone.DelegationAddress v
          ⟨zone.BaseDenom, (mapGet allocations v).getD 0⟩)).map delegatedAmount).sum
        = planTotal allocations := by
  refine ⟨(Keys allocations).filter (fun v => decide ((mapGet allocations v).getD 0 ≠ 0)),
    (sorted_Keys allocations).sublist (List.filter_sublist _), fun v => ?_, ?_, ?_⟩
  · rw [List.mem_filter, mem_Keys]
    constructor
    · rintro ⟨hv, h0⟩
      obtain ⟨a, ha⟩ := (mapGet_isSome_iff allocations v).2 hv
      exact ⟨a, ha, by simpa [ha] using h0⟩
    · rintro ⟨a, ha, h0⟩
      exact ⟨(mapGet_isSome_iff allocations v).1 ⟨a, ha⟩, by simpa [ha] using h0⟩
  · unfold PrepareDelegationMessagesForCoins
    rw [foldl_appendDelegate zone allocations hden hnn _ (fun v hv => (mem_Keys _ _).1 hv)]
    simp
  · rw [List.map_map]
    have h : (delegatedAmount ∘ fun v => Msg.MsgDelegate zone.DelegationAddress v
        ⟨zone.BaseDenom, (mapGet allocations v).getD 0⟩)
        = fun v => (mapGet allocations v).getD 0 := rfl
    rw [h, sum_filter_ne_zero (Keys allocations) (fun v => (mapGet allocations v).getD 0),
      ((perm_Keys allocations hnd).map _).sum_eq, sum_values_of_nodup allocations hnd]
    rfl

theorem C36_delegate_messages_carry_plan_witness :
    ([("B", (3 : Int)), ("A", 0), ("C", 5)].map Prod.fst).Nodup ∧
      ValidateDenom tcZone.BaseDenom = true ∧
      ∃ validators : List String,
        validators.Pairwise (fun a b => a < b) ∧
        (∀ v, v ∈ validators
          ↔ ∃ a, mapGet [("B", (3 : Int)), ("A", 0), ("C", 5)] v = some a ∧ a ≠ 0) ∧
        PrepareDelegationMessagesForCoins tcZone [("B", 3), ("A", 0), ("C", 5)]
          = some (validators.map (fun v => Msg.MsgDelegate tcZone.DelegationAddress v
              ⟨tcZone.BaseDenom, (mapGet [("B", (3 : Int)), ("A", 0), ("C", 5)] v).getD 0⟩)) ∧
        ((validators.map (fun v => Msg.MsgDelegate tcZone.DelegationAddress v
            ⟨tcZone.BaseDenom,
              (mapGet [("B", (3 : Int)), ("A", 0), ("C", 5)] v).getD 0⟩)).map
          delegatedAmount).sum = planTotal [("B", 3), ("A", 0), ("C", 5)] :=
  ⟨by decide, by decide,
    C36_delegate_messages_carry_plan tcZone [("B", 3), ("A", 0), ("C", 5)] (by decide)
      (by decide) (by
        intro v a h
        have hmem := mem_of_mapGet _ _ _ h
        simp at hmem
        rcases hmem with ⟨_, rfl⟩ | ⟨_, rfl⟩ | ⟨_, rfl⟩ <;> decide)⟩

/-! ## Lemmas: the order of the deltas after the two stable sorts -/

theorem pairwise_stableInsert {α : Type} (less : α → α → Bool) (r : α → α → Prop)
    (htrans : ∀ a b c, r a b → r b c → r a c)
    (hlt : ∀ a b, less b a = true → r b a) (hge : ∀ a b, less b a = false → r a b)
    (a : α) (l : List α) (h : l.Pairwise r) : (stableInsert less a l).Pairwise r := by
  induction l with
  | nil => simp [stableInsert]
  | cons b rest ih =>
    rw [List.pairwise_cons] at h
    unfold stableInsert
    cases hb : less b a with
    | true =>
      simp only [if_true, List.pairwise_cons]
      refine ⟨?_, ih h.2⟩
      intro x hx
      rcases (mem_stableInsert _ a x rest).1 hx with hx | hx
      · rw [hx]
        exact hlt a b hb
      · exact h.1 x hx
    | false =>
      simp only [Bool.false_eq_true, if_false, List.pairwise_cons]
      refine ⟨?_, h.1, h.2⟩
      intro x hx
      rcases List.mem_cons.1 hx with hx | hx
      · rw [hx]
        exact hge a b hb
      · exact htrans _ _ _ (hge a b hb) (h.1 x hx)

theorem pairwise_SliceStable {α : Type} (less : α → α → Bool) (r : α → α → Prop)
    (htrans : ∀ a b c, r a b → r b c → r a c)
    (hlt : ∀ a b, less b a = true → r b a) (hge : ∀ a b, less b a = false → r a b)
    (l : List α) : (SliceStable less l).Pairwise r := by
  induction l with
  | nil => simp [SliceStable]
  | cons a rest ih => exact pairwise_stableInsert less r htrans hlt hge a _ ih

theorem lex_stableInsert {α : Type} (g : α → Int) (R : α → α → Prop) (a : α) (l : List α)
    (ha : ∀ b ∈ l, R a b)
    (h : l.Pairwise (fun x y => g y < g x ∨ (g x = g y ∧ R x y))) :
    (stableInsert (fun x y => decide (g y < g x)) a l).Pairwise
      (fun x y => g y < g x ∨ (g x = g y ∧ R x y)) := by
  induction l with
  | nil => simp [stableInsert]
  | cons b rest ih =>
    rw [List.pairwise_cons] at h
    unfold stableInsert
    by_cases hb : g a < g b
    · simp only [hb, decide_True, if_true, List.pairwise_cons]
      refine ⟨?_, ih (fun x hx => ha x (List.mem_cons_of_mem _ hx)) h.2⟩
      intro x hx
      rcases (mem_stableInsert _ a x rest).1 hx with hx | hx
      · rw [hx]
        exact Or.inl hb
      · exact h.1 x hx
    · simp only [hb, decide_False, Bool.false_eq_true, if_false, List.pairwise_cons]
      refine ⟨?_, h.1, h.2⟩
      intro x hx
      have hxb : g x ≤ g b := by
        rcases List.mem_cons.1 hx with hx' | hx'
        · rw [hx']
        · rcases h.1 x hx' with h1 | h1
          · exact le_of_lt h1
          · exact le_of_eq h1.1.symm
      rcases lt_or_eq_of_le (le_trans hxb (not_lt.1 hb)) with h1 | h1
      · exact Or.inl h1
      · exact Or.inr ⟨h1.symm, ha x hx⟩

theorem lex_SliceStable {α : Type} (g : α → Int) (R : α → α → Prop) (l : List α)
    (h : l.Pairwise R) :
    (SliceStable (fun x y => decide (g y < g x)) l).Pairwise
      (fun x y => g y < g x ∨ (g x = g y ∧ R x y)) := by
  induction l with
  | nil => simp [SliceStable]
  | cons a rest ih =>
    rw [List.pairwise_cons] at h
    exact lex_stableInsert g R a _
      (fun b hb => h.1 b ((perm_SliceStable _ rest).mem_iff.1 hb)) (ih h.2)

theorem addresses_baseDeltas (currentAllocations : List (String × Int)) (currentSum : Int)
    (targetAllocations : List (String × ValidatorIntent)) :
    (baseDeltas currentAllocations currentSum targetAllocations).map (fun d => d.ValoperAddress)
      = Keys targetAllocations := by
  simp [baseDeltas, List.map_map, Function.comp_def]

theorem byAddress_sorted (currentAllocations : List (String × Int)) (currentSum : Int)
    (targetAllocations : List (String × ValidatorIntent)) :
    (SliceStable (fun a b => strLess b.ValoperAddress a.ValoperAddress)
      (baseDeltas currentAllocations currentSum targetAllocations)).Pairwise
      (fun a b => b.ValoperAddress < a.ValoperAddress) := by
  have h1 := pairwise_SliceStable
    (fun (a b : ValidatorIntent) => strLess b.ValoperAddress a.ValoperAddress)
    (fun a b => b.ValoperAddress ≤ a.ValoperAddress)
    (fun a b c hab hbc => le_trans hbc hab)
    (fun a b h => le_of_lt ((strLess_iff _ _).1 h))
    (fun a b h => not_lt.1 (fun hlt => by
      have h' : strLess a.ValoperAddress b.ValoperAddress = false := h
      rw [(strLess_iff _ _).2 hlt] at h'
      exact Bool.noConfusion h'))
    (baseDeltas currentAllocations currentSum targetAllocations)
  have h2 : ((SliceStable (fun (a b : ValidatorIntent) =>
      strLess b.ValoperAddress a.ValoperAddress)
      (baseDeltas currentAllocations currentSum targetAllocations)).map
      (fun d => d.ValoperAddress)).Nodup := by
    refine (((perm_SliceStable _ _).map _).nodup_iff).2 ?_
    rw [addresses_baseDeltas]
    exact nodup_Keys targetAllocations
  rw [List.Nodup, List.pairwise_map] at h2
  exact (h1.and h2).imp (fun h => lt_of_le_of_ne h.1 (fun he => h.2 he.symm))

theorem weight_orderedDeltas (currentAllocations : List (String × Int)) (currentSum : Int)
    (targetAllocations : List (String × ValidatorIntent)) (d : ValidatorIntent)
    (h : d ∈ orderedDeltas currentAllocations currentSum targetAllocations) :
    d.Weight.i = (deltaValue currentAllocations currentSum targetAllocations d.ValoperAddress
      + Abs (minDeltas (baseDeltas currentAllocations currentSum targetAllocations)))
        * precisionReuse := by
  have h' := (perm_orderedDeltas currentAllocations currentSum targetAllocations).mem_iff.1 h
  generalize minDeltas (baseDeltas currentAllocations currentSum targetAllocations) = m at h' ⊢
  unfold raiseDeltas baseDeltas at h'
  simp only [List.map_map, List.mem_map, Function.comp_apply] at h'
  obtain ⟨k, _, rfl⟩ := h'
  simp only [Dec.Add, ToDec]
  ring

theorem lex_orderedDeltas (currentAllocations : List (String × Int)) (currentSum : Int)
    (targetAllocations : List (String × ValidatorIntent)) :
    (orderedDeltas currentAllocations currentSum targetAllocations).Pairwise
      (fun a b => b.Weight.i < a.Weight.i
        ∨ (a.Weight.i = b.Weight.i ∧ b.ValoperAddress < a.ValoperAddress)) := by
  have h := lex_SliceStable (fun d : ValidatorIntent => d.Weight.i)
    (fun a b => b.ValoperAddress < a.ValoperAddress) _
    (byAddress_sorted currentAllocations currentSum targetAllocations)
  unfold orderedDeltas raiseDeltas
  simp only [List.pairwise_map, Dec.Add]
  refine List.Pairwise.imp ?_ h
  intro a b hab
  rcases hab with hab | hab
  · exact Or.inl (by simpa using hab)
  · exact Or.inr ⟨by simpa using hab.1, hab.2⟩

/-! ## Lemmas: the amounts of the plan -/

theorem find?_of_nodup {β : Type} (key : β → String) (l : List β)
    (hnd : (l.map key).Nodup) (x : β) (hx : x ∈ l) :
    l.find? (fun y => decide (key y = key x)) = some x := by
  induction l with
  | nil => simp at hx
  | cons a rest ih =>
    simp only [List.map_cons, List.nodup_cons] at hnd
    by_cases ha : key a = key x
    · have hxa : x = a := by
        rcases List.mem_cons.1 hx with h | h
        · exact h
        · exact absurd (ha ▸ List.mem_map_of_mem key h) hnd.1
      simp [List.find?_cons, hxa]
    · have hxr : x ∈ rest := by
        rcases List.mem_cons.1 hx with h | h
        · exact absurd (h ▸ rfl) ha
        · exact h
      simp [List.find?_cons, ha, ih hnd.2 hxr]

theorem mapGet_outWeights (deltas : List ValidatorIntent)
    (hnd : (deltas.map (fun d => d.ValoperAddress)).Nodup) (d : ValidatorIntent)
    (hd : d ∈ deltas) :
    mapGet (outWeights deltas) d.ValoperAddress = some d.Weight.TruncateInt := by
  have h := mapGet_foldl_mapSet (fun d : ValidatorIntent => d.ValoperAddress)
    (fun d : ValidatorIntent => d.Weight.TruncateInt) deltas [] d.ValoperAddress
  have hf := find?_of_nodup (fun d : ValidatorIntent => d.ValoperAddress) deltas.reverse
    (by rw [List.map_reverse]; exact List.nodup_reverse.2 hnd) d (List.mem_reverse.2 hd)
  rw [hf] at h
  exact h

theorem splitWeights_fst (input : Int) (deltas : List ValidatorIntent) :
    (splitWeights input deltas).1
      = deltas.map (fun d => { d with
          Weight := ⟨splitValue input (sumTruncated deltas) deltas.length d.Weight.i⟩ }) := by
  unfold splitWeights splitValue
  dsimp only
  split_ifs <;>
    simp [unequalWeights, equalWeights, Dec.MulInt, Dec.Add, List.map_map, Function.comp_def]

theorem finalDeltas_cons (input : Int) (d0 : ValidatorIntent) (rest : List ValidatorIntent) :
    finalDeltas input (d0 :: rest)
      = { d0 with Weight := ⟨splitValue input (sumTruncated (d0 :: rest)) (d0 :: rest).length
            d0.Weight.i
          + (input - (splitWeights input (d0 :: rest)).2.TruncateInt) * precisionReuse⟩ }
        :: rest.map (fun d => { d with
            Weight := ⟨splitValue input (sumTruncated (d0 :: rest)) (d0 :: rest).length
              d.Weight.i⟩ }) := by
  unfold finalDeltas
  rw [splitWeights_fst]
  simp [addDust, Dec.Add, ToDec]

/-- The amounts of the plan in closed form: the first validator of the ordered slice gets the
truncation of its split weight plus the dust, every other validator the truncation of its split
weight. -/
theorem plan_values (currentAllocations : List (String × Int)) (currentSum : Int)
    (targetAllocations : List (String × ValidatorIntent)) (input : Int)
    (hne : targetAllocations ≠ []) :
    ∃ r, dustRecipient currentAllocations currentSum targetAllocations = some r ∧
      r ∈ Keys targetAllocations ∧
      mapGet (outWeights (finalDeltas input
          (orderedDeltas currentAllocations currentSum targetAllocations))) r
        = some (Dec.TruncateInt ⟨splitValue input
            (sumTruncated (orderedDeltas currentAllocations currentSum targetAllocations))
            (Keys targetAllocations).length
            ((deltaValue currentAllocations currentSum targetAllocations r
              + Abs (minDeltas (baseDeltas currentAllocations currentSum targetAllocations)))
              * precisionReuse)
          + (input - (splitWeights input
              (orderedDeltas currentAllocations currentSum targetAllocations)).2.TruncateInt)
            * precisionReuse⟩) ∧
      ∀ v ∈ Keys targetAllocations, v ≠ r →
        mapGet (outWeights (finalDeltas input
            (orderedDeltas currentAllocations currentSum targetAllocations))) v
          = some (Dec.TruncateInt ⟨splitValue input
              (sumTruncated (orderedDeltas currentAllocations currentSum targetAllocations))
              (Keys targetAllocations).length
              ((deltaValue currentAllocations currentSum targetAllocations v
                + Abs (minDeltas (baseDeltas currentAllocations currentSum targetAllocations)))
                * precisionReuse)⟩) := by
  have hw := weight_orderedDeltas currentAllocations currentSum targetAllocations
  have hperm := addresses_orderedDeltas currentAllocations currentSum targetAllocations
  have hlen := length_orderedDeltas currentAllocations currentSum targetAllocations
  have hnil := orderedDeltas_ne_nil currentAllocations currentSum targetAllocations hne
  unfold dustRecipient
  generalize minDeltas (baseDeltas currentAllocations currentSum targetAllocations) = m at hw ⊢
  generalize orderedDeltas currentAllocations currentSum targetAllocations = ds
    at hw hperm hlen hnil ⊢
  cases ds with
  | nil => exact absurd rfl hnil
  | cons d0 rest =>
    have hnd : ((finalDeltas input (d0 :: rest)).map (fun d => d.ValoperAddress)).Nodup := by
      rw [addresses_finalDeltas]
      exact (hperm.nodup_iff).2 (nodup_Keys targetAllocations)
    refine ⟨d0.ValoperAddress, rfl, (hperm.mem_iff).1 (by simp), ?_, ?_⟩
    · have h := mapGet_outWeights _ hnd _
        (by rw [finalDeltas_cons]; exact List.mem_cons_self _ _)
      rw [← hlen, ← hw d0 (by simp)]
      exact h
    · intro v hv hvr
      have hv' := (hperm.mem_iff).2 hv
      simp only [List.map_cons, List.mem_cons] at hv'
      rcases hv' with hv' | hv'
      · exact absurd hv' hvr
      · obtain ⟨d, hd, hdv⟩ := List.mem_map.1 hv'
        have h := mapGet_outWeights _ hnd
          ({ d with Weight := ⟨splitValue input (sumTruncated (d0 :: rest))
            (d0 :: rest).length d.Weight.i⟩ } : ValidatorIntent)
          (by
            rw [finalDeltas_cons]
            exact List.mem_cons_of_mem _ (List.mem_map.2 ⟨d, hd, rfl⟩))
        simp only at h
        rw [← hlen, ← hdv, ← hw d (List.mem_cons_of_mem _ hd)]
        exact h

/-! ## Lemmas: the enumeration order of the target map -/

theorem Keys_of_perm {α : Type} (m m' : List (String × α)) (h : m'.Perm m) :
    Keys m' = Keys m := by
  apply List.eq_of_perm_of_sorted (r := fun a b : String => a < b)
  · exact (List.perm_ext_iff_of_nodup (nodup_Keys m') (nodup_Keys m)).2 (fun k => by
      rw [mem_Keys, mem_Keys]
      exact (h.map Prod.fst).mem_iff)
  · exact sorted_Keys m'
  · exact sorted_Keys m

theorem mapGet_of_perm {α : Type} (m m' : List (String × α)) (h : m'.Perm m)
    (hnd : (m.map Prod.fst).Nodup) (v : String) : mapGet m' v = mapGet m v := by
  have hnd' : (m'.map Prod.fst).Nodup := ((h.map Prod.fst).nodup_iff).2 hnd
  cases hm : mapGet m v with
  | none =>
    rw [mapGet_eq_none_iff] at hm ⊢
    exact fun hv => hm ((h.map Prod.fst).mem_iff.1 hv)
  | some x =>
    exact mapGet_of_mem m' (v, x) hnd' (h.mem_iff.2 (mem_of_mapGet m v x hm))

theorem calculateDeltas_of_perm (currentAllocations : List (String × Int)) (currentSum : Int)
    (targetAllocations targetAllocations' : List (String × ValidatorIntent))
    (h : targetAllocations'.Perm targetAllocations)
    (hnd : (targetAllocations.map Prod.fst).Nodup) :
    calculateDeltas currentAllocations currentSum targetAllocations'
      = calculateDeltas currentAllocations currentSum targetAllocations := by
  rw [calculateDeltas_eq, calculateDeltas_eq]
  unfold baseDeltas deltaValue weightOf
  rw [Keys_of_perm _ _ h]
  simp only [mapGet_of_perm _ _ h hnd]

theorem lex_by_deltaValue (currentAllocations : List (String × Int)) (currentSum : Int)
    (targetAllocations : List (String × ValidatorIntent)) :
    (orderedDeltas currentAllocations currentSum targetAllocations).Pairwise
      (fun a b =>
        deltaValue currentAllocations currentSum targetAllocations b.ValoperAddress
            < deltaValue currentAllocations currentSum targetAllocations a.ValoperAddress
          ∨ (deltaValue currentAllocations currentSum targetAllocations a.ValoperAddress
              = deltaValue currentAllocations currentSum targetAllocations b.ValoperAddress
            ∧ b.ValoperAddress < a.ValoperAddress)) := by
  have hP : (0 : Int) < precisionReuse := precisionReuse_pos
  refine List.Pairwise.imp_of_mem ?_
    (lex_orderedDeltas currentAllocations currentSum targetAllocations)
  intro a b ha hb hab
  rw [weight_orderedDeltas _ _ _ a ha, weight_orderedDeltas _ _ _ b hb] at hab
  rcases hab with hab | hab
  · exact Or.inl (by
      have := lt_of_mul_lt_mul_right hab (le_of_lt hP)
      linarith)
  · exact Or.inr ⟨by
      have := mul_right_cancel₀ (ne_of_gt hP) hab.1
      linarith, hab.2⟩

theorem dustRecipient_greatest (currentAllocations : List (String × Int)) (currentSum : Int)
    (targetAllocations : List (String × ValidatorIntent)) (hne : targetAllocations ≠ []) :
    ∃ r, dustRecipient currentAllocations currentSum targetAllocations = some r ∧
      r ∈ Keys targetAllocations ∧
      ∀ v ∈ Keys targetAllocations,
        deltaValue currentAllocations currentSum targetAllocations v
            ≤ deltaValue currentAllocations currentSum targetAllocations r ∧
          (deltaValue currentAllocations currentSum targetAllocations v
              = deltaValue currentAllocations currentSum targetAllocations r → v ≤ r) := by
  have hlex := lex_by_deltaValue currentAllocations currentSum targetAllocations
  have hperm := addresses_orderedDeltas currentAllocations currentSum targetAllocations
  have hnil := orderedDeltas_ne_nil currentAllocations currentSum targetAllocations hne
  unfold dustRecipient
  generalize orderedDeltas currentAllocations currentSum targetAllocations = ds
    at hlex hperm hnil ⊢
  cases ds with
  | nil => exact absurd rfl hnil
  | cons d0 rest =>
    rw [List.pairwise_cons] at hlex
    refine ⟨d0.ValoperAddress, rfl, (hperm.mem_iff).1 (by simp), ?_⟩
    intro v hv
    have hv' := (hperm.mem_iff).2 hv
    simp only [List.map_cons, List.mem_cons] at hv'
    rcases hv' with hv' | hv'
    · rw [hv']
      exact ⟨le_refl _, fun _ => le_refl _⟩
    · obtain ⟨d, hd, hdv⟩ := List.mem_map.1 hv'
      rw [← hdv]
      rcases hlex.1 d hd with h | h
      · exact ⟨le_of_lt h, fun he => absurd he (ne_of_lt h)⟩
      · exact ⟨le_of_eq h.1.symm, fun _ => le_of_lt h.2⟩

/-! ## Theorems: the order of the deltas and the recipient of the dust -/

/-- C31 (deterministic ordering): after the two stable sorts the deltas are in descending order
of the delta and, among equal deltas, in descending order of the validator id. The validator the
dust is added to, the first of the slice, has the greatest delta of the target validators and,
among those with that delta, the greatest id. The plan does not depend on the order in which the
entries of the target map are listed. -/
theorem C31_order_of_deltas_and_dust_recipient (currentAllocations : List (String × Int))
    (currentSum : Int) (targetAllocations : List (String × ValidatorIntent)) :
    (orderedDeltas currentAllocations currentSum targetAllocations).Pairwise
        (fun a b =>
          deltaValue currentAllocations currentSum targetAllocations b.ValoperAddress
              < deltaValue currentAllocations currentSum targetAllocations a.ValoperAddress
            ∨ (deltaValue currentAllocations currentSum targetAllocations a.ValoperAddress
                = deltaValue currentAllocations currentSum targetAllocations b.ValoperAddress
              ∧ b.ValoperAddress < a.ValoperAddress)) ∧
      (targetAllocations ≠ [] →
        ∃ r, dustRecipient currentAllocations currentSum targetAllocations = some r ∧
          r ∈ Keys targetAllocations ∧
          ∀ v ∈ Keys targetAllocations,
            deltaValue currentAllocations currentSum targetAllocations v
                ≤ deltaValue currentAllocations currentSum targetAllocations r ∧
              (deltaValue currentAllocations currentSum targetAllocations v
                  = deltaValue currentAllocations currentSum targetAllocations r → v ≤ r)) ∧
      ∀ (targetAllocations' : List (String × ValidatorIntent)) (amount : List Coin),
        targetAllocations'.Perm targetAllocations →
        (targetAllocations.map Prod.fst).Nodup →
          DetermineAllocationsForDelegation currentAllocations currentSum targetAllocations'
              amount
            = DetermineAllocationsForDelegation currentAllocations currentSum targetAllocations
              amount := by
  refine ⟨lex_by_deltaValue currentAllocations currentSum targetAllocations,
    dustRecipient_greatest currentAllocations currentSum targetAllocations, ?_⟩
  intro targetAllocations' amount hperm hnd
  unfold DetermineAllocationsForDelegation
  rw [calculateDeltas_of_perm _ _ _ _ hperm hnd]

/-! ## Lemmas: the equal split -/

theorem eachShare_truncate (a : Int) (n : Nat) (ha : 0 ≤ a) (hn : n ≠ 0)
    (hlt : (n : Int) < 1000000000000000000) :
    (eachShare a n).TruncateInt = a / (n : Int) := by
  have hnpos : (0 : Int) < n := by exact_mod_cast Nat.pos_of_ne_zero hn
  have hp : (0 : Int) < 1000000000000000000 := by decide
  unfold eachShare Dec.TruncateInt chopPrecisionAndTruncate
  simp only [ToDec, Dec.NewDec, precisionReuse]
  generalize hX : Int.tdiv (a * 1000000000000000000 * 1000000000000000000
    * 1000000000000000000) ((n : Int) * 1000000000000000000) = X
  have hnum : 0 ≤ a * 1000000000000000000 * 1000000000000000000
      * 1000000000000000000 := by positivity
  have hden : 0 < (n : Int) * 1000000000000000000 := by positivity
  have hX0 : 0 ≤ X := by
    rw [← hX]
    exact Int.tdiv_nonneg hnum (le_of_lt hden)
  have hXle : X * ((n : Int) * 1000000000000000000) ≤ a * 1000000000000000000
      * 1000000000000000000 * 1000000000000000000 := by
    rw [← hX, Int.tdiv_eq_ediv hnum (le_of_lt hden)]
    exact Int.ediv_mul_le _ (ne_of_gt hden)
  have hXlt : a * 1000000000000000000 * 1000000000000000000 * 1000000000000000000
      < (X + 1) * ((n : Int) * 1000000000000000000) := by
    rw [← hX, Int.tdiv_eq_ediv hnum (le_of_lt hden)]
    exact Int.lt_ediv_add_one_mul_self _ hden
  have hXn : X * n ≤ a * 1000000000000000000 * 1000000000000000000 := by
    have : (X * n) * 1000000000000000000
        ≤ (a * 1000000000000000000 * 1000000000000000000) * 1000000000000000000 := by
      calc (X * n) * 1000000000000000000 = X * ((n : Int) * 1000000000000000000) := by ring
        _ ≤ _ := hXle
    exact le_of_mul_le_mul_right this hp
  have hXn' : a * 1000000000000000000 * 1000000000000000000 < X * n + n := by
    have : (a * 1000000000000000000 * 1000000000000000000) * 1000000000000000000
        < (X * n + n) * 1000000000000000000 := by
      calc (a * 1000000000000000000 * 1000000000000000000) * 1000000000000000000
          < (X + 1) * ((n : Int) * 1000000000000000000) := hXlt
        _ = (X * n + n) * 1000000000000000000 := by ring
    exact lt_of_mul_lt_mul_right this (le_of_lt hp)
  obtain ⟨hc0, hc⟩ := chopPrecisionAndRound_bound X hX0
  have hcl := chopPrecisionAndRound_lower X hX0
  generalize chopPrecisionAndRound X = R at hc0 hc hcl
  rw [Int.tdiv_eq_ediv hc0 (le_of_lt hp)]
  have hq1 : a / (n : Int) * n ≤ a := Int.ediv_mul_le a (ne_of_gt hnpos)
  have hq2 : a < (a / (n : Int) + 1) * n := Int.lt_ediv_add_one_mul_self a hnpos
  generalize a / (n : Int) = q at hq1 hq2
  apply le_antisymm
  · have : R < (q + 1) * 1000000000000000000 := by
      by_contra hcon
      have hR : (q + 1) * 1000000000000000000 ≤ R := not_lt.1 hcon
      have h2 : 2 * 1000000000000000000 * 1000000000000000000 * (q + 1)
          - 1000000000000000000 ≤ 2 * X := by linarith
      have h3 := mul_le_mul_of_nonneg_right h2 (le_of_lt hnpos)
      have h4 : a + 1 ≤ q * n + n := by linarith
      have h5 : (2 * 1000000000000000000 * 1000000000000000000 * (q + 1)
          - 1000000000000000000) * n
          = 2 * 1000000000000000000 * 1000000000000000000 * (q * n + n)
            - 1000000000000000000 * n := by ring
      have h6 : 2 * X * n = 2 * (X * n) := by ring
      rw [h5, h6] at h3
      linarith
    exact Int.lt_add_one_iff.1 ((Int.ediv_lt_iff_lt_mul hp).2 this)
  · refine (Int.le_ediv_iff_mul_le hp).2 ?_
    by_contra hcon
    have hR : R + 1 ≤ q * 1000000000000000000 := not_le.1 hcon
    have h2 : X + 1 ≤ 1000000000000000000 * 1000000000000000000 * q := by
      have : 2 * X + 1000000000000000000
          ≤ 2 * 1000000000000000000 * 1000000000000000000 * q := by linarith
      omega
    have h3 := mul_le_mul_of_nonneg_right h2 (le_of_lt hnpos)
    have h5 : (1000000000000000000 * 1000000000000000000 * q) * (n : Int)
        = 1000000000000000000 * 1000000000000000000 * (q * n) := by ring
    have h6 : (X + 1) * (n : Int) = X * n + n := by ring
    rw [h5, h6] at h3
    linarith

/-! ## Lemmas: the plan without prior delegations, and the order of the amounts -/

theorem dust_nonneg (currentAllocations : List (String × Int)) (currentSum : Int)
    (targetAllocations : List (String × ValidatorIntent)) (input : Int) (hin : 0 ≤ input)
    (hlen : (Keys targetAllocations).length < 1000000000000000000) :
    0 ≤ input - (splitWeights input
      (orderedDeltas currentAllocations currentSum targetAllocations)).2.TruncateInt := by
  have h := (splitWeights_bounds input
    (orderedDeltas currentAllocations currentSum targetAllocations)
    (fun d hd => (mem_orderedDeltas _ _ _ d hd).2) hin
    (by rw [length_orderedDeltas]; exact hlen)).2
  have := TruncateInt_le _ input hin h
  linarith

theorem TruncateInt_add_dust (e dust : Int) (he : 0 ≤ e) (hd : 0 ≤ dust) :
    Dec.TruncateInt ⟨e + dust * precisionReuse⟩ = Dec.TruncateInt ⟨e⟩ + dust := by
  have hp : (0 : Int) < precisionReuse := precisionReuse_pos
  unfold Dec.TruncateInt chopPrecisionAndTruncate
  simp only []
  rw [Int.tdiv_eq_ediv (by positivity) (le_of_lt hp), Int.tdiv_eq_ediv he (le_of_lt hp),
    Int.add_mul_ediv_right _ _ (ne_of_gt hp)]

theorem TruncateInt_mono (x y : Int) (hx : 0 ≤ x) (hxy : x ≤ y) :
    Dec.TruncateInt ⟨x⟩ ≤ Dec.TruncateInt ⟨y⟩ := by
  have hp : (0 : Int) < precisionReuse := precisionReuse_pos
  unfold Dec.TruncateInt chopPrecisionAndTruncate
  simp only []
  rw [Int.tdiv_eq_ediv hx (le_of_lt hp), Int.tdiv_eq_ediv (le_trans hx hxy) (le_of_lt hp)]
  exact Int.ediv_le_ediv hp hxy

theorem deltaValue_no_prior (currentAllocations : List (String × Int))
    (targetAllocations : List (String × ValidatorIntent)) (v : String)
    (hv : mapGet currentAllocations v = none) :
    deltaValue currentAllocations 0 targetAllocations v = 0 := by
  simp [deltaValue, currentOf, hv, Dec.MulInt, Dec.TruncateInt, chopPrecisionAndTruncate]

theorem minDeltas_no_prior (currentAllocations : List (String × Int))
    (targetAllocations : List (String × ValidatorIntent)) (hne : targetAllocations ≠ [])
    (hcur : ∀ v ∈ Keys targetAllocations, mapGet currentAllocations v = none) :
    minDeltas (baseDeltas currentAllocations 0 targetAllocations) = 0 := by
  have hall : ∀ d ∈ baseDeltas currentAllocations 0 targetAllocations,
      d.Weight.TruncateInt = 0 := by
    intro d hd
    unfold baseDeltas at hd
    obtain ⟨k, hk, rfl⟩ := List.mem_map.1 hd
    simp only [TruncateInt_ToDec]
    exact deltaValue_no_prior _ _ k (hcur k hk)
  apply le_antisymm
  · obtain ⟨k, hk⟩ := List.exists_mem_of_ne_nil _ (Keys_ne_nil targetAllocations hne)
    have hmem : (⟨k, ToDec (deltaValue currentAllocations 0 targetAllocations k)⟩
        : ValidatorIntent) ∈ baseDeltas currentAllocations 0 targetAllocations :=
      List.mem_map.2 ⟨k, hk, rfl⟩
    have := minDeltas_le _ _ hmem
    rw [hall _ hmem] at this
    exact this
  · exact foldl_min_ge _ MaxInt64 0 (by decide) (fun d hd => le_of_eq (hall d hd).symm)

theorem sumTruncated_no_prior (currentAllocations : List (String × Int))
    (targetAllocations : List (String × ValidatorIntent)) (hne : targetAllocations ≠ [])
    (hcur : ∀ v ∈ Keys targetAllocations, mapGet currentAllocations v = none) :
    sumTruncated (orderedDeltas currentAllocations 0 targetAllocations) = 0 := by
  rw [sumTruncated_eq]
  apply List.sum_eq_zero
  intro x hx
  obtain ⟨d, hd, rfl⟩ := List.mem_map.1 hx
  have hw := weight_orderedDeltas currentAllocations 0 targetAllocations d hd
  have hk := (mem_orderedDeltas currentAllocations 0 targetAllocations d hd).1
  rw [minDeltas_no_prior _ _ hne hcur, deltaValue_no_prior _ _ _ (hcur _ hk)] at hw
  simp [Dec.TruncateInt, chopPrecisionAndTruncate, hw, Abs]

theorem splitValue_no_prior (a : Int) (n : Nat) (ha : 0 ≤ a) :
    splitValue a 0 n 0 = if a = 0 then 0 else (eachShare a n).i := by
  unfold splitValue MinInt
  by_cases h : a = 0
  · simp [h]
  · have hpos : 0 < a := lt_of_le_of_ne ha (Ne.symm h)
    simp [h, hpos]

theorem truncate_no_prior (a : Int) (n : Nat) (ha : 0 ≤ a) (hn : n ≠ 0)
    (hlt : n < 1000000000000000000) :
    0 ≤ splitValue a 0 n 0 ∧ Dec.TruncateInt ⟨splitValue a 0 n 0⟩ = a / (n : Int) := by
  rw [splitValue_no_prior a n ha]
  by_cases h : a = 0
  · simp [h, Dec.TruncateInt, chopPrecisionAndTruncate]
  · simp only [h, if_false]
    exact ⟨(eachShare_bound a n ha hn).1,
      eachShare_truncate a n ha hn (by exact_mod_cast hlt)⟩

/-! ## Theorems: gap filling, the equal split, the order of the amounts -/

/-- C32 (exact gap filling), evaluated on currents 49/30/21 with sum 100, targets
0.50/0.30/0.20 and input 3: the shifted deltas are 2, 1, 0 and their sum is the input, but the
plan is 2, 0, 0. The share of a validator is `Weight.QuoInt(sum).MulInt(unequalSplit)`, which
truncates `10^18 / 3` before it multiplies by 3, so the validator with the gap 1 gets
`0.999999999999999999`, truncated to 0, and the dust of 1 goes to the first validator, where it is
truncated away too. On the test case with input 20 the quotients are exact and the plan is the
shifted deltas 3, 6, 0, 11. -/
theorem C32_gap_of_one_gets_nothing :
    (orderedDeltas [("A", 49), ("B", 30), ("C", 21)] 100
        [("A", ⟨"A", Dec.NewDecWithPrec 50 2⟩), ("B", ⟨"B", Dec.NewDecWithPrec 30 2⟩),
          ("C", ⟨"C", Dec.NewDecWithPrec 20 2⟩)]).map
        (fun d => (d.ValoperAddress, d.Weight.TruncateInt))
        = [("A", 2), ("B", 1), ("C", 0)] ∧
      sumTruncated (orderedDeltas [("A", 49), ("B", 30), ("C", 21)] 100
        [("A", ⟨"A", Dec.NewDecWithPrec 50 2⟩), ("B", ⟨"B", Dec.NewDecWithPrec 30 2⟩),
          ("C", ⟨"C", Dec.NewDecWithPrec 20 2⟩)]) = 3 ∧
      DetermineAllocationsForDelegation [("A", 49), ("B", 30), ("C", 21)] 100
        [("A", ⟨"A", Dec.NewDecWithPrec 50 2⟩), ("B", ⟨"B", Dec.NewDecWithPrec 30 2⟩),
          ("C", ⟨"C", Dec.NewDecWithPrec 20 2⟩)] [⟨"uqck", 3⟩]
        = some [("A", 2), ("B", 0), ("C", 0)] ∧
      (orderedDeltas tcCurrent4 100 (tcTargets4 50 25 15 10)).map
        (fun d => (d.ValoperAddress, d.Weight.TruncateInt))
        = [("D", 11), ("B", 6), ("A", 3), ("C", 0)] ∧
      DetermineAllocationsForDelegation tcCurrent4 100 (tcTargets4 50 25 15 10) [⟨"uqck", 20⟩]
        = some [("D", 11), ("B", 6), ("A", 3), ("C", 0)] := by
  decide

/-- C33 (equal split without prior delegations): with current sum 0, no current allocation for
a target validator, `n` target validators (`1 ≤ n < 10^18`) and an input `a ≥ 0`, the planner
returns a plan in which every validator other than the one the dust is added to gets exactly
`floor(a / n)`, and that one gets at least `floor(a / n)`. -/
theorem C33_equal_split_without_prior (currentAllocations : List (String × Int))
    (targetAllocations : List (String × ValidatorIntent)) (coin : Coin) (rest : List Coin)
    (hne : targetAllocations ≠ [])
    (hlen : (Keys targetAllocations).length < 1000000000000000000)
    (hin : 0 ≤ coin.Amount)
    (hcur : ∀ v ∈ Keys targetAllocations, mapGet currentAllocations v = none) :
    ∃ plan r,
      DetermineAllocationsForDelegation currentAllocations 0 targetAllocations (coin :: rest)
        = some plan ∧
      dustRecipient currentAllocations 0 targetAllocations = some r ∧
      r ∈ Keys targetAllocations ∧
      (∀ v ∈ Keys targetAllocations, v ≠ r →
        mapGet plan v = some (coin.Amount / ((Keys targetAllocations).length : Int))) ∧
      ∃ x, mapGet plan r = some x ∧
        coin.Amount / ((Keys targetAllocations).length : Int) ≤ x := by
  obtain ⟨r, hr, hrk, hpr, hpo⟩ :=
    plan_values currentAllocations 0 targetAllocations coin.Amount hne
  have hn0 : (Keys targetAllocations).length ≠ 0 := by
    intro h
    exact Keys_ne_nil targetAllocations hne (List.length_eq_zero.1 h)
  obtain ⟨hs0, hst⟩ := truncate_no_prior coin.Amount _ hin hn0 hlen
  have hdust := dust_nonneg currentAllocations 0 targetAllocations coin.Amount hin hlen
  have hm := minDeltas_no_prior currentAllocations targetAllocations hne hcur
  have hsum := sumTruncated_no_prior currentAllocations targetAllocations hne hcur
  have hzero : ∀ v ∈ Keys targetAllocations,
      (deltaValue currentAllocations 0 targetAllocations v
        + Abs (minDeltas (baseDeltas currentAllocations 0 targetAllocations)))
        * precisionReuse = 0 := by
    intro v hv
    rw [hm, deltaValue_no_prior _ _ _ (hcur v hv)]
    decide
  refine ⟨_, r, DetermineAllocationsForDelegation_some _ _ _ coin rest hne hin, hr, hrk, ?_, ?_⟩
  · intro v hv hvr
    rw [hpo v hv hvr, hzero v hv, hsum, hst]
  · refine ⟨_, hpr, ?_⟩
    rw [hzero r hrk, hsum, TruncateInt_add_dust _ _ hs0 hdust, hst]
    linarith

theorem C33_equal_split_without_prior_witness :
    tcTargets3 ≠ [] ∧ (Keys tcTargets3).length < 1000000000000000000 ∧
      (0 : Int) ≤ (Coin.mk "uqck" 50).Amount ∧
      (∀ v ∈ Keys tcTargets3, mapGet ([] : List (String × Int)) v = none) ∧
      ∃ plan r,
        DetermineAllocationsForDelegation [] 0 tcTargets3 [Coin.mk "uqck" 50] = some plan ∧
        dustRecipient [] 0 tcTargets3 = some r ∧
        r ∈ Keys tcTargets3 ∧
        (∀ v ∈ Keys tcTargets3, v ≠ r →
          mapGet plan v = some ((Coin.mk "uqck" 50).Amount / ((Keys tcTargets3).length : Int))) ∧
        ∃ x, mapGet plan r = some x ∧
          (Coin.mk "uqck" 50).Amount / ((Keys tcTargets3).length : Int) ≤ x :=
  ⟨by decide, by decide, by decide, fun _ _ => rfl,
    C33_equal_split_without_prior [] tcTargets3 (Coin.mk "uqck" 50) [] (by decide) (by decide)
      (by decide) (fun _ _ => rfl)⟩

theorem splitValue_mono (input sum : Int) (n : Nat) (w1 w2 : Int) (hin : 0 ≤ input)
    (hsum : 0 ≤ sum) (hn : n ≠ 0) (hw1 : 0 ≤ w1) (hw : w1 ≤ w2) :
    0 ≤ splitValue input sum n w1 ∧ splitValue input sum n w1 ≤ splitValue input sum n w2 := by
  unfold splitValue
  have hM : 0 ≤ MinInt sum input ∧ MinInt sum input ≤ input ∧
      (MinInt sum input ≠ 0 → 0 < sum) := by
    rcases MinInt_cases sum input with ⟨h1, h2⟩ | ⟨h1, h2⟩
    · rw [h2]
      exact ⟨hsum, le_of_lt h1, fun h => lt_of_le_of_ne hsum (Ne.symm h)⟩
    · rw [h2]
      exact ⟨hin, le_refl _, fun h => lt_of_lt_of_le (lt_of_le_of_ne hin (Ne.symm h)) h1⟩
  generalize MinInt sum input = M at hM
  obtain ⟨hM0, hMle, hMs⟩ := hM
  have heach : 0 ≤ (if input - M ≠ 0 then (eachShare (input - M) n).i else 0) := by
    by_cases h : input - M = 0
    · simp [h]
    · simp only [ne_eq, h, not_false_eq_true, if_true]
      exact (eachShare_bound (input - M) n (by linarith) hn).1
  generalize (if input - M ≠ 0 then (eachShare (input - M) n).i else 0) = e at heach
  by_cases h : M = 0
  · simp only [ne_eq, h, not_true_eq_false, if_false]
    exact ⟨by linarith, by linarith⟩
  · have hs := hMs h
    simp only [ne_eq, h, not_false_eq_true, if_true]
    rw [Int.tdiv_eq_ediv hw1 (le_of_lt hs), Int.tdiv_eq_ediv (le_trans hw1 hw) (le_of_lt hs)]
    have h1 : 0 ≤ w1 / sum := Int.ediv_nonneg hw1 (le_of_lt hs)
    have h2 : w1 / sum ≤ w2 / sum := Int.ediv_le_ediv hs hw
    have h3 : w1 / sum * M ≤ w2 / sum * M := mul_le_mul_of_nonneg_right h2 hM0
    have h4 : 0 ≤ w1 / sum * M := mul_nonneg h1 hM0
    exact ⟨by linarith, by linarith⟩

theorem raisedValue_nonneg (currentAllocations : List (String × Int)) (currentSum : Int)
    (targetAllocations : List (String × ValidatorIntent)) (v : String)
    (hv : v ∈ Keys targetAllocations) :
    0 ≤ (deltaValue currentAllocations currentSum targetAllocations v
      + Abs (minDeltas (baseDeltas currentAllocations currentSum targetAllocations)))
        * precisionReuse := by
  have hv' := ((addresses_orderedDeltas currentAllocations currentSum
    targetAllocations).mem_iff).2 hv
  obtain ⟨d, hd, hdv⟩ := List.mem_map.1 hv'
  have hw := weight_orderedDeltas currentAllocations currentSum targetAllocations d hd
  have h0 := raised_weight_nonneg d
    (mem_orderedDeltas currentAllocations currentSum targetAllocations d hd).2
  rw [← hdv, ← hw]
  exact h0

/-- C34 as written fails: with no prior delegations, three target validators and the input 1,
the deltas of A and C are both 0, yet the plan gives 0 to A and 1 to C, the validator the dust
is added to. -/
theorem C34_tie_with_dust_recipient :
    deltaValue [] 0 tcTargets3 "A" = 0 ∧ deltaValue [] 0 tcTargets3 "C" = 0 ∧
      dustRecipient [] 0 tcTargets3 = some "C" ∧
      DetermineAllocationsForDelegation [] 0 tcTargets3 [⟨"uqck", 1⟩]
        = some [("C", 1), ("B", 0), ("A", 0)] := by
  decide

/-- C34 (amended): for a non-empty target of fewer than `10^18` validators and an input that is
not negative, if the delta of validator `u` is at least the delta of validator `v`, and `v` is
not the validator the dust is added to (as is the case whenever the delta of `u` is greater than
that of `v`), then the plan allocates to `u` at least as much as to `v`. -/
theorem C34_order_kept_apart_from_dust (currentAllocations : List (String × Int))
    (currentSum : Int) (targetAllocations : List (String × ValidatorIntent)) (coin : Coin)
    (rest : List Coin) (u v : String)
    (hne : targetAllocations ≠ [])
    (hlen : (Keys targetAllocations).length < 1000000000000000000)
    (hin : 0 ≤ coin.Amount)
    (hu : u ∈ Keys targetAllocations) (hv : v ∈ Keys targetAllocations)
    (hle : deltaValue currentAllocations currentSum targetAllocations v
      ≤ deltaValue currentAllocations currentSum targetAllocations u)
    (hnr : deltaValue currentAllocations currentSum targetAllocations v
        < deltaValue currentAllocations currentSum targetAllocations u
      ∨ dustRecipient currentAllocations currentSum targetAllocations ≠ some v) :
    ∃ plan pu pv,
      DetermineAllocationsForDelegation currentAllocations currentSum targetAllocations
        (coin :: rest) = some plan ∧
      mapGet plan u = some pu ∧ mapGet plan v = some pv ∧ pv ≤ pu := by
  obtain ⟨r, hr, hrk, hpr, hpo⟩ :=
    plan_values currentAllocations currentSum targetAllocations coin.Amount hne
  obtain ⟨r', hr', _, hmax⟩ :=
    dustRecipient_greatest currentAllocations currentSum targetAllocations hne
  have hrr : r' = r := by
    rw [hr] at hr'
    exact (Option.some.inj hr').symm
  subst hrr
  have hvr : v ≠ r' := by
    intro h
    rcases hnr with h1 | h1
    · have := (hmax u hu).1
      rw [← h] at this
      linarith
    · exact h1 (by rw [hr, h])
  have hn0 : (Keys targetAllocations).length ≠ 0 := by
    intro h
    exact Keys_ne_nil targetAllocations hne (List.length_eq_zero.1 h)
  have hdust := dust_nonneg currentAllocations currentSum targetAllocations coin.Amount hin hlen
  have hsum := (raised_sums (orderedDeltas currentAllocations currentSum targetAllocations)
    (fun d hd => (mem_orderedDeltas _ _ _ d hd).2)).1
  have hwv := raisedValue_nonneg currentAllocations currentSum targetAllocations v hv
  have hwle : (deltaValue currentAllocations currentSum targetAllocations v
      + Abs (minDeltas (baseDeltas currentAllocations currentSum targetAllocations)))
        * precisionReuse
      ≤ (deltaValue currentAllocations currentSum targetAllocations u
        + Abs (minDeltas (baseDeltas currentAllocations currentSum targetAllocations)))
        * precisionReuse :=
    mul_le_mul_of_nonneg_right (by linarith) (le_of_lt precisionReuse_pos)
  obtain ⟨hs0, hsle⟩ := splitValue_mono coin.Amount
    (sumTruncated (orderedDeltas currentAllocations currentSum targetAllocations))
    (Keys targetAllocations).length _ _ hin hsum hn0 hwv hwle
  have hmono := TruncateInt_mono _ _ hs0 hsle
  by_cases h : u = r'
  · refine ⟨_, _, _, DetermineAllocationsForDelegation_some _ _ _ coin rest hne hin,
      h ▸ hpr, hpo v hv hvr, ?_⟩
    rw [h, TruncateInt_add_dust _ _ (h ▸ le_trans hs0 hsle) hdust]
    rw [h] at hmono
    linarith
  · exact ⟨_, _, _, DetermineAllocationsForDelegation_some _ _ _ coin rest hne hin,
      hpo u hu h, hpo v hv hvr, hmono⟩

theorem C34_order_kept_apart_from_dust_witness :
    tcTargets4 50 25 15 10 ≠ [] ∧
      (Keys (tcTargets4 50 25 15 10)).length < 1000000000000000000 ∧
      (0 : Int) ≤ (Coin.mk "uqck" 50).Amount ∧
      "B" ∈ Keys (tcTargets4 50 25 15 10) ∧ "A" ∈ Keys (tcTargets4 50 25 15 10) ∧
      deltaValue tcCurrent4 100 (tcTargets4 50 25 15 10) "A"
        ≤ deltaValue tcCurrent4 100 (tcTargets4 50 25 15 10) "B" ∧
      (deltaValue tcCurrent4 100 (tcTargets4 50 25 15 10) "A"
          < deltaValue tcCurrent4 100 (tcTargets4 50 25 15 10) "B"
        ∨ dustRecipient tcCurrent4 100 (tcTargets4 50 25 15 10) ≠ some "A") ∧
      ∃ plan pu pv,
        DetermineAllocationsForDelegation tcCurrent4 100 (tcTargets4 50 25 15 10)
          [Coin.mk "uqck" 50] = some plan ∧
        mapGet plan "B" = some pu ∧ mapGet plan "A" = some pv ∧ pv ≤ pu :=
  ⟨by decide, by decide, by decide, by decide, by decide, by decide, by decide,
    C34_order_kept_apart_from_dust tcCurrent4 100 (tcTargets4 50 25 15 10) (Coin.mk "uqck" 50)
      [] "B" "A" (by decide) (by decide) (by decide) (by decide) (by decide) (by decide)
      (by decide)⟩

/-! ## Lemmas: the size of a varint -/

theorem lenBits_le_iff (fuel x n : Nat) (hx : x < 2 ^ fuel) :
    lenBits fuel x ≤ n ↔ x < 2 ^ n := by
  induction fuel generalizing x n with
  | zero =>
    have h0 : x = 0 := by simpa using hx
    simp [lenBits, h0]
  | succ fuel ih =>
    unfold lenBits
    by_cases h0 : x = 0
    · simp [h0]
    · simp only [h0, if_false]
      have hx2 : x / 2 < 2 ^ fuel := by
        rw [Nat.div_lt_iff_lt_mul (by decide)]
        rw [pow_succ] at hx
        exact hx
      cases n with
      | zero =>
        simp only [pow_zero, Nat.lt_one_iff]
        constructor
        · intro h
          omega
        · intro h
          exact absurd h h0
      | succ k =>
        rw [Nat.succ_le_succ_iff, ih (x / 2) k hx2, Nat.div_lt_iff_lt_mul (by decide), pow_succ]

theorem or_one_eq (v : Nat) : v ||| 1 = 2 * (v / 2) + 1 := by
  have h1 : v = 2 ^ 1 * (v / 2) + v % 2 := by
    have := Nat.div_add_mod v 2
    omega
  have hb : v % 2 < 2 ^ 1 := Nat.mod_lt _ (by decide)
  have h2 : v ||| 1 = (2 ^ 1 * (v / 2) ||| v % 2) ||| 1 := by
    rw [← Nat.mul_add_lt_is_or hb, ← h1]
  have h3 : v % 2 ||| 1 = 1 := by
    rcases Nat.mod_two_eq_zero_or_one v with h | h <;> rw [h] <;> rfl
  rw [h2, Nat.lor_assoc, h3]
  exact (Nat.mul_add_lt_is_or (by decide : 1 < 2 ^ 1) (v / 2)).symm

theorem or_one_lt_iff (v n : Nat) : v ||| 1 < 2 ^ n ↔ 1 ≤ n ∧ v < 2 ^ n := by
  rw [or_one_eq]
  cases n with
  | zero => simp
  | succ k =>
    rw [pow_succ]
    constructor
    · intro h
      exact ⟨Nat.succ_le_succ (Nat.zero_le _), by omega⟩
    · intro h
      omega

theorem sovMessages_le_iff (v j : Nat) (hv : v < 2 ^ 64) :
    sovMessages v ≤ j ↔ 1 ≤ j ∧ v < 2 ^ (7 * j) := by
  have h1 : v ||| 1 < 2 ^ 64 := (or_one_lt_iff v 64).2 ⟨by decide, hv⟩
  unfold sovMessages Len64
  rw [Nat.mod_eq_of_lt h1, Nat.mod_eq_of_lt h1]
  have h2 := lenBits_le_iff 64 (v ||| 1) (7 * j) h1
  rw [or_one_lt_iff] at h2
  have h3 : 1 ≤ j ↔ 1 ≤ 7 * j := by omega
  rw [h3, ← h2]
  omega

theorem varintBytes_length_le_iff (fuel v j : Nat) (hf : 0 < fuel) (hv : v < 2 ^ (7 * fuel)) :
    (varintBytes fuel v).length ≤ j ↔ 1 ≤ j ∧ v < 2 ^ (7 * j) := by
  induction fuel generalizing v j with
  | zero => exact absurd hf (lt_irrefl 0)
  | succ fuel ih =>
    unfold varintBytes
    by_cases h : 128 ≤ v
    · have hfuel : 0 < fuel := by
        rcases Nat.eq_zero_or_pos fuel with h0 | h0
        · rw [h0] at hv
          norm_num at hv
          omega
        · exact h0
      have hv' : v / 128 < 2 ^ (7 * fuel) := by
        rw [Nat.div_lt_iff_lt_mul (by decide)]
        have : 2 ^ (7 * (fuel + 1)) = 2 ^ (7 * fuel) * 128 := by
          rw [Nat.mul_succ, pow_add]
          norm_num
        rw [this] at hv
        exact hv
      simp only [h, if_true, List.length_cons]
      cases j with
      | zero => simp
      | succ k =>
        rw [Nat.succ_le_succ_iff, ih (v / 128) k hfuel hv', Nat.div_lt_iff_lt_mul (by decide)]
        have hp : 2 ^ (7 * (k + 1)) = 2 ^ (7 * k) * 128 := by
          rw [Nat.mul_succ, pow_add]
          norm_num
        rw [hp]
        constructor
        · intro hh
          exact ⟨Nat.succ_le_succ (Nat.zero_le _), hh.2⟩
        · intro hh
          refine ⟨?_, hh.2⟩
          rcases Nat.eq_zero_or_pos k with h0 | h0
          · rw [h0] at hh
            norm_num at hh
            omega
          · exact h0
    · simp only [h, if_false, List.length_singleton]
      constructor
      · intro hj
        refine ⟨hj, ?_⟩
        have h1 : 2 ^ (7 * 1) ≤ 2 ^ (7 * j) :=
          Nat.pow_le_pow_right (by decide) (Nat.mul_le_mul_left 7 hj)
        norm_num at h1
        omega
      · intro hh
        exact hh.1

theorem sovMessages_eq_length (v : Nat) (hv : v < 2 ^ 64) :
    sovMessages v = (varintBytes 10 v).length := by
  have hv' : v < 2 ^ (7 * 10) := lt_of_lt_of_le hv (by norm_num)
  apply le_antisymm
  · exact (sovMessages_le_iff v _ hv).2
      ((varintBytes_length_le_iff 10 v _ (by decide) hv').1 (le_refl _))
  · exact (varintBytes_length_le_iff 10 v _ (by decide) hv').2
      ((sovMessages_le_iff v _ hv).1 (le_refl _))

theorem fieldSize_eq_length (tag : Nat) (s : List Nat) (hs : s.length < 2 ^ 64) :
    fieldSize s = (fieldBytes tag s).length := by
  unfold fieldSize fieldBytes
  by_cases h : 0 < s.length
  · simp only [h, if_true, List.length_cons, List.length_append, Nat.mod_eq_of_lt hs,
      sovMessages_eq_length _ hs]
    omega
  · simp [h]

theorem Size_eq_length (m : MsgSignalIntent) (hs : m.Size < 2 ^ 64) :
    m.Size = (wireBytes m).length := by
  have hle : ∀ s : List Nat, s.length ≤ fieldSize s := by
    intro s
    unfold fieldSize
    by_cases h : 0 < s.length
    · simp only [h, if_true]
      omega
    · simp only [h, if_false]
      omega
  have h1 := hle m.ChainId
  have h2 := hle m.Intents
  have h3 := hle m.FromAddress
  unfold MsgSignalIntent.Size at hs ⊢
  unfold wireBytes
  rw [fieldSize_eq_length 10 m.ChainId (by omega), fieldSize_eq_length 18 m.Intents (by omega),
    fieldSize_eq_length 26 m.FromAddress (by omega)]
  simp only [List.length_append]
  omega

/-! ## Lemmas: the bytes written by `Marshal` -/

theorem setByte_append (A : List Nat) (g b : Nat) (R : List Nat) :
    setByte (A ++ g :: R) A.length b = some (A ++ b :: R) := by
  unfold setByte
  have h : A.length < (A ++ g :: R).length := by simp
  rw [if_pos h, List.set_append_right _ _ (le_refl _)]
  simp

theorem continuation_byte (v : Nat) : ((v &&& 127) ||| 128) % 256 = v % 128 + 128 := by
  have h1 : v &&& 127 = v % 128 := Nat.and_pow_two_sub_one_eq_mod v 7
  have h2 : ∀ x < 128, x ||| 128 = x + 128 := by decide
  have h3 : v % 128 < 128 := Nat.mod_lt _ (by decide)
  rw [h1, h2 _ h3]
  omega

theorem encodeVarintLoop_eq (fuel v : Nat) (A G R : List Nat) (hf : 0 < fuel)
    (hv : v < 2 ^ (7 * fuel)) (hG : G.length = (varintBytes fuel v).length) :
    encodeVarintLoop fuel (A ++ (G ++ R)) A.length v = some (A ++ (varintBytes fuel v ++ R)) := by
  induction fuel generalizing v A G with
  | zero => exact absurd hf (lt_irrefl 0)
  | succ fuel ih =>
    unfold encodeVarintLoop varintBytes
    unfold varintBytes at hG
    by_cases h : 128 ≤ v
    · have hfuel : 0 < fuel := by
        rcases Nat.eq_zero_or_pos fuel with h0 | h0
        · rw [h0] at hv
          norm_num at hv
          omega
        · exact h0
      have hv' : v / 128 < 2 ^ (7 * fuel) := by
        rw [Nat.div_lt_iff_lt_mul (by decide)]
        have : 2 ^ (7 * (fuel + 1)) = 2 ^ (7 * fuel) * 128 := by
          rw [Nat.mul_succ, pow_add]
          norm_num
        rw [this] at hv
        exact hv
      simp only [h, if_true, List.length_cons] at hG ⊢
      cases G with
      | nil => simp at hG
      | cons g G' =>
        have hG' : G'.length = (varintBytes fuel (v / 128)).length := by
          simpa using hG
        rw [List.cons_append, setByte_append, continuation_byte]
        simp only []
        have hA : A.length + 1 = (A ++ [v % 128 + 128]).length := by simp
        have hl : A ++ (v % 128 + 128) :: (G' ++ R) = (A ++ [v % 128 + 128]) ++ (G' ++ R) := by
          simp
        rw [hl, hA, Nat.shiftRight_eq_div_pow, ih (v / 128) _ G' hfuel hv' hG']
        simp
    · simp only [h, if_false, List.length_singleton] at hG ⊢
      cases G with
      | nil => simp at hG
      | cons g G' =>
        have hG' : G' = [] := by
          apply List.eq_nil_of_length_eq_zero
          simpa using hG
        subst hG'
        rw [List.cons_append, setByte_append]
        have : v % 256 = v := Nat.mod_eq_of_lt (by omega)
        rw [this]
        simp

theorem encodeVarintMessages_eq (v : Nat) (Z R : List Nat) (hv : v < 2 ^ 64)
    (hZ : (varintBytes 10 v).length ≤ Z.length) :
    ∃ Z' : List Nat, Z'.length = Z.length - (varintBytes 10 v).length ∧
      encodeVarintMessages (Z ++ R) Z.length v
        = some (Z' ++ (varintBytes 10 v ++ R), Z'.length) := by
  have hsov := sovMessages_eq_length v hv
  refine ⟨Z.take (Z.length - (varintBytes 10 v).length), ?_, ?_⟩
  · rw [List.length_take]
    omega
  · unfold encodeVarintMessages
    rw [hsov, if_neg (by omega)]
    have hsplit : Z ++ R = Z.take (Z.length - (varintBytes 10 v).length)
        ++ (Z.drop (Z.length - (varintBytes 10 v).length) ++ R) := by
      rw [← List.append_assoc, List.take_append_drop]
    have hlen : (Z.take (Z.length - (varintBytes 10 v).length)).length
        = Z.length - (varintBytes 10 v).length := by
      rw [List.length_take]
      omega
    have hloop := encodeVarintLoop_eq 10 v (Z.take (Z.length - (varintBytes 10 v).length))
      (Z.drop (Z.length - (varintBytes 10 v).length)) R (by decide)
      (lt_of_lt_of_le hv (by norm_num)) (by rw [List.length_drop]; omega)
    rw [hlen] at hloop
    rw [hsplit, hloop]
    simp only [hlen]

theorem copyAt_eq (Z1 Z2 s R : List Nat) (h : Z2.length = s.length) :
    copyAt (Z1 ++ (Z2 ++ R)) Z1.length s = Z1 ++ (s ++ R) := by
  unfold copyAt
  have h1 : (Z1 ++ (Z2 ++ R)).take Z1.length = Z1 := List.take_left' rfl
  have h2 : (Z1 ++ (Z2 ++ R)).drop (Z1.length + s.length) = R := by
    rw [← List.append_assoc]
    exact List.drop_left' (by simp [h])
  have h3 : s.take ((Z1 ++ (Z2 ++ R)).length - Z1.length) = s := by
    apply List.take_of_length_le
    simp only [List.length_append]
    omega
  rw [h1, h2, h3, List.append_assoc]

theorem marshalField_eq (tag : Nat) (s Z R : List Nat) (hs : s.length < 2 ^ 64)
    (hZ : (fieldBytes tag s).length ≤ Z.length) :
    ∃ Z' : List Nat, Z'.length = Z.length - (fieldBytes tag s).length ∧
      marshalField tag s (Z ++ R, Z.length) = some (Z' ++ (fieldBytes tag s ++ R), Z'.length) := by
  unfold marshalField fieldBytes
  unfold fieldBytes at hZ
  by_cases h : 0 < s.length
  · simp only [h, if_true, List.length_cons, List.length_append] at hZ ⊢
    rw [if_neg (by omega), Nat.mod_eq_of_lt hs]
    have hsplit : Z ++ R = Z.take (Z.length - s.length)
        ++ (Z.drop (Z.length - s.length) ++ R) := by
      rw [← List.append_assoc, List.take_append_drop]
    have hlen : (Z.take (Z.length - s.length)).length = Z.length - s.length := by
      rw [List.length_take]
      omega
    have hcopy := copyAt_eq (Z.take (Z.length - s.length)) (Z.drop (Z.length - s.length)) s R
      (by rw [List.length_drop]; omega)
    rw [hlen, ← hsplit] at hcopy
    obtain ⟨Z2, hZ2, henc⟩ := encodeVarintMessages_eq s.length (Z.take (Z.length - s.length))
      (s ++ R) hs (by rw [hlen]; omega)
    rw [hlen] at henc hZ2
    simp only [hcopy, henc]
    have hZ2pos : Z2.length ≠ 0 := by omega
    rw [if_neg hZ2pos]
    rcases List.eq_nil_or_concat Z2 with hnil | ⟨Z3, g, hcat⟩
    · rw [hnil] at hZ2pos
      exact absurd rfl hZ2pos
    · rw [List.concat_eq_append] at hcat
      subst hcat
      have hset := setByte_append Z3 g tag (varintBytes 10 s.length ++ (s ++ R))
      have hbuf : Z3 ++ [g] ++ (varintBytes 10 s.length ++ (s ++ R))
          = Z3 ++ g :: (varintBytes 10 s.length ++ (s ++ R)) := by simp
      have hidx : (Z3 ++ [g]).length - 1 = Z3.length := by simp
      rw [hbuf, hidx, hset]
      refine ⟨Z3, ?_, by simp⟩
      simp only [List.length_append, List.length_singleton] at hZ2
      omega
  · simp only [h, if_false, List.length_nil, Nat.sub_zero, List.nil_append]
    exact ⟨Z, rfl, rfl⟩

theorem Marshal_eq (m : MsgSignalIntent) (hs : m.Size < 2 ^ 64) :
    m.Marshal = some (wireBytes m) := by
  have hle : ∀ s : List Nat, s.length ≤ fieldSize s := by
    intro s
    unfold fieldSize
    by_cases h : 0 < s.length
    · simp only [h, if_true]
      omega
    · simp only [h, if_false]
      omega
  have h1 := hle m.ChainId
  have h2 := hle m.Intents
  have h3 := hle m.FromAddress
  have hsize : m.Size = fieldSize m.ChainId + fieldSize m.Intents + fieldSize m.FromAddress :=
    rfl
  have e1 := fieldSize_eq_length 10 m.ChainId (by omega)
  have e2 := fieldSize_eq_length 18 m.Intents (by omega)
  have e3 := fieldSize_eq_length 26 m.FromAddress (by omega)
  unfold MsgSignalIntent.Marshal MsgSignalIntent.MarshalToSizedBuffer
  simp only []
  have htake : (List.replicate m.Size 0).take m.Size = List.replicate m.Size (0 : Nat) := by
    apply List.take_of_length_le
    simp
  rw [htake]
  generalize hZ0 : List.replicate m.Size (0 : Nat) = Z0
  have hZ0len : Z0.length = m.Size := by
    rw [← hZ0]
    simp
  obtain ⟨Z1, hZ1, hm1⟩ := marshalField_eq 26 m.FromAddress Z0 [] (by omega) (by omega)
  rw [List.append_nil] at hm1
  rw [hm1]
  simp only []
  obtain ⟨Z2, hZ2, hm2⟩ := marshalField_eq 18 m.Intents Z1
    (fieldBytes 26 m.FromAddress ++ []) (by omega) (by omega)
  rw [hm2]
  simp only []
  obtain ⟨Z3, hZ3, hm3⟩ := marshalField_eq 10 m.ChainId Z2
    (fieldBytes 18 m.Intents ++ (fieldBytes 26 m.FromAddress ++ [])) (by omega) (by omega)
  rw [hm3]
  simp only []
  have hZ3nil : Z3 = [] := List.eq_nil_of_length_eq_zero (by omega)
  subst hZ3nil
  simp only [List.nil_append, List.length_nil, Nat.sub_zero, List.append_nil]
  rw [List.take_of_length_le (le_refl _)]
  rfl

/-! ## Lemmas: the bytes read by `Unmarshal` -/

theorem getD_append_mid (A : List Nat) (b : Nat) (R : List Nat) :
    (A ++ b :: R).getD A.length 0 = b := by
  rw [List.getD_append_right _ _ _ _ (le_refl _)]
  simp

theorem or_shifted (acc g shift : Nat) (hacc : acc < 2 ^ shift)
    (hg : g * 2 ^ shift < 2 ^ 64) :
    acc ||| ((g <<< shift) % 2 ^ 64) = acc + g * 2 ^ shift := by
  rw [Nat.shiftLeft_eq, Nat.mod_eq_of_lt hg, Nat.lor_comm, Nat.mul_comm g,
    ← Nat.mul_add_lt_is_or hacc, Nat.add_comm]

theorem readVarint_eq (fuelv v fuel shift acc : Nat) (A R : List Nat) (hf : 0 < fuelv)
    (hv : v < 2 ^ (7 * fuelv)) (hshift : shift < 64) (hacc : acc < 2 ^ shift)
    (hfit : v * 2 ^ shift < 2 ^ 64) (hfuel : (varintBytes fuelv v).length ≤ fuel) :
    readVarint (A ++ (varintBytes fuelv v ++ R)) fuel shift A.length acc
      = Except.ok (acc + v * 2 ^ shift, A.length + (varintBytes fuelv v).length) := by
  induction fuelv generalizing v fuel shift acc A with
  | zero => exact absurd hf (lt_irrefl 0)
  | succ fuelv ih =>
    unfold varintBytes at hfuel ⊢
    by_cases h : 128 ≤ v
    · have hfuelv : 0 < fuelv := by
        rcases Nat.eq_zero_or_pos fuelv with h0 | h0
        · rw [h0] at hv
          norm_num at hv
          omega
        · exact h0
      have hv' : v / 128 < 2 ^ (7 * fuelv) := by
        rw [Nat.div_lt_iff_lt_mul (by decide)]
        have : 2 ^ (7 * (fuelv + 1)) = 2 ^ (7 * fuelv) * 128 := by
          rw [Nat.mul_succ, pow_add]
          norm_num
        rw [this] at hv
        exact hv
      simp only [h, if_true, List.length_cons] at hfuel ⊢
      cases fuel with
      | zero => omega
      | succ fuel =>
        have hpow : 2 ^ (shift + 7) = 2 ^ shift * 128 := by
          rw [pow_add]
          norm_num
        have hdm : v = 128 * (v / 128) + v % 128 := (Nat.div_add_mod v 128).symm
        have hmod : v % 128 < 128 := Nat.mod_lt _ (by decide)
        have hlow : v % 128 * 2 ^ shift ≤ v * 2 ^ shift :=
          Nat.mul_le_mul_right _ (Nat.mod_le v 128)
        have hhigh : v / 128 * (2 ^ shift * 128) ≤ v * 2 ^ shift := by
          have : v / 128 * (2 ^ shift * 128) = (128 * (v / 128)) * 2 ^ shift := by ring
          rw [this]
          exact Nat.mul_le_mul_right _ (by omega)
        have h128 : 128 * 2 ^ shift ≤ v * 2 ^ shift := Nat.mul_le_mul_right _ h
        have hshift' : shift + 7 < 64 := by
          have h1 : 2 ^ (shift + 7) < 2 ^ 64 := by
            rw [hpow]
            omega
          exact (Nat.pow_lt_pow_iff_right (by decide)).1 h1
        have hacc' : acc + v % 128 * 2 ^ shift < 2 ^ (shift + 7) := by
          rw [hpow]
          have : (v % 128 + 1) * 2 ^ shift ≤ 128 * 2 ^ shift :=
            Nat.mul_le_mul_right _ (by omega)
          have h2 : (v % 128 + 1) * 2 ^ shift = v % 128 * 2 ^ shift + 2 ^ shift := by ring
          omega
        have hsum : acc + v % 128 * 2 ^ shift + v / 128 * 2 ^ (shift + 7)
            = acc + v * 2 ^ shift := by
          rw [hpow]
          have : v * 2 ^ shift = (128 * (v / 128) + v % 128) * 2 ^ shift := by rw [← hdm]
          rw [this]
          ring
        unfold readVarint
        have hlen : ¬ (A ++ (v % 128 + 128) :: (varintBytes fuelv (v / 128) ++ R)).length
            ≤ A.length := by
          simp
        rw [List.cons_append, if_neg (by omega), if_neg hlen, getD_append_mid]
        have hb : (v % 128 + 128) &&& 127 = v % 128 := by
          have := Nat.and_pow_two_sub_one_eq_mod (v % 128 + 128) 7
          rw [show (2 : Nat) ^ 7 - 1 = 127 from rfl, show (2 : Nat) ^ 7 = 128 from rfl] at this
          rw [this]
          omega
        simp only [hb]
        rw [or_shifted acc (v % 128) shift hacc (by omega), if_neg (by omega)]
        have hA : A.length + 1 = (A ++ [v % 128 + 128]).length := by simp
        have hl : A ++ (v % 128 + 128) :: (varintBytes fuelv (v / 128) ++ R)
            = (A ++ [v % 128 + 128]) ++ (varintBytes fuelv (v / 128) ++ R) := by simp
        rw [hl, hA, ih (v / 128) fuel (shift + 7) _ _ hfuelv hv' hshift' hacc'
          (by rw [hpow]; omega) (by omega), hsum]
        simp only [List.length_append, List.length_singleton]
        congr 2
        omega
    · simp only [h, if_false, List.length_singleton] at hfuel ⊢
      cases fuel with
      | zero => omega
      | succ fuel =>
        unfold readVarint
        have hlen : ¬ (A ++ ([v] ++ R)).length ≤ A.length := by simp
        have hcons : A ++ ([v] ++ R) = A ++ v :: R := by simp
        rw [if_neg (by omega), if_neg hlen, hcons, getD_append_mid]
        have hb : v &&& 127 = v := by
          have := Nat.and_pow_two_sub_one_eq_mod v 7
          rw [show (2 : Nat) ^ 7 - 1 = 127 from rfl, show (2 : Nat) ^ 7 = 128 from rfl] at this
          rw [this]
          omega
        simp only [hb]
        rw [or_shifted acc v shift hacc hfit, if_pos (by omega)]

theorem readVarint_start (v : Nat) (A R : List Nat) (hv : v < 2 ^ 64) :
    readVarint (A ++ (varintBytes 10 v ++ R)) 11 0 A.length 0
      = Except.ok (v, A.length + (varintBytes 10 v).length) := by
  have hlen : (varintBytes 10 v).length ≤ 11 := by
    have := (varintBytes_length_le_iff 10 v 10 (by decide)
      (lt_of_lt_of_le hv (by norm_num))).2 ⟨by decide, lt_of_lt_of_le hv (by norm_num)⟩
    omega
  have h := readVarint_eq 10 v 11 0 0 A R (by decide) (lt_of_lt_of_le hv (by norm_num))
    (by decide) (by decide) (by simpa using hv) hlen
  simpa using h

theorem readString_eq (s A R : List Nat)
    (hlen : (A ++ (varintBytes 10 s.length ++ (s ++ R))).length < 2 ^ 63) :
    readString (A ++ (varintBytes 10 s.length ++ (s ++ R))) 2 A.length
      = Except.ok (s, A.length + (varintBytes 10 s.length).length + s.length) := by
  simp only [List.length_append] at hlen
  unfold readString
  rw [if_neg (by decide), readVarint_start s.length A (s ++ R) (by omega)]
  simp only []
  rw [if_neg (by omega), if_neg (by omega),
    if_neg (by simp only [List.length_append]; omega)]
  have hdrop : (A ++ (varintBytes 10 s.length ++ (s ++ R))).drop
      (A.length + (varintBytes 10 s.length).length) = s ++ R := by
    rw [← List.append_assoc]
    exact List.drop_left' (by simp)
  rw [hdrop, List.take_left' rfl]

theorem tag_eq (tag : Nat) (A R : List Nat) (ht : tag < 128) :
    readVarint (A ++ tag :: R) 11 0 A.length 0 = Except.ok (tag, A.length + 1) := by
  have hvb : varintBytes 10 tag = [tag] := by
    unfold varintBytes
    rw [if_neg (by omega)]
  have h := readVarint_start tag A R (by omega)
  rw [hvb] at h
  simpa using h

theorem unmarshalLoop_end (dAtA : List Nat) (m : MsgSignalIntent) (fuel : Nat)
    (hf : 1 ≤ fuel) : unmarshalLoop dAtA fuel dAtA.length m = Except.ok m := by
  cases fuel with
  | zero => omega
  | succ fuel =>
    unfold unmarshalLoop
    simp

theorem unmarshalLoop_succ (dAtA : List Nat) (fuel iNdEx : Nat) (m : MsgSignalIntent) :
    unmarshalLoop dAtA (fuel + 1) iNdEx m =
      if ¬ (iNdEx < dAtA.length) then
        if dAtA.length < iNdEx then Except.error WireError.UnexpectedEOF else Except.ok m
      else
        match readVarint dAtA 11 0 iNdEx 0 with
        | Except.error e => Except.error e
        | Except.ok (wire, iNdEx') =>
          if wire &&& 7 = 4 then Except.error WireError.EndGroupForNonGroup
          else if toInt32 (wire >>> 3) ≤ 0 then Except.error WireError.IllegalTag
          else if toInt32 (wire >>> 3) = 1 then
            match readString dAtA (wire &&& 7) iNdEx' with
            | Except.error e => Except.error e
            | Except.ok (s, postIndex) =>
              unmarshalLoop dAtA fuel postIndex { m with ChainId := s }
          else if toInt32 (wire >>> 3) = 2 then
            match readString dAtA (wire &&& 7) iNdEx' with
            | Except.error e => Except.error e
            | Except.ok (s, postIndex) =>
              unmarshalLoop dAtA fuel postIndex { m with Intents := s }
          else if toInt32 (wire >>> 3) = 3 then
            match readString dAtA (wire &&& 7) iNdEx' with
            | Except.error e => Except.error e
            | Except.ok (s, postIndex) =>
              unmarshalLoop dAtA fuel postIndex { m with FromAddress := s }
          else
            match skipMessages (dAtA.drop iNdEx) with
            | Except.error e => Except.error e
            | Except.ok skippy =>
              if skippy < 0 ∨ 2 ^ 63 ≤ (iNdEx : Int) + skippy then
                Except.error WireError.InvalidLength
              else if (dAtA.length : Int) < (iNdEx : Int) + skippy then
                Except.error WireError.UnexpectedEOF
              else unmarshalLoop dAtA fuel (iNdEx + skippy.toNat) m := by
  rw [unmarshalLoop]

theorem unmarshalLoop_ChainId (s A R : List Nat) (m : MsgSignalIntent) (fuel : Nat)
    (hs : 0 < s.length) (hlen : (A ++ (fieldBytes 10 s ++ R)).length < 2 ^ 63) :
    unmarshalLoop (A ++ (fieldBytes 10 s ++ R)) (fuel + 1) A.length m
      = unmarshalLoop (A ++ (fieldBytes 10 s ++ R)) fuel
          (A.length + (fieldBytes 10 s).length) { m with ChainId := s } := by
  have hfb : fieldBytes 10 s = 10 :: (varintBytes 10 s.length ++ s) := by
    unfold fieldBytes
    rw [if_pos hs]
    rfl
  rw [hfb] at hlen ⊢
  have hshape : A ++ (10 :: (varintBytes 10 s.length ++ s) ++ R)
      = (A ++ [10]) ++ (varintBytes 10 s.length ++ (s ++ R)) := by simp
  have htag := tag_eq 10 A (varintBytes 10 s.length ++ (s ++ R)) (by decide)
  have hstr := readString_eq s (A ++ [10]) R (by rw [← hshape]; exact hlen)
  have hA : (A ++ [10]).length = A.length + 1 := by simp
  rw [hA] at hstr
  have hlt : A.length < (A ++ (10 :: (varintBytes 10 s.length ++ s) ++ R)).length := by simp
  rw [unmarshalLoop_succ, if_neg (not_not.2 hlt)]
  rw [hshape, show (A ++ [10]) ++ (varintBytes 10 s.length ++ (s ++ R))
    = A ++ 10 :: (varintBytes 10 s.length ++ (s ++ R)) by simp] at *
  rw [htag]
  simp only []
  rw [show (10 : Nat) &&& 7 = 2 from rfl]
  rw [if_neg (by decide), if_neg (by decide), if_pos (by decide), hstr]
  simp only [List.length_cons, List.length_append]
  congr 1
  omega

theorem unmarshalLoop_Intents (s A R : List Nat) (m : MsgSignalIntent) (fuel : Nat)
    (hs : 0 < s.length) (hlen : (A ++ (fieldBytes 18 s ++ R)).length < 2 ^ 63) :
    unmarshalLoop (A ++ (fieldBytes 18 s ++ R)) (fuel + 1) A.length m
      = unmarshalLoop (A ++ (fieldBytes 18 s ++ R)) fuel
          (A.length + (fieldBytes 18 s).length) { m with Intents := s } := by
  have hfb : fieldBytes 18 s = 18 :: (varintBytes 10 s.length ++ s) := by
    unfold fieldBytes
    rw [if_pos hs]
    rfl
  rw [hfb] at hlen ⊢
  have hshape : A ++ (18 :: (varintBytes 10 s.length ++ s) ++ R)
      = (A ++ [18]) ++ (varintBytes 10 s.length ++ (s ++ R)) := by simp
  have htag := tag_eq 18 A (varintBytes 10 s.length ++ (s ++ R)) (by decide)
  have hstr := readString_eq s (A ++ [18]) R (by rw [← hshape]; exact hlen)
  have hA : (A ++ [18]).length = A.length + 1 := by simp
  rw [hA] at hstr
  have hlt : A.length < (A ++ (18 :: (varintBytes 10 s.length ++ s) ++ R)).length := by simp
  rw [unmarshalLoop_succ, if_neg (not_not.2 hlt)]
  rw [hshape, show (A ++ [18]) ++ (varintBytes 10 s.length ++ (s ++ R))
    = A ++ 18 :: (varintBytes 10 s.length ++ (s ++ R)) by simp] at *
  rw [htag]
  simp only []
  rw [show (18 : Nat) &&& 7 = 2 from rfl]
  rw [if_neg (by decide), if_neg (by decide), if_neg (by decide), if_pos (by decide), hstr]
  simp only [List.length_cons, List.length_append]
  congr 1
  omega

theorem unmarshalLoop_FromAddress (s A R : List Nat) (m : MsgSignalIntent) (fuel : Nat)
    (hs : 0 < s.length) (hlen : (A ++ (fieldBytes 26 s ++ R)).length < 2 ^ 63) :
    unmarshalLoop (A ++ (fieldBytes 26 s ++ R)) (fuel + 1) A.length m
      = unmarshalLoop (A ++ (fieldBytes 26 s ++ R)) fuel
          (A.length + (fieldBytes 26 s).length) { m with FromAddress := s } := by
  have hfb : fieldBytes 26 s = 26 :: (varintBytes 10 s.length ++ s) := by
    unfold fieldBytes
    rw [if_pos hs]
    rfl
  rw [hfb] at hlen ⊢
  have hshape : A ++ (26 :: (varintBytes 10 s.length ++ s) ++ R)
      = (A ++ [26]) ++ (varintBytes 10 s.length ++ (s ++ R)) := by simp
  have htag := tag_eq 26 A (varintBytes 10 s.length ++ (s ++ R)) (by decide)
  have hstr := readString_eq s (A ++ [26]) R (by rw [← hshape]; exact hlen)
  have hA : (A ++ [26]).length = A.length + 1 := by simp
  rw [hA] at hstr
  have hlt : A.length < (A ++ (26 :: (varintBytes 10 s.length ++ s) ++ R)).length := by simp
  rw [unmarshalLoop_succ, if_neg (not_not.2 hlt)]
  rw [hshape, show (A ++ [26]) ++ (varintBytes 10 s.length ++ (s ++ R))
    = A ++ 26 :: (varintBytes 10 s.length ++ (s ++ R)) by simp] at *
  rw [htag]
  simp only []
  rw [show (26 : Nat) &&& 7 = 2 from rfl]
  rw [if_neg (by decide), if_neg (by decide), if_neg (by decide), if_neg (by decide),
    if_pos (by decide), hstr]
  simp only [List.length_cons, List.length_append]
  congr 1
  omega

theorem fieldBytes_pos (tag : Nat) (s : List Nat) (hs : 0 < s.length) :
    1 ≤ (fieldBytes tag s).length := by
  unfold fieldBytes
  rw [if_pos hs]
  simp

theorem fieldBytes_nil (tag : Nat) (s : List Nat) (hs : ¬ 0 < s.length) :
    fieldBytes tag s = [] ∧ s = [] := by
  unfold fieldBytes
  rw [if_neg hs]
  exact ⟨rfl, List.eq_nil_of_length_eq_zero (by omega)⟩

theorem Unmarshal_wireBytes (m : MsgSignalIntent) (hlen : (wireBytes m).length < 2 ^ 63) :
    MsgSignalIntent.Unmarshal ⟨[], [], []⟩ (wireBytes m) = Except.ok m := by
  obtain ⟨c, i, f⟩ := m
  unfold MsgSignalIntent.Unmarshal
  unfold wireBytes at hlen ⊢
  simp only [] at hlen ⊢
  generalize hW : fieldBytes 10 c ++ (fieldBytes 18 i ++ fieldBytes 26 f) = W at hlen ⊢
  have hWlen : W.length
      = (fieldBytes 10 c).length + ((fieldBytes 18 i).length + (fieldBytes 26 f).length) := by
    rw [← hW]
    simp
  -- after the third field
  have h3 : ∀ fuel, 1 ≤ fuel →
      unmarshalLoop W fuel W.length ⟨c, i, f⟩ = Except.ok ⟨c, i, f⟩ :=
    fun fuel hf => unmarshalLoop_end W _ fuel hf
  -- before the third field
  have h2 : ∀ fuel, (fieldBytes 26 f).length + 1 ≤ fuel →
      unmarshalLoop W fuel ((fieldBytes 10 c).length + (fieldBytes 18 i).length) ⟨c, i, []⟩
        = Except.ok ⟨c, i, f⟩ := by
    intro fuel hf
    by_cases hs : 0 < f.length
    · have hpos := fieldBytes_pos 26 f hs
      cases fuel with
      | zero => omega
      | succ fuel =>
        have hshape : W = (fieldBytes 10 c ++ fieldBytes 18 i) ++ (fieldBytes 26 f ++ []) := by
          rw [← hW]
          simp
        have hstep := unmarshalLoop_FromAddress f (fieldBytes 10 c ++ fieldBytes 18 i) []
          ⟨c, i, []⟩ fuel hs (by rw [← hshape]; exact hlen)
        rw [← hshape, List.length_append] at hstep
        rw [hstep]
        have hidx : (fieldBytes 10 c).length + (fieldBytes 18 i).length
            + (fieldBytes 26 f).length = W.length := by omega
        rw [hidx]
        exact h3 fuel (by omega)
    · obtain ⟨hfb, hnil⟩ := fieldBytes_nil 26 f hs
      subst hnil
      have hidx : (fieldBytes 10 c).length + (fieldBytes 18 i).length = W.length := by
        rw [hWlen, hfb]
        simp
      rw [hidx]
      exact h3 fuel (by omega)
  -- before the second field
  have h1 : ∀ fuel, (fieldBytes 18 i).length + (fieldBytes 26 f).length + 1 ≤ fuel →
      unmarshalLoop W fuel (fieldBytes 10 c).length ⟨c, [], []⟩ = Except.ok ⟨c, i, f⟩ := by
    intro fuel hf
    by_cases hs : 0 < i.length
    · have hpos := fieldBytes_pos 18 i hs
      cases fuel with
      | zero => omega
      | succ fuel =>
        have hstep := unmarshalLoop_Intents i (fieldBytes 10 c) (fieldBytes 26 f)
          ⟨c, [], []⟩ fuel hs (by rw [hW]; exact hlen)
        rw [hW] at hstep
        rw [hstep]
        exact h2 fuel (by omega)
    · obtain ⟨hfb, hnil⟩ := fieldBytes_nil 18 i hs
      subst hnil
      have := h2 fuel (by omega)
      rw [hfb] at this
      simpa using this
  -- before the first field
  have h0 : ∀ fuel, W.length + 1 ≤ fuel →
      unmarshalLoop W fuel 0 ⟨[], [], []⟩ = Except.ok ⟨c, i, f⟩ := by
    intro fuel hf
    by_cases hs : 0 < c.length
    · have hpos := fieldBytes_pos 10 c hs
      cases fuel with
      | zero => omega
      | succ fuel =>
        have hshape : W = [] ++ (fieldBytes 10 c ++ (fieldBytes 18 i ++ fieldBytes 26 f)) := by
          rw [← hW]
          simp
        have hstep := unmarshalLoop_ChainId c [] (fieldBytes 18 i ++ fieldBytes 26 f)
          ⟨[], [], []⟩ fuel hs (by rw [← hshape]; exact hlen)
        rw [← hshape] at hstep
        simp only [List.length_nil, Nat.zero_add] at hstep
        rw [hstep]
        exact h1 fuel (by omega)
    · obtain ⟨hfb, hnil⟩ := fieldBytes_nil 10 c hs
      subst hnil
      have := h1 fuel (by omega)
      rw [hfb] at this
      simpa using this
  exact h0 _ (le_refl _)

/-! ## Theorems: the wire format of `MsgSignalIntent` -/

/-- C39 (wire round trip of MsgSignalIntent): for every message whose `Size` is below `2^63`
(a Go `int`), `Marshal` returns bytes whose number is `Size`, and `Unmarshal` of these bytes into
an empty message succeeds and gives the message back. -/
theorem C39_wire_round_trip (m : MsgSignalIntent) (hsize : m.Size < 2 ^ 63) :
    ∃ bz, m.Marshal = some bz ∧ bz.length = m.Size ∧
      MsgSignalIntent.Unmarshal ⟨[], [], []⟩ bz = Except.ok m := by
  have hs : m.Size < 2 ^ 64 := lt_of_lt_of_le hsize (by norm_num)
  have hlen := Size_eq_length m hs
  exact ⟨wireBytes m, Marshal_eq m hs, hlen.symm,
    Unmarshal_wireBytes m (by rw [← hlen]; exact hsize)⟩

theorem C39_wire_round_trip_witness :
    tcSignal.Size < 2 ^ 63 ∧
      ∃ bz, tcSignal.Marshal = some bz ∧ bz.length = tcSignal.Size ∧
        MsgSignalIntent.Unmarshal ⟨[], [], []⟩ bz = Except.ok tcSignal :=
  ⟨by decide, C39_wire_round_trip tcSignal (by decide)⟩

/-! ## Lemmas: the planner with the overflow panics -/

theorem natAbs_TruncateInt_le (d : Dec) :
    d.TruncateInt.natAbs ≤ d.i.natAbs / 1000000000000000000 := by
  unfold Dec.TruncateInt chopPrecisionAndTruncate
  rw [Int.natAbs_tdiv]
  exact le_of_eq rfl

/-- The scaled target `weight * currentSum` and its truncation are bounded by `currentSum` when
the weight is at most one in absolute value. -/
theorem scaled_target_bound (w : Dec) (currentSum : Int)
    (hw : w.i.natAbs ≤ 1000000000000000000) :
    (w.MulInt currentSum).i.natAbs ≤ 1000000000000000000 * currentSum.natAbs ∧
    (w.MulInt currentSum).TruncateInt.natAbs ≤ currentSum.natAbs := by
  have h1 : (w.MulInt currentSum).i.natAbs ≤ 1000000000000000000 * currentSum.natAbs := by
    simp only [Dec.MulInt, Int.natAbs_mul]
    exact Nat.mul_le_mul_right _ hw
  refine ⟨h1, ?_⟩
  have h2 := natAbs_TruncateInt_le (w.MulInt currentSum)
  generalize (w.MulInt currentSum).TruncateInt.natAbs = a at h2
  generalize (w.MulInt currentSum).i.natAbs = b at h1 h2
  omega

/-- The body of the loop of `calculateDeltas` does not panic when the scaled target fits a `Dec`
and the delta fits an `Int`. -/
theorem deltaForChecked_eq (currentAllocations : List (String × Int)) (currentSum : Int)
    (targetAllocations : List (String × ValidatorIntent)) (k : String) (t : ValidatorIntent)
    (ht : mapGet targetAllocations k = some t)
    (h1 : (t.Weight.MulInt currentSum).i.natAbs < decLimit)
    (h2 : (deltaValue currentAllocations currentSum targetAllocations k).natAbs < intLimit) :
    deltaForChecked currentAllocations currentSum targetAllocations k
      = some { ValoperAddress := k,
               Weight :=
                 ToDec (deltaValue currentAllocations currentSum targetAllocations k) } := by
  have h3 : (t.Weight.MulInt currentSum).TruncateInt.natAbs < intLimit := by
    have h := natAbs_TruncateInt_le (t.Weight.MulInt currentSum)
    unfold decLimit at h1
    unfold intLimit
    omega
  simp only [deltaValue, weightOf, currentOf, ht] at h2 ⊢
  cases hc : mapGet currentAllocations k with
  | none =>
    simp only [hc] at h2
    simp [deltaForChecked, ht, hc, checkDec, checkInt, h1, h3, h2]
  | some c =>
    simp only [hc] at h2
    simp [deltaForChecked, ht, hc, checkDec, checkInt, h1, h3, h2]

/-- The deltas of `calculateDeltas` when no operation overflows. -/
theorem calculateDeltasChecked_eq (currentAllocations : List (String × Int)) (currentSum : Int)
    (targetAllocations : List (String × ValidatorIntent))
    (h1 : ∀ k t, mapGet targetAllocations k = some t →
      (t.Weight.MulInt currentSum).i.natAbs < decLimit)
    (h2 : ∀ k ∈ Keys targetAllocations,
      (deltaValue currentAllocations currentSum targetAllocations k).natAbs < intLimit) :
    calculateDeltasChecked currentAllocations currentSum targetAllocations
      = some (baseDeltas currentAllocations currentSum targetAllocations) := by
  unfold calculateDeltasChecked baseDeltas
  apply forEach_eq_some_map
  intro k hk
  obtain ⟨t, ht⟩ := (mapGet_isSome_iff targetAllocations k).2 ((mem_Keys _ _).1 hk)
  exact deltaForChecked_eq _ _ _ k t ht (h1 k t ht) (h2 k hk)

/-- The size of a delta when the weight is at most one in absolute value. -/
theorem deltaValue_bound (currentAllocations : List (String × Int)) (currentSum : Int)
    (targetAllocations : List (String × ValidatorIntent)) (k : String) (t : ValidatorIntent)
    (ht : mapGet targetAllocations k = some t)
    (hw : t.Weight.i.natAbs ≤ 1000000000000000000) :
    (deltaValue currentAllocations currentSum targetAllocations k).natAbs
      ≤ currentSum.natAbs + (currentOf currentAllocations k).natAbs := by
  have h := (scaled_target_bound t.Weight currentSum hw).2
  simp only [deltaValue, weightOf, ht]
  omega

/-! ## Lemmas: the loops of the planner within the limits -/

theorem checkInt_of (x : Int) (h : x.natAbs < intLimit) : checkInt x = some x := by
  simp [checkInt, h]

theorem checkDec_of (d : Dec) (h : d.i.natAbs < decLimit) : checkDec d = some d := by
  simp [checkDec, h]

theorem checkInt_small (x : Int) (h0 : 0 ≤ x) (h : x < 2 ^ 255) : checkInt x = some x := by
  apply checkInt_of
  unfold intLimit
  omega

theorem checkDec_small (d : Dec) (h0 : 0 ≤ d.i) (h : d.i < 2 ^ 255) : checkDec d = some d := by
  apply checkDec_of
  unfold decLimit
  omega

theorem TruncateInt_bounds (w : Dec) (h0 : 0 ≤ w.i) :
    0 ≤ w.TruncateInt ∧ w.TruncateInt ≤ w.i := by
  have h := natAbs_TruncateInt_le w
  have h1 := TruncateInt_nonneg w h0
  have h2 : w.i.natAbs / 1000000000000000000 ≤ w.i.natAbs := Nat.div_le_self _ _
  omega

theorem minDeltasChecked_foldl (deltas : List ValidatorIntent) (init : Int)
    (h : ∀ d ∈ deltas, d.Weight.TruncateInt.natAbs < intLimit) :
    deltas.foldl (fun acc intent => do
      let minValue ← acc
      let w ← checkInt intent.Weight.TruncateInt
      pure (if w < minValue then w else minValue)) (some init)
    = some (deltas.foldl (fun minValue intent =>
        if intent.Weight.TruncateInt < minValue then intent.Weight.TruncateInt else minValue)
        init) := by
  induction deltas generalizing init with
  | nil => rfl
  | cons d rest ih =>
    have h1 := checkInt_of _ (h d (by simp))
    simp only [List.foldl_cons, h1, Option.bind_eq_bind, Option.some_bind, Option.pure_def]
    exact ih _ (fun x hx => h x (List.mem_cons_of_mem _ hx))

theorem minDeltasChecked_eq (deltas : List ValidatorIntent)
    (h : ∀ d ∈ deltas, d.Weight.TruncateInt.natAbs < intLimit) :
    minDeltasChecked deltas = some (minDeltas deltas) :=
  minDeltasChecked_foldl deltas MaxInt64 h

theorem outWeightsChecked_foldl (deltas : List ValidatorIntent) (init : List (String × Int))
    (h : ∀ d ∈ deltas, d.Weight.TruncateInt.natAbs < intLimit) :
    deltas.foldl (fun acc delta => do
      let m ← acc
      let amount ← checkInt delta.Weight.TruncateInt
      pure (mapSet m delta.ValoperAddress amount)) (some init)
    = some (deltas.foldl
        (fun m delta => mapSet m delta.ValoperAddress delta.Weight.TruncateInt) init) := by
  induction deltas generalizing init with
  | nil => rfl
  | cons d rest ih =>
    have h1 := checkInt_of _ (h d (by simp))
    simp only [List.foldl_cons, h1, Option.bind_eq_bind, Option.some_bind, Option.pure_def]
    exact ih _ (fun x hx => h x (List.mem_cons_of_mem _ hx))

theorem outWeightsChecked_eq (deltas : List ValidatorIntent)
    (h : ∀ d ∈ deltas, d.Weight.TruncateInt.natAbs < intLimit) :
    outWeightsChecked deltas = some (outWeights deltas) :=
  outWeightsChecked_foldl deltas [] h

/-- The raising loop within the limits: the raised weights and the sum of their truncations. -/
theorem raiseLoopChecked_eq (m : Int) (ds : List ValidatorIntent) (sum0 : Int)
    (hw : ∀ d ∈ ds, 0 ≤ (d.Weight.Add (ToDec (Abs m))).i ∧
      (d.Weight.Add (ToDec (Abs m))).i < 2 ^ 191)
    (h0 : 0 ≤ sum0) (hfit : sum0 + (ds.length : Int) * 2 ^ 191 < 2 ^ 255) :
    raiseLoopChecked m ds sum0
      = some (raiseDeltas m ds,
          sum0 + ((raiseDeltas m ds).map (fun d => d.Weight.TruncateInt)).sum) := by
  induction ds generalizing sum0 with
  | nil => simp [raiseLoopChecked, raiseDeltas]
  | cons d rest ih =>
    obtain ⟨hd0, hd1⟩ := hw d (by simp)
    obtain ⟨ht0, ht1⟩ := TruncateInt_bounds _ hd0
    have hlen : ((d :: rest).length : Int) = (rest.length : Int) + 1 := by simp
    rw [hlen] at hfit
    have c1 := checkDec_small _ hd0 (by omega)
    have c2 := checkInt_small _ ht0 (by omega)
    have c3 := checkInt_small (sum0 + (d.Weight.Add (ToDec (Abs m))).TruncateInt)
      (by omega) (by omega)
    have ih2 := ih (sum0 + (d.Weight.Add (ToDec (Abs m))).TruncateInt)
      (fun x hx => hw x (List.mem_cons_of_mem _ hx)) (by omega) (by omega)
    rw [raiseLoopChecked]
    simp only [c1, c2, c3, ih2, Option.bind_eq_bind, Option.some_bind, Option.pure_def]
    simp [raiseDeltas, add_assoc]

/-- The unequal-split loop within the limits: the new weights and their sum. -/
theorem unequalLoopChecked_eq (sum unequalSplit : Int) (ds : List ValidatorIntent) (out0 : Dec)
    (hs : sum ≠ 0)
    (hw : ∀ d ∈ ds, 0 ≤ Int.tdiv d.Weight.i sum * unequalSplit ∧
      Int.tdiv d.Weight.i sum * unequalSplit < 2 ^ 191)
    (h0 : 0 ≤ out0.i) (hfit : out0.i + (ds.length : Int) * 2 ^ 191 < 2 ^ 255) :
    unequalLoopChecked sum unequalSplit ds out0
      = some (unequalWeights sum unequalSplit ds,
          ⟨out0.i + ((unequalWeights sum unequalSplit ds).map (fun d => d.Weight.i)).sum⟩) := by
  induction ds generalizing out0 with
  | nil => simp [unequalLoopChecked, unequalWeights]
  | cons d rest ih =>
    obtain ⟨hd0, hd1⟩ := hw d (by simp)
    have hlen : ((d :: rest).length : Int) = (rest.length : Int) + 1 := by simp
    rw [hlen] at hfit
    have hq : d.Weight.QuoInt sum = some ⟨Int.tdiv d.Weight.i sum⟩ := by
      simp [Dec.QuoInt, hs]
    have c1 := checkDec_small (Dec.MulInt ⟨Int.tdiv d.Weight.i sum⟩ unequalSplit)
      hd0 (by simp only [Dec.MulInt]; omega)
    have c2 := checkDec_small (out0.Add (Dec.MulInt ⟨Int.tdiv d.Weight.i sum⟩ unequalSplit))
      (by simp only [Dec.Add, Dec.MulInt]; omega) (by simp only [Dec.Add, Dec.MulInt]; omega)
    have ih2 := ih (out0.Add (Dec.MulInt ⟨Int.tdiv d.Weight.i sum⟩ unequalSplit))
      (fun x hx => hw x (List.mem_cons_of_mem _ hx))
      (by simp only [Dec.Add, Dec.MulInt]; omega) (by simp only [Dec.Add, Dec.MulInt]; omega)
    rw [unequalLoopChecked]
    simp only [hq, c1, c2, ih2, Option.bind_eq_bind, Option.some_bind, Option.pure_def]
    simp [unequalWeights, Dec.Add, Dec.MulInt, add_assoc]

/-- The equal-split loop within the limits: the new weights and their sum. -/
theorem equalLoopChecked_eq (each : Dec) (ds : List ValidatorIntent) (out0 : Dec)
    (hw : ∀ d ∈ ds, 0 ≤ d.Weight.i + each.i ∧ d.Weight.i + each.i < 2 ^ 191)
    (h0 : 0 ≤ out0.i) (hfit : out0.i + (ds.length : Int) * 2 ^ 191 < 2 ^ 255) :
    equalLoopChecked each ds out0
      = some (equalWeights each ds,
          ⟨out0.i + ((equalWeights each ds).map (fun d => d.Weight.i)).sum⟩) := by
  induction ds generalizing out0 with
  | nil => simp [equalLoopChecked, equalWeights]
  | cons d rest ih =>
    obtain ⟨hd0, hd1⟩ := hw d (by simp)
    have hlen : ((d :: rest).length : Int) = (rest.length : Int) + 1 := by simp
    rw [hlen] at hfit
    have c1 := checkDec_small (d.Weight.Add each)
      (by simp only [Dec.Add]; omega) (by simp only [Dec.Add]; omega)
    have c2 := checkDec_small (out0.Add (d.Weight.Add each))
      (by simp only [Dec.Add]; omega) (by simp only [Dec.Add]; omega)
    have ih2 := ih (out0.Add (d.Weight.Add each))
      (fun x hx => hw x (List.mem_cons_of_mem _ hx))
      (by simp only [Dec.Add]; omega) (by simp only [Dec.Add]; omega)
    rw [equalLoopChecked]
    simp only [c1, c2, ih2, Option.bind_eq_bind, Option.some_bind, Option.pure_def]
    simp [equalWeights, Dec.Add, add_assoc]

theorem Dec_eta_sumWeights (ds : List ValidatorIntent) :
    (⟨Dec.ZeroDec.i + (ds.map (fun d => d.Weight.i)).sum⟩ : Dec) = sumWeights ds := by
  have h := sumWeights_eq ds
  cases hs : sumWeights ds with
  | mk i =>
    rw [hs] at h
    simp only [Dec.ZeroDec, zero_add, Dec.mk.injEq]
    exact h.symm

theorem unequal_term_bound (w S u : Int) (hw : 0 ≤ w) (hS : 0 < S) (hu0 : 0 ≤ u)
    (huS : u ≤ S) : 0 ≤ Int.tdiv w S * u ∧ Int.tdiv w S * u ≤ w := by
  have h1 : 0 ≤ Int.tdiv w S := Int.tdiv_nonneg hw (le_of_lt hS)
  have h2 : Int.tdiv w S * S ≤ w := by
    rw [Int.tdiv_eq_ediv hw (le_of_lt hS)]
    exact Int.ediv_mul_le _ (ne_of_gt hS)
  have h3 : Int.tdiv w S * u ≤ Int.tdiv w S * S := mul_le_mul_of_nonneg_left huS h1
  exact ⟨mul_nonneg h1 hu0, le_trans h3 h2⟩

theorem raised_weight_bounds (d : ValidatorIntent)
    (h : ∃ a : Int, 0 ≤ a ∧ a < 2 ^ 130 ∧ d.Weight = ToDec a) :
    0 ≤ d.Weight.i ∧ d.Weight.i < 2 ^ 190 := by
  obtain ⟨a, ha0, ha1, hw⟩ := h
  rw [hw]
  simp only [ToDec, precisionReuse]
  omega

/-- The unequal split within the limits, for raised deltas below `2^130`. -/
theorem unequalSplit_checked (input : Int) (ds : List ValidatorIntent)
    (hraised : ∀ d ∈ ds, ∃ a : Int, 0 ≤ a ∧ a < 2 ^ 130 ∧ d.Weight = ToDec a)
    (hlen : ds.length < 2 ^ 64) (hin0 : 0 ≤ input)
    (hu : MinInt (sumTruncated ds) input ≠ 0) :
    unequalLoopChecked (sumTruncated ds) (MinInt (sumTruncated ds) input) ds Dec.ZeroDec
      = some (unequalWeights (sumTruncated ds) (MinInt (sumTruncated ds) input) ds,
          sumWeights (unequalWeights (sumTruncated ds) (MinInt (sumTruncated ds) input) ds)) ∧
    ∀ d ∈ unequalWeights (sumTruncated ds) (MinInt (sumTruncated ds) input) ds,
      0 ≤ d.Weight.i ∧ d.Weight.i < 2 ^ 190 := by
  have hraised' : ∀ d ∈ ds, ∃ a : Int, 0 ≤ a ∧ d.Weight = ToDec a := by
    intro d hd
    obtain ⟨a, ha0, _, hw⟩ := hraised d hd
    exact ⟨a, ha0, hw⟩
  obtain ⟨hS0, _⟩ := raised_sums ds hraised'
  have hSne := no_division_by_zero input ds hin0 hu
  have hSpos : 0 < sumTruncated ds := by omega
  have hu0 : 0 ≤ MinInt (sumTruncated ds) input ∧
      MinInt (sumTruncated ds) input ≤ sumTruncated ds := by
    rcases MinInt_cases (sumTruncated ds) input with ⟨h1, h2⟩ | ⟨h1, h2⟩ <;> rw [h2] <;>
      omega
  generalize MinInt (sumTruncated ds) input = u at hu hu0 ⊢
  generalize sumTruncated ds = S at hSne hSpos hu0 hS0 ⊢
  have hterm : ∀ d ∈ ds,
      0 ≤ Int.tdiv d.Weight.i S * u ∧ Int.tdiv d.Weight.i S * u < 2 ^ 190 := by
    intro d hd
    obtain ⟨h0, h1⟩ := raised_weight_bounds d (hraised d hd)
    obtain ⟨h2, h3⟩ := unequal_term_bound d.Weight.i S u h0 hSpos hu0.1 hu0.2
    exact ⟨h2, by omega⟩
  have hz : Dec.ZeroDec.i = 0 := rfl
  have hlenI : (ds.length : Int) < 2 ^ 64 := by exact_mod_cast hlen
  refine ⟨?_, ?_⟩
  · rw [unequalLoopChecked_eq S u ds Dec.ZeroDec hSne
      (fun d hd => ⟨(hterm d hd).1, by have := (hterm d hd).2; omega⟩)
      (by omega) (by omega), Dec_eta_sumWeights]
  · intro d hd
    unfold unequalWeights at hd
    obtain ⟨c, hc, rfl⟩ := List.mem_map.1 hd
    simpa [Dec.MulInt] using hterm c hc

theorem eachShare_upper (E : Int) (n : Nat) (hE0 : 0 ≤ E) (hE1 : E < 2 ^ 128) (hn : n ≠ 0)
    (hn1 : n < 2 ^ 64) : 0 ≤ (eachShare E n).i ∧ (eachShare E n).i < 2 ^ 189 := by
  obtain ⟨h0, h1⟩ := eachShare_bound E n hE0 hn
  have hnpos : (1 : Int) ≤ n := by exact_mod_cast Nat.pos_of_ne_zero hn
  have hnI : (n : Int) < 2 ^ 64 := by exact_mod_cast hn1
  have h2 : (eachShare E n).i ≤ (n : Int) * (eachShare E n).i :=
    le_mul_of_one_le_left h0 hnpos
  generalize (n : Int) * (eachShare E n).i = x at h1 h2
  refine ⟨h0, ?_⟩
  omega

/-- The equal split within the limits, for weights below `2^190`. -/
theorem equalSplit_checked (E : Int) (l : List ValidatorIntent)
    (hl : ∀ d ∈ l, 0 ≤ d.Weight.i ∧ d.Weight.i < 2 ^ 190)
    (hn : l.length ≠ 0) (hlen : l.length < 2 ^ 64) (hE0 : 0 ≤ E) (hE1 : E < 2 ^ 128) :
    checkDec (eachShare E l.length) = some (eachShare E l.length) ∧
    equalLoopChecked (eachShare E l.length) l Dec.ZeroDec
      = some (equalWeights (eachShare E l.length) l,
          sumWeights (equalWeights (eachShare E l.length) l)) ∧
    ∀ d ∈ equalWeights (eachShare E l.length) l,
      0 ≤ d.Weight.i ∧ d.Weight.i < 2 ^ 190 + 2 ^ 189 := by
  obtain ⟨he0, he1⟩ := eachShare_upper E l.length hE0 hE1 hn hlen
  have hz : Dec.ZeroDec.i = 0 := rfl
  have hlenI : (l.length : Int) < 2 ^ 64 := by exact_mod_cast hlen
  generalize eachShare E l.length = each at he0 he1 ⊢
  have hterm : ∀ d ∈ l,
      0 ≤ d.Weight.i + each.i ∧ d.Weight.i + each.i < 2 ^ 190 + 2 ^ 189 := by
    intro d hd
    obtain ⟨h0, h1⟩ := hl d hd
    omega
  refine ⟨checkDec_small _ he0 (by omega), ?_, ?_⟩
  · rw [equalLoopChecked_eq each l Dec.ZeroDec
      (fun d hd => ⟨(hterm d hd).1, by have := (hterm d hd).2; omega⟩)
      (by omega) (by omega), Dec_eta_sumWeights]
  · intro d hd
    unfold equalWeights at hd
    obtain ⟨c, hc, rfl⟩ := List.mem_map.1 hd
    simpa [Dec.Add] using hterm c hc

theorem sumWeights_nonneg (l : List ValidatorIntent) (h : ∀ d ∈ l, 0 ≤ d.Weight.i) :
    0 ≤ (sumWeights l).i := by
  rw [sumWeights_eq]
  apply List.sum_nonneg
  intro x hx
  obtain ⟨d, hd, rfl⟩ := List.mem_map.1 hx
  exact h d hd

/-- The last steps within the limits: the truncation of `outSum`, the dust, its addition to the
first weight, and the output loop. -/
theorem finish_checked (input : Int) (o : Dec) (d0 : ValidatorIntent)
    (rest : List ValidatorIntent) (hin0 : 0 ≤ input) (hin1 : input < 2 ^ 128)
    (ho0 : 0 ≤ o.i) (ho1 : o.i < (input + 1) * 1000000000000000000)
    (hl : ∀ d ∈ d0 :: rest, 0 ≤ d.Weight.i ∧ d.Weight.i < 2 ^ 190 + 2 ^ 189) :
    checkInt o.TruncateInt = some o.TruncateInt ∧
    checkInt (input - o.TruncateInt) = some (input - o.TruncateInt) ∧
    checkDec (d0.Weight.Add (ToDec (input - o.TruncateInt)))
      = some (d0.Weight.Add (ToDec (input - o.TruncateInt))) ∧
    outWeightsChecked
        ({ d0 with Weight := d0.Weight.Add (ToDec (input - o.TruncateInt)) } :: rest)
      = some (outWeights (addDust (input - o.TruncateInt) (d0 :: rest))) := by
  have ht0 := TruncateInt_nonneg o ho0
  have ht1 := TruncateInt_le o input hin0 ho1
  obtain ⟨hd0, hd1⟩ := hl d0 (by simp)
  have hw0 : 0 ≤ (d0.Weight.Add (ToDec (input - o.TruncateInt))).i ∧
      (d0.Weight.Add (ToDec (input - o.TruncateInt))).i < 2 ^ 191 := by
    simp only [Dec.Add, ToDec, precisionReuse]
    omega
  refine ⟨checkInt_small _ ht0 (by omega), checkInt_small _ (by omega) (by omega),
    checkDec_small _ hw0.1 (by omega), ?_⟩
  apply outWeightsChecked_eq
  intro d hd
  have hb : 0 ≤ d.Weight.i ∧ d.Weight.i < 2 ^ 191 := by
    rcases List.mem_cons.1 hd with rfl | hd
    · exact hw0
    · have := hl d (List.mem_cons_of_mem _ hd)
      omega
  obtain ⟨h1, h2⟩ := TruncateInt_bounds d.Weight hb.1
  unfold intLimit
  omega

/-- The planner within the limits, from the ordered deltas on: when the first three stages do
not overflow and the raised deltas are below `2^130`, no later operation overflows and the plan
is the one of the planner without limits. -/
theorem DetermineAllocationsForDelegationChecked_eq (currentAllocations : List (String × Int))
    (currentSum : Int) (targetAllocations : List (String × ValidatorIntent)) (coin : Coin)
    (rest : List Coin)
    (hcalc : calculateDeltasChecked currentAllocations currentSum targetAllocations
      = some (baseDeltas currentAllocations currentSum targetAllocations))
    (hmin : minDeltasChecked (baseDeltas currentAllocations currentSum targetAllocations)
      = some (minDeltas (baseDeltas currentAllocations currentSum targetAllocations)))
    (hraise : raiseLoopChecked
      (minDeltas (baseDeltas currentAllocations currentSum targetAllocations))
      (SliceStable (fun a b => a.Weight.GT b.Weight)
        (SliceStable (fun a b => strLess b.ValoperAddress a.ValoperAddress)
          (baseDeltas currentAllocations currentSum targetAllocations))) 0
      = some (orderedDeltas currentAllocations currentSum targetAllocations,
          sumTruncated (orderedDeltas currentAllocations currentSum targetAllocations)))
    (hraised : ∀ d ∈ orderedDeltas currentAllocations currentSum targetAllocations,
      ∃ a : Int, 0 ≤ a ∧ a < 2 ^ 130 ∧ d.Weight = ToDec a)
    (hne : orderedDeltas currentAllocations currentSum targetAllocations ≠ [])
    (hlen18 : (orderedDeltas currentAllocations currentSum targetAllocations).length
      < 1000000000000000000)
    (hin0 : 0 ≤ coin.Amount) (hin1 : coin.Amount < 2 ^ 128) :
    DetermineAllocationsForDelegationChecked currentAllocations currentSum targetAllocations
        (coin :: rest)
      = some (outWeights (finalDeltas coin.Amount
          (orderedDeltas currentAllocations currentSum targetAllocations))) := by
  unfold DetermineAllocationsForDelegationChecked
  simp only [hcalc, hmin, hraise, Option.bind_eq_bind, Option.some_bind]
  generalize orderedDeltas currentAllocations currentSum targetAllocations = ds
    at hraised hne hlen18 ⊢
  generalize coin.Amount = input at hin0 hin1 ⊢
  have hraised' : ∀ d ∈ ds, ∃ a : Int, 0 ≤ a ∧ d.Weight = ToDec a := by
    intro d hd
    obtain ⟨a, ha0, _, hw⟩ := hraised d hd
    exact ⟨a, ha0, hw⟩
  have hlen : ds.length < 2 ^ 64 := by omega
  obtain ⟨hsw0, hsw1⟩ := splitWeights_bounds input ds hraised' hin0 hlen18
  obtain ⟨hS0, _⟩ := raised_sums ds hraised'
  have hn : ds.length ≠ 0 := fun h => hne (List.length_eq_zero.1 h)
  have hu0 : 0 ≤ MinInt (sumTruncated ds) input ∧ MinInt (sumTruncated ds) input ≤ input := by
    rcases MinInt_cases (sumTruncated ds) input with ⟨h1, h2⟩ | ⟨h1, h2⟩ <;> rw [h2] <;>
      omega
  have hE := checkInt_small (input - MinInt (sumTruncated ds) input) (by omega) (by omega)
  unfold finalDeltas
  revert hsw0 hsw1
  unfold splitWeights
  dsimp only
  intro hsw0 hsw1
  by_cases hu : MinInt (sumTruncated ds) input = 0
  · -- no unequal split
    have hds : ∀ d ∈ ds, 0 ≤ d.Weight.i ∧ d.Weight.i < 2 ^ 190 :=
      fun d hd => raised_weight_bounds d (hraised d hd)
    simp only [hu, sub_zero, ne_eq, not_true_eq_false, if_false] at hsw0 hsw1 hE ⊢
    by_cases hE0 : input = 0
    · subst hE0
      simp only [hE, ne_eq, not_true_eq_false, if_false, Option.some_bind,
        ToDec_IsZero, decide_True, not_false_eq_true] at hsw0 hsw1 ⊢
      cases ds with
      | nil => exact absurd rfl hne
      | cons d0 tl =>
        obtain ⟨c1, c2, c3, c4⟩ := finish_checked 0 Dec.ZeroDec d0 tl hin0 hin1
          (by decide) hsw1 (fun d hd => by have := hds d hd; omega)
        simp only [c1, c2, c3, c4, Option.some_bind]
    · obtain ⟨e1, e2, e3⟩ := equalSplit_checked input ds hds hn hlen (by omega) (by omega)
      simp only [hE0, hE, ne_eq, not_true_eq_false, if_false, Option.some_bind,
        ToDec_IsZero, decide_False, not_false_eq_true, if_true, Bool.false_eq_true,
        Quo_NewDec _ _ hn, e1, e2] at hsw0 hsw1 ⊢
      cases hl : equalWeights (eachShare input ds.length) ds with
      | nil =>
        have : (equalWeights (eachShare input ds.length) ds).length = ds.length := by
          simp [equalWeights]
        rw [hl] at this
        exact absurd this.symm hn
      | cons d0 tl =>
        rw [hl] at hsw0 hsw1 e3
        obtain ⟨c1, c2, c3, c4⟩ := finish_checked input
          (sumWeights (d0 :: tl)) d0 tl hin0 hin1
          (sumWeights_nonneg _ hsw0) hsw1 e3
        simp only [c1, c2, c3, c4, Option.some_bind]
  · -- the unequal split
    obtain ⟨u1, u2⟩ := unequalSplit_checked input ds hraised hlen hin0 hu
    have hulen : (unequalWeights (sumTruncated ds) (MinInt (sumTruncated ds) input) ds).length
        = ds.length := by simp [unequalWeights]
    by_cases hE0 : input - MinInt (sumTruncated ds) input = 0
    · rw [hE0] at hE
      simp only [hu, hE0, hE, ne_eq, not_true_eq_false, if_false, Option.some_bind,
        ToDec_IsZero, decide_True, not_false_eq_true, if_true, u1] at hsw0 hsw1 ⊢
      cases hl : unequalWeights (sumTruncated ds) (MinInt (sumTruncated ds) input) ds with
      | nil =>
        rw [hl] at hulen
        exact absurd hulen.symm hn
      | cons d0 tl =>
        rw [hl] at hsw0 hsw1 u2
        obtain ⟨c1, c2, c3, c4⟩ := finish_checked input
          (sumWeights (d0 :: tl)) d0 tl hin0 hin1
          (sumWeights_nonneg _ hsw0) hsw1 (fun d hd => by have := u2 d hd; omega)
        simp only [c1, c2, c3, c4, Option.some_bind]
    · obtain ⟨e1, e2, e3⟩ := equalSplit_checked (input - MinInt (sumTruncated ds) input)
        (unequalWeights (sumTruncated ds) (MinInt (sumTruncated ds) input) ds)
        u2 (by rw [hulen]; exact hn) (by rw [hulen]; exact hlen) (by omega) (by omega)
      have hn2 : (unequalWeights (sumTruncated ds) (MinInt (sumTruncated ds) input) ds).length
          ≠ 0 := by rw [hulen]; exact hn
      simp only [hu, hE0, hE, ne_eq, not_true_eq_false, if_false, Option.some_bind,
        ToDec_IsZero, decide_False, not_false_eq_true, if_true, Bool.false_eq_true,
        Quo_NewDec _ _ hn2, e1, e2, u1] at hsw0 hsw1 e3 ⊢
      cases hl : equalWeights (eachShare (input - MinInt (sumTruncated ds) input)
        (unequalWeights (sumTruncated ds) (MinInt (sumTruncated ds) input) ds).length)
        (unequalWeights (sumTruncated ds) (MinInt (sumTruncated ds) input) ds) with
      | nil =>
        have : (equalWeights (eachShare (input - MinInt (sumTruncated ds) input)
            (unequalWeights (sumTruncated ds) (MinInt (sumTruncated ds) input) ds).length)
            (unequalWeights (sumTruncated ds) (MinInt (sumTruncated ds) input) ds)).length
            = ds.length := by
          simp [equalWeights, unequalWeights]
        rw [hl] at this
        exact absurd this.symm hn
      | cons d0 tl =>
        rw [hl] at hsw0 hsw1 e3
        obtain ⟨c1, c2, c3, c4⟩ := finish_checked input
          (sumWeights (d0 :: tl)) d0 tl hin0 hin1
          (sumWeights_nonneg _ hsw0) hsw1 e3
        simp only [c1, c2, c3, c4, Option.some_bind]

/-- The first three stages of the planner within the limits: for weights of at most 1 and
currentSum and current allocations below `2^128` in absolute value, the deltas, their minimum
and the raising loop do not overflow, and every raised delta is below `2^130`. -/
theorem first_stages_checked (currentAllocations : List (String × Int)) (currentSum : Int)
    (targetAllocations : List (String × ValidatorIntent))
    (hlen : (Keys targetAllocations).length < 1000000000000000000)
    (hw : ∀ kv ∈ targetAllocations, kv.2.Weight.i.natAbs ≤ 1000000000000000000)
    (hsum : currentSum.natAbs < 2 ^ 128)
    (hcur : ∀ kv ∈ currentAllocations, kv.2.natAbs < 2 ^ 128) :
    calculateDeltasChecked currentAllocations currentSum targetAllocations
      = some (baseDeltas currentAllocations currentSum targetAllocations) ∧
    minDeltasChecked (baseDeltas currentAllocations currentSum targetAllocations)
      = some (minDeltas (baseDeltas currentAllocations currentSum targetAllocations)) ∧
    raiseLoopChecked (minDeltas (baseDeltas currentAllocations currentSum targetAllocations))
      (SliceStable (fun a b => a.Weight.GT b.Weight)
        (SliceStable (fun a b => strLess b.ValoperAddress a.ValoperAddress)
          (baseDeltas currentAllocations currentSum targetAllocations))) 0
      = some (orderedDeltas currentAllocations currentSum targetAllocations,
          sumTruncated (orderedDeltas currentAllocations currentSum targetAllocations)) ∧
    ∀ d ∈ orderedDeltas currentAllocations currentSum targetAllocations,
      ∃ a : Int, 0 ≤ a ∧ a < 2 ^ 130 ∧ d.Weight = ToDec a := by
  have hcur0 : ∀ k, (currentOf currentAllocations k).natAbs < 2 ^ 128 := by
    intro k
    unfold currentOf
    cases hc : mapGet currentAllocations k with
    | none => simp
    | some c => exact hcur (k, c) (mem_of_mapGet _ _ _ hc)
  have hdelta : ∀ k ∈ Keys targetAllocations,
      (deltaValue currentAllocations currentSum targetAllocations k).natAbs < 2 ^ 129 := by
    intro k hk
    obtain ⟨t, ht⟩ := (mapGet_isSome_iff targetAllocations k).2 ((mem_Keys _ _).1 hk)
    have h1 := deltaValue_bound currentAllocations currentSum targetAllocations k t ht
      (hw (k, t) (mem_of_mapGet _ _ _ ht))
    have h2 := hcur0 k
    omega
  have hbase : ∀ d ∈ baseDeltas currentAllocations currentSum targetAllocations,
      ∃ δ : Int, δ.natAbs < 2 ^ 129 ∧ d.Weight = ToDec δ := by
    intro d hd
    unfold baseDeltas at hd
    obtain ⟨k, hk, rfl⟩ := List.mem_map.1 hd
    exact ⟨_, hdelta k hk, rfl⟩
  have hcalc : calculateDeltasChecked currentAllocations currentSum targetAllocations
      = some (baseDeltas currentAllocations currentSum targetAllocations) := by
    apply calculateDeltasChecked_eq
    · intro k t ht
      have h1 := (scaled_target_bound t.Weight currentSum
        (hw (k, t) (mem_of_mapGet _ _ _ ht))).1
      unfold decLimit
      omega
    · intro k hk
      have h1 := hdelta k hk
      unfold intLimit
      omega
  have hmin : minDeltasChecked (baseDeltas currentAllocations currentSum targetAllocations)
      = some (minDeltas (baseDeltas currentAllocations currentSum targetAllocations)) := by
    apply minDeltasChecked_eq
    intro d hd
    obtain ⟨δ, h1, h2⟩ := hbase d hd
    rw [h2, TruncateInt_ToDec]
    unfold intLimit
    omega
  have hm0 : -(2 ^ 129)
      ≤ minDeltas (baseDeltas currentAllocations currentSum targetAllocations) := by
    unfold minDeltas
    apply foldl_min_ge
    · unfold MaxInt64
      omega
    · intro d hd
      obtain ⟨δ, h1, h2⟩ := hbase d hd
      rw [h2, TruncateInt_ToDec]
      omega
  have hm1 : minDeltas (baseDeltas currentAllocations currentSum targetAllocations)
      ≤ MaxInt64 := (foldl_min_le _ MaxInt64).1
  have hsorted : ∀ d, d ∈ SliceStable (fun a b => a.Weight.GT b.Weight)
        (SliceStable (fun a b => strLess b.ValoperAddress a.ValoperAddress)
          (baseDeltas currentAllocations currentSum targetAllocations))
      → d ∈ baseDeltas currentAllocations currentSum targetAllocations := by
    intro d hd
    exact ((perm_SliceStable _ _).trans (perm_SliceStable _ _)).mem_iff.1 hd
  have hraisedw : ∀ d ∈ baseDeltas currentAllocations currentSum targetAllocations,
      ∃ a : Int, 0 ≤ a ∧ a < 2 ^ 130 ∧
        d.Weight.Add (ToDec (Abs (minDeltas
          (baseDeltas currentAllocations currentSum targetAllocations)))) = ToDec a := by
    intro d hd
    have hle := minDeltas_le _ d hd
    obtain ⟨δ, h1, h2⟩ := hbase d hd
    rw [h2, TruncateInt_ToDec] at hle
    generalize minDeltas (baseDeltas currentAllocations currentSum targetAllocations) = m
      at hle hm0 hm1 ⊢
    have hA : 0 ≤ δ + Abs m ∧ δ + Abs m < 2 ^ 130 := by
      unfold MaxInt64 at hm1
      unfold Abs
      split <;> omega
    refine ⟨δ + Abs m, hA.1, hA.2, ?_⟩
    rw [h2]
    simp only [ToDec, Dec.Add, Dec.mk.injEq]
    ring
  have hlenI : (Keys targetAllocations).length < 2 ^ 64 := by omega
  refine ⟨hcalc, hmin, ?_, ?_⟩
  · have hl : (SliceStable (fun a b => a.Weight.GT b.Weight)
        (SliceStable (fun a b => strLess b.ValoperAddress a.ValoperAddress)
          (baseDeltas currentAllocations currentSum targetAllocations))).length
        = (Keys targetAllocations).length := by
      rw [((perm_SliceStable _ _).trans (perm_SliceStable _ _)).length_eq]
      simp [baseDeltas]
    rw [raiseLoopChecked_eq _ _ 0 ?_ (le_refl 0) ?_]
    · simp only [zero_add, ← sumTruncated_eq]
      rfl
    · intro d hd
      obtain ⟨a, ha0, ha1, hwa⟩ := hraisedw d (hsorted d hd)
      rw [hwa]
      simp only [ToDec, precisionReuse]
      omega
    · rw [hl]
      omega
  · intro d hd
    unfold orderedDeltas raiseDeltas at hd
    obtain ⟨b, hb, rfl⟩ := List.mem_map.1 hd
    exact hraisedw b (hsorted b hb)

/-! ## Theorems: the planner within the limits of `sdk.Int` and `sdk.Dec` -/

/-- C7, counterexample to the claim on every input: with the target {A: 1.0}, which is not
empty, no current allocation, currentSum `2^256 - 1`, which is a non-negative valid `sdk.Int`,
and the amount 1 uqck, the product `weight * currentSum` has 316 bits, `Dec.MulInt` panics with
"Int overflow" and the planner returns no plan. -/
theorem C7_planner_overflow_panics :
    ([("A", ⟨"A", Dec.NewDec 1⟩)] : List (String × ValidatorIntent)) ≠ [] ∧
    (0 : Int) ≤ 115792089237316195423570985008687907853269984665640564039457584007913129639935 ∧
    checkInt 115792089237316195423570985008687907853269984665640564039457584007913129639935
      = some 115792089237316195423570985008687907853269984665640564039457584007913129639935 ∧
    (0 : Int) ≤ (Coin.mk "uqck" 1).Amount ∧
    DetermineAllocationsForDelegationChecked []
      115792089237316195423570985008687907853269984665640564039457584007913129639935
      [("A", ⟨"A", Dec.NewDec 1⟩)] [Coin.mk "uqck" 1] = none := by
  decide

/-- C7, amended (completion within the limits): for a non-empty target of fewer than `10^18`
validators whose weights are at most 1 in absolute value, current allocations and a currentSum
below `2^128` in absolute value, and an amount whose first coin is non-negative and below
`2^128`, no operation of the planner overflows or divides by zero: it returns a plan, the one
computed with integers of arbitrary precision; the unequal split, which divides by the sum of the
raised deltas, is entered only when that sum is non-zero, and the equal split divides by a
validator count `≥ 1`. -/
theorem C7_planner_completes_within_limits (currentAllocations : List (String × Int))
    (currentSum : Int) (targetAllocations : List (String × ValidatorIntent)) (coin : Coin)
    (rest : List Coin) (hne : targetAllocations ≠ [])
    (hlen : (Keys targetAllocations).length < 1000000000000000000)
    (hw : ∀ kv ∈ targetAllocations, kv.2.Weight.i.natAbs ≤ 1000000000000000000)
    (hsum : currentSum.natAbs < 2 ^ 128)
    (hcur : ∀ kv ∈ currentAllocations, kv.2.natAbs < 2 ^ 128)
    (hin0 : 0 ≤ coin.Amount) (hin1 : coin.Amount.natAbs < 2 ^ 128) :
    (∃ plan,
      DetermineAllocationsForDelegationChecked currentAllocations currentSum targetAllocations
        (coin :: rest) = some plan ∧
      DetermineAllocationsForDelegation currentAllocations currentSum targetAllocations
        (coin :: rest) = some plan) ∧
    (MinInt (sumTruncated (orderedDeltas currentAllocations currentSum targetAllocations))
        coin.Amount ≠ 0 →
      sumTruncated (orderedDeltas currentAllocations currentSum targetAllocations) ≠ 0) ∧
    1 ≤ (orderedDeltas currentAllocations currentSum targetAllocations).length := by
  obtain ⟨hcalc, hmin, hraise, hraised⟩ := first_stages_checked currentAllocations currentSum
    targetAllocations hlen hw hsum hcur
  have hne2 := orderedDeltas_ne_nil currentAllocations currentSum targetAllocations hne
  have hlen2 : (orderedDeltas currentAllocations currentSum targetAllocations).length
      < 1000000000000000000 := by
    rw [length_orderedDeltas]
    exact hlen
  refine ⟨⟨_, DetermineAllocationsForDelegationChecked_eq currentAllocations currentSum
      targetAllocations coin rest hcalc hmin hraise hraised hne2 hlen2 hin0 (by omega),
    DetermineAllocationsForDelegation_some _ _ _ coin rest hne hin0⟩,
    no_division_by_zero coin.Amount _ hin0, ?_⟩
  cases hds : orderedDeltas currentAllocations currentSum targetAllocations with
  | nil => exact absurd hds hne2
  | cons d tl => simp

/-- The amended completion theorem instantiated on test case 2 of `TestDetermineAllocations`
(currents 52/24/20/4, currentSum 100, targets 0.50/0.25/0.15/0.10, amount 50). -/
theorem C7_planner_completes_within_limits_witness :
    tcTargets4 50 25 15 10 ≠ [] ∧
    (Keys (tcTargets4 50 25 15 10)).length < 1000000000000000000 ∧
    (∀ kv ∈ tcTargets4 50 25 15 10, kv.2.Weight.i.natAbs ≤ 1000000000000000000) ∧
    (100 : Int).natAbs < 2 ^ 128 ∧
    (∀ kv ∈ tcCurrent4, kv.2.natAbs < 2 ^ 128) ∧
    (0 : Int) ≤ (Coin.mk "uqck" 50).Amount ∧ (Coin.mk "uqck" 50).Amount.natAbs < 2 ^ 128 ∧
    ((∃ plan,
      DetermineAllocationsForDelegationChecked tcCurrent4 100 (tcTargets4 50 25 15 10)
        [Coin.mk "uqck" 50] = some plan ∧
      DetermineAllocationsForDelegation tcCurrent4 100 (tcTargets4 50 25 15 10)
        [Coin.mk "uqck" 50] = some plan) ∧
    (MinInt (sumTruncated (orderedDeltas tcCurrent4 100 (tcTargets4 50 25 15 10)))
        (Coin.mk "uqck" 50).Amount ≠ 0 →
      sumTruncated (orderedDeltas tcCurrent4 100 (tcTargets4 50 25 15 10)) ≠ 0) ∧
    1 ≤ (orderedDeltas tcCurrent4 100 (tcTargets4 50 25 15 10)).length) :=
  ⟨by decide, by decide, by decide, by decide, by decide, by decide, by decide,
    C7_planner_completes_within_limits tcCurrent4 100 (tcTargets4 50 25 15 10)
      (Coin.mk "uqck" 50) [] (by decide) (by decide) (by decide) (by decide) (by decide)
      (by decide) (by decide)⟩

/-! ## Theorems: the deltas within the limits of `sdk.Int` and `sdk.Dec` -/

/-- C29, counterexample to the claim on every input: with the target {A: 1.0}, no current
allocation and currentSum `2^256 - 1`, which is a valid `sdk.Int`, the product
`weight * currentSum` has 316 bits, `Dec.MulInt` panics with "Int overflow", and
`calculateDeltas` returns no delta at all, whereas without the limit the delta would be
`2^256 - 1`. -/
theorem C29_calculateDeltas_overflow_panics :
    checkInt 115792089237316195423570985008687907853269984665640564039457584007913129639935
      = some 115792089237316195423570985008687907853269984665640564039457584007913129639935 ∧
    checkDec (Dec.NewDec 1) = some (Dec.NewDec 1) ∧
    calculateDeltasChecked []
      115792089237316195423570985008687907853269984665640564039457584007913129639935
      [("A", ⟨"A", Dec.NewDec 1⟩)] = none ∧
    calculateDeltas []
      115792089237316195423570985008687907853269984665640564039457584007913129639935
      [("A", ⟨"A", Dec.NewDec 1⟩)]
      = some [⟨"A", ToDec
          115792089237316195423570985008687907853269984665640564039457584007913129639935⟩] := by
  decide

/-- C29, amended (delta computation within the limits): when every target weight is at most 1 in
absolute value, and currentSum and every current allocation are below `2^255` in absolute value,
no operation of `calculateDeltas` overflows, and it returns exactly one delta per key of the
target vector, in the ascending order of `utils.Keys`; the delta of validator `v` is
`trunc(weight_v * currentSum) - current_v`, where `current_v` is the current allocation of `v`
or 0 when it has none. -/
theorem C29_calculateDeltas_one_delta_per_key_within_limits
    (currentAllocations : List (String × Int)) (currentSum : Int)
    (targetAllocations : List (String × ValidatorIntent))
    (hw : ∀ kv ∈ targetAllocations, kv.2.Weight.i.natAbs ≤ 1000000000000000000)
    (hsum : currentSum.natAbs < 2 ^ 255)
    (hcur : ∀ kv ∈ currentAllocations, kv.2.natAbs < 2 ^ 255) :
    ∃ deltas,
      calculateDeltasChecked currentAllocations currentSum targetAllocations = some deltas ∧
      deltas.map (fun d => d.ValoperAddress) = Keys targetAllocations ∧
      (deltas.map (fun d => d.ValoperAddress)).Pairwise (fun a b => a < b) ∧
      (∀ v, v ∈ deltas.map (fun d => d.ValoperAddress)
        ↔ ∃ t, mapGet targetAllocations v = some t) ∧
      ∀ d ∈ deltas, ∀ t, mapGet targetAllocations d.ValoperAddress = some t →
        d.Weight = ToDec ((t.Weight.MulInt currentSum).TruncateInt
          - (match mapGet currentAllocations d.ValoperAddress with
            | some c => c
            | none => 0)) := by
  obtain ⟨deltas, hd, hprops⟩ :=
    calculateDeltas_without_limits currentAllocations currentSum targetAllocations
  have hbase : deltas = baseDeltas currentAllocations currentSum targetAllocations := by
    rw [calculateDeltas_eq] at hd
    exact (Option.some.inj hd).symm
  refine ⟨deltas, ?_, hprops⟩
  rw [hbase]
  have hcur0 : ∀ k, (currentOf currentAllocations k).natAbs < 2 ^ 255 := by
    intro k
    unfold currentOf
    cases hc : mapGet currentAllocations k with
    | none => simp
    | some c => exact hcur (k, c) (mem_of_mapGet _ _ _ hc)
  apply calculateDeltasChecked_eq
  · intro k t ht
    have h1 := (scaled_target_bound t.Weight currentSum
      (hw (k, t) (mem_of_mapGet _ _ _ ht))).1
    unfold decLimit
    omega
  · intro k hk
    obtain ⟨t, ht⟩ := (mapGet_isSome_iff targetAllocations k).2 ((mem_Keys _ _).1 hk)
    have h1 := deltaValue_bound currentAllocations currentSum targetAllocations k t ht
      (hw (k, t) (mem_of_mapGet _ _ _ ht))
    have h2 := hcur0 k
    unfold intLimit
    omega

/-- The amended delta computation instantiated on test case 2 of `TestDetermineAllocations`
(currents 52/24/20/4, currentSum 100, targets 0.50/0.25/0.15/0.10). -/
theorem C29_calculateDeltas_one_delta_per_key_within_limits_witness :
    (∀ kv ∈ tcTargets4 50 25 15 10, kv.2.Weight.i.natAbs ≤ 1000000000000000000) ∧
    (100 : Int).natAbs < 2 ^ 255 ∧
    (∀ kv ∈ tcCurrent4, kv.2.natAbs < 2 ^ 255) ∧
    ∃ deltas,
      calculateDeltasChecked tcCurrent4 100 (tcTargets4 50 25 15 10) = some deltas ∧
      deltas.map (fun d => d.ValoperAddress) = Keys (tcTargets4 50 25 15 10) ∧
      (deltas.map (fun d => d.ValoperAddress)).Pairwise (fun a b => a < b) ∧
      (∀ v, v ∈ deltas.map (fun d => d.ValoperAddress)
        ↔ ∃ t, mapGet (tcTargets4 50 25 15 10) v = some t) ∧
      ∀ d ∈ deltas, ∀ t, mapGet (tcTargets4 50 25 15 10) d.ValoperAddress = some t →
        d.Weight = ToDec ((t.Weight.MulInt 100).TruncateInt
          - (match mapGet tcCurrent4 d.ValoperAddress with
            | some c => c
            | none => 0)) :=
  ⟨by decide, by decide, by decide,
    C29_calculateDeltas_one_delta_per_key_within_limits tcCurrent4 100 (tcTargets4 50 25 15 10)
      (by decide) (by decide) (by decide)⟩

/-! ## Theorems: the holdings of a zone against the store -/

/-- C24 (holdings are summed delegation records), evaluated on a store with one record per zone:
100 uatom for validator V stored by `SetDelegation` for "zone-1" and 7 uatom for validator W
stored for "zone-10". The only record of "zone-1" is the one of V, so its holdings are V: 100
with total 100; `GetDelegationMap` for "zone-1" returns W: 7 and V: 100 with total 107, because
the iterated prefix of "zone-1" also starts the key stored for "zone-10"; for "zone-10" it
returns W: 7 with total 7. -/
theorem C24_delegation_map_counts_other_zone :
    tcZone.ChainId ≠ tcZoneTen.ChainId ∧
    tcTwoZones.delegations
      = [(GetDelegationKey tcTwoZones tcZoneTen (stringBytes "deleg") (stringBytes "W"),
            tcOther),
         (GetDelegationKey tcTwoZones tcZone (stringBytes "deleg") (stringBytes "V"),
            tcDelegation)] ∧
    GetDelegationMap tcTwoZones tcZone = ([("W", 7), ("V", 100)], 107) ∧
    mapGet (GetDelegationMap tcTwoZones tcZone).1 "W" = some 7 ∧
    validatorTotal [tcDelegation] "W" = 0 ∧
    ([tcDelegation].map (fun d => d.Amount.Amount)).sum = 100 ∧
    GetDelegationMap tcTwoZones tcZoneTen = ([("W", 7)], 7) := by
  decide

end Quicksilver
